import Mathlib

/-!
# conveygo: the ledger, the stores and the digest

A shallow embedding of `ledger.go`, `transactionvalidator.go`, `bcstore.go`,
`memorystore.go` and `digest.go` (and the parts of `convey.go` and `store.go`
they use) of AletheiaWareLLC/conveygo, followed by theorems about it.

Conventions of the embedding.

* A `[]byte` hash is a list of bytes.  The source keys its maps by the
  unpadded base64url text of a hash; that encoding is injective
  (`EncodeToString_injective`), so the maps here are keyed by the hash itself
  and the empty key `""` is the empty hash.
* A Go `map` is an association list (`mapGet`, `mapSet`); a `map[..]bool`
  used as a set is a list (`setAdd`).
* `uint64` values are naturals and every `+=` on one wraps modulo `2 ^ 64`.
* `bcgo.Iterate` is library code: it walks a chain from a head hash backward
  through the previous-hash links.  A chain is given as the list of
  `(hash, block)` pairs that walk visits, head first; the nil head hash is
  the empty list.
* `proto.Unmarshal` and `proto.Size` are library code: a record carries the
  result of decoding its payload as each protobuf type and its encoded size.
* `int64` values are integers and every conversion, `+` and `-` on one keeps
  the low 64 bits (`int64`).
* A method that returns `(value, error)` returns a pair here; the error is
  `none` for nil.  A method that takes a callback takes the state the callback
  works on and returns the state it leaves.
* A node is the list of its channels, each with the chain at its head.
  Writing to the cache, mining and pushing are library code: what they yield,
  their errors and the chain at the head of the channel after mining, is
  passed in.  Which entries the mined blocks hold is up to the library, and
  the statements that need it ask it of the chain.
* `sort.Slice` is library code and is passed in; the statements ask of it that
  it returns the entries it was given, none of them before one that the order
  puts first.
* The `Trigger` channel of the ledger is a flag, set once `Start` has made
  the channel; `Start` and `TriggerUpdate` take the channels of the node and
  run `UpdateAll` where the loop of `Start` would.
-/

/-! ## Go maps and sets -/

/-- Lookup `m[key]` with the presence flag: `none` when the key is absent. -/
def mapGet {κ ν : Type} [DecidableEq κ] : List (κ × ν) → κ → Option ν
  | [], _ => none
  | (k, v) :: rest, key => if k = key then some v else mapGet rest key

/-- Assignment `m[key] = val`: overwrite the entry of `key` or add one. -/
def mapSet {κ ν : Type} [DecidableEq κ] : List (κ × ν) → κ → ν → List (κ × ν)
  | [], key, val => [(key, val)]
  | (k, v) :: rest, key, val =>
    if k = key then (k, val) :: rest else (k, v) :: mapSet rest key val

/-- Assignment `s[key] = true` on a `map[..]bool` used as a set. -/
def setAdd {κ : Type} [DecidableEq κ] (s : List κ) (key : κ) : List κ :=
  if key ∈ s then s else s ++ [key]

/-- Sum of the values of a map, as `for _, v := range m` adds them up. -/
def total (m : List (String × Nat)) : Nat :=
  (m.map Prod.snd).sum

/-- Value of `m[key]` for a `map[string]uint64`: zero when the key is absent. -/
def amountOf (m : List (String × Nat)) (key : String) : Nat :=
  (mapGet m key).getD 0

/-! ## IEEE double arithmetic, as far as `Cost` uses it -/

/-- Nearest integer to `a / b`, ties to even. -/
def roundHalfEven (a b : Nat) : Nat :=
  let q := a / b
  let r := a % b
  if 2 * r < b then q
  else if b < 2 * r then q + 1
  else if q % 2 = 0 then q else q + 1

/-- A non-negative finite double, held as the exact fraction `num / den`. -/
structure Float64 where
  num : Nat
  den : Nat
deriving DecidableEq, Repr

namespace Float64

/-- Least `p` with `c ≤ a * 2 ^ p`, searched among `p ≤ fuel`. -/
def shift (c : Nat) : Nat → Nat → Nat
  | 0, _ => 0
  | fuel + 1, a => if c ≤ a then 0 else shift c fuel (2 * a) + 1

/-- The double nearest to `a / b` (round to nearest, ties to even, 53-bit
significand); `b` is positive.  The quotient is scaled by a power of two into
`[2 ^ 52, 2 ^ 53)`, rounded to an integer there, and scaled back. -/
def round (a b : Nat) : Float64 :=
  if a = 0 then ⟨0, 1⟩
  else if a < 2 ^ 52 * b then
    let p := shift (2 ^ 52 * b) (2 ^ 52 * b) a
    ⟨roundHalfEven (a * 2 ^ p) b, 2 ^ p⟩
  else
    let s := shift (a + 1) (a + 1) (2 ^ 53 * b)
    ⟨roundHalfEven a (b * 2 ^ s) * 2 ^ s, 1⟩

/-- Conversion `float64(n)` of a non-negative `int`. -/
def ofInt (n : Nat) : Float64 :=
  round n 1

/-- Division `x / 100` of doubles. -/
def div100 (x : Float64) : Float64 :=
  round x.num (x.den * 100)

/-- Result of `uint64(math.Ceil(x))`. -/
def ceilUint64 (x : Float64) : Nat :=
  ((x.num + x.den - 1) / x.den) % 2 ^ 64

end Float64

/-! ## Protobuf messages of the repository -/

/-- A hash (`[]byte`); the empty list is the nil or empty hash. -/
abbrev Hash := List Nat

namespace conveygo

/-- Protobuf `Conversation`. -/
structure Conversation where
  Topic : String
deriving DecidableEq, Repr

/-- Protobuf `Message`; `Previous` is empty for a root message and `MediaType`
is the field `Type`. -/
structure Message where
  Previous : Hash
  Content : List Nat
  MediaType : Nat
deriving DecidableEq, Repr

/-- Protobuf `Transaction`; `Amount` is a `uint64`. -/
structure Transaction where
  Sender : String
  Receiver : String
  Amount : Nat
deriving DecidableEq, Repr

end conveygo

/-! ## Records, blocks and chains of the bcgo library -/

namespace bcgo

/-- A record payload as `proto.Unmarshal` sees it: the value it decodes to as
each protobuf type, `none` where `Unmarshal` returns an error. -/
structure Payload where
  asConversation : Option conveygo.Conversation
  asMessage : Option conveygo.Message
  asTransaction : Option conveygo.Transaction
deriving DecidableEq, Repr

/-- A `bcgo.Record`; `Size` is `proto.Size(record)`, a non-negative `int`. -/
structure Record where
  Timestamp : Nat
  Creator : String
  Payload : Payload
  Size : Nat
deriving DecidableEq, Repr

/-- A `bcgo.BlockEntry`. -/
structure BlockEntry where
  RecordHash : Hash
  Record : Record
deriving DecidableEq, Repr

/-- A `bcgo.Block`; its previous-hash link is the order of the chain list. -/
structure Block where
  Timestamp : Nat
  Miner : String
  Entry : List BlockEntry
deriving DecidableEq, Repr

/-- Errors that travel through the callbacks. -/
inductive Error where
  | StopIteration
  | Unmarshal
  | Text (msg : String)
deriving DecidableEq, Repr

/-- The blocks `bcgo.Iterate` visits from a head hash, head first. -/
abbrev Chain := List (Hash × Block)

/-- The library walk `bcgo.Iterate`: call `callback` on every block from the
head backward and stop at the first error, which is returned. -/
def Iterate {σ : Type} (callback : σ → Hash → Block → σ × Option Error) :
    Chain → σ → σ × Option Error
  | [], s => (s, none)
  | (h, b) :: rest, s =>
    match callback s h b with
    | (s1, some err) => (s1, some err)
    | (s1, none) => Iterate callback rest s1

end bcgo

/-! ## convey.go: channel names -/

namespace conveygo

def CONVEY_HOUR : String := "Convey-Hour"
def CONVEY_DAY : String := "Convey-Day"
def CONVEY_WEEK : String := "Convey-Week"
def CONVEY_YEAR : String := "Convey-Year"
def CONVEY_DECADE : String := "Convey-Decade"
def CONVEY_CENTURY : String := "Convey-Century"
def CONVEY_CONVERSATION : String := "Convey-Conversation"
def CONVEY_TRANSACTION : String := "Convey-Transaction"
def CONVEY_PREFIX_MESSAGE : String := "Convey-Message-"

/-- Go `strings.HasPrefix`. -/
def HasPrefix (s pre : String) : Bool :=
  pre.data.isPrefixOf s.data

/-! ## ledger.go -/

def HOURLY_PVC_REWARD : Nat := 3600
def DAILY_PVC_REWARD : Nat := 86400
def WEEKLY_PVC_REWARD : Nat := 604800
def YEARLY_PVC_REWARD : Nat := 31557600
def DECENNIALLY_PVC_REWARD : Nat := 315576000
def CENTENNIALLY_PVC_REWARD : Nat := 3155760000

/-- The ledger state; the `Node` and `Trigger` fields are left to the caller,
who hands the chains of the node to `Update`. -/
structure Ledger where
  Processed : List (String × List Hash)
  Aliases : List String
  Minted : List (String × Nat)
  Burned : List (String × Nat)
  Bought : List (String × Nat)
  Sold : List (String × Nat)
  Earned : List (String × Nat)
  Spent : List (String × Nat)
deriving DecidableEq, Repr

/-- How a call ends: it returns nil, returns an error, stops on a nil-pointer
dereference, or never leaves its loop. -/
inductive Outcome where
  | ok
  | error (err : bcgo.Error)
  | panic
  | hang
deriving DecidableEq, Repr

def NewLedger : Ledger :=
  { Processed := [], Aliases := [], Minted := [], Burned := [], Bought := [],
    Sold := [], Earned := [], Spent := [] }

/-- `Record(m, key, amount)`: read `m[key]` (zero when absent), add `amount`
in `uint64` arithmetic, store the sum. -/
def Record (m : List (String × Nat)) (key : String) (amount : Nat) : List (String × Nat) :=
  let a := match mapGet m key with
    | some a => a
    | none => 0
  mapSet m key ((a + amount) % 2 ^ 64)

namespace Ledger

def RecordMinted (l : Ledger) (who : String) (amount : Nat) : Ledger :=
  { l with Aliases := setAdd l.Aliases who, Minted := Record l.Minted who amount }

def RecordBurned (l : Ledger) (who : String) (amount : Nat) : Ledger :=
  { l with Aliases := setAdd l.Aliases who, Burned := Record l.Burned who amount }

def RecordBought (l : Ledger) (who : String) (amount : Nat) : Ledger :=
  { l with Aliases := setAdd l.Aliases who, Bought := Record l.Bought who amount }

def RecordSold (l : Ledger) (who : String) (amount : Nat) : Ledger :=
  { l with Aliases := setAdd l.Aliases who, Sold := Record l.Sold who amount }

def RecordEarned (l : Ledger) (who : String) (amount : Nat) : Ledger :=
  { l with Aliases := setAdd l.Aliases who, Earned := Record l.Earned who amount }

def RecordSpent (l : Ledger) (who : String) (amount : Nat) : Ledger :=
  { l with Aliases := setAdd l.Aliases who, Spent := Record l.Spent who amount }

end Ledger

/-- `Cost(record)`: `uint64(math.Ceil(float64(proto.Size(record)) / 100))`. -/
def Cost (record : bcgo.Record) : Nat :=
  Float64.ceilUint64 (Float64.div100 (Float64.ofInt record.Size))

namespace Ledger

/-- The set `l.Processed[channel]`, empty when the channel has none yet. -/
def processed (l : Ledger) (channel : String) : List Hash :=
  match mapGet l.Processed channel with
  | some set => set
  | none => []

/-- The statement `processed[key] = true` on the set of `channel`. -/
def markProcessed (l : Ledger) (channel : String) (key : Hash) : Ledger :=
  { l with Processed := mapSet l.Processed channel (setAdd (l.processed channel) key) }

/-- The first lines of `iterate`: give `channel` an empty processed set when it
has none. -/
def openProcessed (l : Ledger) (channel : String) : Ledger :=
  match mapGet l.Processed channel with
  | some _ => l
  | none => { l with Processed := mapSet l.Processed channel [] }

/-- The callback `iterate` hands to `bcgo.Iterate`: stop at a processed
block, else mark the block and run `callback` on it. -/
def iterateCallback (channel : String) (callback : Ledger → bcgo.Block → Ledger × Option bcgo.Error)
    (l : Ledger) (h : Hash) (b : bcgo.Block) : Ledger × Option bcgo.Error :=
  if h ∈ l.processed channel then (l, some bcgo.Error.StopIteration)
  else callback (l.markProcessed channel h) b

/-- `iterate`: run `callback` over the unprocessed blocks of the channel; the
stop signal is not an error. -/
def iterate (l : Ledger) (channel : String) (chain : bcgo.Chain)
    (callback : Ledger → bcgo.Block → Ledger × Option bcgo.Error) : Ledger × Outcome :=
  match bcgo.Iterate (iterateCallback channel callback) chain (l.openProcessed channel) with
  | (l1, none) => (l1, Outcome.ok)
  | (l1, some bcgo.Error.StopIteration) => (l1, Outcome.ok)
  | (l1, some err) => (l1, Outcome.error err)

/-- Callback of the six periodic validation chains. -/
def mintCallback (reward : Nat) (l : Ledger) (b : bcgo.Block) : Ledger × Option bcgo.Error :=
  (l.RecordMinted b.Miner reward, none)

/-- Entry loop of the transaction-chain callback. -/
def transactionEntries : List bcgo.BlockEntry → Ledger → Ledger × Option bcgo.Error
  | [], l => (l, none)
  | entry :: rest, l =>
    match entry.Record.Payload.asTransaction with
    | none => (l, some bcgo.Error.Unmarshal)
    | some t =>
      transactionEntries rest ((l.RecordSold t.Sender t.Amount).RecordBought t.Receiver t.Amount)

/-- Callback of the transaction chain. -/
def transactionCallback (l : Ledger) (b : bcgo.Block) : Ledger × Option bcgo.Error :=
  transactionEntries b.Entry l

/-- Entry loop of the conversation-chain callback. -/
def conversationEntries : List bcgo.BlockEntry → Ledger → Ledger
  | [], l => l
  | entry :: rest, l =>
    conversationEntries rest (l.RecordBurned entry.Record.Creator (Cost entry.Record))

/-- Callback of the conversation chain. -/
def conversationCallback (l : Ledger) (b : bcgo.Block) : Ledger × Option bcgo.Error :=
  (conversationEntries b.Entry l, none)

end Ledger

/-- A message as the second pass sees it; `Previous` is empty for a root
message. -/
structure MessageNode where
  Author : String
  Cost : Nat
  Previous : Hash
deriving DecidableEq, Repr

/-- The two maps the first pass over a message chain fills. -/
structure MessageMaps where
  blocks : List (Hash × Hash)
  nodes : List (Hash × MessageNode)
deriving DecidableEq, Repr

namespace Ledger

/-- Entry loop of the first pass: note the block of each record and build its
node. -/
def messageEntries (blockKey : Hash) : List bcgo.BlockEntry → MessageMaps →
    MessageMaps × Option bcgo.Error
  | [], maps => (maps, none)
  | entry :: rest, maps =>
    let blocks := mapSet maps.blocks entry.RecordHash blockKey
    match entry.Record.Payload.asMessage with
    | none => ({ maps with blocks := blocks }, some bcgo.Error.Unmarshal)
    | some m =>
      let node : MessageNode :=
        { Author := entry.Record.Creator
          Cost := Cost entry.Record
          Previous := if 0 < m.Previous.length then m.Previous else [] }
      messageEntries blockKey rest
        { blocks := blocks, nodes := mapSet maps.nodes entry.RecordHash node }

/-- Callback of the first pass. -/
def messageCallback (maps : MessageMaps) (h : Hash) (b : bcgo.Block) :
    MessageMaps × Option bcgo.Error :=
  messageEntries h b.Entry maps

/-- The `for` loop that hands a reply's cost up its ancestors; `fuel` bounds
the number of rounds, and running out of it stands for a loop that never
ends. -/
def reply (nodes : List (Hash × MessageNode)) (author : String) :
    Nat → Nat → Hash → Ledger → Ledger × Outcome
  | 0, _, _, l => (l, Outcome.hang)
  | fuel + 1, cost, prev, l =>
    let half := cost / 2
    match mapGet nodes prev with
    | none => (l, Outcome.panic)
    | some previous =>
      if previous.Previous = [] then
        ((((l.RecordSpent author half).RecordEarned previous.Author half).RecordBurned
          author (cost - half)), Outcome.ok)
      else
        reply nodes author fuel (cost - half) previous.Previous
          ((l.RecordSpent author half).RecordEarned previous.Author half)

/-- The second pass, `for key, node := range nodes`, over the nodes still to
visit.  A walk up the ancestors that has not ended after one round per node
and one more is in a cycle. -/
def distribute (name : String) (maps : MessageMaps) :
    List (Hash × MessageNode) → Ledger → Ledger × Outcome
  | [], l => (l, Outcome.ok)
  | (key, node) :: rest, l =>
    let block := match mapGet maps.blocks key with
      | some block => block
      | none => []
    if block ∈ l.processed name then distribute name maps rest l
    else if node.Previous = [] then
      distribute name maps rest (l.RecordBurned node.Author node.Cost)
    else
      match reply maps.nodes node.Author (maps.nodes.length + 1) node.Cost node.Previous l with
      | (l1, Outcome.ok) => distribute name maps rest l1
      | (l1, out) => (l1, out)

/-- The last loop, `for _, block := range blocks`. -/
def markBlocks (name : String) : List (Hash × Hash) → Ledger → Ledger
  | [], l => l
  | (_, block) :: rest, l => markBlocks name rest (l.markProcessed name block)

/-- The message-chain case of `Update`. -/
def updateMessages (l : Ledger) (name : String) (chain : bcgo.Chain) : Ledger × Outcome :=
  match bcgo.Iterate messageCallback chain { blocks := [], nodes := [] } with
  | (_, some err) => (l, Outcome.error err)
  | (maps, none) =>
    match distribute name maps maps.nodes (l.openProcessed name) with
    | (l1, Outcome.ok) => (markBlocks name maps.blocks l1, Outcome.ok)
    | (l1, out) => (l1, out)

/-- `Update(name, hash)`, on the chain that starts at `hash`. -/
def Update (l : Ledger) (name : String) (chain : bcgo.Chain) : Ledger × Outcome :=
  if chain = [] then (l, Outcome.ok)
  else if name = CONVEY_HOUR then l.iterate name chain (mintCallback HOURLY_PVC_REWARD)
  else if name = CONVEY_DAY then l.iterate name chain (mintCallback DAILY_PVC_REWARD)
  else if name = CONVEY_WEEK then l.iterate name chain (mintCallback WEEKLY_PVC_REWARD)
  else if name = CONVEY_YEAR then l.iterate name chain (mintCallback YEARLY_PVC_REWARD)
  else if name = CONVEY_DECADE then l.iterate name chain (mintCallback DECENNIALLY_PVC_REWARD)
  else if name = CONVEY_CENTURY then l.iterate name chain (mintCallback CENTENNIALLY_PVC_REWARD)
  else if name = CONVEY_TRANSACTION then l.iterate name chain transactionCallback
  else if name = CONVEY_CONVERSATION then l.iterate name chain conversationCallback
  else if HasPrefix name CONVEY_PREFIX_MESSAGE then l.updateMessages name chain
  else (l, Outcome.ok)

/-- `UpdateAll`, over the channels `l.Node.GetChannels()` lists, each with the
chain at its head; the first error ends it. -/
def UpdateAll (l : Ledger) : List (String × bcgo.Chain) → Ledger × Outcome
  | [] => (l, Outcome.ok)
  | (name, chain) :: rest =>
    match l.Update name chain with
    | (l1, Outcome.ok) => UpdateAll l1 rest
    | (l1, out) => (l1, out)

end Ledger

/-- Earned balances spent and bought balances sold, in 64-bit arithmetic. -/
def Conserved (l : Ledger) : Prop :=
  total l.Earned % 2 ^ 64 = total l.Spent % 2 ^ 64 ∧
    total l.Bought % 2 ^ 64 = total l.Sold % 2 ^ 64

/-- A property of the ledger that every kind of step `Update` takes keeps:
marking a block, opening a processed set, minting, burning, a sale with its
purchase, and a spending with its earning. -/
structure Stable (P : Ledger → Prop) : Prop where
  mark : ∀ l name key, P l → P (l.markProcessed name key)
  opened : ∀ l name, P l → P (l.openProcessed name)
  minted : ∀ l a x, P l → P (l.RecordMinted a x)
  burned : ∀ l a x, P l → P (l.RecordBurned a x)
  trade : ∀ l s r x, P l → P ((l.RecordSold s x).RecordBought r x)
  reward : ∀ l a b x, P l → P ((l.RecordSpent a x).RecordEarned b x)

/-- Every accumulator of the ledger holds `uint64` values. -/
def Uint64 (l : Ledger) : Prop :=
  (∀ a, amountOf l.Minted a < 2 ^ 64) ∧ (∀ a, amountOf l.Burned a < 2 ^ 64) ∧
  (∀ a, amountOf l.Bought a < 2 ^ 64) ∧ (∀ a, amountOf l.Sold a < 2 ^ 64) ∧
  (∀ a, amountOf l.Earned a < 2 ^ 64) ∧ (∀ a, amountOf l.Spent a < 2 ^ 64)

/-- The ancestors of a reply whose previous-hash is `prev`: the node of its
parent first, then that node's parent, and so on; the last one is a root
message and the others are not. -/
def Ancestors (nodes : List (Hash × MessageNode)) : Hash → List MessageNode → Prop
  | _, [] => False
  | prev, [n] => mapGet nodes prev = some n ∧ n.Previous = []
  | prev, n :: m :: rest =>
    mapGet nodes prev = some n ∧ n.Previous ≠ [] ∧ Ancestors nodes n.Previous (m :: rest)

instance Ancestors.decidable (nodes : List (Hash × MessageNode)) :
    ∀ (ancestors : List MessageNode) (prev : Hash), Decidable (Ancestors nodes prev ancestors)
  | [], _ => isFalse fun h => h
  | [n], prev => inferInstanceAs (Decidable (mapGet nodes prev = some n ∧ n.Previous = []))
  | n :: m :: rest, prev =>
    have := Ancestors.decidable nodes (m :: rest) n.Previous
    inferInstanceAs (Decidable (mapGet nodes prev = some n ∧ n.Previous ≠ [] ∧
      Ancestors nodes n.Previous (m :: rest)))

/-- What is left of a reply's cost `c` after `k` ancestors took their half:
`remaining c 0 = c` and `remaining c (k + 1) = remaining c k - remaining c k / 2`,
so `r_k` of the reward rule (`r_1 = c`) is `remaining c (k - 1)`. -/
def remaining (c : Nat) : Nat → Nat
  | 0 => c
  | k + 1 => remaining c k - remaining c k / 2

/-- The amounts `r_1 / 2, ..., r_d / 2` for the ancestors of a reply of cost `c`. -/
def shares (c d : Nat) : List Nat :=
  (List.range d).map fun k => remaining c k / 2

/-- What the ancestors `a_1, ..., a_d` of a reply of cost `c` hand to the
alias `x`: the sum of `r_k / 2` over the `k` with `a_k` written by `x`. -/
def credit (c : Nat) (ancestors : List MessageNode) (x : String) : Nat :=
  (((ancestors.zip (shares c ancestors.length)).filter fun p => p.1.Author = x).map
    Prod.snd).sum

/-- The blocks `iterate` still has to visit on a chain: those from the head
down to the first block whose hash is in the processed set of the channel. -/
def Ledger.unprocessed (l : Ledger) (name : String) (chain : bcgo.Chain) : bcgo.Chain :=
  chain.takeWhile fun hb => decide (hb.1 ∉ l.processed name)

/-- The entries of the blocks of a chain, head block first. -/
def entriesOf : bcgo.Chain → List bcgo.BlockEntry
  | [] => []
  | (_, b) :: rest => b.Entry ++ entriesOf rest

/-- Number of blocks of a chain mined by `miner`. -/
def minedBy (chain : bcgo.Chain) (miner : String) : Nat :=
  (chain.filter fun hb => hb.2.Miner = miner).length

/-- The transactions the entries decode to. -/
def transactionsOf (entries : List bcgo.BlockEntry) : List Transaction :=
  entries.filterMap fun entry => entry.Record.Payload.asTransaction

/-- Sum of the amounts of the transactions sent by `sender`. -/
def soldBy (entries : List bcgo.BlockEntry) (sender : String) : Nat :=
  (((transactionsOf entries).filter fun t => t.Sender = sender).map fun t => t.Amount).sum

/-- Sum of the amounts of the transactions received by `receiver`. -/
def boughtBy (entries : List bcgo.BlockEntry) (receiver : String) : Nat :=
  (((transactionsOf entries).filter fun t => t.Receiver = receiver).map fun t => t.Amount).sum

/-- Sum of the costs of the records created by `creator`. -/
def burnedBy (entries : List bcgo.BlockEntry) (creator : String) : Nat :=
  ((entries.filter fun entry => entry.Record.Creator = creator).map fun entry =>
    Cost entry.Record).sum

/-- A run of `Record` calls on one accumulator, one per `(key, amount)` pair. -/
def recordAll (m : List (String × Nat)) (ops : List (String × Nat)) : List (String × Nat) :=
  ops.foldl (fun acc op => Record acc op.1 op.2) m

/-- One call on the ledger in a run of the program. -/
inductive Call where
  | update (name : String) (chain : bcgo.Chain)
  | updateAll (channels : List (String × bcgo.Chain))
deriving DecidableEq, Repr

/-- The ledger after one call, however the call ends. -/
def Ledger.call (l : Ledger) : Call → Ledger
  | Call.update name chain => (l.Update name chain).1
  | Call.updateAll channels => (l.UpdateAll channels).1

/-- The ledger after a sequence of calls, the first of the list first. -/
def Ledger.run (l : Ledger) (calls : List Call) : Ledger :=
  calls.foldl Ledger.call l

/-- Total cost of the records on a chain. -/
def chainCost (chain : bcgo.Chain) : Nat :=
  (chain.map fun hb => (hb.2.Entry.map fun entry => Cost entry.Record).sum).sum

/-- Total cost of the records on the chains a call is made on. -/
def Call.cost : Call → Nat
  | Call.update _ chain => chainCost chain
  | Call.updateAll channels => (channels.map fun nc => chainCost nc.2).sum

/-- An alias is a key of at least one of the six accumulator maps. -/
def Ledger.Keyed (l : Ledger) (a : String) : Prop :=
  (mapGet l.Minted a).isSome = true ∨ (mapGet l.Burned a).isSome = true ∨
  (mapGet l.Bought a).isSome = true ∨ (mapGet l.Sold a).isSome = true ∨
  (mapGet l.Earned a).isSome = true ∨ (mapGet l.Spent a).isSome = true

instance Ledger.Keyed.decidable (l : Ledger) (a : String) : Decidable (l.Keyed a) := by
  unfold Ledger.Keyed
  infer_instance

/-- The aliases that appear on a chain: the miners of its blocks, the creators
of its records, and the senders and receivers of the transactions its records
decode to. -/
def aliasesOn (chain : bcgo.Chain) : List String :=
  chain.map (fun hb => hb.2.Miner) ++ (entriesOf chain).map (fun entry => entry.Record.Creator)
    ++ (transactionsOf (entriesOf chain)).map (fun t => t.Sender)
    ++ (transactionsOf (entriesOf chain)).map (fun t => t.Receiver)

/-- The aliases that appear on the chains of a list of channels. -/
def channelAliases : List (String × bcgo.Chain) → List String
  | [] => []
  | (_, chain) :: rest => aliasesOn chain ++ channelAliases rest

/-- The aliases that appear on the chains a call is made on. -/
def Call.aliases : Call → List String
  | Call.update _ chain => aliasesOn chain
  | Call.updateAll channels => channelAliases channels

/-- The two maps the first pass of `updateMessages` builds from a chain. -/
def messageMaps (chain : bcgo.Chain) : MessageMaps :=
  (bcgo.Iterate Ledger.messageCallback chain { blocks := [], nodes := [] }).1

/-- The ledger the second pass of `Update` on a message chain has reached
when it has visited the nodes `visited`, from the ledger `l`. -/
def Ledger.secondPass (l : Ledger) (name : String) (chain : bcgo.Chain)
    (visited : List (Hash × MessageNode)) : Ledger :=
  (Ledger.distribute name (messageMaps chain) visited (l.openProcessed name)).1

/-! ## ledger.go: the trigger -/

/-- A ledger with the field `Trigger` that `Ledger` leaves out: `Trigger` is
`false` for the nil channel and `true` for a channel that `Start` has made. -/
structure Triggered where
  Ledger : Ledger
  Trigger : Bool
deriving DecidableEq, Repr

/-- `NewLedger(node)` with its `Trigger`, which it does not set. -/
def Triggered.NewLedger : Triggered :=
  { Ledger := conveygo.NewLedger, Trigger := false }

/-- `Start()`, up to the point where its loop waits for the channel: it makes
the channel and calls `UpdateAll` once. -/
def Triggered.Start (t : Triggered) (channels : List (String × bcgo.Chain)) : Triggered :=
  { Ledger := (t.Ledger.UpdateAll channels).1, Trigger := true }

/-- `TriggerUpdate()`: with a nil `Trigger` it does nothing; with a channel it
sends `true`, on which the loop of `Start` calls `UpdateAll` again. -/
def Triggered.TriggerUpdate (t : Triggered) (channels : List (String × bcgo.Chain)) :
    Triggered :=
  if t.Trigger then { t with Ledger := (t.Ledger.UpdateAll channels).1 } else t

/-! ## ledger.go: the balance -/

/-- The `int64` with the same low 64 bits as `x`: what a conversion to `int64`
and every `int64` addition or subtraction yields. -/
def int64 (x : Int) : Int :=
  (x + 2 ^ 63) % 2 ^ 64 - 2 ^ 63

/-- `GetBalance(alias)`; a key absent from a map reads as zero. -/
def Ledger.GetBalance (l : Ledger) (who : String) : Int :=
  let balance : Int := 0
  let balance := int64 (balance + int64 (amountOf l.Minted who))
  let balance := int64 (balance - int64 (amountOf l.Burned who))
  let balance := int64 (balance + int64 (amountOf l.Bought who))
  let balance := int64 (balance - int64 (amountOf l.Sold who))
  let balance := int64 (balance + int64 (amountOf l.Earned who))
  let balance := int64 (balance - int64 (amountOf l.Spent who))
  balance

/-! ## transactionvalidator.go -/

/-- `fmt.Sprintf(ERROR_CREATOR_SENDER_DONT_MATCH, creator, sender)`. -/
def ERROR_CREATOR_SENDER_DONT_MATCH (creator sender : String) : String :=
  "Record Creator and Transaction Sender don't match: " ++ creator ++ " vs " ++ sender

namespace TransactionValidator

/-- Entry loop of the callback of `Validate`. -/
def validateEntries : List bcgo.BlockEntry → Option bcgo.Error
  | [] => none
  | entry :: rest =>
    match entry.Record.Payload.asTransaction with
    | none => some bcgo.Error.Unmarshal
    | some t =>
      if entry.Record.Creator ≠ t.Sender then
        some (bcgo.Error.Text (ERROR_CREATOR_SENDER_DONT_MATCH entry.Record.Creator t.Sender))
      else validateEntries rest

/-- Callback of `Validate`; it keeps no state. -/
def validateCallback (u : Unit) (_ : Hash) (b : bcgo.Block) : Unit × Option bcgo.Error :=
  (u, validateEntries b.Entry)

/-- `Validate`, on the chain walked backward from the candidate block; the
result is the error returned, `none` for nil. -/
def Validate (chain : bcgo.Chain) : Option bcgo.Error :=
  (bcgo.Iterate validateCallback chain ()).2

end TransactionValidator

/-- The first entry, in walk order, whose record creator is not the sender of
its transaction, with the two names. -/
def firstMismatch : List bcgo.BlockEntry → Option (String × String)
  | [] => none
  | entry :: rest =>
    match entry.Record.Payload.asTransaction with
    | none => firstMismatch rest
    | some t =>
      if entry.Record.Creator ≠ t.Sender then some (entry.Record.Creator, t.Sender)
      else firstMismatch rest

/-! ## encoding/base64, store.go and convey.go: what the stores share -/

/-- The alphabet of `base64.URLEncoding`. -/
def encodeURL : List Char :=
  "ABCDEFGHIJKLMNOPQRSTUVWXYZabcdefghijklmnopqrstuvwxyz0123456789-_".data

/-- The character of a six-bit value. -/
def encodeDigit (n : Nat) : Char :=
  encodeURL.getD n 'A'

/-- The characters of the unpadded encoding: four for every three bytes, two
for one byte left over and three for two. -/
def encodeBytes : List Nat → List Char
  | [] => []
  | [a] => [encodeDigit (a / 4), encodeDigit (a % 4 * 16)]
  | [a, b] =>
    [encodeDigit (a / 4), encodeDigit (a % 4 * 16 + b / 16), encodeDigit (b % 16 * 4)]
  | a :: b :: c :: rest =>
    encodeDigit (a / 4) :: encodeDigit (a % 4 * 16 + b / 16)
      :: encodeDigit (b % 16 * 4 + c / 64) :: encodeDigit (c % 64) :: encodeBytes rest

/-- `base64.RawURLEncoding.EncodeToString`, on bytes below 256. -/
def EncodeToString (src : List Nat) : String :=
  String.mk (encodeBytes src)

def ERROR_ACCESS_DENIED : String := "Access denied"

/-- `fmt.Sprintf(ERROR_KEY_ALREADY_EXISTS, name)`. -/
def ERROR_KEY_ALREADY_EXISTS (name : String) : String :=
  "Key already exists: " ++ name

/-- `fmt.Sprintf(ERROR_NO_SUCH_CONVERSATION, name)`. -/
def ERROR_NO_SUCH_CONVERSATION (name : String) : String :=
  "No such conversation: " ++ name

/-- The protobuf message `Listing`. -/
structure Listing where
  Hash : Hash
  Timestamp : Nat
  Author : String
  Topic : String
  Cost : Nat
deriving DecidableEq, Repr

/-- `ConversationEntryToListing(entry)`: the listing and the error returned. -/
def ConversationEntryToListing (entry : bcgo.BlockEntry) : Option Listing × Option bcgo.Error :=
  match entry.Record.Payload.asConversation with
  | none => (none, some bcgo.Error.Unmarshal)
  | some c =>
    (some { Hash := entry.RecordHash, Timestamp := entry.Record.Timestamp,
            Author := entry.Record.Creator, Topic := c.Topic, Cost := Cost entry.Record },
      none)

/-- The callback of `GetMessage`, `func(hash, timestamp, author, cost, message) error`,
with the state it works on passed through. -/
abbrev MessageCallback (σ : Type) : Type :=
  σ → Hash → Nat → String → Nat → Message → σ × Option bcgo.Error

/-! ## bcstore.go -/

/-- The text of the library's error for a channel the node does not hold. -/
def bcgo.ERROR_NO_SUCH_CHANNEL (name : String) : String :=
  "No such channel: " ++ name

/-- What the library calls of one `MineBlockEntry` yield: `put` is the error
of `Cache.PutBlockEntry`, `mine` is the error of `Node.Mine` or else the chain
at the head of the channel once the node has mined, and `push` is the error of
`channel.Push`, nil also for a node without network. -/
structure bcgo.Mined where
  put : Option bcgo.Error
  mine : Except bcgo.Error bcgo.Chain
  push : Option bcgo.Error

/-- The parts of a `BCStore` the conversation and message methods use: the
alias of the node and its channels, each with the chain at its head. -/
structure BCStore where
  Alias : String
  Channels : List (String × bcgo.Chain)
deriving DecidableEq, Repr

/-- One reply in `GetYield`. -/
structure ReplyNode where
  Previous : Hash
  Cost : Nat
  Reward : Nat
deriving DecidableEq, Repr

/-- The variables the callback of `GetYield` writes. -/
structure YieldState where
  messageHash : Hash
  messageCost : Nat
  replies : List (Hash × ReplyNode)
deriving DecidableEq, Repr

namespace BCStore

/-- The library call `s.Node.GetChannel(name)`. -/
def GetChannel (s : BCStore) (name : String) : Option bcgo.Chain × Option bcgo.Error :=
  match mapGet s.Channels name with
  | none => (none, some (bcgo.Error.Text (bcgo.ERROR_NO_SUCH_CHANNEL name)))
  | some chain => (some chain, none)

/-- `MineBlockEntry(channel, entry)`.  Its three steps are library calls, and
`mined` is what they yield.  The entry goes to the cache of the node, from
which `Node.Mine` takes the entries of the block it mines, so which entries
the blocks on the chain hold afterwards is up to the library. -/
def MineBlockEntry (s : BCStore) (channel : String) (_entry : bcgo.BlockEntry)
    (mined : bcgo.Mined) : BCStore × Option bcgo.Error :=
  match mined.put with
  | some err => (s, some err)
  | none =>
    match mined.mine with
    | Except.error err => (s, some err)
    | Except.ok chain =>
      let s1 : BCStore := { s with Channels := mapSet s.Channels channel chain }
      match mined.push with
      | some err => (s1, some err)
      | none => (s1, none)

/-- `NewConversation`; `minedConversation` and `minedMessage` are what the
library calls of its two `MineBlockEntry` yield. -/
def NewConversation (s : BCStore) (conversationHash : Hash) (conversationRecord : bcgo.Record)
    (messageHash : Hash) (messageRecord : bcgo.Record)
    (minedConversation minedMessage : bcgo.Mined) :
    BCStore × Option bcgo.Error :=
  match s.GetChannel CONVEY_CONVERSATION with
  | (_, some err) => (s, some err)
  | (_, none) =>
    match s.MineBlockEntry CONVEY_CONVERSATION
        { RecordHash := conversationHash, Record := conversationRecord } minedConversation with
    | (s1, some err) => (s1, some err)
    | (s1, none) =>
      let channel := CONVEY_PREFIX_MESSAGE ++ EncodeToString conversationHash
      let s2 : BCStore := { s1 with Channels := mapSet s1.Channels channel [] }
      s2.MineBlockEntry channel { RecordHash := messageHash, Record := messageRecord }
        minedMessage

/-- Entry loop of the callback of `GetConversation`. -/
def conversationLookup (conversationHash : Hash) :
    List bcgo.BlockEntry → Option Listing → Option Listing × Option bcgo.Error
  | [], listing => (listing, none)
  | entry :: rest, listing =>
    if conversationHash = entry.RecordHash then
      match ConversationEntryToListing entry with
      | (found, some err) => (found, some err)
      | (found, none) => (found, some bcgo.Error.StopIteration)
    else conversationLookup conversationHash rest listing

/-- `GetConversation(conversationHash)`: the listing and the error returned. -/
def GetConversation (s : BCStore) (conversationHash : Hash) :
    Option Listing × Option bcgo.Error :=
  match s.GetChannel CONVEY_CONVERSATION with
  | (_, some err) => (none, some err)
  | (none, none) => (none, none)
  | (some chain, none) =>
    match bcgo.Iterate (fun listing _ b => conversationLookup conversationHash b.Entry listing)
        chain none with
    | (_, some (bcgo.Error.Unmarshal)) => (none, some bcgo.Error.Unmarshal)
    | (_, some (bcgo.Error.Text msg)) => (none, some (bcgo.Error.Text msg))
    | (listing, _) =>
      match listing with
      | none =>
        (none, some (bcgo.Error.Text
          (ERROR_NO_SUCH_CONVERSATION (EncodeToString conversationHash))))
      | some found => (some found, none)

/-- Entry loop of the callback of `GetAllConversations`.  A listing comes
with every nil error of `ConversationEntryToListing`. -/
def sinceLookup (since : Nat) : List bcgo.BlockEntry → List Listing →
    List Listing × Option bcgo.Error
  | [], listings => (listings, none)
  | entry :: rest, listings =>
    if entry.Record.Timestamp ≥ since then
      match ConversationEntryToListing entry with
      | (_, some err) => (listings, some err)
      | (some listing, none) => sinceLookup since rest (listings ++ [listing])
      | (none, none) => sinceLookup since rest listings
    else sinceLookup since rest listings

/-- Callback of `GetAllConversations`. -/
def sinceCallback (since : Nat) (listings : List Listing) (_ : Hash) (b : bcgo.Block) :
    List Listing × Option bcgo.Error :=
  if b.Timestamp < since then (listings, some bcgo.Error.StopIteration)
  else sinceLookup since b.Entry listings

/-- `GetAllConversations(since)`: the listings and the error returned. -/
def GetAllConversations (s : BCStore) (since : Nat) : List Listing × Option bcgo.Error :=
  match s.GetChannel CONVEY_CONVERSATION with
  | (_, some err) => ([], some err)
  | (none, none) => ([], none)
  | (some chain, none) =>
    match bcgo.Iterate (sinceCallback since) chain [] with
    | (_, some (bcgo.Error.Unmarshal)) => ([], some bcgo.Error.Unmarshal)
    | (_, some (bcgo.Error.Text msg)) => ([], some (bcgo.Error.Text msg))
    | (listings, _) => (listings, none)

/-- Entry loop of the callback of `GetRecentConversations`, on the listings
and the `limit` left; `limit--` is taken in `uint` arithmetic of 64 bits.  A
listing comes with every nil error of `ConversationEntryToListing`. -/
def recentLookup : List bcgo.BlockEntry → List Listing × Nat →
    (List Listing × Nat) × Option bcgo.Error
  | [], st => (st, none)
  | entry :: rest, (listings, limit) =>
    match ConversationEntryToListing entry with
    | (_, some err) => ((listings, limit), some err)
    | (none, none) => recentLookup rest (listings, limit)
    | (some listing, none) =>
      let listings := listings ++ [listing]
      let limit := (limit + (2 ^ 64 - 1)) % 2 ^ 64
      if limit ≤ 0 then ((listings, limit), some bcgo.Error.StopIteration)
      else recentLookup rest (listings, limit)

/-- `GetRecentConversations(limit)`: the listings and the error returned. -/
def GetRecentConversations (s : BCStore) (limit : Nat) : List Listing × Option bcgo.Error :=
  match s.GetChannel CONVEY_CONVERSATION with
  | (_, some err) => ([], some err)
  | (none, none) => ([], none)
  | (some chain, none) =>
    match bcgo.Iterate (fun st _ b => recentLookup b.Entry st) chain ([], limit) with
    | (_, some (bcgo.Error.Unmarshal)) => ([], some bcgo.Error.Unmarshal)
    | (_, some (bcgo.Error.Text msg)) => ([], some (bcgo.Error.Text msg))
    | (st, _) => (st.1, none)

/-- `AddMessage`; `mined` is what the library calls of its `MineBlockEntry`
yield. -/
def AddMessage (s : BCStore) (conversationHash messageHash : Hash)
    (messageRecord : bcgo.Record) (mined : bcgo.Mined) :
    BCStore × Option bcgo.Error :=
  let conversationHashString := EncodeToString conversationHash
  let channel := CONVEY_PREFIX_MESSAGE ++ conversationHashString
  match s.GetChannel channel with
  | (_, some _) =>
    (s, some (bcgo.Error.Text (ERROR_NO_SUCH_CONVERSATION conversationHashString)))
  | (_, none) =>
    s.MineBlockEntry channel { RecordHash := messageHash, Record := messageRecord } mined

/-- Entry loop of the callback of `GetMessage`; `messageHash` is `none` for
the nil hash. -/
def messageLookup {σ : Type} (messageHash : Option Hash) (callback : MessageCallback σ) :
    List bcgo.BlockEntry → σ → σ × Option bcgo.Error
  | [], st => (st, none)
  | entry :: rest, st =>
    if messageHash = none ∨ messageHash = some entry.RecordHash then
      match entry.Record.Payload.asMessage with
      | none => (st, some bcgo.Error.Unmarshal)
      | some m =>
        match callback st entry.RecordHash entry.Record.Timestamp entry.Record.Creator
            (Cost entry.Record) m with
        | (st1, some err) => (st1, some err)
        | (st1, none) => messageLookup messageHash callback rest st1
    else messageLookup messageHash callback rest st

/-- `GetMessage(conversationHash, messageHash, callback)`: the state the
callback leaves and the error returned. -/
def GetMessage {σ : Type} (s : BCStore) (conversationHash : Hash) (messageHash : Option Hash)
    (callback : MessageCallback σ) (st : σ) : σ × Option bcgo.Error :=
  let conversationHashString := EncodeToString conversationHash
  let channel := CONVEY_PREFIX_MESSAGE ++ conversationHashString
  match s.GetChannel channel with
  | (_, some _) =>
    (st, some (bcgo.Error.Text (ERROR_NO_SUCH_CONVERSATION conversationHashString)))
  | (none, none) => (st, none)
  | (some chain, none) =>
    bcgo.Iterate (fun st _ b => messageLookup messageHash callback b.Entry st) chain st

/-- Callback of `GetYield`. -/
def yieldCallback : MessageCallback YieldState :=
  fun st hash _ _ cost message =>
    if message.Previous = [] then
      ({ st with messageHash := hash, messageCost := cost }, none)
    else
      ({ st with replies :=
            mapSet st.replies hash { Previous := message.Previous, Cost := cost, Reward := 0 } },
        none)

/-- Inner loop of `GetYield` for one reply: what it adds to `messageReward`, or
`none` when `fuel` tests of the loop condition do not end it. -/
def rootShare (replies : List (Hash × ReplyNode)) (messageHash : Hash) :
    Nat → Option ReplyNode → Nat → Option Nat
  | 0, _, _ => none
  | _ + 1, none, _ => some 0
  | fuel + 1, some reply, reward =>
    if reward > 0 then
      let half := reward / 2
      if reply.Previous = messageHash then some half
      else rootShare replies messageHash fuel (mapGet replies reply.Previous) (reward - half)
    else some 0

/-- Outer loop of `GetYield`, over the replies left to visit: the final
`messageReward`, or `none` when an inner loop never ends.  An inner loop that
has taken `replies.length + 1` steps up has met a reply twice and goes round
for ever, so `replies.length + 2` tests decide it. -/
def yieldLoop (replies : List (Hash × ReplyNode)) (messageHash : Hash) :
    List (Hash × ReplyNode) → Nat → Option Nat
  | [], messageReward => some messageReward
  | (_, reply) :: rest, messageReward =>
    match rootShare replies messageHash (replies.length + 2) (some reply) reply.Cost with
    | none => none
    | some half => yieldLoop replies messageHash rest ((messageReward + half) % 2 ^ 64)

/-- `GetYield(conversationHash)`: the cost and reward returned and how the
call ends. -/
def GetYield (s : BCStore) (conversationHash : Hash) : (Nat × Nat) × Outcome :=
  match s.GetMessage conversationHash none yieldCallback
      { messageHash := [], messageCost := 0, replies := [] } with
  | (_, some err) => ((0, 0), Outcome.error err)
  | (st, none) =>
    match yieldLoop st.replies st.messageHash st.replies 0 with
    | none => ((0, 0), Outcome.hang)
    | some messageReward => ((st.messageCost, messageReward), Outcome.ok)

end BCStore

/-! ## memorystore.go -/

/-- The maps of a `MemoryStore`.  An RSA private key is a number here. -/
structure MemoryStore where
  Passwords : List (String × List Nat)
  Keys : List (String × Nat)
  Timestamps : List (Hash × Nat)
  Conversations : List (Hash × bcgo.Record)
  Mappings : List (Hash × List Hash)
  Messages : List (Hash × bcgo.Record)
deriving DecidableEq, Repr

def NewMemoryStore : MemoryStore :=
  { Passwords := [], Keys := [], Timestamps := [], Conversations := [], Mappings := [],
    Messages := [] }

namespace MemoryStore

/-- `AddKey(alias, password, key)`: the store afterwards and the error
returned. -/
def AddKey (s : MemoryStore) (who : String) (password : List Nat) (key : Nat) :
    MemoryStore × Option bcgo.Error :=
  match mapGet s.Passwords who with
  | some _ => (s, some (bcgo.Error.Text (ERROR_KEY_ALREADY_EXISTS who)))
  | none =>
    ({ s with Passwords := mapSet s.Passwords who password, Keys := mapSet s.Keys who key },
      none)

/-- `GetKey(alias, password)`: the key and the error returned; the key is
`none` for nil. -/
def GetKey (s : MemoryStore) (who : String) (password : List Nat) :
    Option Nat × Option bcgo.Error :=
  match mapGet s.Passwords who with
  | some pwd =>
    if pwd = password then (mapGet s.Keys who, none)
    else (none, some (bcgo.Error.Text ERROR_ACCESS_DENIED))
  | none => (none, some (bcgo.Error.Text ERROR_ACCESS_DENIED))

/-- `HasKey(alias)`. -/
def HasKey (s : MemoryStore) (who : String) : Bool :=
  (mapGet s.Passwords who).isSome

/-- `AddMessage`: the store afterwards and the error returned. -/
def AddMessage (s : MemoryStore) (conversationHash messageHash : Hash)
    (messageRecord : bcgo.Record) : MemoryStore × Option bcgo.Error :=
  match mapGet s.Conversations conversationHash with
  | none =>
    (s, some (bcgo.Error.Text
      (ERROR_NO_SUCH_CONVERSATION (EncodeToString conversationHash))))
  | some _ =>
    ({ s with
        Mappings := mapSet s.Mappings conversationHash
          ((mapGet s.Mappings conversationHash).getD [] ++ [messageHash]),
        Messages := mapSet s.Messages messageHash messageRecord },
      none)

/-- `NewConversation`: the store afterwards and the error returned. -/
def NewConversation (s : MemoryStore) (conversationHash : Hash)
    (conversationRecord : bcgo.Record) (messageHash : Hash) (messageRecord : bcgo.Record) :
    MemoryStore × Option bcgo.Error :=
  let s1 : MemoryStore :=
    { s with
      Conversations := mapSet s.Conversations conversationHash conversationRecord,
      Timestamps := mapSet s.Timestamps conversationHash conversationRecord.Timestamp }
  s1.AddMessage conversationHash messageHash messageRecord

/-- `GetConversation(conversationHash)`: the listing and the error returned. -/
def GetConversation (s : MemoryStore) (conversationHash : Hash) :
    Option Listing × Option bcgo.Error :=
  match mapGet s.Conversations conversationHash with
  | none =>
    (none, some (bcgo.Error.Text
      (ERROR_NO_SUCH_CONVERSATION (EncodeToString conversationHash))))
  | some record =>
    match record.Payload.asConversation with
    | none => (none, some bcgo.Error.Unmarshal)
    | some c =>
      (some { Hash := conversationHash, Timestamp := record.Timestamp,
              Author := record.Creator, Topic := c.Topic, Cost := Cost record },
        none)

/-- The loop `for conversationHashString, value := range s.Conversations` that
`GetAllConversations` and `GetRecentConversations` share, over the entries
still to visit; `since` is 0 in `GetRecentConversations`, which has no test. -/
def listingLoop (s : MemoryStore) (since : Nat) :
    List (Hash × bcgo.Record) → List Listing → List Listing × Option bcgo.Error
  | [], listings => (listings, none)
  | (conversationHash, value) :: rest, listings =>
    if (mapGet s.Timestamps conversationHash).getD 0 ≥ since then
      match value.Payload.asConversation with
      | none => ([], some bcgo.Error.Unmarshal)
      | some c =>
        listingLoop s since rest
          (listings ++ [{ Hash := conversationHash,
                          Timestamp := (mapGet s.Timestamps conversationHash).getD 0,
                          Author := "", Topic := c.Topic, Cost := Cost value }])
    else listingLoop s since rest listings

/-- `GetAllConversations(since)`: the listings and the error returned. -/
def GetAllConversations (s : MemoryStore) (since : Nat) : List Listing × Option bcgo.Error :=
  listingLoop s since s.Conversations []

/-- The order `GetRecentConversations` sorts by:
`listings[i].Timestamp > listings[j].Timestamp`. -/
def newerListing (a b : Listing) : Bool :=
  decide (a.Timestamp > b.Timestamp)

/-- `GetRecentConversations(limit)`: the listings and the error returned.
`sort.Slice` is library code and is passed in as `sortSlice`, which takes the
order and the slice. -/
def GetRecentConversations
    (sortSlice : (Listing → Listing → Bool) → List Listing → List Listing)
    (s : MemoryStore) (limit : Nat) : List Listing × Option bcgo.Error :=
  match listingLoop s 0 s.Conversations [] with
  | (_, some err) => ([], some err)
  | (listings, none) =>
    let listings := sortSlice newerListing listings
    if listings.length > limit then (listings.take limit, none) else (listings, none)

/-- Loop of `GetMessage` over the message keys of a conversation.  A key with
no record in `Messages` gives a nil record, whose payload cannot be read. -/
def messageLoop {σ : Type} (s : MemoryStore) (messageHash : Option Hash)
    (callback : MessageCallback σ) : List Hash → σ → σ × Outcome
  | [], st => (st, Outcome.ok)
  | hash :: rest, st =>
    if messageHash = none ∨ messageHash = some hash then
      match mapGet s.Messages hash with
      | none => (st, Outcome.panic)
      | some record =>
        match record.Payload.asMessage with
        | none => (st, Outcome.error bcgo.Error.Unmarshal)
        | some message =>
          match callback st hash 0 "" (Cost record) message with
          | (st1, some err) => (st1, Outcome.error err)
          | (st1, none) => messageLoop s messageHash callback rest st1
    else messageLoop s messageHash callback rest st

/-- `GetMessage(conversationHash, messageHash, callback)`: the state the
callback leaves and how the call ends; `messageHash` is `none` for the nil
hash. -/
def GetMessage {σ : Type} (s : MemoryStore) (conversationHash : Hash)
    (messageHash : Option Hash) (callback : MessageCallback σ) (st : σ) : σ × Outcome :=
  match mapGet s.Mappings conversationHash with
  | none =>
    (st, Outcome.error (bcgo.Error.Text
      (ERROR_NO_SUCH_CONVERSATION (EncodeToString conversationHash))))
  | some mappings => messageLoop s messageHash callback mappings st

/-- `GetYield(conversationHash)`, which the source leaves to be written. -/
def GetYield (_ : MemoryStore) (_ : Hash) : (Nat × Nat) × Outcome :=
  ((0, 0), Outcome.ok)

end MemoryStore

/-! ## digest.go -/

def DIGEST_LIMIT : Nat := 4

/-- A `DigestEntry`.  `Timestamp` is the number that the source turns into
text with the library's `bcgo.TimestampToString`. -/
structure DigestEntry where
  Hash : String
  Topic : String
  Timestamp : Nat
  Author : String
  Cost : Nat
  Reward : Nat
  Yield : Int
  Message : Option Message
deriving DecidableEq, Repr

/-- The methods of the interface `MessageStore` that `GetDigestEntries` calls,
each with the error it returns. -/
structure MessageStore where
  GetAllConversations : Nat → Nat → List Listing × Option bcgo.Error
  GetMessage : (σ : Type) → Hash → Option Hash → MessageCallback σ → σ → σ × Option bcgo.Error
  GetYield : Hash → (Nat × Nat) × Option bcgo.Error

/-- The callback `GetDigestEntries` hands to `GetMessage`: it keeps the
message of a call for a root message. -/
def digestCallback : MessageCallback (Option Message) :=
  fun kept _ _ _ _ message =>
    if message.Previous = [] then (some message, none) else (kept, none)

/-- The order `GetDigestEntries` sorts by: `entries[i].Yield > entries[j].Yield`. -/
def yieldLess (a b : DigestEntry) : Bool :=
  decide (a.Yield > b.Yield)

/-- Loop of `GetDigestEntries` over the conversations: the entries appended
and the error returned. -/
def digestLoop (messages : MessageStore) :
    List Listing → List DigestEntry → List DigestEntry × Option bcgo.Error
  | [], entries => (entries, none)
  | c :: rest, entries =>
    match messages.GetMessage (Option Message) c.Hash none digestCallback none with
    | (_, some err) => ([], some err)
    | (message, none) =>
      match messages.GetYield c.Hash with
      | (_, some err) => ([], some err)
      | ((cost, reward), none) =>
        let entryCost := (c.Cost + cost) % 2 ^ 64
        let entryReward := (0 + reward) % 2 ^ 64
        let entry : DigestEntry :=
          { Hash := EncodeToString c.Hash, Topic := c.Topic, Timestamp := c.Timestamp,
            Author := c.Author, Cost := entryCost, Reward := entryReward,
            Yield := int64 (int64 entryReward - int64 entryCost), Message := message }
        digestLoop messages rest (entries ++ [entry])

/-- `GetDigestEntries(messages, from, to)`: the entries and the error
returned.  `sort.Slice` is library code and is passed in as `sortSlice`, which
takes the order and the slice. -/
def GetDigestEntries
    (sortSlice : (DigestEntry → DigestEntry → Bool) → List DigestEntry → List DigestEntry)
    (messages : MessageStore) (fromTime toTime : Nat) : List DigestEntry × Option bcgo.Error :=
  match messages.GetAllConversations fromTime toTime with
  | (_, some err) => ([], some err)
  | (conversations, none) =>
    match digestLoop messages conversations [] with
    | (_, some err) => ([], some err)
    | (entries, none) =>
      let entries := sortSlice yieldLess entries
      if entries.length > DIGEST_LIMIT then (entries.take DIGEST_LIMIT, none)
      else (entries, none)

/-! ## Notions the statements about the stores use -/

/-- The six-bit value of a character of the alphabet. -/
def decodeDigit (c : Char) : Nat :=
  encodeURL.indexOf c

/-- The bytes that the characters of an unpadded encoding stand for. -/
def decodeChars : List Char → List Nat
  | [] => []
  | [_] => []
  | [c0, c1] => [decodeDigit c0 * 4 + decodeDigit c1 / 16]
  | [c0, c1, c2] =>
    [decodeDigit c0 * 4 + decodeDigit c1 / 16,
     decodeDigit c1 % 16 * 16 + decodeDigit c2 / 4]
  | c0 :: c1 :: c2 :: c3 :: rest =>
    (decodeDigit c0 * 4 + decodeDigit c1 / 16)
      :: (decodeDigit c1 % 16 * 16 + decodeDigit c2 / 4)
      :: (decodeDigit c2 % 4 * 64 + decodeDigit c3) :: decodeChars rest



/-- The replies among the entries of a message chain, as `GetYield` notes them:
the record hash of every entry that decodes to a message with a previous-hash,
with that previous-hash and the cost of the record. -/
def replyNodes : List bcgo.BlockEntry → List (Hash × ReplyNode)
  | [] => []
  | entry :: rest =>
    match entry.Record.Payload.asMessage with
    | none => replyNodes rest
    | some m =>
      if m.Previous = [] then replyNodes rest
      else (entry.RecordHash,
              { Previous := m.Previous, Cost := Cost entry.Record, Reward := 0 })
            :: replyNodes rest

/-- The root messages among the entries of a message chain: the entries that
decode to a message without previous-hash. -/
def rootMessages : List bcgo.BlockEntry → List bcgo.BlockEntry
  | [] => []
  | entry :: rest =>
    match entry.Record.Payload.asMessage with
    | none => rootMessages rest
    | some m => if m.Previous = [] then entry :: rootMessages rest else rootMessages rest

/-- The way up from a reply whose previous-hash is `prev`: `nodes` are the
replies met, parent first, none of them reached through the hash `root`, and
`last` is the hash the way ends at, which is `root` or the hash of no reply.
A reply at depth `d` below the root message has a way up of `d - 1` replies
that ends at the hash of the root message. -/
def Trail (replies : List (Hash × ReplyNode)) (root : Hash) :
    Hash → List ReplyNode → Hash → Prop
  | prev, [], last => last = prev ∧ (prev = root ∨ mapGet replies prev = none)
  | prev, n :: rest, last =>
    prev ≠ root ∧ mapGet replies prev = some n ∧ Trail replies root n.Previous rest last

instance Trail.decidable (replies : List (Hash × ReplyNode)) (root : Hash) :
    ∀ (nodes : List ReplyNode) (prev last : Hash), Decidable (Trail replies root prev nodes last)
  | [], prev, last =>
    inferInstanceAs (Decidable (last = prev ∧ (prev = root ∨ mapGet replies prev = none)))
  | n :: rest, prev, last =>
    have := Trail.decidable replies root rest n.Previous last
    inferInstanceAs (Decidable (prev ≠ root ∧ mapGet replies prev = some n ∧
      Trail replies root n.Previous rest last))

/-- A callback that notes the arguments of every call it gets, in order, and
returns nil. -/
def noteCalls : MessageCallback (List (Hash × Nat × String × Nat × Message)) :=
  fun calls hash timestamp author cost message =>
    (calls ++ [(hash, timestamp, author, cost, message)], none)

/-- The digest entry of the conversation listing `c`: its hash in text, topic,
timestamp and author, the cost of the listing plus the cost `GetYield`
returns, the reward `GetYield` returns, and the yield, all in 64-bit
arithmetic. -/
def EntryOf (messages : MessageStore) (c : Listing) (entry : DigestEntry) : Prop :=
  ∃ cost reward, messages.GetYield c.Hash = ((cost, reward), none) ∧
    entry.Hash = EncodeToString c.Hash ∧ entry.Topic = c.Topic ∧
    entry.Timestamp = c.Timestamp ∧ entry.Author = c.Author ∧
    entry.Cost = (c.Cost + cost) % 2 ^ 64 ∧ entry.Reward = reward % 2 ^ 64 ∧
    entry.Yield = int64 (int64 entry.Reward - int64 entry.Cost)

/-- Entries in the order of their yields, largest first. -/
def YieldOrdered (entries : List DigestEntry) : Prop :=
  entries.Pairwise fun a b => b.Yield ≤ a.Yield

/-- One call that changes a memory store. -/
inductive MemoryStore.Call where
  | addKey (who : String) (password : List Nat) (key : Nat)
  | newConversation (conversationHash : Hash) (conversationRecord : bcgo.Record)
      (messageHash : Hash) (messageRecord : bcgo.Record)
  | addMessage (conversationHash messageHash : Hash) (messageRecord : bcgo.Record)

/-- The store after a call, whatever the call returns. -/
def MemoryStore.call (s : MemoryStore) : MemoryStore.Call → MemoryStore
  | .addKey who password key => (s.AddKey who password key).1
  | .newConversation conversationHash conversationRecord messageHash messageRecord =>
    (s.NewConversation conversationHash conversationRecord messageHash messageRecord).1
  | .addMessage conversationHash messageHash messageRecord =>
    (s.AddMessage conversationHash messageHash messageRecord).1

/-- The store after a sequence of calls. -/
def MemoryStore.run (s : MemoryStore) (calls : List MemoryStore.Call) : MemoryStore :=
  calls.foldl MemoryStore.call s

/-- The message an entry decodes to; the empty message stands in when it does
not decode. -/
def messageOf (entry : bcgo.BlockEntry) : Message :=
  entry.Record.Payload.asMessage.getD { Previous := [], Content := [], MediaType := 0 }

/-- The memory store after `AddMessage` for each of `posts` in turn. -/
def MemoryStore.addMessages (s : MemoryStore) (conversationHash : Hash)
    (posts : List bcgo.BlockEntry) : MemoryStore :=
  posts.foldl (fun s post => (s.AddMessage conversationHash post.RecordHash post.Record).1) s

/-- The blockchain store after `AddMessage` for each of `posts` in turn, every
one with what the library calls of its `MineBlockEntry` yield. -/
def BCStore.addMessages (s : BCStore) (conversationHash : Hash)
    (posts : List (bcgo.BlockEntry × bcgo.Mined)) : BCStore :=
  posts.foldl
    (fun s post => (s.AddMessage conversationHash post.1.RecordHash post.1.Record post.2).1)
    s

/-- The state a callback leaves after one call for each of `posts` in turn,
with the arguments `BCStore.GetMessage` passes: the record hash, the timestamp
and creator of the record, its cost and the message it decodes to. -/
def BCStore.callEach {σ : Type} (callback : MessageCallback σ) (posts : List bcgo.BlockEntry)
    (st : σ) : σ :=
  posts.foldl
    (fun st post =>
      (callback st post.RecordHash post.Record.Timestamp post.Record.Creator
        (Cost post.Record) (messageOf post)).1)
    st

/-- The state a callback leaves after one call for each of `posts` in turn,
with the arguments `MemoryStore.GetMessage` passes: the record hash, timestamp
0, no author, the cost of the record and the message it decodes to. -/
def MemoryStore.callEach {σ : Type} (callback : MessageCallback σ)
    (posts : List bcgo.BlockEntry) (st : σ) : σ :=
  posts.foldl
    (fun st post => (callback st post.RecordHash 0 "" (Cost post.Record) (messageOf post)).1)
    st

/-- The listing of a conversation entry; the topic is empty when the payload
does not decode. -/
def listingOf (entry : bcgo.BlockEntry) : Listing :=
  { Hash := entry.RecordHash, Timestamp := entry.Record.Timestamp,
    Author := entry.Record.Creator,
    Topic := (entry.Record.Payload.asConversation.map fun c => c.Topic).getD "",
    Cost := Cost entry.Record }

/-- The number of entries the loop of `BCStore.GetRecentConversations` takes
before it stops, when `limit` is what it starts with: the loop tests `limit`
after `limit--`, so it stops at once after `limit` entries when `limit` is at
least 1 and, the decrement of 0 wrapping round, after `2 ^ 64` entries when
`limit` is 0. -/
def budget (limit : Nat) : Nat :=
  if limit = 0 then 2 ^ 64 else limit

/-- The listing `MemoryStore.GetAllConversations` and
`MemoryStore.GetRecentConversations` make of an entry of `Conversations`; the
topic is empty when the payload does not decode. -/
def MemoryStore.listing (s : MemoryStore) (kv : Hash × bcgo.Record) : Listing :=
  { Hash := kv.1, Timestamp := (mapGet s.Timestamps kv.1).getD 0, Author := "",
    Topic := (kv.2.Payload.asConversation.map fun c => c.Topic).getD "",
    Cost := Cost kv.2 }

/-- Listings in the order of their timestamps, newest first. -/
def NewestFirst (listings : List Listing) : Prop :=
  listings.Pairwise fun a b => b.Timestamp ≤ a.Timestamp

/-- Every accumulator of the ledger has room for `r` more tokens: its sum over
all aliases plus `r` stays below `2 ^ 64`. -/
def Ledger.Room (l : Ledger) (r : Nat) : Prop :=
  total l.Minted + r < 2 ^ 64 ∧ total l.Burned + r < 2 ^ 64 ∧ total l.Bought + r < 2 ^ 64 ∧
  total l.Sold + r < 2 ^ 64 ∧ total l.Earned + r < 2 ^ 64 ∧ total l.Spent + r < 2 ^ 64

instance Ledger.Room.decidable (l : Ledger) (r : Nat) : Decidable (l.Room r) := by
  unfold Ledger.Room
  infer_instance

/-- No accumulator value of `l` is above its value in `l'`. -/
def Ledger.Below (l l' : Ledger) : Prop :=
  (∀ a, amountOf l.Minted a ≤ amountOf l'.Minted a) ∧
  (∀ a, amountOf l.Burned a ≤ amountOf l'.Burned a) ∧
  (∀ a, amountOf l.Bought a ≤ amountOf l'.Bought a) ∧
  (∀ a, amountOf l.Sold a ≤ amountOf l'.Sold a) ∧
  (∀ a, amountOf l.Earned a ≤ amountOf l'.Earned a) ∧
  (∀ a, amountOf l.Spent a ≤ amountOf l'.Spent a)

/-- A bound on what one `Update` of a channel adds to an accumulator: the
reward times the number of blocks on a periodic validation chain, the sum of
the amounts of the transactions on the transaction chain, the cost of the
records on the other chains. -/
def Ledger.load (name : String) (chain : bcgo.Chain) : Nat :=
  if name = CONVEY_HOUR then chain.length * HOURLY_PVC_REWARD
  else if name = CONVEY_DAY then chain.length * DAILY_PVC_REWARD
  else if name = CONVEY_WEEK then chain.length * WEEKLY_PVC_REWARD
  else if name = CONVEY_YEAR then chain.length * YEARLY_PVC_REWARD
  else if name = CONVEY_DECADE then chain.length * DECENNIALLY_PVC_REWARD
  else if name = CONVEY_CENTURY then chain.length * CENTENNIALLY_PVC_REWARD
  else if name = CONVEY_TRANSACTION then
    ((transactionsOf (entriesOf chain)).map fun t => t.Amount).sum
  else chainCost chain

/-- The hash reached from `k` after `i` steps along the pointers `next`, if
every step is defined. -/
def follow (next : Hash → Option Hash) : Nat → Hash → Option Hash
  | 0, k => some k
  | i + 1, k => (follow next i k).bind next

/-- The pointers `next` lead from none of the `keys` back to it.  A cycle
among `keys.length` nodes comes back within `keys.length` steps. -/
def Acyclic (keys : List Hash) (next : Hash → Option Hash) : Prop :=
  ∀ k ∈ keys, ∀ d ∈ List.range keys.length, follow next (d + 1) k ≠ some k

instance Acyclic.decidable (keys : List Hash) (next : Hash → Option Hash) :
    Decidable (Acyclic keys next) := by
  unfold Acyclic
  infer_instance

/-- The previous-pointer of the message `k` in the node map of the second
pass: none for a root message and for a hash that is not in the map. -/
def Ledger.parent (nodes : List (Hash × MessageNode)) (k : Hash) : Option Hash :=
  match mapGet nodes k with
  | none => none
  | some n => if n.Previous = [] then none else some n.Previous

/-- Every previous-hash in the node map names a message of the map. -/
def Ledger.Closed (nodes : List (Hash × MessageNode)) : Prop :=
  ∀ kn ∈ nodes, kn.2.Previous ≠ [] → (mapGet nodes kn.2.Previous).isSome = true

instance Ledger.Closed.decidable (nodes : List (Hash × MessageNode)) :
    Decidable (Ledger.Closed nodes) := by
  unfold Ledger.Closed
  infer_instance

/-- The previous-pointer of the reply `k` in the map of replies of `GetYield`. -/
def BCStore.parent (replies : List (Hash × ReplyNode)) (k : Hash) : Option Hash :=
  (mapGet replies k).map fun reply => reply.Previous

/-- The node the first pass of `Update` builds for an entry of a message
chain. -/
def messageNode (entry : bcgo.BlockEntry) : MessageNode :=
  { Author := entry.Record.Creator
    Cost := Cost entry.Record
    Previous := if 0 < (messageOf entry).Previous.length then (messageOf entry).Previous else [] }

/-- What the inner loop of `GetYield` adds to `messageReward` for one reply;
0 stands in when the loop does not end. -/
def BCStore.shareOf (replies : List (Hash × ReplyNode)) (messageHash : Hash)
    (reply : Hash × ReplyNode) : Nat :=
  (BCStore.rootShare replies messageHash (replies.length + 2) (some reply.2) reply.2.Cost).getD 0

/-- The accumulator `m` holds the keys of `b` and of `d` and, for every key,
the sum in `uint64` of what they hold. -/
def joins (m b d : List (String × Nat)) : Prop :=
  ∀ x, ((mapGet m x).isSome = true ↔ (mapGet b x).isSome = true ∨ (mapGet d x).isSome = true) ∧
    amountOf m x % 2 ^ 64 = (amountOf b x + amountOf d x) % 2 ^ 64

/-- The ledger `l` has the aliases of `b` and of `d`, and each of its
accumulators joins theirs. -/
def Ledger.Joins (l b d : Ledger) : Prop :=
  (∀ x, x ∈ l.Aliases ↔ x ∈ b.Aliases ∨ x ∈ d.Aliases) ∧
  joins l.Minted b.Minted d.Minted ∧ joins l.Burned b.Burned d.Burned ∧
  joins l.Bought b.Bought d.Bought ∧ joins l.Sold b.Sold d.Sold ∧
  joins l.Earned b.Earned d.Earned ∧ joins l.Spent b.Spent d.Spent

/-- The map from record hash to block hash the first pass of `Update` fills on
a message chain whose records have different hashes. -/
def entryBlocks : bcgo.Chain → List (Hash × Hash)
  | [] => []
  | (h, b) :: rest => (b.Entry.map fun e => (e.RecordHash, h)) ++ entryBlocks rest

/-! ## Sample chains -/

namespace Sample

/-- A transaction record created by its sender. -/
def transfer (sender receiver : String) (amount : Nat) : bcgo.Record :=
  { Timestamp := 0, Creator := sender, Size := 120,
    Payload := { asConversation := none, asMessage := none,
                 asTransaction := some { Sender := sender, Receiver := receiver,
                                         Amount := amount } } }

/-- A message record of the given encoded size. -/
def post (author : String) (previous : Hash) (size : Nat) : bcgo.Record :=
  { Timestamp := 0, Creator := author, Size := size,
    Payload := { asConversation := none, asTransaction := none,
                 asMessage := some { Previous := previous, Content := [], MediaType := 0 } } }

/-- A conversation record of the given encoded size. -/
def opening (author : String) (size : Nat) : bcgo.Record :=
  { Timestamp := 0, Creator := author, Size := size,
    Payload := { asConversation := some { Topic := "Test123" }, asMessage := none,
                 asTransaction := none } }

/-- Two blocks of a periodic validation chain, mined by Node and by Alice. -/
def years : bcgo.Chain :=
  [([2], { Timestamp := 2, Miner := "Alice", Entry := [] }),
   ([1], { Timestamp := 1, Miner := "Node", Entry := [] })]

/-- Two blocks on the transaction chain: Node funds Alice and Bob with one
yearly reward each. -/
def funding : bcgo.Chain :=
  [([2], { Timestamp := 2, Miner := "Node",
           Entry := [{ RecordHash := [12], Record := transfer "Node" "Bob" 31557600 }] }),
   ([1], { Timestamp := 1, Miner := "Node",
           Entry := [{ RecordHash := [11], Record := transfer "Node" "Alice" 31557600 }] })]

/-- Two blocks on the conversation chain, a conversation of Bob and one of
Alice. -/
def conversations : bcgo.Chain :=
  [([2], { Timestamp := 2, Miner := "Node",
           Entry := [{ RecordHash := [32], Record := opening "Bob" 420 }] }),
   ([1], { Timestamp := 1, Miner := "Node",
           Entry := [{ RecordHash := [31], Record := opening "Alice" 300 }] })]

/-- Two blocks on the transaction chain: Alice and Bob each sell `2 ^ 63`
tokens to Carol. -/
def bigSales : bcgo.Chain :=
  [([2], { Timestamp := 2, Miner := "Node",
           Entry := [{ RecordHash := [12], Record := transfer "Bob" "Carol" (2 ^ 63) }] }),
   ([1], { Timestamp := 1, Miner := "Node",
           Entry := [{ RecordHash := [11], Record := transfer "Alice" "Carol" (2 ^ 63) }] })]

/-- A message chain of three blocks: Alice's root message `[20]`, Bob's reply
`[21]` to it, Charlie's reply `[22]` to Bob and Alice's reply `[23]` to
Charlie. -/
def thread : bcgo.Chain :=
  [([3], { Timestamp := 3, Miner := "Node",
           Entry := [{ RecordHash := [23], Record := post "Alice" [22] 777 }] }),
   ([2], { Timestamp := 2, Miner := "Node",
           Entry := [{ RecordHash := [22], Record := post "Charlie" [21] 555 },
                     { RecordHash := [21], Record := post "Bob" [20] 301 }] }),
   ([1], { Timestamp := 1, Miner := "Node",
           Entry := [{ RecordHash := [20], Record := post "Alice" [] 250 }] })]

/-- The chain `funding` with a block on top in which Mallory signs a transfer
out of Alice's account. -/
def forged : bcgo.Chain :=
  ([3], { Timestamp := 3, Miner := "Node",
          Entry := [{ RecordHash := [13],
                      Record := { transfer "Alice" "Mallory" 5 with Creator := "Mallory" } }] })
    :: funding

/-- A blockchain store with the conversation chain `conversations`, the
messages of `thread` under Alice's conversation `[31]` and an empty message
chain under Bob's conversation `[32]`. -/
def store : BCStore :=
  { Alias := "Node",
    Channels := [(CONVEY_CONVERSATION, conversations),
                 (CONVEY_PREFIX_MESSAGE ++ EncodeToString [31], thread),
                 (CONVEY_PREFIX_MESSAGE ++ EncodeToString [32], [])] }

/-- A blockchain store whose conversation `[31]` holds the root message of
`thread` and no reply. -/
def quiet : BCStore :=
  { Alias := "Node",
    Channels := [(CONVEY_CONVERSATION, conversations),
                 (CONVEY_PREFIX_MESSAGE ++ EncodeToString [31], thread.drop 2)] }

/-- A memory store in which Alice has opened the conversation `[31]` with the
root message `[20]` of 250 bytes. -/
def memory : MemoryStore :=
  (NewMemoryStore.NewConversation [31] (opening "Alice" 300) [20] (post "Alice" [] 250)).1

/-- A sort to stand for `sort.Slice`: insertion sort. -/
def sortSlice (less : DigestEntry → DigestEntry → Bool) (entries : List DigestEntry) :
    List DigestEntry :=
  entries.insertionSort fun a b => less b a = false

/-- A listing of cost `cost` for the conversation `[n]` opened at time `n`. -/
def listing (n cost : Nat) : Listing :=
  { Hash := [n], Timestamp := n, Author := "Alice", Topic := "Test123", Cost := cost }

/-- A message store with five conversations, whose yields are +5, -3, +2, 0
and +1; it lists the conversations opened in the window asked for. -/
def digests : MessageStore :=
  { GetAllConversations := fun fromTime toTime =>
      ([listing 1 3, listing 2 5, listing 3 1, listing 4 2, listing 5 1].filter
          fun c => decide (fromTime ≤ c.Timestamp ∧ c.Timestamp ≤ toTime),
        none),
    GetMessage := fun _ _ _ _ st => (st, none),
    GetYield := fun hash =>
      if hash = [1] then ((1, 9), none)
      else if hash = [2] then ((2, 4), none)
      else if hash = [3] then ((1, 4), none)
      else if hash = [4] then ((2, 4), none)
      else ((1, 3), none) }

/-- The digest entry of the conversation `[2]` of `digests`, which costs 7 and
has earned 4. -/
def loss : DigestEntry :=
  { Hash := "Ag", Topic := "Test123", Timestamp := 2, Author := "Alice", Cost := 7,
    Reward := 4, Yield := -3, Message := none }

/-- The bytes of the text "DoesNotExist", a hash no sample store holds. -/
def missing : Hash :=
  "DoesNotExist".data.map Char.toNat

/-- The calls that build the store `memory`. -/
def calls : List MemoryStore.Call :=
  [MemoryStore.Call.newConversation [31] (opening "Alice" 300) [20] (post "Alice" [] 250)]

/-- A record with another timestamp. -/
def stamped (record : bcgo.Record) (timestamp : Nat) : bcgo.Record :=
  { record with Timestamp := timestamp }

/-- What the library calls yield when they return no error and leave `chain`
at the head of the channel. -/
def minedTo (chain : bcgo.Chain) : bcgo.Mined :=
  { put := none, mine := Except.ok chain, push := none }

/-- Carol's conversation `[33]`, stamped 9, in a block stamped 10 on top of
the chain `conversations`. -/
def grownConversations : bcgo.Chain :=
  ([3], { Timestamp := 10, Miner := "Node",
          Entry := [{ RecordHash := [33], Record := stamped (opening "Carol" 150) 9 }] })
    :: conversations

/-- Carol's root message `[20]`, stamped 9, in a block stamped 11. -/
def rootBlock : Hash × bcgo.Block :=
  ([1], { Timestamp := 11, Miner := "Node",
          Entry := [{ RecordHash := [20], Record := stamped (post "Carol" [] 250) 9 }] })

/-- The message chain of Carol's conversation once Bob's reply `[21]` to the
root message `[20]` and Charlie's reply `[22]` to Bob, stamped 12 and 14, are
mined, each in a block of its own, stamped 13 and 15. -/
def busyMessages : bcgo.Chain :=
  [([3], { Timestamp := 15, Miner := "Node",
           Entry := [{ RecordHash := [22], Record := stamped (post "Charlie" [21] 555) 14 }] }),
   ([2], { Timestamp := 13, Miner := "Node",
           Entry := [{ RecordHash := [21], Record := stamped (post "Bob" [20] 301) 12 }] }),
   rootBlock]

/-- Bob's reply `[21]` and Charlie's reply `[22]`, each with what the library
calls yield for it: no error, and the chain `busyMessages` up to its block. -/
def replies : List (bcgo.BlockEntry × bcgo.Mined) :=
  [({ RecordHash := [21], Record := stamped (post "Bob" [20] 301) 12 },
    minedTo (busyMessages.drop 1)),
   ({ RecordHash := [22], Record := stamped (post "Charlie" [21] 555) 14 },
    minedTo busyMessages)]

/-- The store `store` after Carol has opened the conversation `[33]` with the
root message `[20]` and the two `replies` were added. -/
def busy : BCStore :=
  (store.NewConversation [33] (stamped (opening "Carol" 150) 9) [20]
      (stamped (post "Carol" [] 250) 9) (minedTo grownConversations)
      (minedTo [rootBlock])).1.addMessages [33] replies

/-- A message chain of two blocks: Carol's root message `[20]`, stamped 12, in
a block stamped 11, and a head block, stamped 14, that holds the root message
again beside Bob's reply `[21]`, stamped 13. -/
def echoMessages : bcgo.Chain :=
  [([2], { Timestamp := 14, Miner := "Node",
           Entry := [{ RecordHash := [20], Record := stamped (post "Carol" [] 250) 12 },
                     { RecordHash := [21], Record := stamped (post "Bob" [20] 301) 13 }] }),
   ([1], { Timestamp := 11, Miner := "Node",
           Entry := [{ RecordHash := [20], Record := stamped (post "Carol" [] 250) 12 }] })]

/-- The store `store` and the error returned when Carol opens the conversation
`[33]` with the root message `[20]`, stamped 12, and the library mines the
oldest block of `echoMessages` for it. -/
def opened : BCStore × Option bcgo.Error :=
  store.NewConversation [33] (stamped (opening "Carol" 150) 9) [20]
    (stamped (post "Carol" [] 250) 12) (minedTo grownConversations)
    (minedTo (echoMessages.drop 1))

/-- The store `opened` and the error returned when Bob's reply `[21]` is added
and the library mines the head block of `echoMessages` for it. -/
def echoed : BCStore × Option bcgo.Error :=
  opened.1.AddMessage [33] [21] (stamped (post "Bob" [20] 301) 13) (minedTo echoMessages)

/-- The store `memory` after Carol has opened the conversation `[33]` with the
root message `[20]` and the two `replies` were added. -/
def lively : MemoryStore :=
  (memory.NewConversation [33] (stamped (opening "Carol" 150) 9) [20]
      (stamped (post "Carol" [] 250) 9)).1.addMessages [33] (replies.map Prod.fst)

/-- A sort of listings to stand for `sort.Slice`: insertion sort. -/
def sortListings (less : Listing → Listing → Bool) (listings : List Listing) : List Listing :=
  listings.insertionSort fun a b => less b a = false

/-- A conversation chain of two blocks: Alice's conversation `[41]`, stamped
2, in a block stamped 3, and Bob's conversation `[42]`, stamped 5, in the head
block, stamped 6. -/
def datedConversations : bcgo.Chain :=
  [([2], { Timestamp := 6, Miner := "Node",
           Entry := [{ RecordHash := [42],
                       Record := { opening "Bob" 420 with Timestamp := 5 } }] }),
   ([1], { Timestamp := 3, Miner := "Node",
           Entry := [{ RecordHash := [41],
                       Record := { opening "Alice" 300 with Timestamp := 2 } }] })]

/-- A blockchain store with the conversations of `datedConversations`; under
`[41]` Alice's root message `[50]`, stamped 7, is the only message. -/
def dated : BCStore :=
  { Alias := "Node",
    Channels := [(CONVEY_CONVERSATION, datedConversations),
                 (CONVEY_PREFIX_MESSAGE ++ EncodeToString [41],
                  [([1], { Timestamp := 8, Miner := "Node",
                           Entry := [{ RecordHash := [50],
                                       Record := { post "Alice" [] 250 with
                                                   Timestamp := 7 } }] })])] }

/-- A memory store built by two calls of `NewConversation`, for the same two
conversations, the first with the same root message. -/
def datedMemory : MemoryStore :=
  NewMemoryStore.run
    [MemoryStore.Call.newConversation [41] { opening "Alice" 300 with Timestamp := 2 } [50]
       { post "Alice" [] 250 with Timestamp := 7 },
     MemoryStore.Call.newConversation [42] { opening "Bob" 420 with Timestamp := 5 } [51]
       { post "Bob" [] 120 with Timestamp := 5 }]

/-- The channels of a node: the yearly validation chain and the transaction
chain. -/
def channels : List (String × bcgo.Chain) :=
  [(CONVEY_YEAR, years), (CONVEY_TRANSACTION, funding)]

/-- The listing of Bob's conversation `[42]` in the store `dated`. -/
def listingOf42 : Listing :=
  { Hash := [42], Timestamp := 5, Author := "Bob", Topic := "Test123", Cost := 5 }

/-- A memory store in which Alice has added a key and Bob has tried to add
one under her alias. -/
def keyed : MemoryStore :=
  ((NewMemoryStore.run []).AddKey "Alice" [1, 2, 3] 77).1.run
    [MemoryStore.Call.addKey "Alice" [9] 88]

/-- A ledger that has processed the older block of `years`. -/
def afterOneYear : Ledger :=
  (NewLedger.Update CONVEY_YEAR (years.drop 1)).1

/-- A ledger that has processed the older block of `funding`. -/
def afterOneTransfer : Ledger :=
  (NewLedger.Update CONVEY_TRANSACTION (funding.drop 1)).1

/-- A ledger that has processed the older block of `conversations`. -/
def afterOneConversation : Ledger :=
  (NewLedger.Update CONVEY_CONVERSATION (conversations.drop 1)).1

/-- The nodes the first pass builds from `thread`. -/
def threadNodes : List (Hash × MessageNode) :=
  (bcgo.Iterate Ledger.messageCallback thread { blocks := [], nodes := [] }).1.nodes

/-- The ancestors of Alice's reply `[23]`: Charlie's reply, Bob's reply and
the root message. -/
def threadAncestors : List MessageNode :=
  [{ Author := "Charlie", Cost := 6, Previous := [21] },
   { Author := "Bob", Cost := 4, Previous := [20] },
   { Author := "Alice", Cost := 3, Previous := [] }]

/-- A message chain on which Bob's reply `[25]` names a parent `[99]` that is
not on the chain and Charlie's reply `[26]` answers Bob's. -/
def orphans : bcgo.Chain :=
  [([2], { Timestamp := 2, Miner := "Node",
           Entry := [{ RecordHash := [26], Record := post "Charlie" [25] 555 },
                     { RecordHash := [25], Record := post "Bob" [99] 301 }] }),
   ([1], { Timestamp := 1, Miner := "Node",
           Entry := [{ RecordHash := [20], Record := post "Alice" [] 250 }] })]

/-- A transaction chain of one block whose second record does not decode as a
transaction. -/
def garbled : bcgo.Chain :=
  [([1], { Timestamp := 1, Miner := "Node",
           Entry := [{ RecordHash := [11], Record := transfer "Node" "Alice" 5 },
                     { RecordHash := [12], Record := post "Node" [] 120 },
                     { RecordHash := [13], Record := transfer "Node" "Bob" 7 }] })]

/-- The chain `datedConversations` with an oldest block out of order: it is
stamped 9 and holds Carol's conversation `[40]`, stamped 8. -/
def lateConversations : bcgo.Chain :=
  datedConversations ++
    [([0], { Timestamp := 9, Miner := "Node",
             Entry := [{ RecordHash := [40], Record := stamped (opening "Carol" 200) 8 }] })]

/-- A blockchain store with the conversations of `lateConversations`. -/
def late : BCStore :=
  { Alias := "Node", Channels := [(CONVEY_CONVERSATION, lateConversations)] }

/-- A blockchain store whose conversation `[31]` holds the messages of
`orphans`: Bob's reply names a parent that is not on the chain. -/
def adrift : BCStore :=
  { Alias := "Node",
    Channels := [(CONVEY_CONVERSATION, conversations),
                 (CONVEY_PREFIX_MESSAGE ++ EncodeToString [31], orphans)] }

/-- The message chain `thread` without its newest block: Alice's root message
`[20]`, Bob's reply to it and Charlie's reply to Bob. -/
def early : bcgo.Chain :=
  thread.drop 1

/-- A blockchain store whose conversation `[31]` holds the messages of
`early`. -/
def young : BCStore :=
  { Alias := "Node",
    Channels := [(CONVEY_CONVERSATION, conversations),
                 (CONVEY_PREFIX_MESSAGE ++ EncodeToString [31], early)] }

/-- The ledger that has seen the chain `early` under Alice's conversation
`[31]`: its two blocks are processed. -/
def afterEarly : Ledger :=
  (NewLedger.Update (CONVEY_PREFIX_MESSAGE ++ EncodeToString [31]) early).1

end Sample

end conveygo

/-! # Proofs

Everything above is definitions; the lemmas and the theorems on the claims
follow. -/

/-! ## Lemmas on maps and sets -/

theorem mapGet_mapSet {κ ν : Type} [DecidableEq κ] (m : List (κ × ν)) (k k' : κ) (v : ν) :
    mapGet (mapSet m k v) k' = if k = k' then some v else mapGet m k' := by
  induction m with
  | nil => simp [mapSet, mapGet]
  | cons p rest ih =>
    obtain ⟨a, b⟩ := p
    by_cases h : a = k
    · subst h
      by_cases h2 : a = k' <;> simp [mapSet, mapGet, h2]
    · by_cases h2 : a = k'
      · subst h2
        have h3 : ¬ k = a := fun e => h e.symm
        simp [mapSet, mapGet, h, h3]
      · simp [mapSet, mapGet, h, h2, ih]

theorem mapGet_mapSet_self {κ ν : Type} [DecidableEq κ] (m : List (κ × ν)) (k : κ) (v : ν) :
    mapGet (mapSet m k v) k = some v := by
  simp [mapGet_mapSet]

theorem mapSet_of_mapGet {κ ν : Type} [DecidableEq κ] (m : List (κ × ν)) (k : κ) (v : ν)
    (h : mapGet m k = some v) : mapSet m k v = m := by
  induction m with
  | nil => simp [mapGet] at h
  | cons p rest ih =>
    obtain ⟨a, b⟩ := p
    by_cases e : a = k
    · simp [mapGet, e] at h
      simp [mapSet, e, h]
    · simp [mapGet, e] at h
      simp [mapSet, e, ih h]

theorem length_mapSet_le {κ ν : Type} [DecidableEq κ] (m : List (κ × ν)) (k : κ) (v : ν) :
    m.length ≤ (mapSet m k v).length := by
  induction m with
  | nil => simp [mapSet]
  | cons p rest ih =>
    obtain ⟨a, b⟩ := p
    by_cases e : a = k <;> simp [mapSet, e, ih]

theorem mem_setAdd {κ : Type} [DecidableEq κ] (s : List κ) (k x : κ) :
    x ∈ setAdd s k ↔ x ∈ s ∨ x = k := by
  unfold setAdd
  by_cases h : k ∈ s
  · simp only [h, if_true]
    constructor
    · exact Or.inl
    · rintro (h1 | h1)
      · exact h1
      · exact h1 ▸ h
  · simp [h]

theorem setAdd_of_mem {κ : Type} [DecidableEq κ] (s : List κ) (k : κ) (h : k ∈ s) :
    setAdd s k = s := by
  simp [setAdd, h]

theorem total_cons (p : String × Nat) (m : List (String × Nat)) :
    total (p :: m) = p.2 + total m := by
  simp [total]

theorem total_mapSet (m : List (String × Nat)) (k : String) (v : Nat) :
    total (mapSet m k v) + amountOf m k = total m + v := by
  induction m with
  | nil => simp [mapSet, total, amountOf, mapGet]
  | cons p rest ih =>
    obtain ⟨a, b⟩ := p
    by_cases e : a = k
    · simp [mapSet, e, total_cons, amountOf, mapGet]
      omega
    · have ih2 : total (mapSet rest k v) + amountOf rest k = total rest + v := ih
      have h3 : amountOf ((a, b) :: rest) k = amountOf rest k := by
        simp [amountOf, mapGet, e]
      rw [h3]
      simp only [mapSet, e, if_false, total_cons]
      omega

theorem amountOf_le_total (m : List (String × Nat)) (k : String) : amountOf m k ≤ total m := by
  induction m with
  | nil => simp [amountOf, mapGet]
  | cons p rest ih =>
    obtain ⟨a, b⟩ := p
    by_cases e : a = k
    · simp [amountOf, mapGet, e, total_cons]
    · have h3 : amountOf ((a, b) :: rest) k = amountOf rest k := by
        simp [amountOf, mapGet, e]
      rw [h3, total_cons]
      omega

namespace conveygo

theorem Record_eq (m : List (String × Nat)) (k : String) (x : Nat) :
    Record m k x = mapSet m k ((amountOf m k + x) % 2 ^ 64) := by
  unfold Record amountOf
  cases mapGet m k <;> rfl

theorem amountOf_Record (m : List (String × Nat)) (k k' : String) (x : Nat) :
    amountOf (Record m k x) k' =
      if k = k' then (amountOf m k + x) % 2 ^ 64 else amountOf m k' := by
  rw [Record_eq]
  unfold amountOf
  rw [mapGet_mapSet]
  by_cases h : k = k' <;> simp [h]

theorem total_Record_mod (m : List (String × Nat)) (k : String) (x : Nat) :
    total (Record m k x) % 2 ^ 64 = (total m + x) % 2 ^ 64 := by
  have h := total_mapSet m k ((amountOf m k + x) % 2 ^ 64)
  rw [← Record_eq] at h
  have h1 : (total (Record m k x) + amountOf m k) % 2 ^ 64
      = ((total m + x) + amountOf m k) % 2 ^ 64 := by
    rw [h]
    omega
  exact Nat.ModEq.add_right_cancel' (amountOf m k) h1

theorem total_Record_exact (m : List (String × Nat)) (k : String) (x : Nat)
    (h : total m + x < 2 ^ 64) : total (Record m k x) = total m + x := by
  have h1 := total_mapSet m k ((amountOf m k + x) % 2 ^ 64)
  rw [← Record_eq] at h1
  have h2 := amountOf_le_total m k
  have h3 : (amountOf m k + x) % 2 ^ 64 = amountOf m k + x := Nat.mod_eq_of_lt (by omega)
  omega

end conveygo

/-! ## Properties kept by every step of `Update` -/

namespace bcgo

theorem Iterate_keeps {σ : Type} (P : σ → Prop)
    (callback : σ → Hash → Block → σ × Option Error)
    (hcb : ∀ s h b, P s → P (callback s h b).1) :
    ∀ (chain : Chain) (s : σ), P s → P (Iterate callback chain s).1 := by
  intro chain
  induction chain with
  | nil => intro s hs; simpa [Iterate] using hs
  | cons hb rest ih =>
    intro s hs
    obtain ⟨h, b⟩ := hb
    have h1 := hcb s h b hs
    unfold Iterate
    rcases hc : callback s h b with ⟨s1, _ | err⟩
    · rw [hc] at h1
      exact ih s1 h1
    · rw [hc] at h1
      exact h1

end bcgo

namespace conveygo

namespace Ledger

theorem iterate_keeps (P : Ledger → Prop)
    (hmark : ∀ l name key, P l → P (l.markProcessed name key))
    (hopen : ∀ l name, P l → P (l.openProcessed name))
    (callback : Ledger → bcgo.Block → Ledger × Option bcgo.Error)
    (hcb : ∀ l b, P l → P (callback l b).1)
    (l : Ledger) (name : String) (chain : bcgo.Chain) (hl : P l) :
    P (l.iterate name chain callback).1 := by
  have h1 : P (bcgo.Iterate (iterateCallback name callback) chain (l.openProcessed name)).1 := by
    apply bcgo.Iterate_keeps P
    · intro s h b hs
      unfold iterateCallback
      by_cases hp : h ∈ s.processed name
      · simpa [hp] using hs
      · simpa [hp] using hcb _ b (hmark s name h hs)
    · exact hopen l name hl
  unfold iterate
  rcases hc : bcgo.Iterate (iterateCallback name callback) chain (l.openProcessed name)
    with ⟨l1, _ | err⟩
  · rw [hc] at h1; exact h1
  · rw [hc] at h1
    cases err <;> exact h1

theorem transactionEntries_keeps (P : Ledger → Prop)
    (htrade : ∀ l s r x, P l → P ((l.RecordSold s x).RecordBought r x)) :
    ∀ (entries : List bcgo.BlockEntry) (l : Ledger), P l → P (transactionEntries entries l).1 := by
  intro entries
  induction entries with
  | nil => intro l hl; simpa [transactionEntries] using hl
  | cons entry rest ih =>
    intro l hl
    unfold transactionEntries
    cases ht : entry.Record.Payload.asTransaction with
    | none => simpa using hl
    | some t => exact ih _ (htrade l _ _ _ hl)

theorem conversationEntries_keeps (P : Ledger → Prop)
    (hburned : ∀ l a x, P l → P (l.RecordBurned a x)) :
    ∀ (entries : List bcgo.BlockEntry) (l : Ledger), P l → P (conversationEntries entries l) := by
  intro entries
  induction entries with
  | nil => intro l hl; simpa [conversationEntries] using hl
  | cons entry rest ih =>
    intro l hl
    unfold conversationEntries
    exact ih _ (hburned l _ _ hl)

theorem reply_keeps (P : Ledger → Prop)
    (hburned : ∀ l a x, P l → P (l.RecordBurned a x))
    (hreward : ∀ l a b x, P l → P ((l.RecordSpent a x).RecordEarned b x))
    (nodes : List (Hash × MessageNode)) (author : String) :
    ∀ (fuel cost : Nat) (prev : Hash) (l : Ledger),
      P l → P (reply nodes author fuel cost prev l).1 := by
  intro fuel
  induction fuel with
  | zero => intro cost prev l hl; simpa [reply] using hl
  | succ fuel ih =>
    intro cost prev l hl
    unfold reply
    cases hg : mapGet nodes prev with
    | none => simpa using hl
    | some previous =>
      by_cases hr : previous.Previous = []
      · simpa [hr] using hburned _ _ _ (hreward l _ _ _ hl)
      · simpa [hr] using ih _ _ _ (hreward l _ _ _ hl)

theorem distribute_keeps (P : Ledger → Prop)
    (hburned : ∀ l a x, P l → P (l.RecordBurned a x))
    (hreward : ∀ l a b x, P l → P ((l.RecordSpent a x).RecordEarned b x))
    (name : String) (maps : MessageMaps) :
    ∀ (todo : List (Hash × MessageNode)) (l : Ledger),
      P l → P (distribute name maps todo l).1 := by
  intro todo
  induction todo with
  | nil => intro l hl; simpa [distribute] using hl
  | cons kn rest ih =>
    intro l hl
    obtain ⟨key, node⟩ := kn
    unfold distribute
    simp only
    split_ifs with h1 h2
    · exact ih l hl
    · exact ih _ (hburned l _ _ hl)
    · have h3 := reply_keeps P hburned hreward maps.nodes node.Author
        (maps.nodes.length + 1) node.Cost node.Previous l hl
      rcases hc : reply maps.nodes node.Author (maps.nodes.length + 1) node.Cost
        node.Previous l with ⟨l1, out⟩
      rw [hc] at h3
      cases out
      · exact ih l1 h3
      all_goals exact h3

theorem markBlocks_keeps (P : Ledger → Prop)
    (hmark : ∀ l name key, P l → P (l.markProcessed name key)) (name : String) :
    ∀ (blocks : List (Hash × Hash)) (l : Ledger), P l → P (markBlocks name blocks l) := by
  intro blocks
  induction blocks with
  | nil => intro l hl; simpa [markBlocks] using hl
  | cons kb rest ih =>
    intro l hl
    obtain ⟨key, block⟩ := kb
    unfold markBlocks
    exact ih _ (hmark l name block hl)

theorem updateMessages_keeps (P : Ledger → Prop)
    (hmark : ∀ l name key, P l → P (l.markProcessed name key))
    (hopen : ∀ l name, P l → P (l.openProcessed name))
    (hburned : ∀ l a x, P l → P (l.RecordBurned a x))
    (hreward : ∀ l a b x, P l → P ((l.RecordSpent a x).RecordEarned b x))
    (l : Ledger) (name : String) (chain : bcgo.Chain) (hl : P l) :
    P (l.updateMessages name chain).1 := by
  unfold updateMessages
  rcases hc : bcgo.Iterate messageCallback chain { blocks := [], nodes := [] }
    with ⟨maps, _ | err⟩
  · have h3 := distribute_keeps P hburned hreward name maps maps.nodes
      (l.openProcessed name) (hopen l name hl)
    simp only
    rcases hd : distribute name maps maps.nodes (l.openProcessed name) with ⟨l1, out⟩
    rw [hd] at h3
    cases out
    · exact markBlocks_keeps P hmark name maps.blocks l1 h3
    all_goals exact h3
  · exact hl

theorem Update_cases (Q : Ledger × Outcome → Prop) (l : Ledger) (name : String)
    (chain : bcgo.Chain)
    (hskip : Q (l, Outcome.ok))
    (hmint : ∀ reward, Q (l.iterate name chain (mintCallback reward)))
    (htransaction : Q (l.iterate name chain transactionCallback))
    (hconversation : Q (l.iterate name chain conversationCallback))
    (hmessage : Q (l.updateMessages name chain)) :
    Q (l.Update name chain) := by
  unfold Update
  by_cases h0 : chain = []
  · rw [if_pos h0]; exact hskip
  rw [if_neg h0]
  by_cases h1 : name = CONVEY_HOUR
  · rw [if_pos h1]; exact hmint _
  rw [if_neg h1]
  by_cases h2 : name = CONVEY_DAY
  · rw [if_pos h2]; exact hmint _
  rw [if_neg h2]
  by_cases h3 : name = CONVEY_WEEK
  · rw [if_pos h3]; exact hmint _
  rw [if_neg h3]
  by_cases h4 : name = CONVEY_YEAR
  · rw [if_pos h4]; exact hmint _
  rw [if_neg h4]
  by_cases h5 : name = CONVEY_DECADE
  · rw [if_pos h5]; exact hmint _
  rw [if_neg h5]
  by_cases h6 : name = CONVEY_CENTURY
  · rw [if_pos h6]; exact hmint _
  rw [if_neg h6]
  by_cases h7 : name = CONVEY_TRANSACTION
  · rw [if_pos h7]; exact htransaction
  rw [if_neg h7]
  by_cases h8 : name = CONVEY_CONVERSATION
  · rw [if_pos h8]; exact hconversation
  rw [if_neg h8]
  by_cases h9 : HasPrefix name CONVEY_PREFIX_MESSAGE = true
  · rw [if_pos h9]; exact hmessage
  rw [if_neg h9]; exact hskip

theorem Update_keeps (P : Ledger → Prop) (hP : Stable P)
    (l : Ledger) (name : String) (chain : bcgo.Chain) (hl : P l) :
    P (l.Update name chain).1 := by
  apply Update_cases (fun r => P r.1)
  · exact hl
  · intro reward
    exact iterate_keeps P hP.mark hP.opened _ (fun l b h => hP.minted l _ _ h) l name chain hl
  · exact iterate_keeps P hP.mark hP.opened _
      (fun l b h => transactionEntries_keeps P hP.trade b.Entry l h) l name chain hl
  · exact iterate_keeps P hP.mark hP.opened _
      (fun l b h => conversationEntries_keeps P hP.burned b.Entry l h) l name chain hl
  · exact updateMessages_keeps P hP.mark hP.opened hP.burned hP.reward l name chain hl

theorem UpdateAll_keeps (P : Ledger → Prop) (hP : Stable P) :
    ∀ (channels : List (String × bcgo.Chain)) (l : Ledger),
      P l → P (l.UpdateAll channels).1 := by
  intro channels
  induction channels with
  | nil => intro l hl; simpa [UpdateAll] using hl
  | cons nc rest ih =>
    intro l hl
    obtain ⟨name, chain⟩ := nc
    have h1 := Update_keeps P hP l name chain hl
    unfold UpdateAll
    rcases hc : l.Update name chain with ⟨l1, out⟩
    rw [hc] at h1
    cases out
    · exact ih l1 h1
    all_goals exact h1

theorem run_keeps (P : Ledger → Prop) (hP : Stable P) :
    ∀ (calls : List Call) (l : Ledger), P l → P (l.run calls) := by
  intro calls
  induction calls with
  | nil => intro l hl; simpa [run] using hl
  | cons c rest ih =>
    intro l hl
    have h1 : P (l.call c) := by
      cases c with
      | update name chain => exact Update_keeps P hP l name chain hl
      | updateAll channels => exact UpdateAll_keeps P hP channels l hl
    exact ih _ h1

end Ledger

theorem Conserved_stable : Stable Conserved := by
  refine ⟨?_, ?_, ?_, ?_, ?_, ?_⟩
  · intro l name key h; exact h
  · intro l name h
    unfold Ledger.openProcessed
    cases mapGet l.Processed name <;> exact h
  · intro l a x h; exact h
  · intro l a x h; exact h
  · intro l s r x h
    refine ⟨h.1, ?_⟩
    show total (Record l.Bought r x) % 2 ^ 64 = total (Record l.Sold s x) % 2 ^ 64
    rw [total_Record_mod, total_Record_mod, Nat.add_mod, h.2, ← Nat.add_mod]
  · intro l a b x h
    refine ⟨?_, h.2⟩
    show total (Record l.Earned b x) % 2 ^ 64 = total (Record l.Spent a x) % 2 ^ 64
    rw [total_Record_mod, total_Record_mod, Nat.add_mod, h.1, ← Nat.add_mod]

end conveygo

/-! ## Earned and spent without wrap-around -/

namespace conveygo

namespace Ledger

theorem openProcessed_fields (l : Ledger) (name : String) :
    (l.openProcessed name).Aliases = l.Aliases ∧ (l.openProcessed name).Minted = l.Minted ∧
    (l.openProcessed name).Burned = l.Burned ∧ (l.openProcessed name).Bought = l.Bought ∧
    (l.openProcessed name).Sold = l.Sold ∧ (l.openProcessed name).Earned = l.Earned ∧
    (l.openProcessed name).Spent = l.Spent := by
  unfold openProcessed
  cases mapGet l.Processed name <;> simp

theorem reply_exact (nodes : List (Hash × MessageNode)) (author : String) :
    ∀ (fuel cost : Nat) (prev : Hash) (l : Ledger),
      total l.Earned = total l.Spent → total l.Spent + cost < 2 ^ 64 →
      total (reply nodes author fuel cost prev l).1.Earned
          = total (reply nodes author fuel cost prev l).1.Spent ∧
        total (reply nodes author fuel cost prev l).1.Spent ≤ total l.Spent + cost := by
  intro fuel
  induction fuel with
  | zero => intro cost prev l h1 h2; simp [reply, h1]
  | succ fuel ih =>
    intro cost prev l h1 h2
    unfold reply
    have hs : total (Record l.Spent author (cost / 2)) = total l.Spent + cost / 2 :=
      total_Record_exact _ _ _ (by omega)
    have he : ∀ b, total (Record l.Earned b (cost / 2)) = total l.Earned + cost / 2 :=
      fun b => total_Record_exact _ _ _ (by omega)
    cases hg : mapGet nodes prev with
    | none => simp [h1]
    | some previous =>
      by_cases hr : previous.Previous = []
      · simp only [hr, if_true]
        simp only [RecordBurned, RecordEarned, RecordSpent]
        rw [hs, he]
        omega
      · simp only [hr, if_false]
        have h3 := ih (cost - cost / 2) previous.Previous
          ((l.RecordSpent author (cost / 2)).RecordEarned previous.Author (cost / 2))
          (by simp only [RecordEarned, RecordSpent]; rw [hs, he]; omega)
          (by simp only [RecordEarned, RecordSpent]; rw [hs]; omega)
        refine ⟨h3.1, le_trans h3.2 ?_⟩
        simp only [RecordEarned, RecordSpent]
        rw [hs]
        omega

theorem distribute_exact (name : String) (maps : MessageMaps) :
    ∀ (todo : List (Hash × MessageNode)) (l : Ledger),
      total l.Earned = total l.Spent →
      total l.Spent + (todo.map fun kn => kn.2.Cost).sum < 2 ^ 64 →
      total (distribute name maps todo l).1.Earned
          = total (distribute name maps todo l).1.Spent ∧
        total (distribute name maps todo l).1.Spent
          ≤ total l.Spent + (todo.map fun kn => kn.2.Cost).sum := by
  intro todo
  induction todo with
  | nil => intro l h1 h2; simp [distribute, h1]
  | cons kn rest ih =>
    intro l h1 h2
    obtain ⟨key, node⟩ := kn
    simp only [List.map_cons, List.sum_cons] at h2 ⊢
    unfold distribute
    simp only
    split_ifs with c1 c2
    · have h3 := ih l h1 (by omega)
      exact ⟨h3.1, by omega⟩
    · have e1 : (l.RecordBurned node.Author node.Cost).Spent = l.Spent := rfl
      have e2 : (l.RecordBurned node.Author node.Cost).Earned = l.Earned := rfl
      have h3 := ih (l.RecordBurned node.Author node.Cost) (by rw [e1, e2]; exact h1)
        (by rw [e1]; omega)
      rw [e1] at h3
      exact ⟨h3.1, by omega⟩
    · have h3 := reply_exact maps.nodes node.Author (maps.nodes.length + 1) node.Cost
        node.Previous l h1 (by omega)
      rcases hc : reply maps.nodes node.Author (maps.nodes.length + 1) node.Cost
        node.Previous l with ⟨l1, out⟩
      rw [hc] at h3
      simp only at h3
      cases out
      · have h4 := ih l1 h3.1 (by omega)
        dsimp only
        exact ⟨h4.1, by omega⟩
      all_goals (dsimp only; exact ⟨h3.1, by omega⟩)

theorem markBlocks_fields (name : String) :
    ∀ (blocks : List (Hash × Hash)) (l : Ledger),
      (markBlocks name blocks l).Aliases = l.Aliases ∧
      (markBlocks name blocks l).Minted = l.Minted ∧
      (markBlocks name blocks l).Burned = l.Burned ∧
      (markBlocks name blocks l).Bought = l.Bought ∧
      (markBlocks name blocks l).Sold = l.Sold ∧
      (markBlocks name blocks l).Earned = l.Earned ∧
      (markBlocks name blocks l).Spent = l.Spent := by
  intro blocks l
  exact markBlocks_keeps
    (fun l' => l'.Aliases = l.Aliases ∧ l'.Minted = l.Minted ∧ l'.Burned = l.Burned ∧
      l'.Bought = l.Bought ∧ l'.Sold = l.Sold ∧ l'.Earned = l.Earned ∧ l'.Spent = l.Spent)
    (fun _ _ _ h => h) name blocks l ⟨rfl, rfl, rfl, rfl, rfl, rfl, rfl⟩

theorem nodesCost_mapSet (nodes : List (Hash × MessageNode)) (key : Hash) (node : MessageNode) :
    ((mapSet nodes key node).map fun kn => kn.2.Cost).sum
      ≤ (nodes.map fun kn => kn.2.Cost).sum + node.Cost := by
  induction nodes with
  | nil => simp [mapSet]
  | cons p rest ih =>
    obtain ⟨a, b⟩ := p
    by_cases e : a = key
    · simp [mapSet, e]
      omega
    · simp only [mapSet, e, if_false, List.map_cons, List.sum_cons]
      omega

theorem messageEntries_cost (blockKey : Hash) :
    ∀ (entries : List bcgo.BlockEntry) (maps : MessageMaps),
      ((messageEntries blockKey entries maps).1.nodes.map fun kn => kn.2.Cost).sum
        ≤ (maps.nodes.map fun kn => kn.2.Cost).sum
          + (entries.map fun entry => Cost entry.Record).sum := by
  intro entries
  induction entries with
  | nil => intro maps; simp [messageEntries]
  | cons entry rest ih =>
    intro maps
    unfold messageEntries
    simp only [List.map_cons, List.sum_cons]
    cases hm : entry.Record.Payload.asMessage with
    | none => simp only; omega
    | some m =>
      simp only
      refine le_trans (ih _) ?_
      have h := nodesCost_mapSet maps.nodes entry.RecordHash
        { Author := entry.Record.Creator, Cost := Cost entry.Record,
          Previous := if 0 < m.Previous.length then m.Previous else [] }
      simp only at h ⊢
      omega

theorem messageWalk_cost :
    ∀ (chain : bcgo.Chain) (maps : MessageMaps),
      ((bcgo.Iterate messageCallback chain maps).1.nodes.map fun kn => kn.2.Cost).sum
        ≤ (maps.nodes.map fun kn => kn.2.Cost).sum + chainCost chain := by
  intro chain
  induction chain with
  | nil => intro maps; simp [bcgo.Iterate]
  | cons hb rest ih =>
    intro maps
    obtain ⟨h, b⟩ := hb
    have h1 := messageEntries_cost h b.Entry maps
    unfold bcgo.Iterate
    simp only [chainCost, List.map_cons, List.sum_cons]
    rcases hc : messageCallback maps h b with ⟨maps1, _ | err⟩
    · have h2 := ih maps1
      simp only [messageCallback] at hc
      rw [hc] at h1
      simp only [chainCost] at h2
      simp only at h1 ⊢
      omega
    · simp only [messageCallback] at hc
      rw [hc] at h1
      simp only at h1 ⊢
      omega

theorem updateMessages_exact (l : Ledger) (name : String) (chain : bcgo.Chain)
    (h1 : total l.Earned = total l.Spent) (h2 : total l.Spent + chainCost chain < 2 ^ 64) :
    total (l.updateMessages name chain).1.Earned = total (l.updateMessages name chain).1.Spent ∧
      total (l.updateMessages name chain).1.Spent ≤ total l.Spent + chainCost chain := by
  unfold updateMessages
  have hcost := messageWalk_cost chain { blocks := [], nodes := [] }
  rcases hc : bcgo.Iterate messageCallback chain { blocks := [], nodes := [] }
    with ⟨maps, _ | err⟩
  · rw [hc] at hcost
    simp only [List.map_nil, List.sum_nil, zero_add] at hcost
    obtain ⟨_, _, _, _, _, he, hs⟩ := openProcessed_fields l name
    have h3 := distribute_exact name maps maps.nodes (l.openProcessed name)
      (by rw [he, hs]; exact h1) (by rw [hs]; omega)
    rw [hs] at h3
    simp only
    rcases hd : distribute name maps maps.nodes (l.openProcessed name) with ⟨l1, out⟩
    rw [hd] at h3
    simp only at h3
    cases out
    · obtain ⟨_, _, _, _, _, he2, hs2⟩ := markBlocks_fields name maps.blocks l1
      dsimp only
      rw [he2, hs2]
      exact ⟨h3.1, by omega⟩
    all_goals (dsimp only; exact ⟨h3.1, by omega⟩)
  · exact ⟨h1, by simp⟩

theorem iterate_rewardless (l : Ledger) (name : String) (chain : bcgo.Chain)
    (callback : Ledger → bcgo.Block → Ledger × Option bcgo.Error)
    (hcb : ∀ l' b, (callback l' b).1.Earned = l'.Earned ∧ (callback l' b).1.Spent = l'.Spent) :
    (l.iterate name chain callback).1.Earned = l.Earned ∧
      (l.iterate name chain callback).1.Spent = l.Spent := by
  apply iterate_keeps (fun l' => l'.Earned = l.Earned ∧ l'.Spent = l.Spent)
  · intro l' _ _ h; exact h
  · intro l' n h
    obtain ⟨_, _, _, _, _, he, hs⟩ := openProcessed_fields l' n
    rw [he, hs]; exact h
  · intro l' b h
    obtain ⟨he, hs⟩ := hcb l' b
    rw [he, hs]; exact h
  · exact ⟨rfl, rfl⟩

theorem Update_exact (l : Ledger) (name : String) (chain : bcgo.Chain)
    (h1 : total l.Earned = total l.Spent) (h2 : total l.Spent + chainCost chain < 2 ^ 64) :
    total (l.Update name chain).1.Earned = total (l.Update name chain).1.Spent ∧
      total (l.Update name chain).1.Spent ≤ total l.Spent + chainCost chain := by
  have hfix : ∀ callback : Ledger → bcgo.Block → Ledger × Option bcgo.Error,
      (∀ l' b, (callback l' b).1.Earned = l'.Earned ∧ (callback l' b).1.Spent = l'.Spent) →
      total (l.iterate name chain callback).1.Earned
          = total (l.iterate name chain callback).1.Spent ∧
        total (l.iterate name chain callback).1.Spent ≤ total l.Spent + chainCost chain := by
    intro callback hcb
    obtain ⟨he, hs⟩ := iterate_rewardless l name chain callback hcb
    rw [he, hs]
    exact ⟨h1, by omega⟩
  apply Update_cases (fun r => total r.1.Earned = total r.1.Spent ∧
      total r.1.Spent ≤ total l.Spent + chainCost chain)
  · exact ⟨h1, by simp⟩
  · intro reward
    exact hfix _ (fun l' b => ⟨rfl, rfl⟩)
  · apply hfix
    intro l' b
    exact transactionEntries_keeps (fun l2 => l2.Earned = l'.Earned ∧ l2.Spent = l'.Spent)
      (fun _ _ _ _ h => h) b.Entry l' ⟨rfl, rfl⟩
  · apply hfix
    intro l' b
    exact conversationEntries_keeps (fun l2 => l2.Earned = l'.Earned ∧ l2.Spent = l'.Spent)
      (fun _ _ _ h => h) b.Entry l' ⟨rfl, rfl⟩
  · exact updateMessages_exact l name chain h1 h2

theorem UpdateAll_exact :
    ∀ (channels : List (String × bcgo.Chain)) (l : Ledger),
      total l.Earned = total l.Spent →
      total l.Spent + (channels.map fun nc => chainCost nc.2).sum < 2 ^ 64 →
      total (l.UpdateAll channels).1.Earned = total (l.UpdateAll channels).1.Spent ∧
        total (l.UpdateAll channels).1.Spent
          ≤ total l.Spent + (channels.map fun nc => chainCost nc.2).sum := by
  intro channels
  induction channels with
  | nil => intro l h1 h2; simp [UpdateAll, h1]
  | cons nc rest ih =>
    intro l h1 h2
    obtain ⟨name, chain⟩ := nc
    simp only [List.map_cons, List.sum_cons] at h2 ⊢
    have h3 := Update_exact l name chain h1 (by omega)
    unfold UpdateAll
    rcases hc : l.Update name chain with ⟨l1, out⟩
    rw [hc] at h3
    simp only at h3
    cases out
    · have h4 := ih l1 h3.1 (by omega)
      dsimp only
      exact ⟨h4.1, by omega⟩
    all_goals (dsimp only; exact ⟨h3.1, by omega⟩)

theorem run_exact :
    ∀ (calls : List Call) (l : Ledger),
      total l.Earned = total l.Spent →
      total l.Spent + (calls.map Call.cost).sum < 2 ^ 64 →
      total (l.run calls).Earned = total (l.run calls).Spent := by
  intro calls
  induction calls with
  | nil => intro l h1 _; simpa [run] using h1
  | cons c rest ih =>
    intro l h1 h2
    simp only [List.map_cons, List.sum_cons] at h2
    have h3 : total (l.call c).Earned = total (l.call c).Spent ∧
        total (l.call c).Spent ≤ total l.Spent + c.cost := by
      cases c with
      | update name chain => exact Update_exact l name chain h1 (by simp only [Call.cost] at h2; omega)
      | updateAll channels =>
        exact UpdateAll_exact channels l h1 (by simp only [Call.cost] at h2; omega)
    exact ih (l.call c) h3.1 (by omega)

end Ledger

end conveygo

/-! ## The branch `Update` takes, and a second `Update` on the same head -/

namespace conveygo

namespace Ledger

theorem Update_branch (name : String) (chain : bcgo.Chain) :
    (∀ l : Ledger, l.Update name chain = (l, Outcome.ok)) ∨
    (chain ≠ [] ∧ ∃ reward, ∀ l : Ledger,
      l.Update name chain = l.iterate name chain (mintCallback reward)) ∨
    (chain ≠ [] ∧ ∀ l : Ledger, l.Update name chain = l.iterate name chain transactionCallback) ∨
    (chain ≠ [] ∧ ∀ l : Ledger, l.Update name chain = l.iterate name chain conversationCallback) ∨
    (∀ l : Ledger, l.Update name chain = l.updateMessages name chain) := by
  have hm : ∀ reward, chain ≠ [] →
      (∀ l : Ledger, l.Update name chain = l.iterate name chain (mintCallback reward)) →
      ((∀ l : Ledger, l.Update name chain = (l, Outcome.ok)) ∨
      (chain ≠ [] ∧ ∃ reward, ∀ l : Ledger,
        l.Update name chain = l.iterate name chain (mintCallback reward)) ∨
      (chain ≠ [] ∧ ∀ l : Ledger,
        l.Update name chain = l.iterate name chain transactionCallback) ∨
      (chain ≠ [] ∧ ∀ l : Ledger,
        l.Update name chain = l.iterate name chain conversationCallback) ∨
      (∀ l : Ledger, l.Update name chain = l.updateMessages name chain)) :=
    fun reward h0 h => Or.inr (Or.inl ⟨h0, reward, h⟩)
  by_cases h0 : chain = []
  · left; intro l; unfold Update; rw [if_pos h0]
  by_cases h1 : name = CONVEY_HOUR
  · exact hm _ h0 (fun l => by unfold Update; rw [if_neg h0, if_pos h1])
  by_cases h2 : name = CONVEY_DAY
  · exact hm _ h0 (fun l => by unfold Update; rw [if_neg h0, if_neg h1, if_pos h2])
  by_cases h3 : name = CONVEY_WEEK
  · exact hm _ h0 (fun l => by unfold Update; rw [if_neg h0, if_neg h1, if_neg h2, if_pos h3])
  by_cases h4 : name = CONVEY_YEAR
  · exact hm _ h0 (fun l => by
      unfold Update; rw [if_neg h0, if_neg h1, if_neg h2, if_neg h3, if_pos h4])
  by_cases h5 : name = CONVEY_DECADE
  · exact hm _ h0 (fun l => by
      unfold Update; rw [if_neg h0, if_neg h1, if_neg h2, if_neg h3, if_neg h4, if_pos h5])
  by_cases h6 : name = CONVEY_CENTURY
  · exact hm _ h0 (fun l => by
      unfold Update
      rw [if_neg h0, if_neg h1, if_neg h2, if_neg h3, if_neg h4, if_neg h5, if_pos h6])
  by_cases h7 : name = CONVEY_TRANSACTION
  · right; right; left
    refine ⟨h0, fun l => ?_⟩
    unfold Update
    rw [if_neg h0, if_neg h1, if_neg h2, if_neg h3, if_neg h4, if_neg h5, if_neg h6, if_pos h7]
  by_cases h8 : name = CONVEY_CONVERSATION
  · right; right; right; left
    refine ⟨h0, fun l => ?_⟩
    unfold Update
    rw [if_neg h0, if_neg h1, if_neg h2, if_neg h3, if_neg h4, if_neg h5, if_neg h6, if_neg h7,
      if_pos h8]
  by_cases h9 : HasPrefix name CONVEY_PREFIX_MESSAGE = true
  · right; right; right; right
    intro l
    unfold Update
    rw [if_neg h0, if_neg h1, if_neg h2, if_neg h3, if_neg h4, if_neg h5, if_neg h6, if_neg h7,
      if_neg h8, if_pos h9]
  · left
    intro l
    unfold Update
    rw [if_neg h0, if_neg h1, if_neg h2, if_neg h3, if_neg h4, if_neg h5, if_neg h6, if_neg h7,
      if_neg h8, if_neg h9]

theorem processed_congr (l l' : Ledger) (name : String) (h : l'.Processed = l.Processed) :
    l'.processed name = l.processed name := by
  unfold processed
  rw [h]

theorem processed_markProcessed (l : Ledger) (name : String) (key : Hash) :
    (l.markProcessed name key).processed name = setAdd (l.processed name) key := by
  simp [processed, markProcessed, mapGet_mapSet_self]

theorem processed_markProcessed_other (l : Ledger) (name other : String) (key : Hash)
    (h : name ≠ other) : (l.markProcessed name key).processed other = l.processed other := by
  simp [processed, markProcessed, mapGet_mapSet, h]

theorem processed_openProcessed (l : Ledger) (name other : String) :
    (l.openProcessed name).processed other = l.processed other := by
  unfold openProcessed
  cases hg : mapGet l.Processed name with
  | some set => rfl
  | none =>
    by_cases e : name = other
    · subst e
      simp [processed, mapGet_mapSet_self, hg]
    · simp [processed, mapGet_mapSet, e]

theorem opened_of_mem (l : Ledger) (name : String) (key : Hash) (h : key ∈ l.processed name) :
    ∃ set, mapGet l.Processed name = some set := by
  unfold processed at h
  cases hg : mapGet l.Processed name with
  | some set => exact ⟨set, rfl⟩
  | none => rw [hg] at h; simp at h

theorem openProcessed_of_opened (l : Ledger) (name : String)
    (h : ∃ set, mapGet l.Processed name = some set) : l.openProcessed name = l := by
  obtain ⟨set, hs⟩ := h
  simp [openProcessed, hs]

theorem opened_openProcessed (l : Ledger) (name : String) :
    ∃ set, mapGet (l.openProcessed name).Processed name = some set := by
  unfold openProcessed
  cases hg : mapGet l.Processed name with
  | some set => exact ⟨set, hg⟩
  | none => exact ⟨[], by simp [mapGet_mapSet_self]⟩

theorem markProcessed_of_mem (l : Ledger) (name : String) (key : Hash)
    (h : key ∈ l.processed name) : l.markProcessed name key = l := by
  obtain ⟨set, hs⟩ := opened_of_mem l name key h
  have h1 : l.processed name = set := by simp [processed, hs]
  unfold markProcessed
  rw [setAdd_of_mem _ _ h, h1, mapSet_of_mapGet _ _ _ hs]

theorem iterate_fst (l : Ledger) (name : String) (chain : bcgo.Chain)
    (callback : Ledger → bcgo.Block → Ledger × Option bcgo.Error) :
    (l.iterate name chain callback).1
      = (bcgo.Iterate (iterateCallback name callback) chain (l.openProcessed name)).1 := by
  unfold iterate
  rcases bcgo.Iterate (iterateCallback name callback) chain (l.openProcessed name)
    with ⟨l1, _ | err⟩
  · rfl
  · cases err <;> rfl

theorem iterateCallback_mem (name : String)
    (callback : Ledger → bcgo.Block → Ledger × Option bcgo.Error)
    (hcb : ∀ l b, (callback l b).1.Processed = l.Processed) (key : Hash)
    (l : Ledger) (h : Hash) (b : bcgo.Block) (hl : key ∈ l.processed name) :
    key ∈ (iterateCallback name callback l h b).1.processed name := by
  unfold iterateCallback
  by_cases hp : h ∈ l.processed name
  · simpa [hp] using hl
  · simp only [hp, if_false]
    rw [processed_congr _ _ name (hcb _ b), processed_markProcessed, mem_setAdd]
    exact Or.inl hl

theorem head_mem_iterate (l : Ledger) (name : String) (h : Hash) (b : bcgo.Block)
    (rest : bcgo.Chain) (callback : Ledger → bcgo.Block → Ledger × Option bcgo.Error)
    (hcb : ∀ l b, (callback l b).1.Processed = l.Processed) :
    h ∈ (l.iterate name ((h, b) :: rest) callback).1.processed name := by
  rw [iterate_fst]
  have h1 : h ∈ (iterateCallback name callback (l.openProcessed name) h b).1.processed name := by
    unfold iterateCallback
    by_cases hp : h ∈ (l.openProcessed name).processed name
    · simp [hp]
    · simp only [hp, if_false]
      rw [processed_congr _ _ name (hcb _ b), processed_markProcessed, mem_setAdd]
      exact Or.inr rfl
  unfold bcgo.Iterate
  rcases hc : iterateCallback name callback (l.openProcessed name) h b with ⟨s1, _ | err⟩
  · rw [hc] at h1
    exact bcgo.Iterate_keeps (fun l' => h ∈ l'.processed name) _
      (fun s h' b' hs => iterateCallback_mem name callback hcb h s h' b' hs) rest s1 h1
  · rw [hc] at h1
    exact h1

theorem iterate_again (l : Ledger) (name : String) (chain : bcgo.Chain)
    (callback : Ledger → bcgo.Block → Ledger × Option bcgo.Error)
    (hcb : ∀ l b, (callback l b).1.Processed = l.Processed) (hne : chain ≠ []) :
    (l.iterate name chain callback).1.iterate name chain callback
      = ((l.iterate name chain callback).1, Outcome.ok) := by
  cases chain with
  | nil => exact absurd rfl hne
  | cons hb rest =>
    obtain ⟨h, b⟩ := hb
    have h1 := head_mem_iterate l name h b rest callback hcb
    generalize (l.iterate name ((h, b) :: rest) callback).1 = l1 at h1 ⊢
    unfold iterate
    rw [openProcessed_of_opened l1 name (opened_of_mem l1 name h h1)]
    unfold bcgo.Iterate
    simp [iterateCallback, h1]

theorem transactionEntries_Processed (entries : List bcgo.BlockEntry) (l : Ledger) :
    (transactionEntries entries l).1.Processed = l.Processed :=
  transactionEntries_keeps (fun l' => l'.Processed = l.Processed) (fun _ _ _ _ h => h)
    entries l rfl

theorem conversationEntries_Processed (entries : List bcgo.BlockEntry) (l : Ledger) :
    (conversationEntries entries l).Processed = l.Processed :=
  conversationEntries_keeps (fun l' => l'.Processed = l.Processed) (fun _ _ _ h => h)
    entries l rfl

end Ledger

end conveygo

/-! ## A second `Update` of a message chain -/

theorem mapGet_of_mem {κ ν : Type} [DecidableEq κ] (m : List (κ × ν)) (k : κ) (v : ν)
    (h : (k, v) ∈ m) : ∃ v', mapGet m k = some v' := by
  induction m with
  | nil => simp at h
  | cons p rest ih =>
    obtain ⟨a, b⟩ := p
    by_cases e : a = k
    · exact ⟨b, by simp [mapGet, e]⟩
    · have h1 : (k, v) ∈ rest := by
        rcases List.mem_cons.mp h with h2 | h2
        · exact absurd (congrArg Prod.fst h2).symm e
        · exact h2
      obtain ⟨v', hv⟩ := ih h1
      exact ⟨v', by simp [mapGet, e, hv]⟩

theorem mem_of_mapGet {κ ν : Type} [DecidableEq κ] (m : List (κ × ν)) (k : κ) (v : ν)
    (h : mapGet m k = some v) : (k, v) ∈ m := by
  induction m with
  | nil => simp [mapGet] at h
  | cons p rest ih =>
    obtain ⟨a, b⟩ := p
    by_cases e : a = k
    · simp [mapGet, e] at h
      simp [e, h]
    · simp [mapGet, e] at h
      exact List.mem_cons_of_mem _ (ih h)

namespace conveygo

namespace Ledger

theorem messageEntries_covered (blockKey : Hash) :
    ∀ (entries : List bcgo.BlockEntry) (maps : MessageMaps),
      (∀ key, (∃ n, mapGet maps.nodes key = some n) → ∃ b, mapGet maps.blocks key = some b) →
      ∀ key, (∃ n, mapGet (messageEntries blockKey entries maps).1.nodes key = some n) →
        ∃ b, mapGet (messageEntries blockKey entries maps).1.blocks key = some b := by
  intro entries
  induction entries with
  | nil => intro maps h; simpa [messageEntries] using h
  | cons entry rest ih =>
    intro maps h
    unfold messageEntries
    cases hm : entry.Record.Payload.asMessage with
    | none =>
      intro key hk
      simp only at hk ⊢
      rw [mapGet_mapSet]
      by_cases e : entry.RecordHash = key
      · exact ⟨blockKey, by simp [e]⟩
      · simpa [e] using h key hk
    | some m =>
      apply ih
      intro key hk
      simp only at hk ⊢
      rw [mapGet_mapSet] at hk ⊢
      by_cases e : entry.RecordHash = key
      · exact ⟨blockKey, by simp [e]⟩
      · simp only [e, if_false] at hk ⊢
        exact h key hk

theorem messageWalk_covered (chain : bcgo.Chain) :
    ∀ key, (∃ n, mapGet (bcgo.Iterate messageCallback chain
        { blocks := [], nodes := [] }).1.nodes key = some n) →
      ∃ b, mapGet (bcgo.Iterate messageCallback chain
        { blocks := [], nodes := [] }).1.blocks key = some b := by
  apply bcgo.Iterate_keeps
    (fun maps : MessageMaps =>
      ∀ key, (∃ n, mapGet maps.nodes key = some n) → ∃ b, mapGet maps.blocks key = some b)
  · intro maps h b hm
    exact messageEntries_covered h b.Entry maps hm
  · intro key hk
    simp [mapGet] at hk

theorem mem_processed_markProcessed (l : Ledger) (name other : String) (key x : Hash)
    (h : x ∈ l.processed name) : x ∈ (l.markProcessed other key).processed name := by
  by_cases e : other = name
  · subst e
    rw [processed_markProcessed, mem_setAdd]
    exact Or.inl h
  · rw [processed_markProcessed_other _ _ _ _ e]
    exact h

theorem markBlocks_marks (name : String) :
    ∀ (blocks : List (Hash × Hash)) (l : Ledger) (kb : Hash × Hash),
      kb ∈ blocks → kb.2 ∈ (markBlocks name blocks l).processed name := by
  intro blocks
  induction blocks with
  | nil => intro l kb h; simp at h
  | cons p rest ih =>
    intro l kb h
    obtain ⟨key, block⟩ := p
    unfold markBlocks
    rcases List.mem_cons.mp h with h1 | h1
    · subst h1
      apply markBlocks_keeps (fun l' => block ∈ l'.processed name)
      · intro l' other k hl
        exact mem_processed_markProcessed l' name other k block hl
      · rw [processed_markProcessed, mem_setAdd]
        exact Or.inr rfl
    · exact ih _ kb h1

theorem distribute_skip (name : String) (maps : MessageMaps) :
    ∀ (todo : List (Hash × MessageNode)) (l : Ledger),
      (∀ kn ∈ todo, ∃ b, mapGet maps.blocks kn.1 = some b ∧ b ∈ l.processed name) →
      distribute name maps todo l = (l, Outcome.ok) := by
  intro todo
  induction todo with
  | nil => intro l _; simp [distribute]
  | cons kn rest ih =>
    intro l h
    obtain ⟨key, node⟩ := kn
    obtain ⟨b, hb, hp⟩ := h (key, node) (List.mem_cons_self _ _)
    unfold distribute
    simp only [hb, hp, if_true]
    exact ih l (fun kn hk => h kn (List.mem_cons_of_mem _ hk))

theorem markBlocks_skip (name : String) :
    ∀ (blocks : List (Hash × Hash)) (l : Ledger),
      (∀ kb ∈ blocks, kb.2 ∈ l.processed name) → markBlocks name blocks l = l := by
  intro blocks
  induction blocks with
  | nil => intro l _; simp [markBlocks]
  | cons p rest ih =>
    intro l h
    obtain ⟨key, block⟩ := p
    unfold markBlocks
    rw [markProcessed_of_mem l name block (h (key, block) (List.mem_cons_self _ _))]
    exact ih l (fun kb hk => h kb (List.mem_cons_of_mem _ hk))

theorem distribute_Processed (name : String) (maps : MessageMaps)
    (todo : List (Hash × MessageNode)) (l : Ledger) :
    (distribute name maps todo l).1.Processed = l.Processed :=
  distribute_keeps (fun l' => l'.Processed = l.Processed) (fun _ _ _ h => h)
    (fun _ _ _ _ h => h) name maps todo l rfl

theorem opened_markBlocks (name : String) (blocks : List (Hash × Hash)) (l : Ledger)
    (h : ∃ set, mapGet l.Processed name = some set) :
    ∃ set, mapGet (markBlocks name blocks l).Processed name = some set := by
  apply markBlocks_keeps (fun l' => ∃ set, mapGet l'.Processed name = some set)
  · intro l' other key hl
    obtain ⟨set, hs⟩ := hl
    by_cases e : other = name
    · subst e
      exact ⟨setAdd (l'.processed other) key, by simp [markProcessed, mapGet_mapSet_self]⟩
    · exact ⟨set, by simp [markProcessed, mapGet_mapSet, e, hs]⟩
  · exact h

theorem updateMessages_again (l : Ledger) (name : String) (chain : bcgo.Chain)
    (hok : (l.updateMessages name chain).2 = Outcome.ok) :
    (l.updateMessages name chain).1.updateMessages name chain
      = ((l.updateMessages name chain).1, Outcome.ok) := by
  have hcov := messageWalk_covered chain
  unfold updateMessages at hok ⊢
  rcases hc : bcgo.Iterate messageCallback chain { blocks := [], nodes := [] }
    with ⟨maps, _ | err⟩
  · rw [hc] at hok hcov
    simp only at hok hcov ⊢
    have hproc := distribute_Processed name maps maps.nodes (l.openProcessed name)
    rcases hd : distribute name maps maps.nodes (l.openProcessed name) with ⟨l1, out⟩
    rw [hd] at hok hproc
    cases out
    case ok =>
      simp only at hproc ⊢
      have hopen1 : ∃ set, mapGet l1.Processed name = some set := by
        rw [hproc]; exact opened_openProcessed l name
      have hopen2 := opened_markBlocks name maps.blocks l1 hopen1
      have hmarks := markBlocks_marks name maps.blocks l1
      generalize markBlocks name maps.blocks l1 = l2 at hopen2 hmarks ⊢
      rw [openProcessed_of_opened l2 name hopen2]
      have hskip : distribute name maps maps.nodes l2 = (l2, Outcome.ok) := by
        apply distribute_skip
        intro kn hk
        obtain ⟨n, hn⟩ := mapGet_of_mem maps.nodes kn.1 kn.2 hk
        obtain ⟨b, hb⟩ := hcov kn.1 ⟨n, hn⟩
        exact ⟨b, hb, hmarks (kn.1, b) (mem_of_mapGet _ _ _ hb)⟩
      rw [hskip]
      simp only
      rw [markBlocks_skip name maps.blocks l2 (fun kb hk => hmarks kb hk)]
    all_goals simp at hok
  · rw [hc] at hok
    simp at hok

theorem Update_again (l : Ledger) (name : String) (chain : bcgo.Chain)
    (hok : (l.Update name chain).2 = Outcome.ok) :
    (l.Update name chain).1.Update name chain = ((l.Update name chain).1, Outcome.ok) := by
  rcases Update_branch name chain with h | ⟨hne, reward, h⟩ | ⟨hne, h⟩ | ⟨hne, h⟩ | h
  · rw [h l, h l]
  · rw [h l, h]
    exact iterate_again l name chain _ (fun _ _ => rfl) hne
  · rw [h l, h]
    exact iterate_again l name chain _
      (fun l' b => transactionEntries_Processed b.Entry l') hne
  · rw [h l, h]
    exact iterate_again l name chain _
      (fun l' b => conversationEntries_Processed b.Entry l') hne
  · rw [h l] at hok ⊢
    rw [h]
    exact updateMessages_again l name chain hok

end Ledger

end conveygo

/-! ## The walk of a reply up its ancestors -/

theorem mapGet_filter_ne {κ ν : Type} [DecidableEq κ] (m : List (κ × ν)) (q p : κ)
    (h : p ≠ q) : mapGet (m.filter fun kn => kn.1 ≠ q) p = mapGet m p := by
  induction m with
  | nil => rfl
  | cons e rest ih =>
    obtain ⟨a, b⟩ := e
    by_cases e1 : a = q
    · have e2 : ¬ a = p := fun e => h (e ▸ e1)
      rw [List.filter_cons_of_neg (by simp [e1]), ih]
      simp only [mapGet, e2, if_false]
    · rw [List.filter_cons_of_pos (by simp [e1])]
      by_cases e2 : a = p
      · simp only [mapGet, e2, if_true]
      · simp only [mapGet, e2, if_false]
        exact ih

namespace conveygo

theorem remaining_shift (c : Nat) : ∀ k, remaining c (k + 1) = remaining (c - c / 2) k := by
  intro k
  induction k with
  | zero => rfl
  | succ k ih =>
    show remaining c (k + 1) - remaining c (k + 1) / 2
      = remaining (c - c / 2) k - remaining (c - c / 2) k / 2
    rw [ih]

theorem shares_succ (c d : Nat) : shares c (d + 1) = c / 2 :: shares (c - c / 2) d := by
  unfold shares
  rw [List.range_succ_eq_map, List.map_cons, List.map_map]
  congr 1
  apply List.map_congr_left
  intro k _
  simp only [Function.comp, Nat.succ_eq_add_one]
  rw [remaining_shift]

theorem shares_sum (c : Nat) : ∀ d, (shares c d).sum + remaining c d = c := by
  intro d
  induction d generalizing c with
  | zero => simp [shares, remaining]
  | succ d ih =>
    rw [shares_succ, List.sum_cons, remaining_shift]
    have h := ih (c - c / 2)
    have h2 : c / 2 ≤ c := Nat.div_le_self c 2
    omega

theorem credit_cons (c : Nat) (a : MessageNode) (rest : List MessageNode) (x : String) :
    credit c (a :: rest) x
      = (if a.Author = x then c / 2 else 0) + credit (c - c / 2) rest x := by
  unfold credit
  rw [List.length_cons, shares_succ, List.zip_cons_cons, List.filter_cons]
  by_cases h : a.Author = x <;> simp [h]

theorem credit_le (c : Nat) (ancestors : List MessageNode) (x : String) :
    credit c ancestors x ≤ (shares c ancestors.length).sum := by
  induction ancestors generalizing c with
  | nil => simp [credit]
  | cons a rest ih =>
    rw [credit_cons, List.length_cons, shares_succ, List.sum_cons]
    have h := ih (c - c / 2)
    by_cases e : a.Author = x <;> simp [e] <;> omega

theorem Ancestors_unique (nodes : List (Hash × MessageNode)) :
    ∀ (as bs : List MessageNode) (p : Hash),
      Ancestors nodes p as → Ancestors nodes p bs → as = bs := by
  intro as
  induction as with
  | nil => intro bs p h; exact absurd h (by simp [Ancestors])
  | cons a rest ih =>
    intro bs p ha hb
    cases bs with
    | nil => exact absurd hb (by simp [Ancestors])
    | cons b rest' =>
      cases rest with
      | nil =>
        cases rest' with
        | nil =>
          simp only [Ancestors] at ha hb
          have e : some a = some b := ha.1.symm.trans hb.1
          simp only [Option.some.injEq] at e
          rw [e]
        | cons m' rest'' =>
          simp only [Ancestors] at ha hb
          have e : some a = some b := ha.1.symm.trans hb.1
          simp only [Option.some.injEq] at e
          exact absurd (e ▸ ha.2) hb.2.1
      | cons m rest1 =>
        cases rest' with
        | nil =>
          simp only [Ancestors] at ha hb
          have e : some a = some b := ha.1.symm.trans hb.1
          simp only [Option.some.injEq] at e
          exact absurd (e ▸ hb.2) ha.2.1
        | cons m' rest'' =>
          simp only [Ancestors] at ha hb
          have e : some a = some b := ha.1.symm.trans hb.1
          simp only [Option.some.injEq] at e
          subst e
          rw [ih (m' :: rest'') a.Previous ha.2.2 hb.2.2]

theorem Ancestors_avoid (nodes : List (Hash × MessageNode)) (q : Hash) :
    ∀ (as : List MessageNode) (p : Hash),
      Ancestors nodes p as →
      (∀ bs, Ancestors nodes q bs → as.length < bs.length) →
      Ancestors (nodes.filter fun kn => kn.1 ≠ q) p as := by
  intro as
  induction as with
  | nil => intro p h; exact absurd h (by simp [Ancestors])
  | cons a rest ih =>
    intro p ha hq
    have hpq : p ≠ q := by
      intro e
      subst e
      exact absurd (hq _ ha) (lt_irrefl _)
    cases rest with
    | nil =>
      simp only [Ancestors] at ha ⊢
      rw [mapGet_filter_ne _ _ _ hpq]
      exact ha
    | cons m rest1 =>
      simp only [Ancestors] at ha ⊢
      rw [mapGet_filter_ne _ _ _ hpq]
      refine ⟨ha.1, ha.2.1, ih a.Previous ha.2.2 ?_⟩
      intro bs hb
      have := hq bs hb
      simp only [List.length_cons] at this ⊢
      omega

theorem Ancestors_length_le :
    ∀ (as : List MessageNode) (nodes : List (Hash × MessageNode)) (p : Hash),
      Ancestors nodes p as → as.length ≤ nodes.length := by
  intro as
  induction as with
  | nil => intro nodes p h; exact absurd h (by simp [Ancestors])
  | cons a rest ih =>
    intro nodes p ha
    have hget : mapGet nodes p = some a := by
      cases rest with
      | nil => exact ha.1
      | cons m rest1 => exact ha.1
    have hmem := mem_of_mapGet nodes p a hget
    have hlt : (nodes.filter fun kn => kn.1 ≠ p).length < nodes.length := by
      rw [List.length_filter_lt_length_iff_exists]
      exact ⟨(p, a), hmem, by simp⟩
    cases rest with
    | nil =>
      simp only [List.length_cons, List.length_nil]
      omega
    | cons m rest1 =>
      have hrest : Ancestors nodes a.Previous (m :: rest1) := ha.2.2
      have h1 := Ancestors_avoid nodes p (m :: rest1) a.Previous hrest (by
        intro bs hb
        rw [← Ancestors_unique nodes _ _ p ha hb]
        simp)
      have h2 := ih _ _ h1
      simp only [List.length_cons] at h2 ⊢
      omega

end conveygo

namespace conveygo

theorem credit_nil (c : Nat) (x : String) : credit c [] x = 0 := by
  simp [credit]

theorem credit_of_not_mem (ancestors : List MessageNode) (x : String) :
    ∀ c, x ∉ ancestors.map MessageNode.Author → credit c ancestors x = 0 := by
  induction ancestors with
  | nil => intro c _; exact credit_nil c x
  | cons a rest ih =>
    intro c h
    simp only [List.map_cons, List.mem_cons, not_or] at h
    have h1 : ¬ a.Author = x := fun e => h.1 e.symm
    rw [credit_cons, ih _ h.2]
    simp [h1]

theorem shares_one_sum (c : Nat) : (shares c 1).sum = c / 2 := by
  rw [shares_succ]
  simp [shares]

namespace Ledger

/-- One round of the walk: the reply author spends `half`, the author of the
node above earns it. -/
theorem reward_fields (l : Ledger) (author above : String) (half : Nat) :
    (∀ x, amountOf ((l.RecordSpent author half).RecordEarned above half).Earned x
      = if above = x then (amountOf l.Earned above + half) % 2 ^ 64 else amountOf l.Earned x) ∧
    (∀ x, amountOf ((l.RecordSpent author half).RecordEarned above half).Spent x
      = if author = x then (amountOf l.Spent author + half) % 2 ^ 64 else amountOf l.Spent x) ∧
    ((l.RecordSpent author half).RecordEarned above half).Burned = l.Burned ∧
    ((l.RecordSpent author half).RecordEarned above half).Minted = l.Minted ∧
    ((l.RecordSpent author half).RecordEarned above half).Bought = l.Bought ∧
    ((l.RecordSpent author half).RecordEarned above half).Sold = l.Sold ∧
    ((l.RecordSpent author half).RecordEarned above half).Processed = l.Processed ∧
    (total l.Earned + half < 2 ^ 64 →
      total ((l.RecordSpent author half).RecordEarned above half).Earned
        = total l.Earned + half) := by
  refine ⟨fun x => ?_, fun x => ?_, rfl, rfl, rfl, rfl, rfl, fun h => ?_⟩
  · exact amountOf_Record l.Earned above x half
  · exact amountOf_Record l.Spent author x half
  · exact total_Record_exact l.Earned above half h

theorem reply_walk (nodes : List (Hash × MessageNode)) (author : String) :
    ∀ (ancestors : List MessageNode) (fuel c : Nat) (prev : Hash) (l : Ledger),
      Ancestors nodes prev ancestors → ancestors.length ≤ fuel →
      (reply nodes author fuel c prev l).2 = Outcome.ok ∧
      (∀ x, amountOf (reply nodes author fuel c prev l).1.Earned x
        = if x ∈ ancestors.map MessageNode.Author
          then (amountOf l.Earned x + credit c ancestors x) % 2 ^ 64
          else amountOf l.Earned x) ∧
      (∀ x, amountOf (reply nodes author fuel c prev l).1.Spent x
        = if x = author
          then (amountOf l.Spent x + (shares c ancestors.length).sum) % 2 ^ 64
          else amountOf l.Spent x) ∧
      (∀ x, amountOf (reply nodes author fuel c prev l).1.Burned x
        = if x = author
          then (amountOf l.Burned x + remaining c ancestors.length) % 2 ^ 64
          else amountOf l.Burned x) ∧
      (reply nodes author fuel c prev l).1.Minted = l.Minted ∧
      (reply nodes author fuel c prev l).1.Bought = l.Bought ∧
      (reply nodes author fuel c prev l).1.Sold = l.Sold ∧
      (reply nodes author fuel c prev l).1.Processed = l.Processed ∧
      (total l.Earned + c < 2 ^ 64 →
        total (reply nodes author fuel c prev l).1.Earned
          = total l.Earned + (shares c ancestors.length).sum) := by
  intro ancestors
  induction ancestors with
  | nil => intro fuel c prev l h; exact absurd h (by simp [Ancestors])
  | cons a rest ih =>
    intro fuel c prev l ha hfuel
    cases fuel with
    | zero => simp at hfuel
    | succ fuel =>
      obtain ⟨hE, hS, hB, hM, hBo, hSo, hP, hT⟩ := reward_fields l author a.Author (c / 2)
      have hhalf : c / 2 ≤ c := Nat.div_le_self c 2
      cases rest with
      | nil =>
        have hget : mapGet nodes prev = some a := ha.1
        have hroot : a.Previous = [] := ha.2
        have hr : reply nodes author (fuel + 1) c prev l
            = ((((l.RecordSpent author (c / 2)).RecordEarned a.Author (c / 2)).RecordBurned
                author (c - c / 2)), Outcome.ok) := by
          simp only [reply, hget, hroot, if_true]
        rw [hr]
        refine ⟨rfl, fun x => ?_, fun x => ?_, fun x => ?_, hM, hBo, hSo, hP, fun h => ?_⟩
        · show amountOf ((l.RecordSpent author (c / 2)).RecordEarned a.Author (c / 2)).Earned x
            = _
          rw [hE x, credit_cons, credit_nil]
          by_cases e : a.Author = x
          · subst e; simp
          · have e' : ¬ x = a.Author := fun h => e h.symm
            simp [e, e']
        · show amountOf ((l.RecordSpent author (c / 2)).RecordEarned a.Author (c / 2)).Spent x
            = _
          rw [hS x]
          by_cases e : author = x
          · subst e; simp [shares_one_sum]
          · have e' : ¬ x = author := fun h => e h.symm
            simp [e, e']
        · show amountOf (Record l.Burned author (c - c / 2)) x = _
          rw [amountOf_Record]
          by_cases e : author = x
          · subst e; simp [remaining]
          · have e' : ¬ x = author := fun h => e h.symm
            simp [e, e']
        · show total ((l.RecordSpent author (c / 2)).RecordEarned a.Author (c / 2)).Earned = _
          rw [hT (by omega), List.length_singleton, shares_one_sum]
      | cons m rest1 =>
        have hget : mapGet nodes prev = some a := ha.1
        have hroot : ¬ a.Previous = [] := ha.2.1
        have hrest : Ancestors nodes a.Previous (m :: rest1) := ha.2.2
        have hlen : (a :: m :: rest1).length = (m :: rest1).length + 1 := rfl
        have hr : reply nodes author (fuel + 1) c prev l
            = reply nodes author fuel (c - c / 2) a.Previous
                ((l.RecordSpent author (c / 2)).RecordEarned a.Author (c / 2)) := by
          simp only [reply, hget, hroot, if_false]
        rw [hr]
        obtain ⟨i1, i2, i3, i4, i5, i6, i7, i8, i9⟩ := ih fuel (c - c / 2) a.Previous
          ((l.RecordSpent author (c / 2)).RecordEarned a.Author (c / 2)) hrest
          (by simp only [List.length_cons] at hfuel ⊢; omega)
        refine ⟨i1, fun x => ?_, fun x => ?_, fun x => ?_, i5.trans hM, i6.trans hBo,
          i7.trans hSo, i8.trans hP, fun h => ?_⟩
        · rw [i2 x, hE x, credit_cons c a (m :: rest1) x]
          by_cases e : a.Author = x
          · subst e
            by_cases e2 : a.Author ∈ (m :: rest1).map MessageNode.Author
            · have e3 : a.Author ∈ (a :: m :: rest1).map MessageNode.Author := by
                rw [List.map_cons]; exact List.mem_cons_self _ _
              simp only [e2, e3, if_true]
              omega
            · have e3 : a.Author ∈ (a :: m :: rest1).map MessageNode.Author := by
                rw [List.map_cons]; exact List.mem_cons_self _ _
              rw [credit_of_not_mem _ _ _ e2]
              simp only [e2, e3, if_true, if_false, add_zero]
          · have e' : ¬ x = a.Author := fun h => e h.symm
            by_cases e2 : x ∈ (m :: rest1).map MessageNode.Author
            · have e3 : x ∈ (a :: m :: rest1).map MessageNode.Author := by
                rw [List.map_cons]; exact List.mem_cons_of_mem _ e2
              simp only [e2, e3, e, if_true, if_false, zero_add]
            · have e3 : ¬ x ∈ (a :: m :: rest1).map MessageNode.Author := by
                rw [List.map_cons, List.mem_cons]
                exact fun h => h.elim e' e2
              simp only [e2, e3, e, if_false]
        · rw [i3 x, hS x]
          rw [hlen, shares_succ, List.sum_cons]
          by_cases e : x = author
          · subst e
            simp only [if_true]
            omega
          · have e' : ¬ author = x := fun h => e h.symm
            simp only [e, e', if_false]
        · rw [i4 x, hB]
          rw [hlen, remaining_shift]
        · rw [i9 (by rw [hT (by omega)]; omega), hT (by omega)]
          rw [hlen, shares_succ, List.sum_cons]
          omega

/-- The second pass on a reply in a block not yet processed: it runs the walk
for that reply on the nodes of the whole chain, with the cost and the
previous-hash of the reply, and goes on with the other nodes when the walk
ends without error. -/
theorem distribute_reply (name : String) (maps : MessageMaps) (key block : Hash)
    (node : MessageNode) (rest : List (Hash × MessageNode)) (l : Ledger)
    (hblock : mapGet maps.blocks key = some block) (hnew : block ∉ l.processed name)
    (hreply : node.Previous ≠ [])
    (hok : (reply maps.nodes node.Author (maps.nodes.length + 1) node.Cost node.Previous l).2
      = Outcome.ok) :
    distribute name maps ((key, node) :: rest) l
      = distribute name maps rest
          (reply maps.nodes node.Author (maps.nodes.length + 1) node.Cost node.Previous l).1 := by
  simp only [distribute, hblock, hnew, hreply, if_false]
  rcases hc : reply maps.nodes node.Author (maps.nodes.length + 1) node.Cost node.Previous l
    with ⟨l1, out⟩
  rw [hc] at hok
  simp only at hok
  subst hok
  rfl

end Ledger

end conveygo

/-! ## Which case of `Update` a channel name selects -/

namespace conveygo

namespace Ledger

theorem Update_hour (l : Ledger) (chain : bcgo.Chain) (h : chain ≠ []) :
    l.Update CONVEY_HOUR chain = l.iterate CONVEY_HOUR chain (mintCallback HOURLY_PVC_REWARD) := by
  unfold Update
  rw [if_neg h, if_pos rfl]

theorem Update_day (l : Ledger) (chain : bcgo.Chain) (h : chain ≠ []) :
    l.Update CONVEY_DAY chain = l.iterate CONVEY_DAY chain (mintCallback DAILY_PVC_REWARD) := by
  unfold Update
  rw [if_neg h, if_neg (by decide), if_pos rfl]

theorem Update_week (l : Ledger) (chain : bcgo.Chain) (h : chain ≠ []) :
    l.Update CONVEY_WEEK chain = l.iterate CONVEY_WEEK chain (mintCallback WEEKLY_PVC_REWARD) := by
  unfold Update
  rw [if_neg h, if_neg (by decide), if_neg (by decide), if_pos rfl]

theorem Update_year (l : Ledger) (chain : bcgo.Chain) (h : chain ≠ []) :
    l.Update CONVEY_YEAR chain = l.iterate CONVEY_YEAR chain (mintCallback YEARLY_PVC_REWARD) := by
  unfold Update
  rw [if_neg h, if_neg (by decide), if_neg (by decide), if_neg (by decide), if_pos rfl]

theorem Update_decade (l : Ledger) (chain : bcgo.Chain) (h : chain ≠ []) :
    l.Update CONVEY_DECADE chain
      = l.iterate CONVEY_DECADE chain (mintCallback DECENNIALLY_PVC_REWARD) := by
  unfold Update
  rw [if_neg h, if_neg (by decide), if_neg (by decide), if_neg (by decide), if_neg (by decide),
    if_pos rfl]

theorem Update_century (l : Ledger) (chain : bcgo.Chain) (h : chain ≠ []) :
    l.Update CONVEY_CENTURY chain
      = l.iterate CONVEY_CENTURY chain (mintCallback CENTENNIALLY_PVC_REWARD) := by
  unfold Update
  rw [if_neg h, if_neg (by decide), if_neg (by decide), if_neg (by decide), if_neg (by decide),
    if_neg (by decide), if_pos rfl]

theorem Update_transaction (l : Ledger) (chain : bcgo.Chain) (h : chain ≠ []) :
    l.Update CONVEY_TRANSACTION chain
      = l.iterate CONVEY_TRANSACTION chain transactionCallback := by
  unfold Update
  rw [if_neg h, if_neg (by decide), if_neg (by decide), if_neg (by decide), if_neg (by decide),
    if_neg (by decide), if_neg (by decide), if_pos rfl]

theorem Update_conversation (l : Ledger) (chain : bcgo.Chain) (h : chain ≠ []) :
    l.Update CONVEY_CONVERSATION chain
      = l.iterate CONVEY_CONVERSATION chain conversationCallback := by
  unfold Update
  rw [if_neg h, if_neg (by decide), if_neg (by decide), if_neg (by decide), if_neg (by decide),
    if_neg (by decide), if_neg (by decide), if_neg (by decide), if_pos rfl]

theorem ne_of_HasPrefix (name fixed : String)
    (hpre : HasPrefix name CONVEY_PREFIX_MESSAGE = true)
    (hfixed : HasPrefix fixed CONVEY_PREFIX_MESSAGE = false) : ¬ name = fixed := by
  intro e
  rw [e, hfixed] at hpre
  exact absurd hpre (by decide)

theorem Update_message (l : Ledger) (name : String) (chain : bcgo.Chain) (h : chain ≠ [])
    (hpre : HasPrefix name CONVEY_PREFIX_MESSAGE = true) :
    l.Update name chain = l.updateMessages name chain := by
  unfold Update
  rw [if_neg h, if_neg (ne_of_HasPrefix name _ hpre (by decide)),
    if_neg (ne_of_HasPrefix name _ hpre (by decide)),
    if_neg (ne_of_HasPrefix name _ hpre (by decide)),
    if_neg (ne_of_HasPrefix name _ hpre (by decide)),
    if_neg (ne_of_HasPrefix name _ hpre (by decide)),
    if_neg (ne_of_HasPrefix name _ hpre (by decide)),
    if_neg (ne_of_HasPrefix name _ hpre (by decide)),
    if_neg (ne_of_HasPrefix name _ hpre (by decide)), if_pos hpre]

end Ledger

end conveygo

/-! ## What `iterate` does on the unprocessed blocks -/

namespace conveygo

theorem amountOf_Record_lt (m : List (String × Nat)) (k : String) (x : Nat)
    (h : ∀ k', amountOf m k' < 2 ^ 64) : ∀ k', amountOf (Record m k x) k' < 2 ^ 64 := by
  intro k'
  rw [amountOf_Record]
  by_cases e : k = k'
  · simp only [e, if_true]
    exact Nat.mod_lt _ (by norm_num)
  · simp only [e, if_false]
    exact h k'

theorem recordAll_nil (m : List (String × Nat)) : recordAll m [] = m := rfl

theorem recordAll_cons (m : List (String × Nat)) (op : String × Nat)
    (ops : List (String × Nat)) :
    recordAll m (op :: ops) = recordAll (Record m op.1 op.2) ops := rfl

theorem recordAll_append (m : List (String × Nat)) (ops ops' : List (String × Nat)) :
    recordAll m (ops ++ ops') = recordAll (recordAll m ops) ops' := by
  unfold recordAll
  rw [List.foldl_append]

theorem amountOf_recordAll (ops : List (String × Nat)) :
    ∀ (m : List (String × Nat)), (∀ k, amountOf m k < 2 ^ 64) → ∀ k,
      amountOf (recordAll m ops) k
        = (amountOf m k + ((ops.filter fun op => op.1 = k).map Prod.snd).sum) % 2 ^ 64 := by
  induction ops with
  | nil =>
    intro m h k
    simp only [recordAll_nil, List.filter_nil, List.map_nil, List.sum_nil, add_zero]
    exact (Nat.mod_eq_of_lt (h k)).symm
  | cons op rest ih =>
    intro m h k
    rw [recordAll_cons, ih _ (amountOf_Record_lt m op.1 op.2 h) k, amountOf_Record]
    by_cases e : op.1 = k
    · rw [List.filter_cons_of_pos (by simp [e])]
      subst e
      simp only [if_true, List.map_cons, List.sum_cons]
      omega
    · rw [List.filter_cons_of_neg (by simp [e])]
      simp only [e, if_false]

namespace Ledger

theorem takeWhile_setAdd (set : List Hash) (h : Hash) (rest : bcgo.Chain)
    (hnot : h ∉ rest.map Prod.fst) :
    (rest.takeWhile fun hb => decide (hb.1 ∉ setAdd set h))
      = rest.takeWhile fun hb => decide (hb.1 ∉ set) := by
  induction rest with
  | nil => rfl
  | cons hb tail ih =>
    simp only [List.map_cons, List.mem_cons, not_or] at hnot
    have h1 : hb.1 ∉ setAdd set h ↔ hb.1 ∉ set := by
      rw [mem_setAdd]
      constructor
      · exact fun hn hm => hn (Or.inl hm)
      · rintro hn (hm | hm)
        · exact hn hm
        · exact hnot.1 hm.symm
    rw [List.takeWhile_cons, List.takeWhile_cons, ih hnot.2]
    simp only [h1]

theorem Iterate_unprocessed (name : String)
    (callback : Ledger → bcgo.Block → Ledger × Option bcgo.Error)
    (hcb : ∀ l b, (callback l b).1.Processed = l.Processed) :
    ∀ (chain : bcgo.Chain) (s : Ledger), (chain.map Prod.fst).Nodup →
      (∀ hb ∈ s.unprocessed name chain, ∀ l', (callback l' hb.2).2 = none) →
      (bcgo.Iterate (iterateCallback name callback) chain s).1
          = (s.unprocessed name chain).foldl
              (fun acc hb => (callback (acc.markProcessed name hb.1) hb.2).1) s ∧
        ((bcgo.Iterate (iterateCallback name callback) chain s).2 = none ∨
         (bcgo.Iterate (iterateCallback name callback) chain s).2
            = some bcgo.Error.StopIteration) := by
  intro chain
  induction chain with
  | nil => intro s _ _; simp [bcgo.Iterate, unprocessed]
  | cons hb rest ih =>
    intro s hnodup hok
    obtain ⟨h, b⟩ := hb
    simp only [List.map_cons, List.nodup_cons] at hnodup
    by_cases hp : h ∈ s.processed name
    · simp [bcgo.Iterate, iterateCallback, unprocessed, hp]
    · have hun : s.unprocessed name ((h, b) :: rest)
          = (h, b) :: s.unprocessed name rest := by
        simp [unprocessed, List.takeWhile_cons, hp]
      rw [hun] at hok ⊢
      have hnone : (callback (s.markProcessed name h) b).2 = none :=
        hok (h, b) (List.mem_cons_self _ _) _
      have hproc : (callback (s.markProcessed name h) b).1.processed name
          = setAdd (s.processed name) h := by
        rw [processed_congr _ _ name (hcb _ b), processed_markProcessed]
      have hun2 : (callback (s.markProcessed name h) b).1.unprocessed name rest
          = s.unprocessed name rest := by
        unfold unprocessed
        rw [hproc]
        exact takeWhile_setAdd _ h rest hnodup.1
      have hstep : bcgo.Iterate (iterateCallback name callback) ((h, b) :: rest) s
          = bcgo.Iterate (iterateCallback name callback) rest
              (callback (s.markProcessed name h) b).1 := by
        rcases hc : callback (s.markProcessed name h) b with ⟨s1, e⟩
        rw [hc] at hnone
        simp only at hnone
        subst hnone
        simp [bcgo.Iterate, iterateCallback, hp, hc]
      rw [hstep, List.foldl_cons]
      have h3 := ih (callback (s.markProcessed name h) b).1 hnodup.2 (by
        rw [hun2]
        exact fun hb' hm => hok hb' (List.mem_cons_of_mem _ hm))
      rw [hun2] at h3
      exact h3

theorem unprocessed_openProcessed (l : Ledger) (name : String) (chain : bcgo.Chain) :
    (l.openProcessed name).unprocessed name chain = l.unprocessed name chain := by
  unfold unprocessed
  rw [processed_openProcessed]

theorem iterate_unprocessed (l : Ledger) (name : String) (chain : bcgo.Chain)
    (callback : Ledger → bcgo.Block → Ledger × Option bcgo.Error)
    (hcb : ∀ l b, (callback l b).1.Processed = l.Processed)
    (hnodup : (chain.map Prod.fst).Nodup)
    (hok : ∀ hb ∈ l.unprocessed name chain, ∀ l', (callback l' hb.2).2 = none) :
    l.iterate name chain callback
      = ((l.unprocessed name chain).foldl
          (fun acc hb => (callback (acc.markProcessed name hb.1) hb.2).1)
          (l.openProcessed name), Outcome.ok) := by
  have h := Iterate_unprocessed name callback hcb chain (l.openProcessed name) hnodup (by
    rw [unprocessed_openProcessed]; exact hok)
  rw [unprocessed_openProcessed] at h
  unfold iterate
  rcases hc : bcgo.Iterate (iterateCallback name callback) chain (l.openProcessed name)
    with ⟨l1, e⟩
  rw [hc] at h
  simp only at h
  obtain ⟨h1, h2 | h2⟩ := h
  · subst h2; simp only [h1]
  · subst h2; simp only [h1]

end Ledger

end conveygo

/-! ## The effect of the three kinds of fixed chains -/

namespace conveygo

theorem minted_sum (reward : Nat) (miner : String) (chain : bcgo.Chain) :
    (((chain.map fun hb => (hb.2.Miner, reward)).filter fun op => op.1 = miner).map
      Prod.snd).sum = minedBy chain miner * reward := by
  induction chain with
  | nil => simp [minedBy]
  | cons hb rest ih =>
    unfold minedBy at ih ⊢
    rw [List.map_cons]
    by_cases e : hb.2.Miner = miner
    · rw [List.filter_cons_of_pos (by simp [e]), List.filter_cons_of_pos (by simp [e])]
      simp only [List.map_cons, List.sum_cons, List.length_cons, ih]
      rw [Nat.add_mul, Nat.one_mul, Nat.add_comm]
    · rw [List.filter_cons_of_neg (by simp [e]), List.filter_cons_of_neg (by simp [e])]
      exact ih

theorem sold_sum (entries : List bcgo.BlockEntry) (sender : String) :
    ((((transactionsOf entries).map fun t => (t.Sender, t.Amount)).filter
      fun op => op.1 = sender).map Prod.snd).sum = soldBy entries sender := by
  unfold soldBy
  induction transactionsOf entries with
  | nil => rfl
  | cons t rest ih =>
    rw [List.map_cons]
    by_cases e : t.Sender = sender
    · rw [List.filter_cons_of_pos (by simp [e]), List.filter_cons_of_pos (by simp [e])]
      simp only [List.map_cons, List.sum_cons, ih]
    · rw [List.filter_cons_of_neg (by simp [e]), List.filter_cons_of_neg (by simp [e])]
      exact ih

theorem bought_sum (entries : List bcgo.BlockEntry) (receiver : String) :
    ((((transactionsOf entries).map fun t => (t.Receiver, t.Amount)).filter
      fun op => op.1 = receiver).map Prod.snd).sum = boughtBy entries receiver := by
  unfold boughtBy
  induction transactionsOf entries with
  | nil => rfl
  | cons t rest ih =>
    rw [List.map_cons]
    by_cases e : t.Receiver = receiver
    · rw [List.filter_cons_of_pos (by simp [e]), List.filter_cons_of_pos (by simp [e])]
      simp only [List.map_cons, List.sum_cons, ih]
    · rw [List.filter_cons_of_neg (by simp [e]), List.filter_cons_of_neg (by simp [e])]
      exact ih

theorem burned_sum (entries : List bcgo.BlockEntry) (creator : String) :
    (((entries.map fun entry => (entry.Record.Creator, Cost entry.Record)).filter
      fun op => op.1 = creator).map Prod.snd).sum = burnedBy entries creator := by
  unfold burnedBy
  induction entries with
  | nil => rfl
  | cons entry rest ih =>
    rw [List.map_cons]
    by_cases e : entry.Record.Creator = creator
    · rw [List.filter_cons_of_pos (by simp [e]), List.filter_cons_of_pos (by simp [e])]
      simp only [List.map_cons, List.sum_cons, ih]
    · rw [List.filter_cons_of_neg (by simp [e]), List.filter_cons_of_neg (by simp [e])]
      exact ih

theorem transactionsOf_append (a b : List bcgo.BlockEntry) :
    transactionsOf (a ++ b) = transactionsOf a ++ transactionsOf b := by
  unfold transactionsOf
  rw [List.filterMap_append]

namespace Ledger

theorem mint_fold (name : String) (reward : Nat) :
    ∀ (new : bcgo.Chain) (s : Ledger),
      (new.foldl (fun acc hb => (mintCallback reward (acc.markProcessed name hb.1) hb.2).1)
          s).Minted = recordAll s.Minted (new.map fun hb => (hb.2.Miner, reward)) ∧
      (new.foldl (fun acc hb => (mintCallback reward (acc.markProcessed name hb.1) hb.2).1)
          s).Burned = s.Burned ∧
      (new.foldl (fun acc hb => (mintCallback reward (acc.markProcessed name hb.1) hb.2).1)
          s).Bought = s.Bought ∧
      (new.foldl (fun acc hb => (mintCallback reward (acc.markProcessed name hb.1) hb.2).1)
          s).Sold = s.Sold ∧
      (new.foldl (fun acc hb => (mintCallback reward (acc.markProcessed name hb.1) hb.2).1)
          s).Earned = s.Earned ∧
      (new.foldl (fun acc hb => (mintCallback reward (acc.markProcessed name hb.1) hb.2).1)
          s).Spent = s.Spent := by
  intro new
  induction new with
  | nil => intro s; exact ⟨rfl, rfl, rfl, rfl, rfl, rfl⟩
  | cons hb rest ih =>
    intro s
    rw [List.foldl_cons, List.map_cons, recordAll_cons]
    exact ih _

theorem transactionEntries_effect :
    ∀ (entries : List bcgo.BlockEntry) (l : Ledger),
      (∀ entry ∈ entries, ∃ t, entry.Record.Payload.asTransaction = some t) →
      (transactionEntries entries l).2 = none ∧
      (transactionEntries entries l).1.Sold
        = recordAll l.Sold ((transactionsOf entries).map fun t => (t.Sender, t.Amount)) ∧
      (transactionEntries entries l).1.Bought
        = recordAll l.Bought ((transactionsOf entries).map fun t => (t.Receiver, t.Amount)) ∧
      (transactionEntries entries l).1.Minted = l.Minted ∧
      (transactionEntries entries l).1.Burned = l.Burned ∧
      (transactionEntries entries l).1.Earned = l.Earned ∧
      (transactionEntries entries l).1.Spent = l.Spent := by
  intro entries
  induction entries with
  | nil => intro l _; exact ⟨rfl, rfl, rfl, rfl, rfl, rfl, rfl⟩
  | cons entry rest ih =>
    intro l h
    obtain ⟨t, ht⟩ := h entry (List.mem_cons_self _ _)
    have h1 := ih ((l.RecordSold t.Sender t.Amount).RecordBought t.Receiver t.Amount)
      (fun e he => h e (List.mem_cons_of_mem _ he))
    have h2 : transactionsOf (entry :: rest) = t :: transactionsOf rest := by
      simp [transactionsOf, List.filterMap_cons, ht]
    unfold transactionEntries
    rw [h2]
    simp only [ht, List.map_cons, recordAll_cons]
    exact h1

theorem transaction_fold (name : String) :
    ∀ (new : bcgo.Chain) (s : Ledger),
      (∀ entry ∈ entriesOf new, ∃ t, entry.Record.Payload.asTransaction = some t) →
      (new.foldl (fun acc hb => (transactionCallback (acc.markProcessed name hb.1) hb.2).1)
          s).Sold
        = recordAll s.Sold ((transactionsOf (entriesOf new)).map fun t =>
            (t.Sender, t.Amount)) ∧
      (new.foldl (fun acc hb => (transactionCallback (acc.markProcessed name hb.1) hb.2).1)
          s).Bought
        = recordAll s.Bought ((transactionsOf (entriesOf new)).map fun t =>
            (t.Receiver, t.Amount)) ∧
      (new.foldl (fun acc hb => (transactionCallback (acc.markProcessed name hb.1) hb.2).1)
          s).Minted = s.Minted ∧
      (new.foldl (fun acc hb => (transactionCallback (acc.markProcessed name hb.1) hb.2).1)
          s).Burned = s.Burned ∧
      (new.foldl (fun acc hb => (transactionCallback (acc.markProcessed name hb.1) hb.2).1)
          s).Earned = s.Earned ∧
      (new.foldl (fun acc hb => (transactionCallback (acc.markProcessed name hb.1) hb.2).1)
          s).Spent = s.Spent := by
  intro new
  induction new with
  | nil => intro s _; exact ⟨rfl, rfl, rfl, rfl, rfl, rfl⟩
  | cons hb rest ih =>
    intro s h
    obtain ⟨hash, b⟩ := hb
    have hb1 : ∀ entry ∈ b.Entry, ∃ t, entry.Record.Payload.asTransaction = some t :=
      fun e he => h e (by simp [entriesOf, he])
    have hrest : ∀ entry ∈ entriesOf rest, ∃ t, entry.Record.Payload.asTransaction = some t :=
      fun e he => h e (by simp [entriesOf, he])
    obtain ⟨-, e1, e2, e3, e4, e5, e6⟩ :=
      transactionEntries_effect b.Entry (s.markProcessed name hash) hb1
    obtain ⟨i1, i2, i3, i4, i5, i6⟩ :=
      ih (transactionCallback (s.markProcessed name hash) b).1 hrest
    rw [List.foldl_cons]
    simp only [entriesOf, transactionsOf_append, List.map_append, recordAll_append]
    refine ⟨?_, ?_, i3.trans e3, i4.trans e4, i5.trans e5, i6.trans e6⟩
    · rw [i1]; exact congrArg (fun m => recordAll m _) e1
    · rw [i2]; exact congrArg (fun m => recordAll m _) e2

theorem conversationEntries_effect :
    ∀ (entries : List bcgo.BlockEntry) (l : Ledger),
      (conversationEntries entries l).Burned
        = recordAll l.Burned (entries.map fun entry =>
            (entry.Record.Creator, Cost entry.Record)) ∧
      (conversationEntries entries l).Minted = l.Minted ∧
      (conversationEntries entries l).Bought = l.Bought ∧
      (conversationEntries entries l).Sold = l.Sold ∧
      (conversationEntries entries l).Earned = l.Earned ∧
      (conversationEntries entries l).Spent = l.Spent := by
  intro entries
  induction entries with
  | nil => intro l; exact ⟨rfl, rfl, rfl, rfl, rfl, rfl⟩
  | cons entry rest ih =>
    intro l
    unfold conversationEntries
    rw [List.map_cons, recordAll_cons]
    exact ih _

theorem conversation_fold (name : String) :
    ∀ (new : bcgo.Chain) (s : Ledger),
      (new.foldl (fun acc hb => (conversationCallback (acc.markProcessed name hb.1) hb.2).1)
          s).Burned
        = recordAll s.Burned ((entriesOf new).map fun entry =>
            (entry.Record.Creator, Cost entry.Record)) ∧
      (new.foldl (fun acc hb => (conversationCallback (acc.markProcessed name hb.1) hb.2).1)
          s).Minted = s.Minted ∧
      (new.foldl (fun acc hb => (conversationCallback (acc.markProcessed name hb.1) hb.2).1)
          s).Bought = s.Bought ∧
      (new.foldl (fun acc hb => (conversationCallback (acc.markProcessed name hb.1) hb.2).1)
          s).Sold = s.Sold ∧
      (new.foldl (fun acc hb => (conversationCallback (acc.markProcessed name hb.1) hb.2).1)
          s).Earned = s.Earned ∧
      (new.foldl (fun acc hb => (conversationCallback (acc.markProcessed name hb.1) hb.2).1)
          s).Spent = s.Spent := by
  intro new
  induction new with
  | nil => intro s; exact ⟨rfl, rfl, rfl, rfl, rfl, rfl⟩
  | cons hb rest ih =>
    intro s
    obtain ⟨hash, b⟩ := hb
    obtain ⟨e1, e2, e3, e4, e5, e6⟩ :=
      conversationEntries_effect b.Entry (s.markProcessed name hash)
    obtain ⟨i1, i2, i3, i4, i5, i6⟩ :=
      ih (conversationCallback (s.markProcessed name hash) b).1
    rw [List.foldl_cons]
    simp only [entriesOf, List.map_append, recordAll_append]
    refine ⟨?_, i2.trans e2, i3.trans e3, i4.trans e4, i5.trans e5, i6.trans e6⟩
    rw [i1]
    exact congrArg (fun m => recordAll m _) e1

end Ledger

end conveygo

/-! ## `Update` on the fixed chains -/

namespace conveygo

theorem amountOf_lt_of_forall (m : List (String × Nat)) (h : ∀ kv ∈ m, kv.2 < 2 ^ 64) :
    ∀ k, amountOf m k < 2 ^ 64 := by
  intro k
  unfold amountOf
  cases hg : mapGet m k with
  | none => simp
  | some v => exact h (k, v) (mem_of_mapGet m k v hg)

theorem mem_entriesOf (entry : bcgo.BlockEntry) (hb : Hash × bcgo.Block) :
    ∀ (chain : bcgo.Chain), hb ∈ chain → entry ∈ hb.2.Entry → entry ∈ entriesOf chain := by
  intro chain
  induction chain with
  | nil => intro hmem _; simp at hmem
  | cons x rest ih =>
    intro hmem he
    obtain ⟨xh, xb⟩ := x
    simp only [entriesOf, List.mem_append]
    rcases List.mem_cons.mp hmem with e | e
    · subst e; exact Or.inl he
    · exact Or.inr (ih e he)

namespace Ledger

theorem Update_nil (l : Ledger) (name : String) : l.Update name [] = (l, Outcome.ok) := by
  unfold Update
  rw [if_pos rfl]

theorem unprocessed_nil (l : Ledger) (name : String) : l.unprocessed name [] = [] := rfl

theorem mint_update (l : Ledger) (name : String) (reward : Nat) (chain : bcgo.Chain)
    (hupd : chain ≠ [] → l.Update name chain = l.iterate name chain (mintCallback reward))
    (hdistinct : (chain.map Prod.fst).Nodup)
    (huint : ∀ m, amountOf l.Minted m < 2 ^ 64) :
    (l.Update name chain).2 = Outcome.ok ∧
    (∀ m, amountOf (l.Update name chain).1.Minted m
      = (amountOf l.Minted m + minedBy (l.unprocessed name chain) m * reward) % 2 ^ 64) ∧
    (l.Update name chain).1.Burned = l.Burned ∧
    (l.Update name chain).1.Bought = l.Bought ∧
    (l.Update name chain).1.Sold = l.Sold ∧
    (l.Update name chain).1.Earned = l.Earned ∧
    (l.Update name chain).1.Spent = l.Spent := by
  by_cases h0 : chain = []
  · subst h0
    rw [Update_nil, unprocessed_nil]
    refine ⟨rfl, fun m => ?_, rfl, rfl, rfl, rfl, rfl⟩
    simp only [minedBy, List.filter_nil, List.length_nil, Nat.zero_mul, Nat.add_zero]
    exact (Nat.mod_eq_of_lt (huint m)).symm
  · rw [hupd h0, iterate_unprocessed l name chain _ (fun _ _ => rfl) hdistinct
      (fun _ _ _ => rfl)]
    obtain ⟨f1, f2, f3, f4, f5, f6⟩ :=
      mint_fold name reward (l.unprocessed name chain) (l.openProcessed name)
    obtain ⟨-, o1, o2, o3, o4, o5, o6⟩ := openProcessed_fields l name
    refine ⟨rfl, fun m => ?_, f2.trans o2, f3.trans o3, f4.trans o4, f5.trans o5, f6.trans o6⟩
    dsimp only
    rw [f1, o1, amountOf_recordAll _ _ huint, minted_sum]

theorem transaction_update (l : Ledger) (chain : bcgo.Chain)
    (hdistinct : (chain.map Prod.fst).Nodup)
    (hparse : ∀ entry ∈ entriesOf (l.unprocessed CONVEY_TRANSACTION chain),
      entry.Record.Payload.asTransaction.isSome = true)
    (hsold : ∀ a, amountOf l.Sold a < 2 ^ 64)
    (hbought : ∀ a, amountOf l.Bought a < 2 ^ 64) :
    (l.Update CONVEY_TRANSACTION chain).2 = Outcome.ok ∧
    (∀ s, amountOf (l.Update CONVEY_TRANSACTION chain).1.Sold s
      = (amountOf l.Sold s
          + soldBy (entriesOf (l.unprocessed CONVEY_TRANSACTION chain)) s) % 2 ^ 64) ∧
    (∀ r, amountOf (l.Update CONVEY_TRANSACTION chain).1.Bought r
      = (amountOf l.Bought r
          + boughtBy (entriesOf (l.unprocessed CONVEY_TRANSACTION chain)) r) % 2 ^ 64) ∧
    (l.Update CONVEY_TRANSACTION chain).1.Minted = l.Minted ∧
    (l.Update CONVEY_TRANSACTION chain).1.Burned = l.Burned ∧
    (l.Update CONVEY_TRANSACTION chain).1.Earned = l.Earned ∧
    (l.Update CONVEY_TRANSACTION chain).1.Spent = l.Spent := by
  by_cases h0 : chain = []
  · subst h0
    rw [Update_nil, unprocessed_nil]
    refine ⟨rfl, fun s => ?_, fun r => ?_, rfl, rfl, rfl, rfl⟩
    · simp only [entriesOf, soldBy, transactionsOf, List.filterMap_nil, List.filter_nil,
        List.map_nil, List.sum_nil, Nat.add_zero]
      exact (Nat.mod_eq_of_lt (hsold s)).symm
    · simp only [entriesOf, boughtBy, transactionsOf, List.filterMap_nil, List.filter_nil,
        List.map_nil, List.sum_nil, Nat.add_zero]
      exact (Nat.mod_eq_of_lt (hbought r)).symm
  · have hparse' : ∀ entry ∈ entriesOf (l.unprocessed CONVEY_TRANSACTION chain),
        ∃ t, entry.Record.Payload.asTransaction = some t :=
      fun e he => Option.isSome_iff_exists.mp (hparse e he)
    rw [Update_transaction l chain h0,
      iterate_unprocessed l CONVEY_TRANSACTION chain transactionCallback
        (fun l' b => transactionEntries_Processed b.Entry l') hdistinct
        (fun hb hmem l' => (transactionEntries_effect hb.2.Entry l'
          (fun e he => hparse' e (mem_entriesOf e hb _ hmem he))).1)]
    obtain ⟨f1, f2, f3, f4, f5, f6⟩ :=
      transaction_fold CONVEY_TRANSACTION (l.unprocessed CONVEY_TRANSACTION chain)
        (l.openProcessed CONVEY_TRANSACTION) hparse'
    obtain ⟨-, o1, o2, o3, o4, o5, o6⟩ := openProcessed_fields l CONVEY_TRANSACTION
    refine ⟨rfl, fun s => ?_, fun r => ?_, f3.trans o1, f4.trans o2, f5.trans o5, f6.trans o6⟩
    · dsimp only
      rw [f1, o4, amountOf_recordAll _ _ hsold, sold_sum]
    · dsimp only
      rw [f2, o3, amountOf_recordAll _ _ hbought, bought_sum]

theorem conversation_update (l : Ledger) (chain : bcgo.Chain)
    (hdistinct : (chain.map Prod.fst).Nodup)
    (huint : ∀ a, amountOf l.Burned a < 2 ^ 64) :
    (l.Update CONVEY_CONVERSATION chain).2 = Outcome.ok ∧
    (∀ a, amountOf (l.Update CONVEY_CONVERSATION chain).1.Burned a
      = (amountOf l.Burned a
          + burnedBy (entriesOf (l.unprocessed CONVEY_CONVERSATION chain)) a) % 2 ^ 64) ∧
    (l.Update CONVEY_CONVERSATION chain).1.Minted = l.Minted ∧
    (l.Update CONVEY_CONVERSATION chain).1.Bought = l.Bought ∧
    (l.Update CONVEY_CONVERSATION chain).1.Sold = l.Sold ∧
    (l.Update CONVEY_CONVERSATION chain).1.Earned = l.Earned ∧
    (l.Update CONVEY_CONVERSATION chain).1.Spent = l.Spent := by
  by_cases h0 : chain = []
  · subst h0
    rw [Update_nil, unprocessed_nil]
    refine ⟨rfl, fun a => ?_, rfl, rfl, rfl, rfl, rfl⟩
    simp only [entriesOf, burnedBy, List.filter_nil, List.map_nil, List.sum_nil, Nat.add_zero]
    exact (Nat.mod_eq_of_lt (huint a)).symm
  · rw [Update_conversation l chain h0,
      iterate_unprocessed l CONVEY_CONVERSATION chain conversationCallback
        (fun l' b => conversationEntries_Processed b.Entry l') hdistinct (fun _ _ _ => rfl)]
    obtain ⟨f1, f2, f3, f4, f5, f6⟩ :=
      conversation_fold CONVEY_CONVERSATION (l.unprocessed CONVEY_CONVERSATION chain)
        (l.openProcessed CONVEY_CONVERSATION)
    obtain ⟨-, o1, o2, o3, o4, o5, o6⟩ := openProcessed_fields l CONVEY_CONVERSATION
    refine ⟨rfl, fun a => ?_, f2.trans o1, f3.trans o3, f4.trans o4, f5.trans o5, f6.trans o6⟩
    dsimp only
    rw [f1, o2, amountOf_recordAll _ _ huint, burned_sum]

end Ledger

theorem Uint64_stable : Stable Uint64 := by
  refine ⟨?_, ?_, ?_, ?_, ?_, ?_⟩
  · intro l name key h; exact h
  · intro l name h
    unfold Ledger.openProcessed
    cases mapGet l.Processed name <;> exact h
  · intro l a x h
    exact ⟨amountOf_Record_lt _ a x h.1, h.2.1, h.2.2.1, h.2.2.2.1, h.2.2.2.2.1, h.2.2.2.2.2⟩
  · intro l a x h
    exact ⟨h.1, amountOf_Record_lt _ a x h.2.1, h.2.2.1, h.2.2.2.1, h.2.2.2.2.1, h.2.2.2.2.2⟩
  · intro l s r x h
    exact ⟨h.1, h.2.1, amountOf_Record_lt _ r x h.2.2.1, amountOf_Record_lt _ s x h.2.2.2.1,
      h.2.2.2.2.1, h.2.2.2.2.2⟩
  · intro l a b x h
    exact ⟨h.1, h.2.1, h.2.2.1, h.2.2.2.1, amountOf_Record_lt _ b x h.2.2.2.2.1,
      amountOf_Record_lt _ a x h.2.2.2.2.2⟩

/-- Every ledger a run of calls on a fresh ledger reaches holds `uint64`
values. -/
theorem Uint64_run (calls : List Call) : Uint64 (NewLedger.run calls) := by
  apply Ledger.run_keeps Uint64 Uint64_stable
  refine ⟨?_, ?_, ?_, ?_, ?_, ?_⟩ <;> intro a <;> simp [NewLedger, amountOf, mapGet]

end conveygo

/-! ## The cost of a record -/

theorem roundHalfEven_one (a : Nat) : roundHalfEven a 1 = a := by
  simp [roundHalfEven, Nat.mod_one]

theorem roundHalfEven_mul_left (t a b : Nat) (ht : 0 < t) :
    roundHalfEven (t * a) (t * b) = roundHalfEven a b := by
  unfold roundHalfEven
  rw [Nat.mul_div_mul_left a b ht, Nat.mul_mod_mul_left]
  have h1 : 2 * (t * (a % b)) < t * b ↔ 2 * (a % b) < b := by
    rw [← Nat.mul_assoc, Nat.mul_comm 2 t, Nat.mul_assoc]
    exact Nat.mul_lt_mul_left ht
  have h2 : t * b < 2 * (t * (a % b)) ↔ b < 2 * (a % b) := by
    rw [← Nat.mul_assoc, Nat.mul_comm 2 t, Nat.mul_assoc]
    exact Nat.mul_lt_mul_left ht
  simp only [h1, h2]

/-- Rounding `x / 100` where `x` lies within `d` below `100 * y`, for `d > 50`:
the result is above `y - d` and at most `y`. -/
theorem roundHalfEven_hundred (x y d : Nat) (hd : 50 < d) (hle : x ≤ 100 * y)
    (hge : 100 * y + d ≤ x + 100 * d) :
    y < roundHalfEven x 100 + d ∧ roundHalfEven x 100 ≤ y := by
  unfold roundHalfEven
  simp only
  split_ifs <;> omega

namespace Float64

theorem shift_spec (c : Nat) : ∀ (fuel a : Nat), c ≤ a * 2 ^ fuel → c ≤ a * 2 ^ shift c fuel a := by
  intro fuel
  induction fuel with
  | zero => intro a h; simpa [shift] using h
  | succ fuel ih =>
    intro a h
    unfold shift
    by_cases hc : c ≤ a
    · simp [hc]
    · simp only [hc, if_false]
      have h1 := ih (2 * a) (by rw [Nat.pow_succ] at h; linarith)
      rw [Nat.pow_succ]
      linarith

theorem shift_self_spec (c a : Nat) (ha : 0 < a) : c ≤ a * 2 ^ shift c c a := by
  apply shift_spec
  have h1 : c < 2 ^ c := Nat.lt_two_pow c
  have h2 : 2 ^ c ≤ a * 2 ^ c := Nat.le_mul_of_pos_left _ ha
  omega

theorem ofInt_exact (n : Nat) (h : n < 2 ^ 53) : ∃ p, ofInt n = ⟨n * 2 ^ p, 2 ^ p⟩ := by
  unfold ofInt round
  simp only [Nat.mul_one, Nat.one_mul]
  by_cases h0 : n = 0
  · exact ⟨0, by simp [h0]⟩
  · by_cases h1 : n < 2 ^ 52
    · refine ⟨shift (2 ^ 52) (2 ^ 52) n, ?_⟩
      simp only [h0, h1, if_true, if_false, roundHalfEven_one]
    · refine ⟨0, ?_⟩
      have h2 : shift (n + 1) (n + 1) (2 ^ 53) = 0 := by
        unfold shift
        have h3 : n + 1 ≤ 2 ^ 53 := by omega
        simp only [h3, if_true]
      simp only [h0, h1, if_false, h2, Nat.pow_zero, Nat.mul_one, roundHalfEven_one]

theorem ceil_div100 (n p : Nat) (h : n < 2 ^ 53) :
    ceilUint64 (div100 ⟨n * 2 ^ p, 2 ^ p⟩) = (n + 99) / 100 := by
  have hP : 0 < 2 ^ p := Nat.two_pow_pos _
  by_cases h0 : n = 0
  · subst h0
    simp [div100, round, ceilUint64]
  have hn : 0 < n := Nat.pos_of_ne_zero h0
  have ha : n * 2 ^ p ≠ 0 := Nat.ne_of_gt (Nat.mul_pos hn hP)
  have hlt : n * 2 ^ p < 2 ^ 52 * (2 ^ p * 100) := by
    have : n * 2 ^ p < (2 ^ 52 * 100) * 2 ^ p := Nat.mul_lt_mul_of_pos_right (by omega) hP
    linarith
  have hshift := shift_self_spec (2 ^ 52 * (2 ^ p * 100)) (n * 2 ^ p) (Nat.mul_pos hn hP)
  unfold div100 round
  simp only [ha, hlt, if_true, if_false]
  generalize shift (2 ^ 52 * (2 ^ p * 100)) (2 ^ 52 * (2 ^ p * 100)) (n * 2 ^ p) = q at hshift ⊢
  have hD : 0 < 2 ^ q := Nat.two_pow_pos _
  generalize 2 ^ q = d at hshift hD ⊢
  have hscale : n * 2 ^ p * d = 2 ^ p * (n * d) := by ring
  rw [hscale, roundHalfEven_mul_left _ _ _ hP]
  have hx : 2 ^ 52 * 100 ≤ n * d := by
    have h1 : 2 ^ p * (2 ^ 52 * 100) ≤ 2 ^ p * (n * d) := by
      calc 2 ^ p * (2 ^ 52 * 100) = 2 ^ 52 * (2 ^ p * 100) := by ring
        _ ≤ n * 2 ^ p * d := hshift
        _ = 2 ^ p * (n * d) := hscale
    exact Nat.le_of_mul_le_mul_left h1 hP
  have hd : 50 < d := by
    have h1 : n * d ≤ (2 ^ 53 - 1) * d := Nat.mul_le_mul_right d (by omega)
    omega
  have hk1 : n ≤ 100 * ((n + 99) / 100) := by omega
  have hk2 : 100 * ((n + 99) / 100) ≤ n + 99 := by omega
  have hle : n * d ≤ 100 * ((n + 99) / 100 * d) := by
    calc n * d ≤ 100 * ((n + 99) / 100) * d := Nat.mul_le_mul_right d hk1
      _ = 100 * ((n + 99) / 100 * d) := by ring
  have hge : 100 * ((n + 99) / 100 * d) + d ≤ n * d + 100 * d := by
    calc 100 * ((n + 99) / 100 * d) + d = (100 * ((n + 99) / 100) + 1) * d := by ring
      _ ≤ (n + 100) * d := Nat.mul_le_mul_right d (by omega)
      _ = n * d + 100 * d := by ring
  obtain ⟨hlo, hhi⟩ := roundHalfEven_hundred (n * d) ((n + 99) / 100 * d) d hd hle hge
  unfold ceilUint64
  simp only
  have hdiv : (roundHalfEven (n * d) 100 + d - 1) / d = (n + 99) / 100 := by
    apply Nat.div_eq_of_lt_le
    · omega
    · rw [Nat.succ_mul]
      omega
  rw [hdiv]
  exact Nat.mod_eq_of_lt (by omega)

end Float64

namespace conveygo

theorem Cost_eq (record : bcgo.Record) (h : record.Size < 2 ^ 53) :
    Cost record = (record.Size + 99) / 100 := by
  unfold Cost
  obtain ⟨p, hp⟩ := Float64.ofInt_exact record.Size h
  rw [hp]
  exact Float64.ceil_div100 record.Size p h

/-- Beyond the sizes a double holds exactly the law stops: a size of
`2 ^ 53 + 9` bytes is converted to `2 ^ 53 + 8`, a multiple of 100. -/
theorem Cost_beyond_exact_range :
    Cost { Timestamp := 0, Creator := "", Size := 2 ^ 53 + 9,
           Payload := { asConversation := none, asMessage := none, asTransaction := none } }
      = 90071992547410 ∧ (2 ^ 53 + 9 + 99) / 100 = 90071992547411 := by
  decide

end conveygo

/-! ## The balance -/

namespace conveygo

theorem int64_modEq (x : Int) : int64 x ≡ x [ZMOD 2 ^ 64] := by
  unfold int64
  have h := (Int.mod_modEq (x + 2 ^ 63) (2 ^ 64)).sub_right (2 ^ 63)
  simpa using h

theorem int64_congr {a b : Int} (h : a ≡ b [ZMOD 2 ^ 64]) : int64 a = int64 b := by
  unfold int64
  have h2 := h.add_right (2 ^ 63)
  unfold Int.ModEq at h2
  rw [h2]

theorem int64_eq (x : Int) (hlow : -(2 ^ 63 : Int) ≤ x) (hhigh : x < 2 ^ 63) : int64 x = x := by
  unfold int64
  rw [Int.emod_eq_of_lt (by omega) (by omega)]
  omega

/-- The balance is the `int64` with the low 64 bits of the signed sum. -/
theorem Ledger.GetBalance_eq (l : Ledger) (who : String) :
    l.GetBalance who = int64 ((amountOf l.Minted who : Int) + amountOf l.Bought who
      + amountOf l.Earned who - amountOf l.Burned who - amountOf l.Sold who
      - amountOf l.Spent who) := by
  unfold Ledger.GetBalance
  apply int64_congr
  have e1 : int64 (0 + int64 (amountOf l.Minted who)) ≡ amountOf l.Minted who [ZMOD 2 ^ 64] :=
    (int64_modEq _).trans (by simpa using int64_modEq (amountOf l.Minted who))
  have e2 := (int64_modEq _).trans (e1.sub (int64_modEq (amountOf l.Burned who)))
  have e3 := (int64_modEq _).trans (e2.add (int64_modEq (amountOf l.Bought who)))
  have e4 := (int64_modEq _).trans (e3.sub (int64_modEq (amountOf l.Sold who)))
  have e5 := (int64_modEq _).trans (e4.add (int64_modEq (amountOf l.Earned who)))
  have e6 := e5.sub (int64_modEq (amountOf l.Spent who))
  refine e6.trans ?_
  have e : (amountOf l.Minted who : Int) - amountOf l.Burned who + amountOf l.Bought who
      - amountOf l.Sold who + amountOf l.Earned who - amountOf l.Spent who
      = (amountOf l.Minted who : Int) + amountOf l.Bought who
      + amountOf l.Earned who - amountOf l.Burned who - amountOf l.Sold who
      - amountOf l.Spent who := by ring
  rw [e]

end conveygo

/-! ## The base64url text of a hash -/

namespace conveygo

set_option maxRecDepth 100000 in
theorem decodeDigit_encodeDigit : ∀ n, n < 64 → decodeDigit (encodeDigit n) = n := by
  decide

/-- Decoding the text of bytes gives the bytes back. -/
theorem decodeChars_encodeBytes :
    ∀ (src : List Nat), (∀ b ∈ src, b < 256) → decodeChars (encodeBytes src) = src := by
  intro src
  induction src using encodeBytes.induct with
  | case1 => intro _; rfl
  | case2 a =>
    intro h
    have ha : a < 256 := h a (List.mem_cons_self _ _)
    simp only [encodeBytes, decodeChars]
    rw [decodeDigit_encodeDigit _ (by omega), decodeDigit_encodeDigit _ (by omega)]
    congr 1
    omega
  | case3 a b =>
    intro h
    have ha : a < 256 := h a (List.mem_cons_self _ _)
    have hb : b < 256 := h b (List.mem_cons_of_mem _ (List.mem_cons_self _ _))
    simp only [encodeBytes, decodeChars]
    rw [decodeDigit_encodeDigit _ (by omega), decodeDigit_encodeDigit _ (by omega),
      decodeDigit_encodeDigit _ (by omega)]
    congr 1
    · omega
    · congr 1
      omega
  | case4 a b c rest ih =>
    intro h
    have ha : a < 256 := h a (List.mem_cons_self _ _)
    have hb : b < 256 := h b (List.mem_cons_of_mem _ (List.mem_cons_self _ _))
    have hc : c < 256 :=
      h c (List.mem_cons_of_mem _ (List.mem_cons_of_mem _ (List.mem_cons_self _ _)))
    have hrest := ih fun x hx =>
      h x (List.mem_cons_of_mem _ (List.mem_cons_of_mem _ (List.mem_cons_of_mem _ hx)))
    simp only [encodeBytes, decodeChars]
    rw [decodeDigit_encodeDigit _ (by omega), decodeDigit_encodeDigit _ (by omega),
      decodeDigit_encodeDigit _ (by omega), decodeDigit_encodeDigit _ (by omega), hrest]
    congr 1
    · omega
    · congr 1
      · omega
      · congr 1
        omega

/-- The unpadded base64url text determines the bytes: hashes with the same
text are the same hash. -/
theorem EncodeToString_injective (a b : List Nat) (ha : ∀ x ∈ a, x < 256)
    (hb : ∀ x ∈ b, x < 256) (h : EncodeToString a = EncodeToString b) : a = b := by
  unfold EncodeToString at h
  have hchars : encodeBytes a = encodeBytes b := by
    injection h
  rw [← decodeChars_encodeBytes a ha, ← decodeChars_encodeBytes b hb, hchars]

end conveygo

/-! ## The transaction validator -/

namespace conveygo

theorem firstMismatch_append (xs ys : List bcgo.BlockEntry) :
    firstMismatch (xs ++ ys)
      = match firstMismatch xs with
        | some p => some p
        | none => firstMismatch ys := by
  induction xs with
  | nil => cases h : firstMismatch ys <;> simp [firstMismatch, h]
  | cons entry rest ih =>
    simp only [List.cons_append, firstMismatch]
    cases entry.Record.Payload.asTransaction with
    | none => exact ih
    | some t =>
      by_cases hne : entry.Record.Creator ≠ t.Sender
      · simp only [if_pos hne]
      · simp only [if_neg hne]; exact ih

namespace TransactionValidator

/-- The entry loop returns the error of the first mismatch. -/
theorem validateEntries_eq (entries : List bcgo.BlockEntry)
    (hparse : ∀ entry ∈ entries, entry.Record.Payload.asTransaction ≠ none) :
    validateEntries entries
      = (firstMismatch entries).map fun p =>
          bcgo.Error.Text (ERROR_CREATOR_SENDER_DONT_MATCH p.1 p.2) := by
  induction entries with
  | nil => rfl
  | cons entry rest ih =>
    have hrest := ih fun e he => hparse e (List.mem_cons_of_mem _ he)
    have hentry := hparse entry (List.mem_cons_self _ _)
    simp only [validateEntries, firstMismatch]
    cases h : entry.Record.Payload.asTransaction with
    | none => exact absurd h hentry
    | some t =>
      by_cases hne : entry.Record.Creator ≠ t.Sender
      · simp only [if_pos hne, Option.map_some']
      · simp only [if_neg hne]; exact hrest

/-- The walk returns the error of the first mismatch on the chain. -/
theorem Validate_eq (chain : bcgo.Chain)
    (hparse : ∀ entry ∈ entriesOf chain, entry.Record.Payload.asTransaction ≠ none) :
    Validate chain
      = (firstMismatch (entriesOf chain)).map fun p =>
          bcgo.Error.Text (ERROR_CREATOR_SENDER_DONT_MATCH p.1 p.2) := by
  unfold Validate
  induction chain with
  | nil => rfl
  | cons hb rest ih =>
    obtain ⟨h, b⟩ := hb
    have hb : ∀ entry ∈ b.Entry, entry.Record.Payload.asTransaction ≠ none :=
      fun e he => hparse e (by simp only [entriesOf, List.mem_append]; exact Or.inl he)
    have hrest := ih fun e he =>
      hparse e (by simp only [entriesOf, List.mem_append]; exact Or.inr he)
    have hv := validateEntries_eq b.Entry hb
    simp only [bcgo.Iterate, validateCallback, entriesOf, firstMismatch_append]
    cases hm : firstMismatch b.Entry with
    | some p => rw [hm] at hv; simp only [hv, Option.map_some']
    | none => rw [hm] at hv; simp only [hv, Option.map_none']; exact hrest

end TransactionValidator

end conveygo

namespace conveygo

theorem firstMismatch_eq_none (entries : List bcgo.BlockEntry) :
    firstMismatch entries = none
      ↔ ∀ entry ∈ entries, ∀ t, entry.Record.Payload.asTransaction = some t →
          entry.Record.Creator = t.Sender := by
  induction entries with
  | nil => simp [firstMismatch]
  | cons entry rest ih =>
    simp only [firstMismatch, List.mem_cons, forall_eq_or_imp]
    cases h : entry.Record.Payload.asTransaction with
    | none => simp only [ih]; simp
    | some t =>
      by_cases hne : entry.Record.Creator ≠ t.Sender
      · simp only [if_pos hne]
        constructor
        · intro h0; simp at h0
        · intro h0; exact absurd (h0.1 t rfl) hne
      · simp only [if_neg hne, ih]
        have heq : entry.Record.Creator = t.Sender := not_not.mp hne
        constructor
        · intro h0
          refine ⟨?_, h0⟩
          intro t2 ht2
          cases ht2
          exact heq
        · intro h0; exact h0.2

theorem firstMismatch_first (before after : List bcgo.BlockEntry) (entry : bcgo.BlockEntry)
    (t : Transaction) (hbefore : firstMismatch before = none)
    (ht : entry.Record.Payload.asTransaction = some t)
    (hne : entry.Record.Creator ≠ t.Sender) :
    firstMismatch (before ++ entry :: after) = some (entry.Record.Creator, t.Sender) := by
  rw [firstMismatch_append, hbefore]
  simp only [firstMismatch, ht, if_pos hne]

end conveygo

/-! ## The way up from a reply in `GetYield` -/

namespace conveygo

theorem remaining_zero (k : Nat) : remaining 0 k = 0 := by
  induction k with
  | zero => rfl
  | succ k ih => simp [remaining, ih]

theorem Trail_unique (replies : List (Hash × ReplyNode)) (root : Hash) :
    ∀ (as bs : List ReplyNode) (p la lb : Hash),
      Trail replies root p as la → Trail replies root p bs lb → as = bs ∧ la = lb := by
  intro as
  induction as with
  | nil =>
    intro bs p la lb ha hb
    cases bs with
    | nil => exact ⟨rfl, ha.1.trans hb.1.symm⟩
    | cons b rest =>
      simp only [Trail] at ha hb
      rcases ha.2 with h | h
      · exact absurd h hb.1
      · rw [hb.2.1] at h; simp at h
  | cons a rest ih =>
    intro bs p la lb ha hb
    cases bs with
    | nil =>
      simp only [Trail] at ha hb
      rcases hb.2 with h | h
      · exact absurd h ha.1
      · rw [ha.2.1] at h; simp at h
    | cons b rest' =>
      simp only [Trail] at ha hb
      have e : some a = some b := ha.2.1.symm.trans hb.2.1
      simp only [Option.some.injEq] at e
      subst e
      obtain ⟨h1, h2⟩ := ih rest' a.Previous la lb ha.2.2 hb.2.2
      exact ⟨by rw [h1], h2⟩

theorem mapGet_filter_none {κ ν : Type} [DecidableEq κ] (m : List (κ × ν)) (f : κ × ν → Bool)
    (p : κ) (h : mapGet m p = none) : mapGet (m.filter f) p = none := by
  induction m with
  | nil => rfl
  | cons e rest ih =>
    obtain ⟨k, v⟩ := e
    simp only [mapGet] at h
    by_cases hk : k = p
    · simp [hk] at h
    · simp only [if_neg hk] at h
      by_cases hf : f (k, v) = true
      · rw [List.filter_cons_of_pos hf]
        simp only [mapGet, if_neg hk]
        exact ih h
      · rw [List.filter_cons_of_neg hf]
        exact ih h

theorem Trail_avoid (replies : List (Hash × ReplyNode)) (root q : Hash) :
    ∀ (as : List ReplyNode) (p last : Hash),
      Trail replies root p as last →
      (∀ bs lb, Trail replies root q bs lb → as.length < bs.length) →
      Trail (replies.filter fun kn => kn.1 ≠ q) root p as last := by
  intro as
  induction as with
  | nil =>
    intro p last ha hq
    have h0 := hq [] last
    simp only [Trail] at ha ⊢
    refine ⟨ha.1, ?_⟩
    rcases ha.2 with h | h
    · exact Or.inl h
    · exact Or.inr (mapGet_filter_none _ _ _ h)
  | cons a rest ih =>
    intro p last ha hq
    have hpq : p ≠ q := by
      intro e
      subst e
      exact absurd (hq _ _ ha) (lt_irrefl _)
    simp only [Trail] at ha ⊢
    rw [mapGet_filter_ne _ _ _ hpq]
    refine ⟨ha.1, ha.2.1, ih a.Previous last ha.2.2 ?_⟩
    intro bs lb hb
    have := hq bs lb hb
    simp only [List.length_cons] at this
    omega

/-- A way up meets no reply twice, so it is no longer than the map of replies. -/
theorem Trail_length_le (root : Hash) :
    ∀ (as : List ReplyNode) (replies : List (Hash × ReplyNode)) (p last : Hash),
      Trail replies root p as last → as.length ≤ replies.length := by
  intro as
  induction as with
  | nil => intro replies p last _; exact Nat.zero_le _
  | cons a rest ih =>
    intro replies p last ha
    have hget : mapGet replies p = some a := ha.2.1
    have hmem := mem_of_mapGet replies p a hget
    have hlt : (replies.filter fun kn => kn.1 ≠ p).length < replies.length := by
      rw [List.length_filter_lt_length_iff_exists]
      exact ⟨(p, a), hmem, by simp⟩
    have hrest : Trail replies root a.Previous rest last := ha.2.2
    have h1 := Trail_avoid replies root p rest a.Previous last hrest (by
      intro bs lb hb
      rw [← (Trail_unique replies root _ _ p _ _ ha hb).1]
      simp)
    have h2 := ih _ _ _ h1
    simp only [List.length_cons]
    omega

/-- What the inner loop of `GetYield` adds for a reply with a way up of `nodes`:
half of what is left of its cost when the way ends at the root message, and
nothing when it ends elsewhere. -/
theorem BCStore.rootShare_eq (replies : List (Hash × ReplyNode)) (root : Hash) :
    ∀ (nodes : List ReplyNode) (fuel : Nat) (reply : ReplyNode) (reward : Nat) (last : Hash),
      Trail replies root reply.Previous nodes last → nodes.length + 2 ≤ fuel →
      BCStore.rootShare replies root fuel (some reply) reward
        = some (if last = root then remaining reward nodes.length / 2 else 0) := by
  intro nodes
  induction nodes with
  | nil =>
    intro fuel reply reward last ht hfuel
    obtain ⟨fuel, rfl⟩ : ∃ f, fuel = f + 2 := ⟨fuel - 2, by simp at hfuel; omega⟩
    simp only [Trail] at ht
    obtain ⟨hlast, hend⟩ := ht
    subst hlast
    simp only [BCStore.rootShare, remaining]
    by_cases hr : reward > 0
    · simp only [if_pos hr]
      by_cases hroot : reply.Previous = root
      · simp only [if_pos hroot]
      · simp only [if_neg hroot]
        rcases hend with h | h
        · exact absurd h hroot
        · rw [h]
          rfl
    · simp only [if_neg hr]
      have h0 : reward = 0 := by omega
      subst h0
      by_cases hroot : reply.Previous = root <;> simp [hroot]
  | cons n rest ih =>
    intro fuel reply reward last ht hfuel
    obtain ⟨fuel, rfl⟩ : ∃ f, fuel = f + 1 := ⟨fuel - 1, by simp at hfuel; omega⟩
    simp only [Trail] at ht
    obtain ⟨hne, hget, hrest⟩ := ht
    simp only [BCStore.rootShare]
    by_cases hr : reward > 0
    · simp only [if_pos hr, if_neg hne, hget]
      rw [ih fuel n (reward - reward / 2) last hrest (by simp at hfuel ⊢; omega)]
      simp only [List.length_cons, remaining_shift]
    · simp only [if_neg hr]
      have h0 : reward = 0 := by omega
      subst h0
      simp [remaining_zero]

end conveygo

/-! ## `GetYield` of the blockchain store -/

namespace conveygo

theorem replyNodes_append (xs ys : List bcgo.BlockEntry) :
    replyNodes (xs ++ ys) = replyNodes xs ++ replyNodes ys := by
  induction xs with
  | nil => rfl
  | cons entry rest ih =>
    simp only [List.cons_append, replyNodes]
    cases entry.Record.Payload.asMessage with
    | none => exact ih
    | some m =>
      by_cases hp : m.Previous = []
      · simp only [if_pos hp]; exact ih
      · simp only [if_neg hp, List.cons_append]
        exact congrArg _ ih

theorem rootMessages_append (xs ys : List bcgo.BlockEntry) :
    rootMessages (xs ++ ys) = rootMessages xs ++ rootMessages ys := by
  induction xs with
  | nil => rfl
  | cons entry rest ih =>
    simp only [List.cons_append, rootMessages]
    cases entry.Record.Payload.asMessage with
    | none => exact ih
    | some m =>
      by_cases hp : m.Previous = []
      · simp only [if_pos hp, List.cons_append]
        exact congrArg _ ih
      · simp only [if_neg hp]; exact ih

/-- The variables of `GetYield` after its callback has seen `entries`. -/
theorem BCStore.messageLookup_yield (entries : List bcgo.BlockEntry) :
    ∀ (st : YieldState), (∀ entry ∈ entries, entry.Record.Payload.asMessage ≠ none) →
      BCStore.messageLookup none BCStore.yieldCallback entries st
        = ({ messageHash :=
               (rootMessages entries).foldl (fun _ e => e.RecordHash) st.messageHash,
             messageCost :=
               (rootMessages entries).foldl (fun _ e => Cost e.Record) st.messageCost,
             replies :=
               (replyNodes entries).foldl (fun m kn => mapSet m kn.1 kn.2) st.replies },
           none) := by
  induction entries with
  | nil => intro st _; rfl
  | cons entry rest ih =>
    intro st hparse
    have hrest : ∀ e ∈ rest, e.Record.Payload.asMessage ≠ none :=
      fun e he => hparse e (List.mem_cons_of_mem _ he)
    have hentry := hparse entry (List.mem_cons_self _ _)
    simp only [BCStore.messageLookup, true_or, if_true, rootMessages, replyNodes]
    cases h : entry.Record.Payload.asMessage with
    | none => exact absurd h hentry
    | some m =>
      by_cases hp : m.Previous = []
      · simp only [BCStore.yieldCallback, if_pos hp, List.foldl_cons]
        rw [ih _ hrest]
      · simp only [BCStore.yieldCallback, if_neg hp, List.foldl_cons]
        rw [ih _ hrest]

/-- The variables of `GetYield` after the walk over a chain. -/
theorem BCStore.Iterate_yield (chain : bcgo.Chain) :
    ∀ (st : YieldState), (∀ entry ∈ entriesOf chain, entry.Record.Payload.asMessage ≠ none) →
      bcgo.Iterate (fun st _ b => BCStore.messageLookup none BCStore.yieldCallback b.Entry st)
          chain st
        = ({ messageHash :=
               (rootMessages (entriesOf chain)).foldl (fun _ e => e.RecordHash) st.messageHash,
             messageCost :=
               (rootMessages (entriesOf chain)).foldl (fun _ e => Cost e.Record) st.messageCost,
             replies :=
               (replyNodes (entriesOf chain)).foldl (fun m kn => mapSet m kn.1 kn.2)
                 st.replies },
           none) := by
  induction chain with
  | nil => intro st _; rfl
  | cons hb rest ih =>
    intro st hparse
    obtain ⟨h, b⟩ := hb
    have hb : ∀ e ∈ b.Entry, e.Record.Payload.asMessage ≠ none :=
      fun e he => hparse e (by simp only [entriesOf, List.mem_append]; exact Or.inl he)
    have hrest : ∀ e ∈ entriesOf rest, e.Record.Payload.asMessage ≠ none :=
      fun e he => hparse e (by simp only [entriesOf, List.mem_append]; exact Or.inr he)
    simp only [bcgo.Iterate, BCStore.messageLookup_yield b.Entry st hb]
    rw [ih _ hrest]
    simp only [entriesOf, rootMessages_append, replyNodes_append, List.foldl_append]

theorem mapSet_fresh {κ ν : Type} [DecidableEq κ] (m : List (κ × ν)) (k : κ) (v : ν)
    (h : k ∉ m.map Prod.fst) : mapSet m k v = m ++ [(k, v)] := by
  induction m with
  | nil => rfl
  | cons e rest ih =>
    obtain ⟨k0, v0⟩ := e
    simp only [List.map_cons, List.mem_cons, not_or] at h
    have hne : ¬ k0 = k := fun e => h.1 e.symm
    simp only [mapSet, if_neg hne, List.cons_append, ih h.2]

/-- Keys that differ are noted in the order they come. -/
theorem foldl_mapSet_nodup {κ ν : Type} [DecidableEq κ] (l : List (κ × ν)) :
    ∀ (pre : List (κ × ν)), ((pre ++ l).map Prod.fst).Nodup →
      l.foldl (fun m kn => mapSet m kn.1 kn.2) pre = pre ++ l := by
  induction l with
  | nil => intro pre _; simp
  | cons e rest ih =>
    intro pre hnodup
    have hfresh : e.1 ∉ pre.map Prod.fst := by
      intro hmem
      rw [List.map_append, List.map_cons] at hnodup
      have := List.disjoint_of_nodup_append hnodup
      exact this hmem (List.mem_cons_self _ _)
    simp only [List.foldl_cons]
    rw [mapSet_fresh pre e.1 e.2 hfresh]
    have : pre ++ [(e.1, e.2)] ++ rest = pre ++ e :: rest := by simp
    rw [ih (pre ++ [(e.1, e.2)]) (by rw [this]; exact hnodup), this]

/-- The outer loop of `GetYield` adds up one share for every reply. -/
theorem BCStore.yieldLoop_eq (replies : List (Hash × ReplyNode)) (root : Hash) :
    ∀ (rest : List (Hash × ReplyNode)),
      (∀ reply ∈ rest, ∃ nodes last, Trail replies root reply.2.Previous nodes last) →
      ∃ shares : List Nat,
        List.Forall₂ (fun (reply : Hash × ReplyNode) share =>
            ∀ nodes last, Trail replies root reply.2.Previous nodes last →
              share = if last = root then remaining reply.2.Cost nodes.length / 2 else 0)
          rest shares ∧
        ∀ messageReward, messageReward < 2 ^ 64 →
          BCStore.yieldLoop replies root rest messageReward
            = some ((messageReward + shares.sum) % 2 ^ 64) := by
  intro rest
  induction rest with
  | nil =>
    intro _
    refine ⟨[], List.Forall₂.nil, fun r hr => ?_⟩
    simp only [BCStore.yieldLoop, List.sum_nil, Nat.add_zero, Nat.mod_eq_of_lt hr]
  | cons reply rest ih =>
    intro hends
    obtain ⟨nodes, last, ht⟩ := hends reply (List.mem_cons_self _ _)
    obtain ⟨shares, hshares, hloop⟩ := ih fun r hr => hends r (List.mem_cons_of_mem _ hr)
    have hlen := Trail_length_le root nodes replies _ last ht
    have hshare := BCStore.rootShare_eq replies root nodes (replies.length + 2) reply.2
      reply.2.Cost last ht (by omega)
    refine ⟨(if last = root then remaining reply.2.Cost nodes.length / 2 else 0) :: shares,
      List.Forall₂.cons ?_ hshares, ?_⟩
    · intro nodes2 last2 ht2
      obtain ⟨e1, e2⟩ := Trail_unique replies root _ _ _ _ _ ht ht2
      rw [e1, e2]
    · intro r _
      obtain ⟨key, node⟩ := reply
      simp only [BCStore.yieldLoop]
      simp only at hshare
      rw [hshare]
      simp only [List.sum_cons]
      rw [hloop _ (Nat.mod_lt _ (Nat.two_pow_pos 64)), Nat.mod_add_mod, Nat.add_assoc]

theorem BCStore.GetMessage_of_channel {σ : Type} (s : BCStore) (conversationHash : Hash)
    (messageHash : Option Hash) (callback : MessageCallback σ) (st : σ) (chain : bcgo.Chain)
    (hchannel : mapGet s.Channels (CONVEY_PREFIX_MESSAGE ++ EncodeToString conversationHash)
      = some chain) :
    s.GetMessage conversationHash messageHash callback st
      = bcgo.Iterate (fun st _ b => BCStore.messageLookup messageHash callback b.Entry st)
          chain st := by
  simp only [BCStore.GetMessage, BCStore.GetChannel, hchannel]

theorem BCStore.GetMessage_no_channel {σ : Type} (s : BCStore) (conversationHash : Hash)
    (messageHash : Option Hash) (callback : MessageCallback σ) (st : σ)
    (hchannel : mapGet s.Channels (CONVEY_PREFIX_MESSAGE ++ EncodeToString conversationHash)
      = none) :
    s.GetMessage conversationHash messageHash callback st
      = (st, some (bcgo.Error.Text
          (ERROR_NO_SUCH_CONVERSATION (EncodeToString conversationHash)))) := by
  simp only [BCStore.GetMessage, BCStore.GetChannel, hchannel]

/-- What `GetYield` returns on a chain of messages whose replies have
different hashes and each have a way up: the cost of the root message seen
last and the sum, in `uint64`, of one share for every reply. -/
theorem BCStore.GetYield_eq (s : BCStore) (conversationHash : Hash) (chain : bcgo.Chain)
    (hchannel : mapGet s.Channels (CONVEY_PREFIX_MESSAGE ++ EncodeToString conversationHash)
      = some chain)
    (hparse : ∀ entry ∈ entriesOf chain, entry.Record.Payload.asMessage ≠ none)
    (hnodup : ((replyNodes (entriesOf chain)).map Prod.fst).Nodup)
    (hends : ∀ reply ∈ replyNodes (entriesOf chain), ∃ nodes last,
      Trail (replyNodes (entriesOf chain))
        ((rootMessages (entriesOf chain)).foldl (fun _ e => e.RecordHash) [])
        reply.2.Previous nodes last) :
    ∃ shares : List Nat,
      List.Forall₂ (fun (reply : Hash × ReplyNode) share =>
          ∀ nodes last, Trail (replyNodes (entriesOf chain))
              ((rootMessages (entriesOf chain)).foldl (fun _ e => e.RecordHash) [])
              reply.2.Previous nodes last →
            share = if last = (rootMessages (entriesOf chain)).foldl (fun _ e => e.RecordHash) []
              then remaining reply.2.Cost nodes.length / 2 else 0)
        (replyNodes (entriesOf chain)) shares ∧
      s.GetYield conversationHash
        = (((rootMessages (entriesOf chain)).foldl (fun _ e => Cost e.Record) 0,
            shares.sum % 2 ^ 64), Outcome.ok) := by
  obtain ⟨shares, hshares, hloop⟩ := BCStore.yieldLoop_eq (replyNodes (entriesOf chain))
    ((rootMessages (entriesOf chain)).foldl (fun _ e => e.RecordHash) [])
    (replyNodes (entriesOf chain)) hends
  refine ⟨shares, hshares, ?_⟩
  have hfold : (replyNodes (entriesOf chain)).foldl (fun m kn => mapSet m kn.1 kn.2) []
      = replyNodes (entriesOf chain) := by
    have := foldl_mapSet_nodup (replyNodes (entriesOf chain)) [] (by simpa using hnodup)
    simpa using this
  simp only [BCStore.GetYield, BCStore.GetMessage_of_channel s conversationHash none _ _ chain
    hchannel, BCStore.Iterate_yield chain _ hparse, hfold]
  rw [hloop 0 (Nat.two_pow_pos 64)]
  simp only [Nat.zero_add]

theorem remaining_le (c : Nat) : ∀ k, remaining c k ≤ c := by
  intro k
  induction k with
  | zero => exact Nat.le_refl _
  | succ k ih => simp only [remaining]; omega

/-- Shares that are each at most the cost of their reply add up to at most the
cost of all replies. -/
theorem shares_sum_le (replies : List (Hash × ReplyNode)) (shares : List Nat)
    (h : List.Forall₂ (fun (reply : Hash × ReplyNode) share => share ≤ reply.2.Cost)
      replies shares) :
    shares.sum ≤ (replies.map fun reply => reply.2.Cost).sum := by
  induction h with
  | nil => simp
  | cons hhead _ ih => simp only [List.sum_cons, List.map_cons]; omega

/-- A share is at most the cost of its reply. -/
theorem share_le_cost (replies : List (Hash × ReplyNode)) (root : Hash)
    (rest : List (Hash × ReplyNode)) (shares : List Nat)
    (hshares : List.Forall₂ (fun (reply : Hash × ReplyNode) share =>
        ∀ nodes last, Trail replies root reply.2.Previous nodes last →
          share = if last = root then remaining reply.2.Cost nodes.length / 2 else 0)
      rest shares) :
    (∀ reply ∈ rest, ∃ nodes last, Trail replies root reply.2.Previous nodes last) →
    List.Forall₂ (fun (reply : Hash × ReplyNode) share => share ≤ reply.2.Cost)
      rest shares := by
  induction hshares with
  | nil => intro _; exact List.Forall₂.nil
  | cons hhead _ ih =>
    intro hends
    obtain ⟨nodes, last, ht⟩ := hends _ (List.mem_cons_self _ _)
    refine List.Forall₂.cons ?_ (ih fun r hr => hends r (List.mem_cons_of_mem _ hr))
    rw [hhead nodes last ht]
    by_cases hl : last = root
    · rw [if_pos hl]
      exact Nat.le_trans (Nat.div_le_self _ _) (remaining_le _ _)
    · rw [if_neg hl]
      exact Nat.zero_le _

theorem Sample_thread_replies :
    replyNodes (entriesOf Sample.thread)
      = [([23], { Previous := [22], Cost := 8, Reward := 0 }),
         ([22], { Previous := [21], Cost := 6, Reward := 0 }),
         ([21], { Previous := [20], Cost := 4, Reward := 0 })] := by
  decide

/-- Every reply of the sample thread has a way up to the root message `[20]`. -/
theorem Sample_thread_ends :
    ∀ reply ∈ replyNodes (entriesOf Sample.thread), ∃ nodes last,
      Trail (replyNodes (entriesOf Sample.thread)) [20] reply.2.Previous nodes last := by
  intro reply hmem
  rw [Sample_thread_replies] at hmem ⊢
  simp only [List.mem_cons, List.mem_singleton, List.not_mem_nil, or_false] at hmem
  rcases hmem with rfl | rfl | rfl
  · exact ⟨[{ Previous := [21], Cost := 6, Reward := 0 },
            { Previous := [20], Cost := 4, Reward := 0 }], [20], by decide⟩
  · exact ⟨[{ Previous := [20], Cost := 4, Reward := 0 }], [20], by decide⟩
  · exact ⟨[], [20], by decide⟩

end conveygo

/-! ## The digest -/

namespace conveygo

/-- The loop of `GetDigestEntries` appends one entry for every conversation. -/
theorem digestLoop_ok (messages : MessageStore) :
    ∀ (conversations : List Listing) (entries result : List DigestEntry),
      digestLoop messages conversations entries = (result, none) →
      ∃ added, result = entries ++ added ∧
        List.Forall₂ (EntryOf messages) conversations added := by
  intro conversations
  induction conversations with
  | nil =>
    intro entries result h
    simp only [digestLoop, Prod.mk.injEq, and_true] at h
    exact ⟨[], by simp [h], List.Forall₂.nil⟩
  | cons c rest ih =>
    intro entries result h
    simp only [digestLoop] at h
    rcases hm : messages.GetMessage (Option Message) c.Hash none digestCallback none
      with ⟨message, merr⟩
    rw [hm] at h
    cases merr with
    | some err => simp at h
    | none =>
      rcases hy : messages.GetYield c.Hash with ⟨⟨cost, reward⟩, yerr⟩
      rw [hy] at h
      cases yerr with
      | some err => simp at h
      | none =>
        simp only at h
        obtain ⟨added, hadded, hall⟩ := ih _ _ h
        refine ⟨_, hadded.trans (List.append_assoc _ _ _), List.Forall₂.cons ?_ hall⟩
        exact ⟨cost, reward, hy, rfl, rfl, rfl, rfl, rfl,
          (by show (0 + reward) % 2 ^ 64 = reward % 2 ^ 64; rw [Nat.zero_add]), rfl⟩

/-- What `GetDigestEntries` returns when it returns no error: the first
`DIGEST_LIMIT` entries of the sorted slice of one entry for every conversation. -/
theorem GetDigestEntries_ok
    (sortSlice : (DigestEntry → DigestEntry → Bool) → List DigestEntry → List DigestEntry)
    (messages : MessageStore) (fromTime toTime : Nat)
    (hok : (GetDigestEntries sortSlice messages fromTime toTime).2 = none) :
    ∃ all, List.Forall₂ (EntryOf messages) (messages.GetAllConversations fromTime toTime).1 all ∧
      (GetDigestEntries sortSlice messages fromTime toTime).1
        = (sortSlice yieldLess all).take DIGEST_LIMIT := by
  unfold GetDigestEntries at hok ⊢
  rcases hc : messages.GetAllConversations fromTime toTime with ⟨conversations, cerr⟩
  rw [hc] at hok
  cases cerr with
  | some err => simp at hok
  | none =>
    simp only at hok ⊢
    rcases hl : digestLoop messages conversations [] with ⟨entries, lerr⟩
    rw [hl] at hok
    cases lerr with
    | some err => simp at hok
    | none =>
      obtain ⟨added, hadded, hall⟩ := digestLoop_ok messages conversations [] entries hl
      simp only [List.nil_append] at hadded
      subst hadded
      refine ⟨entries, hall, ?_⟩
      simp only
      by_cases hlen : (sortSlice yieldLess entries).length > DIGEST_LIMIT
      · simp only [if_pos hlen]
      · simp only [if_neg hlen]
        rw [List.take_of_length_le (by omega)]

/-- The entries returned are the first `DIGEST_LIMIT` of a sorted slice, error
or not. -/
theorem GetDigestEntries_take
    (sortSlice : (DigestEntry → DigestEntry → Bool) → List DigestEntry → List DigestEntry)
    (messages : MessageStore) (fromTime toTime : Nat) :
    ∃ all, (GetDigestEntries sortSlice messages fromTime toTime).1
      = (sortSlice yieldLess all).take DIGEST_LIMIT ∨
      (GetDigestEntries sortSlice messages fromTime toTime).1 = [] := by
  unfold GetDigestEntries
  rcases messages.GetAllConversations fromTime toTime with ⟨conversations, cerr⟩
  cases cerr with
  | some err => exact ⟨[], Or.inr rfl⟩
  | none =>
    simp only
    rcases digestLoop messages conversations [] with ⟨entries, lerr⟩
    cases lerr with
    | some err => exact ⟨[], Or.inr rfl⟩
    | none =>
      refine ⟨entries, Or.inl ?_⟩
      simp only
      by_cases hlen : (sortSlice yieldLess entries).length > DIGEST_LIMIT
      · simp only [if_pos hlen]
      · simp only [if_neg hlen]
        rw [List.take_of_length_le (by omega)]

theorem yieldLess_eq_false (a b : DigestEntry) : yieldLess b a = false ↔ b.Yield ≤ a.Yield := by
  simp [yieldLess]

/-- Insertion sort meets the contract of `sort.Slice` for the order of yields. -/
theorem Sample_sortSlice_sorted (entries : List DigestEntry) :
    (Sample.sortSlice yieldLess entries).Perm entries ∧
    (Sample.sortSlice yieldLess entries).Pairwise fun a b => yieldLess b a = false := by
  haveI : IsTotal DigestEntry (fun a b => yieldLess b a = false) :=
    ⟨fun a b => by
      simp only [yieldLess_eq_false]
      exact le_total _ _⟩
  haveI : IsTrans DigestEntry (fun a b => yieldLess b a = false) :=
    ⟨fun a b c hab hbc => by
      simp only [yieldLess_eq_false] at hab hbc ⊢
      exact le_trans hbc hab⟩
  exact ⟨List.perm_insertionSort _ _, List.sorted_insertionSort _ _⟩

/-- Every entry of a slice built for the conversations belongs to one of them. -/
theorem EntryOf_of_mem (messages : MessageStore) (conversations : List Listing)
    (all : List DigestEntry) (h : List.Forall₂ (EntryOf messages) conversations all) :
    ∀ entry ∈ all, ∃ c ∈ conversations, EntryOf messages c entry := by
  induction h with
  | nil => intro entry hmem; exact absurd hmem (List.not_mem_nil _)
  | cons hhead _ ih =>
    intro entry hmem
    rcases List.mem_cons.mp hmem with rfl | hmem
    · exact ⟨_, List.mem_cons_self _ _, hhead⟩
    · obtain ⟨c, hc, hce⟩ := ih entry hmem
      exact ⟨c, List.mem_cons_of_mem _ hc, hce⟩

/-- The yield of an entry is the `int64` difference of reward and cost. -/
theorem EntryOf_yield (messages : MessageStore) (c : Listing) (entry : DigestEntry)
    (h : EntryOf messages c entry) :
    entry.Yield = int64 ((entry.Reward : Int) - entry.Cost) := by
  obtain ⟨cost, reward, _, _, _, _, _, _, _, hyield⟩ := h
  rw [hyield]
  exact int64_congr ((int64_modEq _).sub (int64_modEq _))

end conveygo

/-! ## The memory store -/

namespace conveygo

namespace MemoryStore

theorem AddMessage_of_conversation (s : MemoryStore) (conversationHash messageHash : Hash)
    (messageRecord record : bcgo.Record)
    (h : mapGet s.Conversations conversationHash = some record) :
    s.AddMessage conversationHash messageHash messageRecord
      = ({ s with
            Mappings := mapSet s.Mappings conversationHash
              ((mapGet s.Mappings conversationHash).getD [] ++ [messageHash]),
            Messages := mapSet s.Messages messageHash messageRecord },
          none) := by
  simp only [AddMessage, h]

theorem AddMessage_no_conversation (s : MemoryStore) (conversationHash messageHash : Hash)
    (messageRecord : bcgo.Record) (h : mapGet s.Conversations conversationHash = none) :
    s.AddMessage conversationHash messageHash messageRecord
      = (s, some (bcgo.Error.Text
          (ERROR_NO_SUCH_CONVERSATION (EncodeToString conversationHash)))) := by
  simp only [AddMessage, h]

theorem NewConversation_eq (s : MemoryStore) (conversationHash : Hash)
    (conversationRecord : bcgo.Record) (messageHash : Hash) (messageRecord : bcgo.Record) :
    s.NewConversation conversationHash conversationRecord messageHash messageRecord
      = ({ s with
            Conversations := mapSet s.Conversations conversationHash conversationRecord,
            Timestamps := mapSet s.Timestamps conversationHash conversationRecord.Timestamp,
            Mappings := mapSet s.Mappings conversationHash
              ((mapGet s.Mappings conversationHash).getD [] ++ [messageHash]),
            Messages := mapSet s.Messages messageHash messageRecord },
          none) := by
  unfold NewConversation
  simp only
  rw [AddMessage_of_conversation _ _ _ _ conversationRecord (mapGet_mapSet_self _ _ _)]

/-- A call keeps every conversation that has messages among the conversations. -/
theorem memory_call_keeps (s : MemoryStore) (c : MemoryStore.Call)
    (h : ∀ k, mapGet s.Conversations k = none → mapGet s.Mappings k = none) :
    ∀ k, mapGet (s.call c).Conversations k = none → mapGet (s.call c).Mappings k = none := by
  intro k
  cases c with
  | addKey who password key =>
    simp only [call, AddKey]
    cases mapGet s.Passwords who <;> exact h k
  | newConversation conversationHash conversationRecord messageHash messageRecord =>
    simp only [call, NewConversation_eq, mapGet_mapSet]
    by_cases hk : conversationHash = k
    · simp [hk]
    · simp only [if_neg hk]
      exact h k
  | addMessage conversationHash messageHash messageRecord =>
    simp only [call]
    cases hc : mapGet s.Conversations conversationHash with
    | none =>
      rw [AddMessage_no_conversation _ _ _ _ hc]
      exact h k
    | some record =>
      rw [AddMessage_of_conversation _ _ _ _ record hc]
      simp only [mapGet_mapSet]
      by_cases hk : conversationHash = k
      · subst hk
        intro hnone
        rw [hc] at hnone
        simp at hnone
      · simp only [if_neg hk]
        exact h k

/-- In a store built by calls from the empty one, only conversations have
messages. -/
theorem memory_run_keeps (calls : List MemoryStore.Call) :
    ∀ (s : MemoryStore),
      (∀ k, mapGet s.Conversations k = none → mapGet s.Mappings k = none) →
      ∀ k, mapGet (s.run calls).Conversations k = none → mapGet (s.run calls).Mappings k = none := by
  induction calls with
  | nil => intro s h; exact h
  | cons c rest ih =>
    intro s h
    exact ih (s.call c) (memory_call_keeps s c h)

end MemoryStore

end conveygo

/-! ## The blockchain store -/

namespace conveygo

theorem HasPrefix_append (pre rest : String) : HasPrefix (pre ++ rest) pre = true := by
  unfold HasPrefix
  rw [String.data_append, List.isPrefixOf_iff_prefix]
  exact List.prefix_append _ _

/-- The name of a message channel is not the name of the conversation channel. -/
theorem message_channel_ne (name : String) :
    ¬ CONVEY_PREFIX_MESSAGE ++ name = CONVEY_CONVERSATION :=
  Ledger.ne_of_HasPrefix _ _ (HasPrefix_append _ _) (by decide)

namespace BCStore

theorem conversationLookup_miss (conversationHash : Hash) :
    ∀ (entries : List bcgo.BlockEntry) (listing : Option Listing),
      (∀ entry ∈ entries, entry.RecordHash ≠ conversationHash) →
      conversationLookup conversationHash entries listing = (listing, none) := by
  intro entries
  induction entries with
  | nil => intro listing _; rfl
  | cons entry rest ih =>
    intro listing h
    have hne : ¬ conversationHash = entry.RecordHash :=
      fun e => h entry (List.mem_cons_self _ _) e.symm
    simp only [conversationLookup, if_neg hne]
    exact ih listing fun e he => h e (List.mem_cons_of_mem _ he)

theorem Iterate_conversation_miss (conversationHash : Hash) :
    ∀ (chain : bcgo.Chain) (listing : Option Listing),
      (∀ entry ∈ entriesOf chain, entry.RecordHash ≠ conversationHash) →
      bcgo.Iterate (fun listing _ b => conversationLookup conversationHash b.Entry listing)
        chain listing = (listing, none) := by
  intro chain
  induction chain with
  | nil => intro listing _; rfl
  | cons hb rest ih =>
    intro listing h
    obtain ⟨hash, b⟩ := hb
    simp only [bcgo.Iterate]
    rw [conversationLookup_miss conversationHash b.Entry listing
      fun e he => h e (by simp only [entriesOf, List.mem_append]; exact Or.inl he)]
    exact ih listing fun e he => h e (by simp only [entriesOf, List.mem_append]; exact Or.inr he)

/-- `GetConversation` for a hash that no entry of the conversation chain has. -/
theorem GetConversation_miss (s : BCStore) (conversationHash : Hash) (chain : bcgo.Chain)
    (hchannel : mapGet s.Channels CONVEY_CONVERSATION = some chain)
    (hmiss : ∀ entry ∈ entriesOf chain, entry.RecordHash ≠ conversationHash) :
    s.GetConversation conversationHash
      = (none, some (bcgo.Error.Text
          (ERROR_NO_SUCH_CONVERSATION (EncodeToString conversationHash)))) := by
  simp only [GetConversation, GetChannel, hchannel,
    Iterate_conversation_miss conversationHash chain none hmiss]

/-- `GetConversation` for the hash of the only entry of the head block. -/
theorem GetConversation_head (s : BCStore) (entry : bcgo.BlockEntry) (c : Conversation)
    (hash : Hash) (timestamp : Nat) (miner : String) (chain : bcgo.Chain)
    (hchannel : mapGet s.Channels CONVEY_CONVERSATION
      = some ((hash, { Timestamp := timestamp, Miner := miner, Entry := [entry] }) :: chain))
    (hc : entry.Record.Payload.asConversation = some c) :
    s.GetConversation entry.RecordHash
      = (some { Hash := entry.RecordHash, Timestamp := entry.Record.Timestamp,
                Author := entry.Record.Creator, Topic := c.Topic, Cost := Cost entry.Record },
          none) := by
  simp only [GetConversation, GetChannel, hchannel, bcgo.Iterate, conversationLookup,
    ConversationEntryToListing, hc, if_true]

theorem AddMessage_no_channel (s : BCStore) (conversationHash messageHash : Hash)
    (messageRecord : bcgo.Record) (mined : bcgo.Mined)
    (hchannel : mapGet s.Channels (CONVEY_PREFIX_MESSAGE ++ EncodeToString conversationHash)
      = none) :
    s.AddMessage conversationHash messageHash messageRecord mined
      = (s, some (bcgo.Error.Text
          (ERROR_NO_SUCH_CONVERSATION (EncodeToString conversationHash)))) := by
  simp only [AddMessage, GetChannel, hchannel]

/-- A `MineBlockEntry` that returns no error has left the chain the library
has mined at the channel. -/
theorem MineBlockEntry_ok (s : BCStore) (channel : String) (entry : bcgo.BlockEntry)
    (mined : bcgo.Mined) (hok : (s.MineBlockEntry channel entry mined).2 = none) :
    ∃ chain, mined.mine = Except.ok chain ∧
      (s.MineBlockEntry channel entry mined).1
        = { s with Channels := mapSet s.Channels channel chain } := by
  obtain ⟨put, mine, push⟩ := mined
  cases put with
  | some err => simp [MineBlockEntry] at hok
  | none =>
    cases mine with
    | error err => simp [MineBlockEntry] at hok
    | ok chain =>
      cases push with
      | some err => simp [MineBlockEntry] at hok
      | none => exact ⟨chain, rfl, rfl⟩

/-- `MineBlockEntry` leaves a chain at every channel that had one. -/
theorem MineBlockEntry_keeps (s : BCStore) (channel : String) (entry : bcgo.BlockEntry)
    (mined : bcgo.Mined) (name : String) (h : ∃ chain, mapGet s.Channels name = some chain) :
    ∃ chain, mapGet (s.MineBlockEntry channel entry mined).1.Channels name = some chain := by
  obtain ⟨put, mine, push⟩ := mined
  have hset : ∀ chain, ∃ found, mapGet (mapSet s.Channels channel chain) name = some found := by
    intro chain
    rw [mapGet_mapSet]
    by_cases e : channel = name
    · exact ⟨chain, by rw [if_pos e]⟩
    · rw [if_neg e]
      exact h
  cases put with
  | some err => exact h
  | none =>
    cases mine with
    | error err => exact h
    | ok chain =>
      cases push with
      | some err => exact hset chain
      | none => exact hset chain

/-- A `NewConversation` that returns no error has left the two chains the
library has mined at the conversation channel and at the message channel of
the conversation. -/
theorem NewConversation_ok (s : BCStore) (conversationHash : Hash)
    (conversationRecord : bcgo.Record) (messageHash : Hash) (messageRecord : bcgo.Record)
    (minedConversation minedMessage : bcgo.Mined)
    (hok : (s.NewConversation conversationHash conversationRecord messageHash messageRecord
      minedConversation minedMessage).2 = none) :
    ∃ conversations messages,
      minedConversation.mine = Except.ok conversations ∧
      minedMessage.mine = Except.ok messages ∧
      mapGet (s.NewConversation conversationHash conversationRecord messageHash messageRecord
          minedConversation minedMessage).1.Channels CONVEY_CONVERSATION
        = some conversations ∧
      mapGet (s.NewConversation conversationHash conversationRecord messageHash messageRecord
          minedConversation minedMessage).1.Channels
          (CONVEY_PREFIX_MESSAGE ++ EncodeToString conversationHash)
        = some messages := by
  cases hchannel : mapGet s.Channels CONVEY_CONVERSATION with
  | none =>
    exfalso
    simp [NewConversation, GetChannel, hchannel] at hok
  | some chain =>
    simp only [NewConversation, GetChannel, hchannel] at hok ⊢
    rcases h1 : s.MineBlockEntry CONVEY_CONVERSATION
      { RecordHash := conversationHash, Record := conversationRecord } minedConversation
      with ⟨s1, e1⟩
    have g1 := MineBlockEntry_ok s CONVEY_CONVERSATION
      { RecordHash := conversationHash, Record := conversationRecord } minedConversation
    rw [h1] at hok g1
    cases e1 with
    | some err => simp at hok
    | none =>
      simp only at hok ⊢
      obtain ⟨conversations, hmine1, hs1⟩ := g1 rfl
      obtain ⟨messages, hmine2, hs2⟩ := MineBlockEntry_ok _ _ _ minedMessage hok
      simp only at hs1
      refine ⟨conversations, messages, hmine1, hmine2, ?_, ?_⟩
      · rw [hs2, hs1]
        simp only [mapGet_mapSet, if_neg (message_channel_ne _), if_true]
      · rw [hs2]
        simp only [mapGet_mapSet, if_true]

/-- `AddMessage` leaves a chain at every channel that had one. -/
theorem AddMessage_keeps (s : BCStore) (conversationHash messageHash : Hash)
    (messageRecord : bcgo.Record) (mined : bcgo.Mined) (name : String)
    (h : ∃ chain, mapGet s.Channels name = some chain) :
    ∃ chain, mapGet (s.AddMessage conversationHash messageHash messageRecord mined).1.Channels
      name = some chain := by
  unfold AddMessage
  simp only [GetChannel]
  cases mapGet s.Channels (CONVEY_PREFIX_MESSAGE ++ EncodeToString conversationHash) with
  | none => exact h
  | some chain => exact MineBlockEntry_keeps s _ _ mined name h

end BCStore

end conveygo

/-! ## `GetMessage` -/

namespace conveygo

theorem messageOf_of_parse (entry : bcgo.BlockEntry) (m : Message)
    (h : entry.Record.Payload.asMessage = some m) : messageOf entry = m := by
  simp only [messageOf, h, Option.getD_some]

theorem filter_nil_hash (posts : List bcgo.BlockEntry) :
    posts.filter (fun post => decide ((none : Option Hash) = none ∨ none = some post.RecordHash))
      = posts := by
  rw [List.filter_eq_self]
  intro post _
  simp

theorem filter_some_hash (posts : List bcgo.BlockEntry) (h : Hash) :
    posts.filter (fun post => decide (some h = none ∨ some h = some post.RecordHash))
      = posts.filter fun post => decide (post.RecordHash = h) := by
  apply List.filter_congr
  intro post _
  simp [eq_comm]

namespace BCStore

/-- The entry loop of `GetMessage` calls a callback that returns nil once for
every entry asked for. -/
theorem messageLookup_fold {σ : Type} (messageHash : Option Hash) (callback : MessageCallback σ)
    (hcallback : ∀ st hash timestamp author cost message,
      (callback st hash timestamp author cost message).2 = none) :
    ∀ (entries : List bcgo.BlockEntry) (st : σ),
      (∀ entry ∈ entries, entry.Record.Payload.asMessage ≠ none) →
      messageLookup messageHash callback entries st
        = (callEach callback
            (entries.filter fun post =>
              decide (messageHash = none ∨ messageHash = some post.RecordHash)) st,
          none) := by
  intro entries
  induction entries with
  | nil => intro st _; rfl
  | cons entry rest ih =>
    intro st hparse
    have hrest := fun st => ih st fun e he => hparse e (List.mem_cons_of_mem _ he)
    have hentry := hparse entry (List.mem_cons_self _ _)
    by_cases hwant : messageHash = none ∨ messageHash = some entry.RecordHash
    · cases hm : entry.Record.Payload.asMessage with
      | none => exact absurd hm hentry
      | some m =>
        have hnil := hcallback st entry.RecordHash entry.Record.Timestamp entry.Record.Creator
          (Cost entry.Record) m
        rcases hcb : callback st entry.RecordHash entry.Record.Timestamp entry.Record.Creator
          (Cost entry.Record) m with ⟨st1, err⟩
        rw [hcb] at hnil
        simp only at hnil
        subst hnil
        rw [List.filter_cons_of_pos (by simpa using hwant)]
        simp only [messageLookup, if_pos hwant, hm, hcb, hrest, callEach, List.foldl_cons,
          messageOf_of_parse entry m hm]
    · rw [List.filter_cons_of_neg (by simpa using hwant)]
      simp only [messageLookup, if_neg hwant, hrest]

/-- The walk of `GetMessage` calls a callback that returns nil once for every
entry asked for, head block first. -/
theorem Iterate_message_fold {σ : Type} (messageHash : Option Hash)
    (callback : MessageCallback σ)
    (hcallback : ∀ st hash timestamp author cost message,
      (callback st hash timestamp author cost message).2 = none) :
    ∀ (chain : bcgo.Chain) (st : σ),
      (∀ entry ∈ entriesOf chain, entry.Record.Payload.asMessage ≠ none) →
      bcgo.Iterate (fun st _ b => messageLookup messageHash callback b.Entry st) chain st
        = (callEach callback
            ((entriesOf chain).filter fun post =>
              decide (messageHash = none ∨ messageHash = some post.RecordHash)) st,
          none) := by
  intro chain
  induction chain with
  | nil => intro st _; rfl
  | cons hb rest ih =>
    intro st hparse
    obtain ⟨h, b⟩ := hb
    have hb : ∀ e ∈ b.Entry, e.Record.Payload.asMessage ≠ none :=
      fun e he => hparse e (by simp only [entriesOf, List.mem_append]; exact Or.inl he)
    have hrest : ∀ e ∈ entriesOf rest, e.Record.Payload.asMessage ≠ none :=
      fun e he => hparse e (by simp only [entriesOf, List.mem_append]; exact Or.inr he)
    simp only [bcgo.Iterate, messageLookup_fold messageHash callback hcallback b.Entry st hb,
      ih _ hrest, entriesOf, List.filter_append, callEach, List.foldl_append]

/-- The message channel of a conversation has a chain after further
messages, if it had one before. -/
theorem addMessages_channel (conversationHash : Hash) (name : String) :
    ∀ (posts : List (bcgo.BlockEntry × bcgo.Mined)) (s : BCStore),
      (∃ chain, mapGet s.Channels name = some chain) →
      ∃ chain, mapGet (s.addMessages conversationHash posts).Channels name = some chain := by
  intro posts
  induction posts with
  | nil => intro s h; exact h
  | cons post rest ih =>
    intro s h
    exact ih _ (AddMessage_keeps s conversationHash post.1.RecordHash post.1.Record post.2
      name h)

/-- The store after further messages and one more. -/
theorem addMessages_snoc (conversationHash : Hash)
    (posts : List (bcgo.BlockEntry × bcgo.Mined)) (post : bcgo.BlockEntry × bcgo.Mined)
    (s : BCStore) :
    s.addMessages conversationHash (posts ++ [post])
      = ((s.addMessages conversationHash posts).AddMessage conversationHash post.1.RecordHash
          post.1.Record post.2).1 := by
  simp only [addMessages, List.foldl_append, List.foldl_cons, List.foldl_nil]

/-- An `AddMessage` in which the library has written the entry to the cache
and has mined leaves the chain it has mined at the message channel of the
conversation. -/
theorem AddMessage_mined (s : BCStore) (conversationHash messageHash : Hash)
    (messageRecord : bcgo.Record) (mined : bcgo.Mined) (chain mined' : bcgo.Chain)
    (hchannel : mapGet s.Channels (CONVEY_PREFIX_MESSAGE ++ EncodeToString conversationHash)
      = some chain)
    (hput : mined.put = none) (hmine : mined.mine = Except.ok mined') :
    mapGet (s.AddMessage conversationHash messageHash messageRecord mined).1.Channels
      (CONVEY_PREFIX_MESSAGE ++ EncodeToString conversationHash) = some mined' := by
  obtain ⟨put, mine, push⟩ := mined
  simp only at hput hmine
  subst hput hmine
  cases push <;>
    simp only [AddMessage, GetChannel, hchannel, MineBlockEntry, mapGet_mapSet_self]

/-- `GetMessage` on a store whose message chain decodes: one call for each
entry of each block, in the order of the walk from the head. -/
theorem GetMessage_chain {σ : Type} (s : BCStore) (conversationHash : Hash)
    (messageHash : Option Hash) (callback : MessageCallback σ)
    (hcallback : ∀ st hash timestamp author cost message,
      (callback st hash timestamp author cost message).2 = none)
    (st : σ) (chain : bcgo.Chain)
    (hchannel : mapGet s.Channels (CONVEY_PREFIX_MESSAGE ++ EncodeToString conversationHash)
      = some chain)
    (hdecode : ∀ entry ∈ entriesOf chain, entry.Record.Payload.asMessage ≠ none) :
    s.GetMessage conversationHash messageHash callback st
      = (callEach callback
          ((entriesOf chain).filter fun post =>
            decide (messageHash = none ∨ messageHash = some post.RecordHash)) st,
        none) := by
  rw [GetMessage_of_channel s conversationHash messageHash callback st chain hchannel,
    Iterate_message_fold messageHash callback hcallback chain st hdecode]

end BCStore

namespace MemoryStore

/-- The loop of `GetMessage` calls a callback that returns nil once for every
key asked for. -/
theorem messageLoop_fold {σ : Type} (s : MemoryStore) (messageHash : Option Hash)
    (callback : MessageCallback σ)
    (hcallback : ∀ st hash timestamp author cost message,
      (callback st hash timestamp author cost message).2 = none) :
    ∀ (posts : List bcgo.BlockEntry) (st : σ),
      (∀ post ∈ posts, mapGet s.Messages post.RecordHash = some post.Record ∧
        post.Record.Payload.asMessage ≠ none) →
      messageLoop s messageHash callback (posts.map fun post => post.RecordHash) st
        = (callEach callback
            (posts.filter fun post =>
              decide (messageHash = none ∨ messageHash = some post.RecordHash)) st,
          Outcome.ok) := by
  intro posts
  induction posts with
  | nil => intro st _; rfl
  | cons post rest ih =>
    intro st hposts
    have hrest := fun st => ih st fun e he => hposts e (List.mem_cons_of_mem _ he)
    obtain ⟨hrecord, hparse⟩ := hposts post (List.mem_cons_self _ _)
    by_cases hwant : messageHash = none ∨ messageHash = some post.RecordHash
    · cases hm : post.Record.Payload.asMessage with
      | none => exact absurd hm hparse
      | some m =>
        have hnil := hcallback st post.RecordHash 0 "" (Cost post.Record) m
        rcases hcb : callback st post.RecordHash 0 "" (Cost post.Record) m with ⟨st1, err⟩
        rw [hcb] at hnil
        simp only at hnil
        subst hnil
        rw [List.filter_cons_of_pos (by simpa using hwant)]
        simp only [List.map_cons, messageLoop, if_pos hwant, hrecord, hm, hcb, hrest, callEach,
          List.foldl_cons, messageOf_of_parse post m hm]
    · rw [List.filter_cons_of_neg (by simpa using hwant)]
      simp only [List.map_cons, messageLoop, if_neg hwant, hrest]

/-- The keys and records of a conversation after further messages with new
hashes. -/
theorem addMessages_state (conversationHash : Hash) :
    ∀ (posts seen : List bcgo.BlockEntry) (s : MemoryStore),
      mapGet s.Conversations conversationHash ≠ none →
      mapGet s.Mappings conversationHash = some (seen.map fun post => post.RecordHash) →
      (∀ post ∈ seen, mapGet s.Messages post.RecordHash = some post.Record) →
      ((seen ++ posts).map fun post => post.RecordHash).Nodup →
      mapGet (s.addMessages conversationHash posts).Mappings conversationHash
        = some ((seen ++ posts).map fun post => post.RecordHash) ∧
      ∀ post ∈ seen ++ posts,
        mapGet (s.addMessages conversationHash posts).Messages post.RecordHash
          = some post.Record := by
  intro posts
  induction posts with
  | nil =>
    intro seen s _ hmap hmsg _
    simp only [List.append_nil]
    exact ⟨hmap, hmsg⟩
  | cons post rest ih =>
    intro seen s hconv hmap hmsg hnodup
    obtain ⟨record, hrecord⟩ : ∃ r, mapGet s.Conversations conversationHash = some r := by
      cases h : mapGet s.Conversations conversationHash with
      | none => exact absurd h hconv
      | some r => exact ⟨r, rfl⟩
    have hstep := AddMessage_of_conversation s conversationHash post.RecordHash post.Record
      record hrecord
    have hsplit : seen ++ post :: rest = (seen ++ [post]) ++ rest := by simp
    have hfresh : ∀ e ∈ seen, ¬ post.RecordHash = e.RecordHash := by
      intro e he heq
      rw [List.map_append, List.map_cons] at hnodup
      have hdis := List.disjoint_of_nodup_append hnodup
      exact hdis (List.mem_map.mpr ⟨e, he, rfl⟩) (by rw [← heq]; exact List.mem_cons_self _ _)
    have hnext := ih (seen ++ [post])
      (s.AddMessage conversationHash post.RecordHash post.Record).1
      (by rw [hstep]; simp only [hrecord]; simp)
      (by rw [hstep]; simp only [mapGet_mapSet_self, hmap, Option.getD_some, List.map_append,
            List.map_cons, List.map_nil])
      (by
        intro e he
        rw [hstep]
        simp only [mapGet_mapSet]
        rcases List.mem_append.mp he with he | he
        · rw [if_neg (hfresh e he)]
          exact hmsg e he
        · simp only [List.mem_singleton] at he
          subst he
          rw [if_pos rfl])
      (by rw [← hsplit]; exact hnodup)
    rw [hsplit]
    exact hnext

end MemoryStore

end conveygo

/-! ## Listing the conversations of a store -/

namespace conveygo

theorem ConversationEntryToListing_of_parse (entry : bcgo.BlockEntry)
    (h : entry.Record.Payload.asConversation ≠ none) :
    ConversationEntryToListing entry = (some (listingOf entry), none) := by
  cases hc : entry.Record.Payload.asConversation with
  | none => exact absurd hc h
  | some c => simp only [ConversationEntryToListing, listingOf, hc, Option.map_some',
      Option.getD_some]

/-- One `limit--` on a `uint`. -/
theorem budget_step (limit : Nat) (hlimit : limit < 2 ^ 64) :
    (limit + (2 ^ 64 - 1)) % 2 ^ 64 < 2 ^ 64 ∧
    ((limit + (2 ^ 64 - 1)) % 2 ^ 64 ≤ 0 ↔ budget limit = 1) ∧
    (¬ (limit + (2 ^ 64 - 1)) % 2 ^ 64 ≤ 0 →
      budget ((limit + (2 ^ 64 - 1)) % 2 ^ 64) = budget limit - 1) := by
  unfold budget
  by_cases h0 : limit = 0
  · subst h0
    simp
  · have h1 : (limit + (2 ^ 64 - 1)) % 2 ^ 64 = limit - 1 := by omega
    rw [h1, if_neg h0]
    refine ⟨by omega, by omega, ?_⟩
    intro hpos
    rw [if_neg (by omega)]

namespace BCStore

/-- The entry loop of `GetRecentConversations` on entries that decode: it takes
entries until the budget of its `limit` is used up. -/
theorem recentLookup_eq :
    ∀ (entries : List bcgo.BlockEntry) (listings : List Listing) (limit : Nat),
      (∀ entry ∈ entries, entry.Record.Payload.asConversation ≠ none) → limit < 2 ^ 64 →
      (entries.length < budget limit →
        ∃ left, left < 2 ^ 64 ∧ budget left = budget limit - entries.length ∧
          recentLookup entries (listings, limit)
            = ((listings ++ entries.map listingOf, left), none)) ∧
      (budget limit ≤ entries.length →
        ∃ left, recentLookup entries (listings, limit)
          = ((listings ++ (entries.take (budget limit)).map listingOf, left),
              some bcgo.Error.StopIteration)) := by
  intro entries
  induction entries with
  | nil =>
    intro listings limit _ hlimit
    refine ⟨fun _ => ⟨limit, hlimit, by simp, by simp [recentLookup]⟩, fun h => ?_⟩
    exfalso
    unfold budget at h
    by_cases h0 : limit = 0
    · rw [if_pos h0] at h
      simp at h
    · rw [if_neg h0] at h
      simp at h
      exact h0 h
  | cons entry rest ih =>
    intro listings limit hparse hlimit
    have hentry := ConversationEntryToListing_of_parse entry
      (hparse entry (List.mem_cons_self _ _))
    have hrest : ∀ e ∈ rest, e.Record.Payload.asConversation ≠ none :=
      fun e he => hparse e (List.mem_cons_of_mem _ he)
    obtain ⟨hlt, hzero, hnext⟩ := budget_step limit hlimit
    have hpos : 1 ≤ budget limit := by
      unfold budget
      by_cases h0 : limit = 0
      · rw [if_pos h0]; exact Nat.one_le_two_pow
      · rw [if_neg h0]; omega
    obtain ⟨next, hn⟩ : ∃ next, (limit + (2 ^ 64 - 1)) % 2 ^ 64 = next := ⟨_, rfl⟩
    rw [hn] at hlt hzero hnext
    have hlen : (entry :: rest).length = rest.length + 1 := rfl
    by_cases hstop : next ≤ 0
    · have hone := hzero.mp hstop
      refine ⟨fun h => ?_, fun _ => ?_⟩
      · exfalso
        clear ih
        rw [hone, hlen] at h
        omega
      · refine ⟨next, ?_⟩
        simp only [recentLookup, hentry, hn, if_pos hstop]
        rw [hone]
        simp
    · have hbudget := hnext hstop
      obtain ⟨ihlt, ihge⟩ := ih (listings ++ [listingOf entry]) next hrest hlt
      refine ⟨fun h => ?_, fun h => ?_⟩
      · rw [hlen] at h
        have hr : rest.length < budget next := by
          clear ihlt ihge ih
          rw [hbudget]; omega
        have hsub : budget next - rest.length = budget limit - (rest.length + 1) := by
          clear ihlt ihge ih
          rw [hbudget]; omega
        obtain ⟨left, hleft, hb, hres⟩ := ihlt hr
        refine ⟨left, hleft, ?_, ?_⟩
        · rw [hb, hlen, hsub]
        · simp only [recentLookup, hentry, hn, if_neg hstop, hres, List.map_cons,
            List.append_assoc, List.singleton_append]
      · rw [hlen] at h
        have hr : budget next ≤ rest.length := by
          clear ihlt ihge ih
          rw [hbudget]; omega
        have hk : budget limit = (budget limit - 1) + 1 := by
          clear ihlt ihge ih
          omega
        obtain ⟨left, hres⟩ := ihge hr
        refine ⟨left, ?_⟩
        simp only [recentLookup, hentry, hn, if_neg hstop, hres]
        rw [hbudget, hk]
        simp

/-- The walk of `GetRecentConversations` over a chain of entries that decode. -/
theorem Iterate_recent :
    ∀ (chain : bcgo.Chain) (listings : List Listing) (limit : Nat),
      (∀ entry ∈ entriesOf chain, entry.Record.Payload.asConversation ≠ none) →
      limit < 2 ^ 64 →
      ((entriesOf chain).length < budget limit →
        ∃ left, left < 2 ^ 64 ∧ budget left = budget limit - (entriesOf chain).length ∧
          bcgo.Iterate (fun st _ b => recentLookup b.Entry st) chain (listings, limit)
            = ((listings ++ (entriesOf chain).map listingOf, left), none)) ∧
      (budget limit ≤ (entriesOf chain).length →
        ∃ left, bcgo.Iterate (fun st _ b => recentLookup b.Entry st) chain (listings, limit)
          = ((listings ++ ((entriesOf chain).take (budget limit)).map listingOf, left),
              some bcgo.Error.StopIteration)) := by
  intro chain
  induction chain with
  | nil =>
    intro listings limit hparse hlimit
    have h := recentLookup_eq [] listings limit (fun e he => absurd he (List.not_mem_nil _))
      hlimit
    simpa [bcgo.Iterate, entriesOf, recentLookup] using h
  | cons hb rest ih =>
    intro listings limit hparse hlimit
    obtain ⟨h, b⟩ := hb
    have hb : ∀ e ∈ b.Entry, e.Record.Payload.asConversation ≠ none :=
      fun e he => hparse e (by simp only [entriesOf, List.mem_append]; exact Or.inl he)
    have hrest : ∀ e ∈ entriesOf rest, e.Record.Payload.asConversation ≠ none :=
      fun e he => hparse e (by simp only [entriesOf, List.mem_append]; exact Or.inr he)
    obtain ⟨hblt, hbge⟩ := recentLookup_eq b.Entry listings limit hb hlimit
    have hlen : (entriesOf ((h, b) :: rest)).length
        = b.Entry.length + (entriesOf rest).length := by
      simp only [entriesOf, List.length_append]
    by_cases hfirst : b.Entry.length < budget limit
    · obtain ⟨left, hleft, hbudget, hres⟩ := hblt hfirst
      obtain ⟨ihlt, ihge⟩ := ih (listings ++ b.Entry.map listingOf) left hrest hleft
      refine ⟨fun hlt => ?_, fun hge => ?_⟩
      · have hr : (entriesOf rest).length < budget left := by
          clear ih ihlt ihge hblt hbge
          rw [hbudget]; omega
        have hsub : budget left - (entriesOf rest).length
            = budget limit - (entriesOf ((h, b) :: rest)).length := by
          clear ih ihlt ihge hblt hbge
          rw [hbudget, hlen]; omega
        obtain ⟨left2, hleft2, hbudget2, hres2⟩ := ihlt hr
        refine ⟨left2, hleft2, by rw [hbudget2, hsub], ?_⟩
        simp only [bcgo.Iterate, hres, hres2, entriesOf, List.map_append, List.append_assoc]
      · have hr : budget left ≤ (entriesOf rest).length := by
          clear ih ihlt ihge hblt hbge
          rw [hbudget]; omega
        obtain ⟨left2, hres2⟩ := ihge hr
        refine ⟨left2, ?_⟩
        simp only [bcgo.Iterate, hres, hres2, entriesOf]
        rw [List.take_append_eq_append_take, List.take_of_length_le (Nat.le_of_lt hfirst),
          hbudget]
        simp only [List.map_append, List.append_assoc]
    · have hge1 : budget limit ≤ b.Entry.length := Nat.le_of_not_lt hfirst
      obtain ⟨left, hres⟩ := hbge hge1
      refine ⟨fun hlt => ?_, fun _ => ?_⟩
      · exfalso
        clear ih hblt hbge
        rw [hlen] at hlt
        omega
      · refine ⟨left, ?_⟩
        simp only [bcgo.Iterate, hres, entriesOf]
        rw [List.take_append_of_le_length hge1]

/-- What `GetRecentConversations` returns on a conversation chain whose
entries decode: the listings of the first entries of the walk, as many as the
budget of `limit` allows. -/
theorem GetRecentConversations_eq (s : BCStore) (chain : bcgo.Chain) (limit : Nat)
    (hchannel : mapGet s.Channels CONVEY_CONVERSATION = some chain)
    (hparse : ∀ entry ∈ entriesOf chain, entry.Record.Payload.asConversation ≠ none)
    (hlimit : limit < 2 ^ 64) :
    s.GetRecentConversations limit
      = (((entriesOf chain).take (budget limit)).map listingOf, none) := by
  obtain ⟨hlt, hge⟩ := Iterate_recent chain [] limit hparse hlimit
  by_cases hcase : (entriesOf chain).length < budget limit
  · obtain ⟨left, _, _, hres⟩ := hlt hcase
    simp only [GetRecentConversations, GetChannel, hchannel, hres, List.nil_append]
    rw [List.take_of_length_le (Nat.le_of_lt hcase)]
  · obtain ⟨left, hres⟩ := hge (Nat.le_of_not_lt hcase)
    simp only [GetRecentConversations, GetChannel, hchannel, hres, List.nil_append]

theorem ConversationEntryToListing_timestamp (entry : bcgo.BlockEntry) (listing : Listing)
    (h : (ConversationEntryToListing entry).1 = some listing) :
    listing.Timestamp = entry.Record.Timestamp := by
  unfold ConversationEntryToListing at h
  cases hc : entry.Record.Payload.asConversation with
  | none => rw [hc] at h; simp at h
  | some c =>
    rw [hc] at h
    simp only [Option.some.injEq] at h
    rw [← h]

theorem sinceLookup_keeps (since : Nat) :
    ∀ (entries : List bcgo.BlockEntry) (listings : List Listing),
      (∀ listing ∈ listings, since ≤ listing.Timestamp) →
      ∀ listing ∈ (sinceLookup since entries listings).1, since ≤ listing.Timestamp := by
  intro entries
  induction entries with
  | nil => intro listings h; exact h
  | cons entry rest ih =>
    intro listings h
    simp only [sinceLookup]
    by_cases hnew : entry.Record.Timestamp ≥ since
    · rw [if_pos hnew]
      split
      · exact h
      · next listing hc =>
        refine ih _ ?_
        intro x hx
        rcases List.mem_append.mp hx with hx | hx
        · exact h x hx
        · simp only [List.mem_singleton] at hx
          rw [hx, ConversationEntryToListing_timestamp entry listing (by rw [hc])]
          exact hnew
      · exact ih listings h
    · rw [if_neg hnew]
      exact ih listings h

/-- `GetAllConversations(since)` returns only listings stamped `since` or
later. -/
theorem GetAllConversations_since (s : BCStore) (since : Nat) :
    ∀ listing ∈ (s.GetAllConversations since).1, since ≤ listing.Timestamp := by
  unfold GetAllConversations GetChannel
  cases hchannel : mapGet s.Channels CONVEY_CONVERSATION with
  | none => intro listing h; simp at h
  | some chain =>
    simp only
    have hkeep := bcgo.Iterate_keeps (fun listings => ∀ l ∈ listings, since ≤ l.Timestamp)
      (sinceCallback since)
      (by
        intro listings h b hl
        unfold sinceCallback
        by_cases hold : b.Timestamp < since
        · rw [if_pos hold]; exact hl
        · rw [if_neg hold]; exact sinceLookup_keeps since b.Entry listings hl)
      chain [] (by intro l hl; simp at hl)
    rcases hres : bcgo.Iterate (sinceCallback since) chain [] with ⟨listings, err⟩
    rw [hres] at hkeep
    cases err with
    | none => exact hkeep
    | some e =>
      cases e with
      | StopIteration => exact hkeep
      | Unmarshal => intro listing h; simp at h
      | Text msg => intro listing h; simp at h

end BCStore

namespace MemoryStore

/-- The loop over `Conversations` on records that decode: one listing for
every conversation stamped `since` or later. -/
theorem listingLoop_eq (s : MemoryStore) (since : Nat) :
    ∀ (conversations : List (Hash × bcgo.Record)) (listings : List Listing),
      (∀ kv ∈ conversations, kv.2.Payload.asConversation ≠ none) →
      listingLoop s since conversations listings
        = (listings ++ (conversations.filter fun kv =>
              decide ((mapGet s.Timestamps kv.1).getD 0 ≥ since)).map s.listing,
            none) := by
  intro conversations
  induction conversations with
  | nil => intro listings _; simp [listingLoop]
  | cons kv rest ih =>
    intro listings hparse
    obtain ⟨conversationHash, value⟩ := kv
    have hrest := fun listings => ih listings fun e he => hparse e (List.mem_cons_of_mem _ he)
    have hvalue := hparse (conversationHash, value) (List.mem_cons_self _ _)
    by_cases hnew : (mapGet s.Timestamps conversationHash).getD 0 ≥ since
    · cases hc : value.Payload.asConversation with
      | none => exact absurd hc hvalue
      | some c =>
        rw [List.filter_cons_of_pos (by simpa using hnew)]
        simp only [listingLoop, if_pos hnew, hc, hrest, List.map_cons, listing,
          Option.map_some', Option.getD_some, List.append_assoc, List.singleton_append]
    · rw [List.filter_cons_of_neg (by simpa using hnew)]
      simp only [listingLoop, if_neg hnew, hrest]

/-- The loop over `Conversations` adds only listings stamped `since` or later. -/
theorem listingLoop_since (s : MemoryStore) (since : Nat) :
    ∀ (conversations : List (Hash × bcgo.Record)) (listings : List Listing),
      (∀ listing ∈ listings, since ≤ listing.Timestamp) →
      ∀ listing ∈ (listingLoop s since conversations listings).1,
        since ≤ listing.Timestamp := by
  intro conversations
  induction conversations with
  | nil => intro listings h; exact h
  | cons kv rest ih =>
    intro listings h
    obtain ⟨conversationHash, value⟩ := kv
    simp only [listingLoop]
    by_cases hnew : (mapGet s.Timestamps conversationHash).getD 0 ≥ since
    · rw [if_pos hnew]
      cases hc : value.Payload.asConversation with
      | none => intro listing hl; simp at hl
      | some c =>
        refine ih _ ?_
        intro x hx
        rcases List.mem_append.mp hx with hx | hx
        · exact h x hx
        · simp only [List.mem_singleton] at hx
          rw [hx]
          exact hnew
    · rw [if_neg hnew]
      exact ih listings h

end MemoryStore

theorem newerListing_eq_false (a b : Listing) :
    MemoryStore.newerListing b a = false ↔ b.Timestamp ≤ a.Timestamp := by
  simp [MemoryStore.newerListing]

/-- What `MemoryStore.GetRecentConversations` returns when every record
decodes: the first `limit` of the sorted listings of all conversations. -/
theorem MemoryStore.recent_eq_take
    (sortSlice : (Listing → Listing → Bool) → List Listing → List Listing)
    (s : MemoryStore) (limit : Nat)
    (hparse : ∀ kv ∈ s.Conversations, kv.2.Payload.asConversation ≠ none) :
    s.GetRecentConversations sortSlice limit
      = ((sortSlice MemoryStore.newerListing (s.Conversations.map s.listing)).take limit, none) := by
  have hall : (s.Conversations.filter fun kv =>
      decide ((mapGet s.Timestamps kv.1).getD 0 ≥ 0)) = s.Conversations := by
    rw [List.filter_eq_self]
    intro kv _
    simp
  unfold MemoryStore.GetRecentConversations
  rw [MemoryStore.listingLoop_eq s 0 s.Conversations [] hparse, hall]
  simp only [List.nil_append]
  by_cases hlen : (sortSlice MemoryStore.newerListing (s.Conversations.map s.listing)).length > limit
  · rw [if_pos hlen]
  · rw [if_neg hlen, List.take_of_length_le (by omega)]

/-- Insertion sort meets the contract of `sort.Slice` for the order of
timestamps. -/
theorem Sample_sortListings_sorted (listings : List Listing) :
    (Sample.sortListings MemoryStore.newerListing listings).Perm listings ∧
    (Sample.sortListings MemoryStore.newerListing listings).Pairwise fun a b =>
      MemoryStore.newerListing b a = false := by
  haveI : IsTotal Listing (fun a b => MemoryStore.newerListing b a = false) :=
    ⟨fun a b => by
      simp only [newerListing_eq_false]
      exact le_total _ _⟩
  haveI : IsTrans Listing (fun a b => MemoryStore.newerListing b a = false) :=
    ⟨fun a b c hab hbc => by
      simp only [newerListing_eq_false] at hab hbc ⊢
      exact le_trans hbc hab⟩
  exact ⟨List.perm_insertionSort _ _, List.sorted_insertionSort _ _⟩

end conveygo

/-! ## Memory stores built by calls -/

namespace conveygo

theorem mapSet_keys {κ ν : Type} [DecidableEq κ] (m : List (κ × ν)) (k : κ) (v : ν) :
    (mapSet m k v).map Prod.fst
      = if k ∈ m.map Prod.fst then m.map Prod.fst else m.map Prod.fst ++ [k] := by
  induction m with
  | nil => simp [mapSet]
  | cons e rest ih =>
    obtain ⟨k0, v0⟩ := e
    by_cases hk : k0 = k
    · subst hk
      simp [mapSet]
    · have hk' : ¬ k = k0 := fun e => hk e.symm
      simp only [mapSet, if_neg hk, List.map_cons, ih, List.mem_cons, hk', false_or]
      by_cases hmem : k ∈ rest.map Prod.fst
      · simp only [if_pos hmem]
      · simp only [if_neg hmem, List.cons_append]

theorem mapSet_keys_nodup {κ ν : Type} [DecidableEq κ] (m : List (κ × ν)) (k : κ) (v : ν)
    (h : (m.map Prod.fst).Nodup) : ((mapSet m k v).map Prod.fst).Nodup := by
  rw [mapSet_keys]
  by_cases hmem : k ∈ m.map Prod.fst
  · rw [if_pos hmem]; exact h
  · rw [if_neg hmem]
    exact List.Nodup.append h (List.nodup_singleton k) (by
      intro x hx hx'
      simp only [List.mem_singleton] at hx'
      exact hmem (hx' ▸ hx))

theorem mapGet_of_mem_nodup {κ ν : Type} [DecidableEq κ] (m : List (κ × ν)) (k : κ) (v : ν)
    (hnodup : (m.map Prod.fst).Nodup) (h : (k, v) ∈ m) : mapGet m k = some v := by
  induction m with
  | nil => simp at h
  | cons e rest ih =>
    obtain ⟨k0, v0⟩ := e
    simp only [List.map_cons, List.nodup_cons] at hnodup
    rcases List.mem_cons.mp h with heq | hmem
    · simp only [Prod.mk.injEq] at heq
      simp [mapGet, heq.1, heq.2]
    · have hne : ¬ k0 = k := by
        intro e
        subst e
        exact hnodup.1 (List.mem_map.mpr ⟨(k0, v), hmem, rfl⟩)
      simp only [mapGet, if_neg hne]
      exact ih hnodup.2 hmem

namespace MemoryStore

/-- A property that the empty store has and every call keeps holds of every
store built by calls. -/
theorem run_induct (P : MemoryStore → Prop) (hstep : ∀ s c, P s → P (s.call c)) :
    ∀ (calls : List MemoryStore.Call) (s : MemoryStore), P s → P (s.run calls) := by
  intro calls
  induction calls with
  | nil => intro s h; exact h
  | cons c rest ih => intro s h; exact ih (s.call c) (hstep s c h)

theorem AddKey_of_password (s : MemoryStore) (who : String) (password old : List Nat)
    (key : Nat) (h : mapGet s.Passwords who = some old) :
    s.AddKey who password key
      = (s, some (bcgo.Error.Text (ERROR_KEY_ALREADY_EXISTS who))) := by
  simp only [AddKey, h]

theorem AddKey_of_new (s : MemoryStore) (who : String) (password : List Nat) (key : Nat)
    (h : mapGet s.Passwords who = none) :
    s.AddKey who password key
      = ({ s with Passwords := mapSet s.Passwords who password,
                  Keys := mapSet s.Keys who key }, none) := by
  simp only [AddKey, h]

/-- The fields a call leaves alone or sets, call by call. -/
theorem call_fields (s : MemoryStore) (c : MemoryStore.Call) :
    ((s.call c).Conversations = s.Conversations ∧ (s.call c).Timestamps = s.Timestamps ∨
      ∃ h record, (s.call c).Conversations = mapSet s.Conversations h record ∧
        (s.call c).Timestamps = mapSet s.Timestamps h record.Timestamp) ∧
    ((s.call c).Passwords = s.Passwords ∧ (s.call c).Keys = s.Keys ∨
      ∃ who password key, c = MemoryStore.Call.addKey who password key ∧
        mapGet s.Passwords who = none ∧
        (s.call c).Passwords = mapSet s.Passwords who password ∧
        (s.call c).Keys = mapSet s.Keys who key) := by
  cases c with
  | addKey who password key =>
    cases hp : mapGet s.Passwords who with
    | none =>
      have e : s.call (MemoryStore.Call.addKey who password key)
          = { s with Passwords := mapSet s.Passwords who password,
                     Keys := mapSet s.Keys who key } := by
        simp only [call, AddKey_of_new s who password key hp]
      rw [e]
      exact ⟨Or.inl ⟨rfl, rfl⟩, Or.inr ⟨who, password, key, rfl, hp, rfl, rfl⟩⟩
    | some old =>
      have e : s.call (MemoryStore.Call.addKey who password key) = s := by
        simp only [call, AddKey_of_password s who password old key hp]
      rw [e]
      exact ⟨Or.inl ⟨rfl, rfl⟩, Or.inl ⟨rfl, rfl⟩⟩
  | newConversation conversationHash conversationRecord messageHash messageRecord =>
    have e : s.call (MemoryStore.Call.newConversation conversationHash conversationRecord
        messageHash messageRecord)
        = (s.NewConversation conversationHash conversationRecord messageHash
            messageRecord).1 := rfl
    rw [e, NewConversation_eq]
    exact ⟨Or.inr ⟨conversationHash, conversationRecord, rfl, rfl⟩, Or.inl ⟨rfl, rfl⟩⟩
  | addMessage conversationHash messageHash messageRecord =>
    have e : s.call (MemoryStore.Call.addMessage conversationHash messageHash messageRecord)
        = (s.AddMessage conversationHash messageHash messageRecord).1 := rfl
    rw [e]
    cases hc : mapGet s.Conversations conversationHash with
    | none =>
      rw [AddMessage_no_conversation s _ _ _ hc]
      exact ⟨Or.inl ⟨rfl, rfl⟩, Or.inl ⟨rfl, rfl⟩⟩
    | some record =>
      rw [AddMessage_of_conversation s _ _ _ record hc]
      exact ⟨Or.inl ⟨rfl, rfl⟩, Or.inl ⟨rfl, rfl⟩⟩

/-- In a store built by calls every conversation is listed once and carries
the timestamp of its record. -/
theorem run_conversations (calls : List MemoryStore.Call) :
    ((NewMemoryStore.run calls).Conversations.map Prod.fst).Nodup ∧
    ∀ h record, mapGet (NewMemoryStore.run calls).Conversations h = some record →
      mapGet (NewMemoryStore.run calls).Timestamps h = some record.Timestamp := by
  refine run_induct
    (fun s => (s.Conversations.map Prod.fst).Nodup ∧
      ∀ h record, mapGet s.Conversations h = some record →
        mapGet s.Timestamps h = some record.Timestamp)
    ?_ calls NewMemoryStore ⟨List.nodup_nil, fun h record hget => by simp [NewMemoryStore, mapGet] at hget⟩
  intro s c ⟨hnodup, hstamp⟩
  rcases (call_fields s c).1 with ⟨hc, ht⟩ | ⟨h0, record0, hc, ht⟩
  · rw [hc, ht]
    exact ⟨hnodup, hstamp⟩
  · rw [hc, ht]
    refine ⟨mapSet_keys_nodup _ _ _ hnodup, ?_⟩
    intro h record hget
    rw [mapGet_mapSet] at hget ⊢
    by_cases hk : h0 = h
    · rw [if_pos hk] at hget ⊢
      simp only [Option.some.injEq] at hget
      rw [hget]
    · rw [if_neg hk] at hget ⊢
      exact hstamp h record hget

/-- Calls that add no key for an alias leave its password as it was. -/
theorem run_other_keys (who : String) :
    ∀ (calls : List MemoryStore.Call) (s : MemoryStore),
      (∀ password key, MemoryStore.Call.addKey who password key ∉ calls) →
      mapGet (s.run calls).Passwords who = mapGet s.Passwords who := by
  intro calls
  induction calls with
  | nil => intro s _; rfl
  | cons c rest ih =>
    intro s hnot
    have hrest := ih (s.call c) fun password key hmem =>
      hnot password key (List.mem_cons_of_mem _ hmem)
    have hstep : mapGet (s.call c).Passwords who = mapGet s.Passwords who := by
      rcases (call_fields s c).2 with ⟨hp, _⟩ | ⟨who0, password0, key0, hc, _, hp, _⟩
      · rw [hp]
      · rw [hp, mapGet_mapSet]
        by_cases hw : who0 = who
        · exfalso
          subst hw
          exact hnot password0 key0 (by rw [hc]; exact List.mem_cons_self _ _)
        · rw [if_neg hw]
    exact hrest.trans hstep

/-- No call changes the password and the key of an alias that has them. -/
theorem run_keeps_key (who : String) (password : List Nat) (key : Nat)
    (calls : List MemoryStore.Call) (s : MemoryStore)
    (h : mapGet s.Passwords who = some password ∧ mapGet s.Keys who = some key) :
    mapGet (s.run calls).Passwords who = some password ∧
      mapGet (s.run calls).Keys who = some key := by
  refine run_induct
    (fun s => mapGet s.Passwords who = some password ∧ mapGet s.Keys who = some key)
    ?_ calls s h
  intro s c ⟨hp, hk⟩
  rcases (call_fields s c).2 with ⟨hp', hk'⟩ | ⟨who0, password0, key0, _, hnone, hp', hk'⟩
  · rw [hp', hk']
    exact ⟨hp, hk⟩
  · have hw : ¬ who0 = who := by
      intro e
      subst e
      rw [hnone] at hp
      simp at hp
    rw [hp', hk', mapGet_mapSet, mapGet_mapSet, if_neg hw, if_neg hw]
    exact ⟨hp, hk⟩

theorem GetKey_of_password (s : MemoryStore) (who : String) (password guess : List Nat)
    (h : mapGet s.Passwords who = some password) :
    s.GetKey who guess
      = if password = guess then (mapGet s.Keys who, none)
        else (none, some (bcgo.Error.Text ERROR_ACCESS_DENIED)) := by
  simp only [GetKey, h]

theorem GetKey_of_unknown (s : MemoryStore) (who : String) (guess : List Nat)
    (h : mapGet s.Passwords who = none) :
    s.GetKey who guess = (none, some (bcgo.Error.Text ERROR_ACCESS_DENIED)) := by
  simp only [GetKey, h]

theorem HasKey_eq_false (s : MemoryStore) (who : String) :
    s.HasKey who = false ↔ mapGet s.Passwords who = none := by
  unfold HasKey
  cases mapGet s.Passwords who <;> simp

end MemoryStore

end conveygo

/-! ## The aliases of the ledger: keys of the accumulators, names on the chains -/

namespace bcgo

theorem Iterate_keeps_on {σ : Type} (P : σ → Prop)
    (callback : σ → Hash → Block → σ × Option Error) :
    ∀ (chain : Chain) (s : σ), (∀ s, ∀ hb ∈ chain, P s → P (callback s hb.1 hb.2).1) →
      P s → P (Iterate callback chain s).1 := by
  intro chain
  induction chain with
  | nil => intro s _ hs; simpa [Iterate] using hs
  | cons hb rest ih =>
    intro s hcb hs
    obtain ⟨h, b⟩ := hb
    have h1 : P (callback s h b).1 := hcb s (h, b) (List.mem_cons_self _ _) hs
    unfold Iterate
    rcases hc : callback s h b with ⟨s1, _ | err⟩
    · rw [hc] at h1
      exact ih s1 (fun s hb hm => hcb s hb (List.mem_cons_of_mem _ hm)) h1
    · rw [hc] at h1
      exact h1

end bcgo

namespace conveygo

theorem isSome_Record (m : List (String × Nat)) (k a : String) (x : Nat) :
    (mapGet (Record m k x) a).isSome = true ↔ a = k ∨ (mapGet m a).isSome = true := by
  rw [Record_eq, mapGet_mapSet]
  by_cases e : k = a
  · simp [e]
  · have e' : ¬ a = k := fun h => e h.symm
    simp [e, e']

/-- An alias is in Aliases exactly when it is a key of an accumulator: every
step of `Update` keeps that. -/
theorem Keyed_stable : Stable fun l => ∀ a, a ∈ l.Aliases ↔ l.Keyed a := by
  refine ⟨?_, ?_, ?_, ?_, ?_, ?_⟩
  · intro l name key h; exact h
  · intro l name h
    unfold Ledger.openProcessed
    cases mapGet l.Processed name <;> exact h
  · intro l a x h b
    have hb := h b
    simp only [Ledger.RecordMinted, Ledger.Keyed, mem_setAdd, isSome_Record] at hb ⊢
    tauto
  · intro l a x h b
    have hb := h b
    simp only [Ledger.RecordBurned, Ledger.Keyed, mem_setAdd, isSome_Record] at hb ⊢
    tauto
  · intro l s r x h b
    have hb := h b
    simp only [Ledger.RecordSold, Ledger.RecordBought, Ledger.Keyed, mem_setAdd,
      isSome_Record] at hb ⊢
    tauto
  · intro l a c x h b
    have hb := h b
    simp only [Ledger.RecordSpent, Ledger.RecordEarned, Ledger.Keyed, mem_setAdd,
      isSome_Record] at hb ⊢
    tauto

theorem Keyed_run (calls : List Call) (a : String) :
    a ∈ (NewLedger.run calls).Aliases ↔ (NewLedger.run calls).Keyed a := by
  have h := Ledger.run_keeps (fun l => ∀ a, a ∈ l.Aliases ↔ l.Keyed a) Keyed_stable calls
    NewLedger (by intro b; simp [NewLedger, Ledger.Keyed, mapGet])
  exact h a

/-- An alias once in Aliases stays there: every step of `Update` keeps it. -/
theorem mem_Aliases_stable (a : String) : Stable fun l => a ∈ l.Aliases := by
  refine ⟨?_, ?_, ?_, ?_, ?_, ?_⟩
  · intro l name key h; exact h
  · intro l name h
    unfold Ledger.openProcessed
    cases mapGet l.Processed name <;> exact h
  · intro l b x h
    exact (mem_setAdd _ _ _).mpr (Or.inl h)
  · intro l b x h
    exact (mem_setAdd _ _ _).mpr (Or.inl h)
  · intro l s r x h
    exact (mem_setAdd _ _ _).mpr (Or.inl ((mem_setAdd _ _ _).mpr (Or.inl h)))
  · intro l b c x h
    exact (mem_setAdd _ _ _).mpr (Or.inl ((mem_setAdd _ _ _).mpr (Or.inl h)))

theorem setAdd_within (S : String → Prop) (s : List String) (a : String)
    (hs : ∀ x ∈ s, S x) (ha : S a) : ∀ x ∈ setAdd s a, S x := by
  intro x hx
  rcases (mem_setAdd s a x).mp hx with h | h
  · exact hs x h
  · rw [h]; exact ha

theorem mem_mapSet {κ ν : Type} [DecidableEq κ] (m : List (κ × ν)) (k : κ) (v : ν)
    (p : κ × ν) (h : p ∈ mapSet m k v) : p ∈ m ∨ p = (k, v) := by
  induction m with
  | nil =>
    simp only [mapSet, List.mem_singleton] at h
    exact Or.inr h
  | cons e rest ih =>
    obtain ⟨k0, v0⟩ := e
    by_cases hk : k0 = k
    · simp only [mapSet, if_pos hk, List.mem_cons] at h
      rcases h with h | h
      · exact Or.inr (by rw [h, hk])
      · exact Or.inl (List.mem_cons_of_mem _ h)
    · simp only [mapSet, if_neg hk, List.mem_cons] at h
      rcases h with h | h
      · exact Or.inl (by rw [h]; exact List.mem_cons_self _ _)
      · rcases ih h with h' | h'
        · exact Or.inl (List.mem_cons_of_mem _ h')
        · exact Or.inr h'

namespace Ledger

theorem iterate_keeps_on (P : Ledger → Prop)
    (hmark : ∀ l name key, P l → P (l.markProcessed name key))
    (hopen : ∀ l name, P l → P (l.openProcessed name))
    (callback : Ledger → bcgo.Block → Ledger × Option bcgo.Error)
    (l : Ledger) (name : String) (chain : bcgo.Chain)
    (hcb : ∀ l, ∀ hb ∈ chain, P l → P (callback l hb.2).1) (hl : P l) :
    P (l.iterate name chain callback).1 := by
  have h1 : P (bcgo.Iterate (iterateCallback name callback) chain (l.openProcessed name)).1 := by
    apply bcgo.Iterate_keeps_on P
    · intro s hb hm hs
      unfold iterateCallback
      by_cases hp : hb.1 ∈ s.processed name
      · simpa [hp] using hs
      · simpa [hp] using hcb _ hb hm (hmark s name hb.1 hs)
    · exact hopen l name hl
  unfold iterate
  rcases hc : bcgo.Iterate (iterateCallback name callback) chain (l.openProcessed name)
    with ⟨l1, _ | err⟩
  · rw [hc] at h1; exact h1
  · rw [hc] at h1
    cases err <;> exact h1

theorem transactionEntries_within (S : String → Prop) :
    ∀ (entries : List bcgo.BlockEntry) (l : Ledger),
      (∀ t ∈ transactionsOf entries, S t.Sender ∧ S t.Receiver) →
      (∀ a ∈ l.Aliases, S a) → ∀ a ∈ (transactionEntries entries l).1.Aliases, S a := by
  intro entries
  induction entries with
  | nil => intro l _ hl; simpa [transactionEntries] using hl
  | cons entry rest ih =>
    intro l ht hl
    unfold transactionEntries
    cases hp : entry.Record.Payload.asTransaction with
    | none => simpa using hl
    | some t =>
      have hcons : transactionsOf (entry :: rest) = t :: transactionsOf rest := by
        simp [transactionsOf, List.filterMap_cons, hp]
      rw [hcons] at ht
      have hhead := ht t (List.mem_cons_self _ _)
      apply ih _ (fun t' h' => ht t' (List.mem_cons_of_mem _ h'))
      show ∀ a ∈ setAdd (setAdd l.Aliases t.Sender) t.Receiver, S a
      exact setAdd_within S _ _ (setAdd_within S _ _ hl hhead.1) hhead.2

theorem conversationEntries_within (S : String → Prop) :
    ∀ (entries : List bcgo.BlockEntry) (l : Ledger),
      (∀ entry ∈ entries, S entry.Record.Creator) →
      (∀ a ∈ l.Aliases, S a) → ∀ a ∈ (conversationEntries entries l).Aliases, S a := by
  intro entries
  induction entries with
  | nil => intro l _ hl; simpa [conversationEntries] using hl
  | cons entry rest ih =>
    intro l hc hl
    unfold conversationEntries
    apply ih _ (fun e he => hc e (List.mem_cons_of_mem _ he))
    show ∀ a ∈ setAdd l.Aliases entry.Record.Creator, S a
    exact setAdd_within S _ _ hl (hc entry (List.mem_cons_self _ _))

end Ledger

end conveygo

/-! ## Aliases come from the chains -/

namespace conveygo

theorem transactionsOf_mem_chain (t : Transaction) (hb : Hash × bcgo.Block) (chain : bcgo.Chain)
    (hm : hb ∈ chain) (ht : t ∈ transactionsOf hb.2.Entry) :
    t ∈ transactionsOf (entriesOf chain) := by
  unfold transactionsOf at ht ⊢
  obtain ⟨entry, he, hp⟩ := List.mem_filterMap.mp ht
  exact List.mem_filterMap.mpr ⟨entry, mem_entriesOf entry hb chain hm he, hp⟩

theorem miner_mem_aliasesOn (hb : Hash × bcgo.Block) (chain : bcgo.Chain) (hm : hb ∈ chain) :
    hb.2.Miner ∈ aliasesOn chain := by
  unfold aliasesOn
  simp only [List.mem_append, List.mem_map]
  exact Or.inl (Or.inl (Or.inl ⟨hb, hm, rfl⟩))

theorem creator_mem_aliasesOn (entry : bcgo.BlockEntry) (chain : bcgo.Chain)
    (hm : entry ∈ entriesOf chain) : entry.Record.Creator ∈ aliasesOn chain := by
  unfold aliasesOn
  simp only [List.mem_append, List.mem_map]
  exact Or.inl (Or.inl (Or.inr ⟨entry, hm, rfl⟩))

theorem trade_mem_aliasesOn (t : Transaction) (chain : bcgo.Chain)
    (hm : t ∈ transactionsOf (entriesOf chain)) :
    t.Sender ∈ aliasesOn chain ∧ t.Receiver ∈ aliasesOn chain := by
  unfold aliasesOn
  simp only [List.mem_append, List.mem_map]
  exact ⟨Or.inl (Or.inr ⟨t, hm, rfl⟩), Or.inr ⟨t, hm, rfl⟩⟩

namespace Ledger

theorem reply_within (S : String → Prop) (nodes : List (Hash × MessageNode)) (author : String)
    (hauthor : S author) (hnodes : ∀ kn ∈ nodes, S kn.2.Author) :
    ∀ (fuel cost : Nat) (prev : Hash) (l : Ledger),
      (∀ a ∈ l.Aliases, S a) → ∀ a ∈ (reply nodes author fuel cost prev l).1.Aliases, S a := by
  intro fuel
  induction fuel with
  | zero => intro cost prev l hl; simpa [reply] using hl
  | succ fuel ih =>
    intro cost prev l hl
    unfold reply
    cases hg : mapGet nodes prev with
    | none => simpa using hl
    | some previous =>
      have hp : S previous.Author := hnodes _ (mem_of_mapGet nodes prev previous hg)
      have h1 : ∀ a ∈ ((l.RecordSpent author (cost / 2)).RecordEarned previous.Author
          (cost / 2)).Aliases, S a :=
        setAdd_within S _ _ (setAdd_within S _ _ hl hauthor) hp
      by_cases hr : previous.Previous = []
      · simp only [hr, if_true]
        exact setAdd_within S _ _ h1 hauthor
      · simp only [hr, if_false]
        exact ih _ _ _ h1

theorem distribute_within (S : String → Prop) (name : String) (maps : MessageMaps)
    (hnodes : ∀ kn ∈ maps.nodes, S kn.2.Author) :
    ∀ (todo : List (Hash × MessageNode)) (l : Ledger), (∀ kn ∈ todo, S kn.2.Author) →
      (∀ a ∈ l.Aliases, S a) → ∀ a ∈ (distribute name maps todo l).1.Aliases, S a := by
  intro todo
  induction todo with
  | nil => intro l _ hl; simpa [distribute] using hl
  | cons kn rest ih =>
    intro l htodo hl
    obtain ⟨key, node⟩ := kn
    have hauthor : S node.Author := htodo (key, node) (List.mem_cons_self _ _)
    have hrest : ∀ kn ∈ rest, S kn.2.Author := fun kn hk => htodo kn (List.mem_cons_of_mem _ hk)
    unfold distribute
    simp only
    split_ifs with h1 h2
    · exact ih l hrest hl
    · exact ih _ hrest (setAdd_within S _ _ hl hauthor)
    · have h3 := reply_within S maps.nodes node.Author hauthor hnodes
        (maps.nodes.length + 1) node.Cost node.Previous l hl
      rcases hc : reply maps.nodes node.Author (maps.nodes.length + 1) node.Cost
        node.Previous l with ⟨l1, out⟩
      rw [hc] at h3
      cases out
      · exact ih l1 hrest h3
      all_goals exact h3

theorem messageEntries_within (S : String → Prop) (blockKey : Hash) :
    ∀ (entries : List bcgo.BlockEntry) (maps : MessageMaps),
      (∀ entry ∈ entries, S entry.Record.Creator) → (∀ kn ∈ maps.nodes, S kn.2.Author) →
      ∀ kn ∈ (messageEntries blockKey entries maps).1.nodes, S kn.2.Author := by
  intro entries
  induction entries with
  | nil => intro maps _ hmaps; simpa [messageEntries] using hmaps
  | cons entry rest ih =>
    intro maps hc hmaps
    unfold messageEntries
    cases hm : entry.Record.Payload.asMessage with
    | none => simpa using hmaps
    | some m =>
      apply ih _ (fun e he => hc e (List.mem_cons_of_mem _ he))
      intro kn hkn
      rcases mem_mapSet _ _ _ _ hkn with h | h
      · exact hmaps kn h
      · rw [h]
        exact hc entry (List.mem_cons_self _ _)

theorem messageWalk_within (S : String → Prop) (chain : bcgo.Chain)
    (hc : ∀ entry ∈ entriesOf chain, S entry.Record.Creator) :
    ∀ kn ∈ (messageMaps chain).nodes, S kn.2.Author := by
  unfold messageMaps
  apply bcgo.Iterate_keeps_on (fun maps : MessageMaps => ∀ kn ∈ maps.nodes, S kn.2.Author)
  · intro maps hb hm hmaps
    exact messageEntries_within S hb.1 hb.2.Entry maps
      (fun e he => hc e (mem_entriesOf e hb chain hm he)) hmaps
  · intro kn hkn
    simp at hkn

theorem updateMessages_within (S : String → Prop) (l : Ledger) (name : String)
    (chain : bcgo.Chain) (hc : ∀ entry ∈ entriesOf chain, S entry.Record.Creator)
    (hl : ∀ a ∈ l.Aliases, S a) : ∀ a ∈ (l.updateMessages name chain).1.Aliases, S a := by
  have hnodes := messageWalk_within S chain hc
  have hopen : ∀ a ∈ (l.openProcessed name).Aliases, S a := by
    rw [(openProcessed_fields l name).1]
    exact hl
  unfold messageMaps at hnodes
  unfold updateMessages
  rcases hw : bcgo.Iterate messageCallback chain { blocks := [], nodes := [] }
    with ⟨maps, _ | err⟩
  · rw [hw] at hnodes
    have h3 := distribute_within S name maps hnodes maps.nodes (l.openProcessed name) hnodes hopen
    simp only
    rcases hd : distribute name maps maps.nodes (l.openProcessed name) with ⟨l1, out⟩
    rw [hd] at h3
    cases out
    · show ∀ a ∈ (markBlocks name maps.blocks l1).Aliases, S a
      rw [(markBlocks_fields name maps.blocks l1).1]
      exact h3
    all_goals exact h3
  · exact hl

theorem Update_within (S : String → Prop) (l : Ledger) (name : String) (chain : bcgo.Chain)
    (hS : ∀ a ∈ aliasesOn chain, S a) (hl : ∀ a ∈ l.Aliases, S a) :
    ∀ a ∈ (l.Update name chain).1.Aliases, S a := by
  have hmark : ∀ (l : Ledger) (name : String) (key : Hash), (∀ a ∈ l.Aliases, S a) →
      ∀ a ∈ (l.markProcessed name key).Aliases, S a := fun _ _ _ h => h
  have hopen : ∀ (l : Ledger) (name : String), (∀ a ∈ l.Aliases, S a) →
      ∀ a ∈ (l.openProcessed name).Aliases, S a := by
    intro l name h
    rw [(openProcessed_fields l name).1]
    exact h
  apply Update_cases (fun r => ∀ a ∈ r.1.Aliases, S a)
  · exact hl
  · intro reward
    apply iterate_keeps_on (fun l => ∀ a ∈ l.Aliases, S a) hmark hopen _ l name chain _ hl
    intro l' hb hm hl'
    exact setAdd_within S _ _ hl' (hS _ (miner_mem_aliasesOn hb chain hm))
  · apply iterate_keeps_on (fun l => ∀ a ∈ l.Aliases, S a) hmark hopen _ l name chain _ hl
    intro l' hb hm hl'
    apply transactionEntries_within S hb.2.Entry l' _ hl'
    intro t ht
    have h := trade_mem_aliasesOn t chain (transactionsOf_mem_chain t hb chain hm ht)
    exact ⟨hS _ h.1, hS _ h.2⟩
  · apply iterate_keeps_on (fun l => ∀ a ∈ l.Aliases, S a) hmark hopen _ l name chain _ hl
    intro l' hb hm hl'
    apply conversationEntries_within S hb.2.Entry l' _ hl'
    intro entry he
    exact hS _ (creator_mem_aliasesOn entry chain (mem_entriesOf entry hb chain hm he))
  · exact updateMessages_within S l name chain
      (fun entry he => hS _ (creator_mem_aliasesOn entry chain he)) hl

theorem UpdateAll_within (S : String → Prop) :
    ∀ (channels : List (String × bcgo.Chain)) (l : Ledger),
      (∀ a ∈ channelAliases channels, S a) → (∀ a ∈ l.Aliases, S a) →
      ∀ a ∈ (l.UpdateAll channels).1.Aliases, S a := by
  intro channels
  induction channels with
  | nil => intro l _ hl; simpa [UpdateAll] using hl
  | cons nc rest ih =>
    intro l hS hl
    obtain ⟨name, chain⟩ := nc
    have h1 := Update_within S l name chain
      (fun a ha => hS a (by
        simp only [channelAliases, List.mem_append]
        exact Or.inl ha)) hl
    have hrest : ∀ a ∈ channelAliases rest, S a := fun a ha => hS a (by
      simp only [channelAliases, List.mem_append]
      exact Or.inr ha)
    unfold UpdateAll
    rcases hc : l.Update name chain with ⟨l1, out⟩
    rw [hc] at h1
    cases out
    · exact ih l1 hrest h1
    all_goals exact h1

theorem run_within (S : String → Prop) :
    ∀ (calls : List Call) (l : Ledger), (∀ c ∈ calls, ∀ a ∈ c.aliases, S a) →
      (∀ a ∈ l.Aliases, S a) → ∀ a ∈ (l.run calls).Aliases, S a := by
  intro calls
  induction calls with
  | nil => intro l _ hl; simpa [run] using hl
  | cons c rest ih =>
    intro l hS hl
    have h1 : ∀ a ∈ (l.call c).Aliases, S a := by
      have hc := hS c (List.mem_cons_self _ _)
      cases c with
      | update name chain => exact Update_within S l name chain hc hl
      | updateAll channels => exact UpdateAll_within S channels l hc hl
    exact ih _ (fun c hc => hS c (List.mem_cons_of_mem _ hc)) h1

/-- Every alias of a ledger built by calls appears on a chain of one of the
calls. -/
theorem run_aliases_appear (calls : List Call) :
    ∀ a ∈ (NewLedger.run calls).Aliases, ∃ c ∈ calls, a ∈ c.aliases :=
  run_within (fun a => ∃ c ∈ calls, a ∈ c.aliases) calls NewLedger
    (fun c hc a ha => ⟨c, hc, ha⟩) (by intro a ha; simp [NewLedger] at ha)

end Ledger

end conveygo

/-! ## The aliases named by processed blocks are in Aliases -/

namespace conveygo

theorem exists_of_mem_entriesOf (entry : bcgo.BlockEntry) :
    ∀ (chain : bcgo.Chain), entry ∈ entriesOf chain → ∃ hb ∈ chain, entry ∈ hb.2.Entry := by
  intro chain
  induction chain with
  | nil => intro h; simp [entriesOf] at h
  | cons x rest ih =>
    intro h
    obtain ⟨xh, xb⟩ := x
    simp only [entriesOf, List.mem_append] at h
    rcases h with h | h
    · exact ⟨(xh, xb), List.mem_cons_self _ _, h⟩
    · obtain ⟨hb, hm, he⟩ := ih h
      exact ⟨hb, List.mem_cons_of_mem _ hm, he⟩

namespace Ledger

theorem Iterate_aliases (name : String)
    (callback : Ledger → bcgo.Block → Ledger × Option bcgo.Error)
    (target : bcgo.Block → String → Prop)
    (hproc : ∀ l b, (callback l b).1.Processed = l.Processed)
    (hmono : ∀ l b a, a ∈ l.Aliases → a ∈ (callback l b).1.Aliases)
    (hstop : ∀ l b, (callback l b).2 ≠ some bcgo.Error.StopIteration)
    (hadd : ∀ l b a, (callback l b).2 = none → target b a → a ∈ (callback l b).1.Aliases) :
    ∀ (chain : bcgo.Chain) (s : Ledger), (chain.map Prod.fst).Nodup →
      ((bcgo.Iterate (iterateCallback name callback) chain s).2 = none ∨
        (bcgo.Iterate (iterateCallback name callback) chain s).2
          = some bcgo.Error.StopIteration) →
      ∀ hb ∈ s.unprocessed name chain, ∀ a, target hb.2 a →
        a ∈ (bcgo.Iterate (iterateCallback name callback) chain s).1.Aliases := by
  intro chain
  induction chain with
  | nil => intro s _ _ hb hm; simp [unprocessed] at hm
  | cons x rest ih =>
    intro s hnodup hok hb hm a ht
    obtain ⟨h, b⟩ := x
    simp only [List.map_cons, List.nodup_cons] at hnodup
    by_cases hp : h ∈ s.processed name
    · simp [unprocessed, List.takeWhile_cons, hp] at hm
    · have hun : s.unprocessed name ((h, b) :: rest) = (h, b) :: s.unprocessed name rest := by
        simp [unprocessed, List.takeWhile_cons, hp]
      rw [hun] at hm
      have hprocessed : (callback (s.markProcessed name h) b).1.processed name
          = setAdd (s.processed name) h := by
        rw [processed_congr _ _ name (hproc _ b), processed_markProcessed]
      have hun2 : (callback (s.markProcessed name h) b).1.unprocessed name rest
          = s.unprocessed name rest := by
        unfold unprocessed
        rw [hprocessed]
        exact takeWhile_setAdd _ h rest hnodup.1
      have hnone : (callback (s.markProcessed name h) b).2 = none := by
        rcases hc : callback (s.markProcessed name h) b with ⟨s1, _ | err⟩
        · rfl
        · exfalso
          have hs := hstop (s.markProcessed name h) b
          rw [hc] at hs
          simp only [bcgo.Iterate, iterateCallback, hp, if_false, hc] at hok
          rcases hok with hok | hok
          · exact absurd hok (by simp)
          · exact hs hok
      have hstep : bcgo.Iterate (iterateCallback name callback) ((h, b) :: rest) s
          = bcgo.Iterate (iterateCallback name callback) rest
              (callback (s.markProcessed name h) b).1 := by
        rcases hc : callback (s.markProcessed name h) b with ⟨s1, e⟩
        rw [hc] at hnone
        simp only at hnone
        subst hnone
        simp [bcgo.Iterate, iterateCallback, hp, hc]
      rw [hstep] at hok ⊢
      rcases List.mem_cons.mp hm with he | hmem
      · subst he
        have h0 := hadd (s.markProcessed name h) b a hnone ht
        exact bcgo.Iterate_keeps (fun l => a ∈ l.Aliases) (iterateCallback name callback) (by
          intro s' h' b' hs'
          unfold iterateCallback
          by_cases hp' : h' ∈ s'.processed name
          · simpa [hp'] using hs'
          · simpa [hp'] using hmono (s'.markProcessed name h') b' a hs') rest _ h0
      · exact ih _ hnodup.2 hok hb (by rw [hun2]; exact hmem) a ht

theorem iterate_aliases (l : Ledger) (name : String) (chain : bcgo.Chain)
    (callback : Ledger → bcgo.Block → Ledger × Option bcgo.Error)
    (target : bcgo.Block → String → Prop)
    (hproc : ∀ l b, (callback l b).1.Processed = l.Processed)
    (hmono : ∀ l b a, a ∈ l.Aliases → a ∈ (callback l b).1.Aliases)
    (hstop : ∀ l b, (callback l b).2 ≠ some bcgo.Error.StopIteration)
    (hadd : ∀ l b a, (callback l b).2 = none → target b a → a ∈ (callback l b).1.Aliases)
    (hnodup : (chain.map Prod.fst).Nodup)
    (hok : (l.iterate name chain callback).2 = Outcome.ok) :
    ∀ hb ∈ l.unprocessed name chain, ∀ a, target hb.2 a →
      a ∈ (l.iterate name chain callback).1.Aliases := by
  have h := Iterate_aliases name callback target hproc hmono hstop hadd chain
    (l.openProcessed name) hnodup
  rw [unprocessed_openProcessed] at h
  unfold iterate at hok ⊢
  rcases hc : bcgo.Iterate (iterateCallback name callback) chain (l.openProcessed name)
    with ⟨l1, _ | err⟩
  · rw [hc] at h
    exact h (Or.inl rfl)
  · rw [hc] at h hok
    cases err with
    | StopIteration => exact h (Or.inr rfl)
    | Unmarshal => simp at hok
    | Text msg => simp at hok

theorem transactionEntries_never_stops :
    ∀ (entries : List bcgo.BlockEntry) (l : Ledger),
      (transactionEntries entries l).2 ≠ some bcgo.Error.StopIteration := by
  intro entries
  induction entries with
  | nil => intro l; simp [transactionEntries]
  | cons entry rest ih =>
    intro l
    unfold transactionEntries
    cases hp : entry.Record.Payload.asTransaction with
    | none => simp
    | some t => exact ih _

theorem transactionEntries_named :
    ∀ (entries : List bcgo.BlockEntry) (l : Ledger), (transactionEntries entries l).2 = none →
      ∀ t ∈ transactionsOf entries,
        t.Sender ∈ (transactionEntries entries l).1.Aliases ∧
        t.Receiver ∈ (transactionEntries entries l).1.Aliases := by
  intro entries
  induction entries with
  | nil => intro l _ t ht; simp [transactionsOf] at ht
  | cons entry rest ih =>
    intro l hok t ht
    unfold transactionEntries at hok ⊢
    cases hp : entry.Record.Payload.asTransaction with
    | none =>
      rw [hp] at hok
      simp at hok
    | some t0 =>
      rw [hp] at hok
      have hcons : transactionsOf (entry :: rest) = t0 :: transactionsOf rest := by
        simp [transactionsOf, List.filterMap_cons, hp]
      rw [hcons] at ht
      simp only at hok ⊢
      rcases List.mem_cons.mp ht with he | hmem
      · subst he
        have hs : t.Sender ∈ ((l.RecordSold t.Sender t.Amount).RecordBought t.Receiver
            t.Amount).Aliases :=
          (mem_setAdd _ _ _).mpr (Or.inl ((mem_setAdd _ _ _).mpr (Or.inr rfl)))
        have hr : t.Receiver ∈ ((l.RecordSold t.Sender t.Amount).RecordBought t.Receiver
            t.Amount).Aliases :=
          (mem_setAdd _ _ _).mpr (Or.inr rfl)
        exact ⟨transactionEntries_keeps (fun l => t.Sender ∈ l.Aliases)
            (mem_Aliases_stable t.Sender).trade rest _ hs,
          transactionEntries_keeps (fun l => t.Receiver ∈ l.Aliases)
            (mem_Aliases_stable t.Receiver).trade rest _ hr⟩
      · exact ih _ hok t hmem

theorem conversationEntries_named :
    ∀ (entries : List bcgo.BlockEntry) (l : Ledger), ∀ entry ∈ entries,
      entry.Record.Creator ∈ (conversationEntries entries l).Aliases := by
  intro entries
  induction entries with
  | nil => intro l entry he; simp at he
  | cons e rest ih =>
    intro l entry he
    unfold conversationEntries
    rcases List.mem_cons.mp he with heq | hmem
    · subst heq
      exact conversationEntries_keeps (fun l => entry.Record.Creator ∈ l.Aliases)
        (mem_Aliases_stable entry.Record.Creator).burned rest _
        ((mem_setAdd _ _ _).mpr (Or.inr rfl))
    · exact ih _ entry hmem

theorem mint_named (l : Ledger) (name : String) (reward : Nat) (chain : bcgo.Chain)
    (hupd : chain ≠ [] → l.Update name chain = l.iterate name chain (mintCallback reward))
    (hdistinct : (chain.map Prod.fst).Nodup) (hok : (l.Update name chain).2 = Outcome.ok) :
    ∀ hb ∈ l.unprocessed name chain, hb.2.Miner ∈ (l.Update name chain).1.Aliases := by
  intro hb hm
  by_cases h0 : chain = []
  · subst h0
    simp [unprocessed_nil] at hm
  rw [hupd h0] at hok ⊢
  exact iterate_aliases l name chain (mintCallback reward) (fun b a => b.Miner = a)
    (fun _ _ => rfl) (fun l b a h => (mem_setAdd _ _ _).mpr (Or.inl h))
    (fun l b => by simp [mintCallback])
    (fun l b a _ ht => (mem_setAdd _ _ _).mpr (Or.inr ht.symm)) hdistinct hok hb hm _ rfl

theorem transaction_named (l : Ledger) (chain : bcgo.Chain)
    (hdistinct : (chain.map Prod.fst).Nodup)
    (hok : (l.Update CONVEY_TRANSACTION chain).2 = Outcome.ok) :
    ∀ t ∈ transactionsOf (entriesOf (l.unprocessed CONVEY_TRANSACTION chain)),
      t.Sender ∈ (l.Update CONVEY_TRANSACTION chain).1.Aliases ∧
      t.Receiver ∈ (l.Update CONVEY_TRANSACTION chain).1.Aliases := by
  intro t ht
  by_cases h0 : chain = []
  · subst h0
    simp [unprocessed_nil, entriesOf, transactionsOf] at ht
  rw [Update_transaction l chain h0] at hok ⊢
  unfold transactionsOf at ht
  obtain ⟨entry, he, hp⟩ := List.mem_filterMap.mp ht
  obtain ⟨hb, hm, hin⟩ := exists_of_mem_entriesOf entry _ he
  have hblock : t ∈ transactionsOf hb.2.Entry := by
    unfold transactionsOf
    exact List.mem_filterMap.mpr ⟨entry, hin, hp⟩
  have h := iterate_aliases l CONVEY_TRANSACTION chain transactionCallback
    (fun b a => ∃ t ∈ transactionsOf b.Entry, t.Sender = a ∨ t.Receiver = a)
    (fun l b => transactionEntries_Processed b.Entry l)
    (fun l b a h => transactionEntries_keeps (fun l => a ∈ l.Aliases)
      (mem_Aliases_stable a).trade b.Entry l h)
    (fun l b => transactionEntries_never_stops b.Entry l)
    (fun l b a hnone ht => by
      obtain ⟨t, ht, hor⟩ := ht
      have h := transactionEntries_named b.Entry l hnone t ht
      rcases hor with e | e
      · rw [← e]; exact h.1
      · rw [← e]; exact h.2) hdistinct hok hb hm
  exact ⟨h _ ⟨t, hblock, Or.inl rfl⟩, h _ ⟨t, hblock, Or.inr rfl⟩⟩

theorem conversation_named (l : Ledger) (chain : bcgo.Chain)
    (hdistinct : (chain.map Prod.fst).Nodup)
    (hok : (l.Update CONVEY_CONVERSATION chain).2 = Outcome.ok) :
    ∀ entry ∈ entriesOf (l.unprocessed CONVEY_CONVERSATION chain),
      entry.Record.Creator ∈ (l.Update CONVEY_CONVERSATION chain).1.Aliases := by
  intro entry he
  by_cases h0 : chain = []
  · subst h0
    simp [unprocessed_nil, entriesOf] at he
  rw [Update_conversation l chain h0] at hok ⊢
  obtain ⟨hb, hm, hin⟩ := exists_of_mem_entriesOf entry _ he
  exact iterate_aliases l CONVEY_CONVERSATION chain conversationCallback
    (fun b a => ∃ entry ∈ b.Entry, entry.Record.Creator = a)
    (fun l b => conversationEntries_Processed b.Entry l)
    (fun l b a h => conversationEntries_keeps (fun l => a ∈ l.Aliases)
      (mem_Aliases_stable a).burned b.Entry l h)
    (fun l b => by simp [conversationCallback])
    (fun l b a _ ht => by
      obtain ⟨entry, he, e⟩ := ht
      rw [← e]
      exact conversationEntries_named b.Entry l entry he) hdistinct hok hb hm _
    ⟨entry, hin, rfl⟩

end Ledger

end conveygo

/-! ## The authors and the ancestors of processed messages are in Aliases -/

namespace conveygo

theorem mapGet_of_mem_key {κ ν : Type} [DecidableEq κ] (m : List (κ × ν)) (k : κ) (v : ν)
    (h : (k, v) ∈ m) : ∃ n, mapGet m k = some n := by
  induction m with
  | nil => simp at h
  | cons e rest ih =>
    obtain ⟨k0, v0⟩ := e
    by_cases hk : k0 = k
    · exact ⟨v0, by simp [mapGet, hk]⟩
    · rcases List.mem_cons.mp h with heq | hmem
      · simp only [Prod.mk.injEq] at heq
        exact absurd heq.1.symm hk
      · obtain ⟨n, hn⟩ := ih hmem
        exact ⟨n, by simp [mapGet, hk, hn]⟩

namespace Ledger

theorem reply_named (nodes : List (Hash × MessageNode)) (author : String) :
    ∀ (ancestors : List MessageNode) (fuel c : Nat) (prev : Hash) (l : Ledger),
      Ancestors nodes prev ancestors → ancestors.length ≤ fuel →
      ∀ n ∈ ancestors, n.Author ∈ (reply nodes author fuel c prev l).1.Aliases := by
  intro ancestors
  induction ancestors with
  | nil => intro fuel c prev l hanc; exact absurd hanc (by simp [Ancestors])
  | cons n rest ih =>
    intro fuel c prev l hanc hlen x hx
    cases fuel with
    | zero => simp at hlen
    | succ fuel =>
      cases rest with
      | nil =>
        obtain ⟨hg, hroot⟩ := hanc
        simp only [List.mem_singleton] at hx
        subst hx
        unfold reply
        simp only [hg, hroot, if_true]
        exact (mem_setAdd _ _ _).mpr (Or.inl ((mem_setAdd _ _ _).mpr (Or.inr rfl)))
      | cons m rest' =>
        obtain ⟨hg, hnot, hrest⟩ := hanc
        unfold reply
        simp only [hg, hnot, if_false]
        rcases List.mem_cons.mp hx with he | hmem
        · subst he
          exact reply_keeps (fun l => x.Author ∈ l.Aliases) (mem_Aliases_stable x.Author).burned
            (mem_Aliases_stable x.Author).reward nodes author fuel _ _ _
            ((mem_setAdd _ _ _).mpr (Or.inr rfl))
        · exact ih fuel _ _ _ hrest (by simpa using hlen) x hmem

theorem reply_author (nodes : List (Hash × MessageNode)) (author : String) :
    ∀ (fuel c : Nat) (prev : Hash) (l : Ledger),
      (reply nodes author fuel c prev l).2 = Outcome.ok →
      author ∈ (reply nodes author fuel c prev l).1.Aliases := by
  intro fuel
  induction fuel with
  | zero => intro c prev l hok; simp [reply] at hok
  | succ fuel ih =>
    intro c prev l hok
    unfold reply at hok ⊢
    cases hg : mapGet nodes prev with
    | none =>
      rw [hg] at hok
      simp at hok
    | some previous =>
      rw [hg] at hok
      by_cases hr : previous.Previous = []
      · simp only [hr, if_true]
        exact (mem_setAdd _ _ _).mpr (Or.inr rfl)
      · simp only [hr, if_false] at hok ⊢
        exact ih _ _ _ hok

theorem reply_Processed (nodes : List (Hash × MessageNode)) (author : String)
    (fuel c : Nat) (prev : Hash) (l : Ledger) :
    (reply nodes author fuel c prev l).1.Processed = l.Processed :=
  reply_keeps (fun l' => l'.Processed = l.Processed) (fun _ _ _ h => h) (fun _ _ _ _ h => h)
    nodes author fuel c prev l rfl

/-- One round of the second pass that ends well hands the ledger on to the
other nodes, with the author of the node in Aliases, and the authors of its
ancestors when it is a reply, unless its block was processed before. -/
theorem distribute_cons_ok (name : String) (maps : MessageMaps) (key block : Hash)
    (node : MessageNode) (rest : List (Hash × MessageNode)) (l : Ledger)
    (hblock : mapGet maps.blocks key = some block)
    (hok : (distribute name maps ((key, node) :: rest) l).2 = Outcome.ok) :
    ∃ l1, distribute name maps ((key, node) :: rest) l = distribute name maps rest l1 ∧
      l1.Processed = l.Processed ∧ (∀ a ∈ l.Aliases, a ∈ l1.Aliases) ∧
      (block ∉ l.processed name → node.Author ∈ l1.Aliases ∧
        (node.Previous ≠ [] → ∀ ancestors, Ancestors maps.nodes node.Previous ancestors →
          ∀ n ∈ ancestors, n.Author ∈ l1.Aliases)) := by
  by_cases h1 : block ∈ l.processed name
  · refine ⟨l, ?_, rfl, fun a h => h, fun h => absurd h1 h⟩
    simp only [distribute, hblock, h1, if_true]
  by_cases h2 : node.Previous = []
  · refine ⟨l.RecordBurned node.Author node.Cost, ?_, rfl,
      fun a h => (mem_setAdd _ _ _).mpr (Or.inl h),
      fun _ => ⟨(mem_setAdd _ _ _).mpr (Or.inr rfl), fun h => absurd h2 h⟩⟩
    simp only [distribute, hblock, h1, h2, if_true, if_false]
  have hreply : (reply maps.nodes node.Author (maps.nodes.length + 1) node.Cost node.Previous
      l).2 = Outcome.ok := by
    simp only [distribute, hblock, h1, h2, if_false] at hok
    rcases hc : reply maps.nodes node.Author (maps.nodes.length + 1) node.Cost node.Previous l
      with ⟨l1, out⟩
    rw [hc] at hok
    cases out
    · rfl
    all_goals simp at hok
  refine ⟨(reply maps.nodes node.Author (maps.nodes.length + 1) node.Cost node.Previous l).1,
    distribute_reply name maps key block node rest l hblock h1 h2 hreply,
    reply_Processed _ _ _ _ _ _, ?_, fun _ => ⟨reply_author _ _ _ _ _ _ hreply, ?_⟩⟩
  · intro a h
    exact reply_keeps (fun l => a ∈ l.Aliases) (mem_Aliases_stable a).burned
      (mem_Aliases_stable a).reward _ _ _ _ _ _ h
  · intro _ ancestors hanc n hn
    have hlen := Ancestors_length_le ancestors maps.nodes node.Previous hanc
    exact reply_named maps.nodes node.Author ancestors _ _ _ _ hanc (by omega) n hn

theorem distribute_named (name : String) (maps : MessageMaps) :
    ∀ (todo : List (Hash × MessageNode)) (l : Ledger),
      (∀ kn ∈ todo, ∃ b, mapGet maps.blocks kn.1 = some b) →
      (distribute name maps todo l).2 = Outcome.ok →
      ∀ kn ∈ todo, ∀ block, mapGet maps.blocks kn.1 = some block → block ∉ l.processed name →
        kn.2.Author ∈ (distribute name maps todo l).1.Aliases ∧
        (kn.2.Previous ≠ [] → ∀ ancestors, Ancestors maps.nodes kn.2.Previous ancestors →
          ∀ n ∈ ancestors, n.Author ∈ (distribute name maps todo l).1.Aliases) := by
  intro todo
  induction todo with
  | nil => intro l _ _ kn hkn; simp at hkn
  | cons x rest ih =>
    intro l hcov hok kn hkn block hblock hnew
    obtain ⟨key, node⟩ := x
    obtain ⟨b0, hb0⟩ := hcov (key, node) (List.mem_cons_self _ _)
    obtain ⟨l1, hstep, hproc, hmono, hhead⟩ :=
      distribute_cons_ok name maps key b0 node rest l hb0 hok
    rw [hstep] at hok ⊢
    have hkeep : ∀ a, a ∈ l1.Aliases → a ∈ (distribute name maps rest l1).1.Aliases :=
      fun a h => distribute_keeps (fun l => a ∈ l.Aliases) (mem_Aliases_stable a).burned
        (mem_Aliases_stable a).reward name maps rest l1 h
    rcases List.mem_cons.mp hkn with he | hmem
    · subst he
      have hsame : b0 = block := by
        rw [hb0] at hblock
        exact Option.some.inj hblock
      subst hsame
      obtain ⟨ha, hanc⟩ := hhead hnew
      exact ⟨hkeep _ ha, fun hr ancestors h n hn => hkeep _ (hanc hr ancestors h n hn)⟩
    · exact ih l1 (fun kn hk => hcov kn (List.mem_cons_of_mem _ hk)) hok kn hmem block hblock
        (by rw [processed_congr l l1 name hproc]; exact hnew)

theorem updateMessages_named (l : Ledger) (name : String) (chain : bcgo.Chain)
    (hok : (l.updateMessages name chain).2 = Outcome.ok) :
    ∀ kn ∈ (messageMaps chain).nodes, ∀ block,
      mapGet (messageMaps chain).blocks kn.1 = some block → block ∉ l.processed name →
      kn.2.Author ∈ (l.updateMessages name chain).1.Aliases ∧
      (kn.2.Previous ≠ [] → ∀ ancestors,
        Ancestors (messageMaps chain).nodes kn.2.Previous ancestors →
        ∀ n ∈ ancestors, n.Author ∈ (l.updateMessages name chain).1.Aliases) := by
  have hcov := messageWalk_covered chain
  unfold messageMaps
  unfold updateMessages at hok ⊢
  rcases hw : bcgo.Iterate messageCallback chain { blocks := [], nodes := [] }
    with ⟨maps, _ | err⟩
  · rw [hw] at hok hcov
    simp only at hok hcov ⊢
    have hd := distribute_named name maps maps.nodes (l.openProcessed name)
      (fun kn hk => hcov kn.1 (mapGet_of_mem_key maps.nodes kn.1 kn.2 hk))
    rcases hdd : distribute name maps maps.nodes (l.openProcessed name) with ⟨l1, out⟩
    rw [hdd] at hok hd
    cases out with
    | ok =>
      simp only
      rw [(markBlocks_fields name maps.blocks l1).1]
      intro kn hk block hb hnew
      exact hd rfl kn hk block hb (by rw [processed_openProcessed]; exact hnew)
    | error err => simp at hok
    | panic => simp at hok
    | hang => simp at hok
  · rw [hw] at hok
    simp at hok

end Ledger

end conveygo

/-! ## A reply always burns -/

namespace conveygo

theorem remaining_pos (c : Nat) (hc : 1 ≤ c) : ∀ k, 1 ≤ remaining c k := by
  intro k
  induction k with
  | zero => exact hc
  | succ k ih =>
    show 1 ≤ remaining c k - remaining c k / 2
    omega

end conveygo

/-! ## What `GetAllConversations` of the blockchain store returns -/

namespace conveygo

namespace BCStore

theorem sinceLookup_eq (since : Nat) :
    ∀ (entries : List bcgo.BlockEntry) (listings : List Listing),
      (∀ entry ∈ entries, entry.Record.Payload.asConversation ≠ none) →
      sinceLookup since entries listings
        = (listings ++ (entries.filter fun entry => decide (since ≤ entry.Record.Timestamp)).map
            listingOf, none) := by
  intro entries
  induction entries with
  | nil => intro listings _; simp [sinceLookup]
  | cons entry rest ih =>
    intro listings hparse
    have hrest : ∀ e ∈ rest, e.Record.Payload.asConversation ≠ none :=
      fun e he => hparse e (List.mem_cons_of_mem _ he)
    simp only [sinceLookup]
    by_cases hnew : entry.Record.Timestamp ≥ since
    · rw [if_pos hnew, ConversationEntryToListing_of_parse entry
        (hparse entry (List.mem_cons_self _ _))]
      simp only
      rw [ih _ hrest, List.filter_cons_of_pos (by simpa using hnew)]
      simp
    · rw [if_neg hnew, ih _ hrest, List.filter_cons_of_neg (by simpa using hnew)]

/-- The walk of `GetAllConversations` over a chain of entries that decode: it
takes the blocks from the head down to the first one stamped before `since`
and, of their entries, those stamped `since` or later. -/
theorem Iterate_since (since : Nat) :
    ∀ (chain : bcgo.Chain) (listings : List Listing),
      (∀ entry ∈ entriesOf chain, entry.Record.Payload.asConversation ≠ none) →
      ∃ e, (e = none ∨ e = some bcgo.Error.StopIteration) ∧
        bcgo.Iterate (sinceCallback since) chain listings
          = (listings ++ ((entriesOf (chain.takeWhile fun hb =>
                decide (since ≤ hb.2.Timestamp))).filter fun entry =>
                decide (since ≤ entry.Record.Timestamp)).map listingOf, e) := by
  intro chain
  induction chain with
  | nil => intro listings _; exact ⟨none, Or.inl rfl, by simp [bcgo.Iterate, entriesOf]⟩
  | cons hb rest ih =>
    intro listings hparse
    obtain ⟨h, b⟩ := hb
    have hb : ∀ e ∈ b.Entry, e.Record.Payload.asConversation ≠ none :=
      fun e he => hparse e (by simp only [entriesOf, List.mem_append]; exact Or.inl he)
    have hrest : ∀ e ∈ entriesOf rest, e.Record.Payload.asConversation ≠ none :=
      fun e he => hparse e (by simp only [entriesOf, List.mem_append]; exact Or.inr he)
    by_cases hold : b.Timestamp < since
    · refine ⟨some bcgo.Error.StopIteration, Or.inr rfl, ?_⟩
      have hnot : ¬ since ≤ b.Timestamp := by omega
      simp [bcgo.Iterate, sinceCallback, hold, List.takeWhile_cons, hnot, entriesOf]
    · have hge : since ≤ b.Timestamp := by omega
      obtain ⟨e, he, hres⟩ := ih (listings ++ (b.Entry.filter fun entry =>
        decide (since ≤ entry.Record.Timestamp)).map listingOf) hrest
      refine ⟨e, he, ?_⟩
      simp only [bcgo.Iterate, sinceCallback, if_neg hold, sinceLookup_eq since b.Entry listings hb,
        hres, List.takeWhile_cons, hge, decide_True, if_true, entriesOf, List.filter_append,
        List.map_append, List.append_assoc]

theorem GetAllConversations_eq (s : BCStore) (chain : bcgo.Chain) (since : Nat)
    (hchannel : mapGet s.Channels CONVEY_CONVERSATION = some chain)
    (hparse : ∀ entry ∈ entriesOf chain, entry.Record.Payload.asConversation ≠ none) :
    s.GetAllConversations since
      = (((entriesOf (chain.takeWhile fun hb => decide (since ≤ hb.2.Timestamp))).filter
          fun entry => decide (since ≤ entry.Record.Timestamp)).map listingOf, none) := by
  obtain ⟨e, he, hres⟩ := Iterate_since since chain [] hparse
  rcases he with rfl | rfl
  · simp only [GetAllConversations, GetChannel, hchannel, hres, List.nil_append]
  · simp only [GetAllConversations, GetChannel, hchannel, hres, List.nil_append]

end BCStore

/-- On a chain whose block stamps do not increase from the head backward and
whose records are stamped no later than their blocks, the blocks behind the
first one stamped before `since` hold no entry stamped `since` or later. -/
theorem filter_since_takeWhile (since : Nat) :
    ∀ (chain : bcgo.Chain),
      chain.Pairwise (fun a b => b.2.Timestamp ≤ a.2.Timestamp) →
      (∀ hb ∈ chain, ∀ entry ∈ hb.2.Entry, entry.Record.Timestamp ≤ hb.2.Timestamp) →
      (entriesOf (chain.takeWhile fun hb => decide (since ≤ hb.2.Timestamp))).filter
          (fun entry => decide (since ≤ entry.Record.Timestamp))
        = (entriesOf chain).filter fun entry => decide (since ≤ entry.Record.Timestamp) := by
  intro chain
  induction chain with
  | nil => intro _ _; rfl
  | cons hb rest ih =>
    intro hsorted hstamp
    obtain ⟨h, b⟩ := hb
    rw [List.pairwise_cons] at hsorted
    by_cases hge : since ≤ b.Timestamp
    · simp only [List.takeWhile_cons, hge, decide_True, if_true, entriesOf, List.filter_append]
      rw [ih hsorted.2 (fun hb hm => hstamp hb (List.mem_cons_of_mem _ hm))]
    · simp only [List.takeWhile_cons, hge, decide_False, entriesOf]
      rw [List.filter_nil]
      symm
      rw [List.filter_eq_nil_iff]
      intro entry he
      obtain ⟨hb', hm, hin⟩ := exists_of_mem_entriesOf entry ((h, b) :: rest)
        (by simpa [entriesOf] using he)
      have h1 := hstamp hb' hm entry hin
      have h2 : hb'.2.Timestamp ≤ b.Timestamp := by
        rcases List.mem_cons.mp hm with e | hmr
        · rw [e]
        · exact hsorted.1 hb' hmr
      simp only [decide_eq_true_eq]
      omega

end conveygo

/-! ## A validated transaction chain debits only the signers -/

namespace conveygo

end conveygo

/-! ## Accumulators only grow while there is room -/

namespace conveygo

theorem Record_grows (m : List (String × Nat)) (k : String) (x r : Nat)
    (h : total m + r < 2 ^ 64) (hx : x ≤ r) :
    (∀ a, amountOf m a ≤ amountOf (Record m k x) a) ∧ total (Record m k x) = total m + x := by
  refine ⟨fun a => ?_, total_Record_exact m k x (by omega)⟩
  rw [amountOf_Record]
  by_cases e : k = a
  · subst e
    rw [if_pos rfl]
    have hle := amountOf_le_total m k
    rw [Nat.mod_eq_of_lt (by omega)]
    omega
  · rw [if_neg e]

namespace Ledger

theorem Below_refl (l : Ledger) : l.Below l :=
  ⟨fun _ => le_refl _, fun _ => le_refl _, fun _ => le_refl _, fun _ => le_refl _,
    fun _ => le_refl _, fun _ => le_refl _⟩

theorem Below_trans (a b c : Ledger) (h1 : a.Below b) (h2 : b.Below c) : a.Below c :=
  ⟨fun x => le_trans (h1.1 x) (h2.1 x), fun x => le_trans (h1.2.1 x) (h2.2.1 x),
    fun x => le_trans (h1.2.2.1 x) (h2.2.2.1 x), fun x => le_trans (h1.2.2.2.1 x) (h2.2.2.2.1 x),
    fun x => le_trans (h1.2.2.2.2.1 x) (h2.2.2.2.2.1 x),
    fun x => le_trans (h1.2.2.2.2.2 x) (h2.2.2.2.2.2 x)⟩

theorem Room_mono (l : Ledger) (r r' : Nat) (h : l.Room r) (hle : r' ≤ r) : l.Room r' := by
  unfold Room at h ⊢
  omega

theorem minted_grows (l : Ledger) (a : String) (x r : Nat) (h : l.Room r) (hx : x ≤ r) :
    l.Below (l.RecordMinted a x) ∧ (l.RecordMinted a x).Room (r - x) := by
  obtain ⟨h1, h2⟩ := Record_grows l.Minted a x r h.1 hx
  refine ⟨⟨h1, fun _ => le_refl _, fun _ => le_refl _, fun _ => le_refl _, fun _ => le_refl _,
    fun _ => le_refl _⟩, ?_⟩
  unfold Room at h ⊢
  simp only [RecordMinted]
  omega

theorem burned_grows (l : Ledger) (a : String) (x r : Nat) (h : l.Room r) (hx : x ≤ r) :
    l.Below (l.RecordBurned a x) ∧ (l.RecordBurned a x).Room (r - x) := by
  obtain ⟨h1, h2⟩ := Record_grows l.Burned a x r h.2.1 hx
  refine ⟨⟨fun _ => le_refl _, h1, fun _ => le_refl _, fun _ => le_refl _, fun _ => le_refl _,
    fun _ => le_refl _⟩, ?_⟩
  unfold Room at h ⊢
  simp only [RecordBurned]
  omega

theorem trade_grows (l : Ledger) (s b : String) (x r : Nat) (h : l.Room r) (hx : x ≤ r) :
    l.Below ((l.RecordSold s x).RecordBought b x) ∧
    ((l.RecordSold s x).RecordBought b x).Room (r - x) := by
  obtain ⟨h1, h2⟩ := Record_grows l.Sold s x r h.2.2.2.1 hx
  obtain ⟨h3, h4⟩ := Record_grows l.Bought b x r h.2.2.1 hx
  refine ⟨⟨fun _ => le_refl _, fun _ => le_refl _, h3, h1, fun _ => le_refl _,
    fun _ => le_refl _⟩, ?_⟩
  unfold Room at h ⊢
  simp only [RecordSold, RecordBought]
  omega

theorem reward_grows (l : Ledger) (a b : String) (x r : Nat) (h : l.Room r) (hx : x ≤ r) :
    l.Below ((l.RecordSpent a x).RecordEarned b x) ∧
    ((l.RecordSpent a x).RecordEarned b x).Room (r - x) := by
  obtain ⟨h1, h2⟩ := Record_grows l.Spent a x r h.2.2.2.2.2 hx
  obtain ⟨h3, h4⟩ := Record_grows l.Earned b x r h.2.2.2.2.1 hx
  refine ⟨⟨fun _ => le_refl _, fun _ => le_refl _, fun _ => le_refl _, fun _ => le_refl _, h3,
    h1⟩, ?_⟩
  unfold Room at h ⊢
  simp only [RecordSpent, RecordEarned]
  omega

theorem transactionEntries_grows :
    ∀ (entries : List bcgo.BlockEntry) (l : Ledger) (r : Nat), l.Room r →
      ((transactionsOf entries).map fun t => t.Amount).sum ≤ r →
      l.Below (transactionEntries entries l).1 ∧
      (transactionEntries entries l).1.Room
        (r - ((transactionsOf entries).map fun t => t.Amount).sum) := by
  intro entries
  induction entries with
  | nil => intro l r h _; exact ⟨Below_refl l, Room_mono l r _ h (Nat.sub_le _ _)⟩
  | cons entry rest ih =>
    intro l r h hw
    unfold transactionEntries
    cases hp : entry.Record.Payload.asTransaction with
    | none => exact ⟨Below_refl l, Room_mono l r _ h (Nat.sub_le _ _)⟩
    | some t =>
      have hcons : transactionsOf (entry :: rest) = t :: transactionsOf rest := by
        simp [transactionsOf, List.filterMap_cons, hp]
      rw [hcons] at hw ⊢
      simp only [List.map_cons, List.sum_cons] at hw ⊢
      obtain ⟨g1, g2⟩ := trade_grows l t.Sender t.Receiver t.Amount r h (by omega)
      obtain ⟨g3, g4⟩ := ih _ (r - t.Amount) g2 (by omega)
      exact ⟨Below_trans _ _ _ g1 g3, Room_mono _ _ _ g4 (by omega)⟩

theorem conversationEntries_grows :
    ∀ (entries : List bcgo.BlockEntry) (l : Ledger) (r : Nat), l.Room r →
      (entries.map fun entry => Cost entry.Record).sum ≤ r →
      l.Below (conversationEntries entries l) ∧
      (conversationEntries entries l).Room
        (r - (entries.map fun entry => Cost entry.Record).sum) := by
  intro entries
  induction entries with
  | nil => intro l r h _; exact ⟨Below_refl l, Room_mono l r _ h (Nat.sub_le _ _)⟩
  | cons entry rest ih =>
    intro l r h hw
    unfold conversationEntries
    simp only [List.map_cons, List.sum_cons] at hw ⊢
    obtain ⟨g1, g2⟩ := burned_grows l entry.Record.Creator (Cost entry.Record) r h (by omega)
    obtain ⟨g3, g4⟩ := ih _ (r - Cost entry.Record) g2 (by omega)
    exact ⟨Below_trans _ _ _ g1 g3, Room_mono _ _ _ g4 (by omega)⟩

theorem Iterate_grows (name : String)
    (callback : Ledger → bcgo.Block → Ledger × Option bcgo.Error) (w : bcgo.Block → Nat)
    (hcb : ∀ (l : Ledger) (r : Nat) (b : bcgo.Block), l.Room r → w b ≤ r →
      l.Below (callback l b).1 ∧ (callback l b).1.Room (r - w b)) :
    ∀ (chain : bcgo.Chain) (l : Ledger) (r : Nat), l.Room r →
      (chain.map fun hb => w hb.2).sum ≤ r →
      l.Below (bcgo.Iterate (iterateCallback name callback) chain l).1 ∧
      (bcgo.Iterate (iterateCallback name callback) chain l).1.Room
        (r - (chain.map fun hb => w hb.2).sum) := by
  intro chain
  induction chain with
  | nil => intro l r h _; exact ⟨Below_refl l, Room_mono l r _ h (Nat.sub_le _ _)⟩
  | cons hb rest ih =>
    intro l r h hw
    obtain ⟨k, b⟩ := hb
    simp only [List.map_cons, List.sum_cons] at hw ⊢
    unfold bcgo.Iterate
    by_cases hp : k ∈ l.processed name
    · simp only [iterateCallback, hp, if_true]
      exact ⟨Below_refl l, Room_mono l r _ h (Nat.sub_le _ _)⟩
    · simp only [iterateCallback, hp, if_false]
      have hmark : (l.markProcessed name k).Room r := h
      obtain ⟨g1, g2⟩ := hcb (l.markProcessed name k) r b hmark (by omega)
      have g0 : l.Below (callback (l.markProcessed name k) b).1 := g1
      rcases hc : callback (l.markProcessed name k) b with ⟨l1, _ | err⟩
      · rw [hc] at g0 g2
        obtain ⟨g3, g4⟩ := ih l1 (r - w b) g2 (by omega)
        exact ⟨Below_trans _ _ _ g0 g3, Room_mono _ _ _ g4 (by omega)⟩
      · rw [hc] at g0 g2
        exact ⟨g0, Room_mono _ _ _ g2 (by omega)⟩

theorem iterate_grows (l : Ledger) (name : String) (chain : bcgo.Chain)
    (callback : Ledger → bcgo.Block → Ledger × Option bcgo.Error) (w : bcgo.Block → Nat)
    (hcb : ∀ (l : Ledger) (r : Nat) (b : bcgo.Block), l.Room r → w b ≤ r →
      l.Below (callback l b).1 ∧ (callback l b).1.Room (r - w b))
    (r : Nat) (h : l.Room r) (hw : (chain.map fun hb => w hb.2).sum ≤ r) :
    l.Below (l.iterate name chain callback).1 := by
  have hopen : (l.openProcessed name).Room r := by
    obtain ⟨-, o1, o2, o3, o4, o5, o6⟩ := openProcessed_fields l name
    unfold Room at h ⊢
    rw [o1, o2, o3, o4, o5, o6]
    exact h
  have hbelow : l.Below (l.openProcessed name) := by
    obtain ⟨-, o1, o2, o3, o4, o5, o6⟩ := openProcessed_fields l name
    unfold Below
    rw [o1, o2, o3, o4, o5, o6]
    exact Below_refl l
  have h1 := (Iterate_grows name callback w hcb chain (l.openProcessed name) r hopen hw).1
  unfold iterate
  rcases hc : bcgo.Iterate (iterateCallback name callback) chain (l.openProcessed name)
    with ⟨l1, _ | err⟩
  · rw [hc] at h1
    exact Below_trans _ _ _ hbelow h1
  · rw [hc] at h1
    cases err <;> exact Below_trans _ _ _ hbelow h1

theorem reply_grows (nodes : List (Hash × MessageNode)) (author : String) :
    ∀ (fuel cost : Nat) (prev : Hash) (l : Ledger) (r : Nat), l.Room r → cost ≤ r →
      l.Below (reply nodes author fuel cost prev l).1 ∧
      (reply nodes author fuel cost prev l).1.Room (r - cost) := by
  intro fuel
  induction fuel with
  | zero =>
    intro cost prev l r h _
    exact ⟨Below_refl l, Room_mono l r _ h (Nat.sub_le _ _)⟩
  | succ fuel ih =>
    intro cost prev l r h hw
    unfold reply
    cases hg : mapGet nodes prev with
    | none => exact ⟨Below_refl l, Room_mono l r _ h (Nat.sub_le _ _)⟩
    | some previous =>
      obtain ⟨g1, g2⟩ := reward_grows l author previous.Author (cost / 2) r h (by omega)
      by_cases hr : previous.Previous = []
      · simp only [hr, if_true]
        obtain ⟨g3, g4⟩ := burned_grows _ author (cost - cost / 2) (r - cost / 2) g2 (by omega)
        exact ⟨Below_trans _ _ _ g1 g3, Room_mono _ _ _ g4 (by omega)⟩
      · simp only [hr, if_false]
        obtain ⟨g3, g4⟩ := ih (cost - cost / 2) previous.Previous _ (r - cost / 2) g2 (by omega)
        exact ⟨Below_trans _ _ _ g1 g3, Room_mono _ _ _ g4 (by omega)⟩

theorem distribute_grows (name : String) (maps : MessageMaps) :
    ∀ (todo : List (Hash × MessageNode)) (l : Ledger) (r : Nat), l.Room r →
      (todo.map fun kn => kn.2.Cost).sum ≤ r →
      l.Below (distribute name maps todo l).1 := by
  intro todo
  induction todo with
  | nil => intro l r _ _; exact Below_refl l
  | cons kn rest ih =>
    intro l r h hw
    obtain ⟨key, node⟩ := kn
    simp only [List.map_cons, List.sum_cons] at hw
    unfold distribute
    simp only
    split_ifs with c1 c2
    · exact ih l r h (by omega)
    · obtain ⟨g1, g2⟩ := burned_grows l node.Author node.Cost r h (by omega)
      exact Below_trans _ _ _ g1 (ih _ (r - node.Cost) g2 (by omega))
    · obtain ⟨g1, g2⟩ := reply_grows maps.nodes node.Author (maps.nodes.length + 1) node.Cost
        node.Previous l r h (by omega)
      rcases hc : reply maps.nodes node.Author (maps.nodes.length + 1) node.Cost
        node.Previous l with ⟨l1, out⟩
      rw [hc] at g1 g2
      cases out
      · exact Below_trans _ _ _ g1 (ih l1 (r - node.Cost) g2 (by omega))
      all_goals exact g1

theorem updateMessages_grows (l : Ledger) (name : String) (chain : bcgo.Chain) (r : Nat)
    (h : l.Room r) (hw : chainCost chain ≤ r) : l.Below (l.updateMessages name chain).1 := by
  have hopen : (l.openProcessed name).Room r := by
    obtain ⟨-, o1, o2, o3, o4, o5, o6⟩ := openProcessed_fields l name
    unfold Room at h ⊢
    rw [o1, o2, o3, o4, o5, o6]
    exact h
  have hbelow : l.Below (l.openProcessed name) := by
    obtain ⟨-, o1, o2, o3, o4, o5, o6⟩ := openProcessed_fields l name
    unfold Below
    rw [o1, o2, o3, o4, o5, o6]
    exact Below_refl l
  have hcost := messageWalk_cost chain { blocks := [], nodes := [] }
  unfold updateMessages
  rcases hc : bcgo.Iterate messageCallback chain { blocks := [], nodes := [] }
    with ⟨maps, _ | err⟩
  · rw [hc] at hcost
    simp only [List.map_nil, List.sum_nil, zero_add] at hcost
    have h3 := distribute_grows name maps maps.nodes (l.openProcessed name) r hopen (by omega)
    simp only
    rcases hd : distribute name maps maps.nodes (l.openProcessed name) with ⟨l1, out⟩
    rw [hd] at h3
    have h4 : l.Below l1 := Below_trans _ _ _ hbelow h3
    cases out
    · obtain ⟨-, o1, o2, o3, o4, o5, o6⟩ := markBlocks_fields name maps.blocks l1
      show l.Below (markBlocks name maps.blocks l1)
      unfold Below
      rw [o1, o2, o3, o4, o5, o6]
      exact h4
    all_goals exact h4
  · exact Below_refl l

theorem Update_load_cases (Q : Ledger × Outcome → Prop) (l : Ledger) (name : String)
    (chain : bcgo.Chain)
    (hskip : Q (l, Outcome.ok))
    (hmint : ∀ reward, load name chain = chain.length * reward →
      Q (l.iterate name chain (mintCallback reward)))
    (htransaction : load name chain = ((transactionsOf (entriesOf chain)).map fun t => t.Amount).sum →
      Q (l.iterate name chain transactionCallback))
    (hconversation : load name chain = chainCost chain →
      Q (l.iterate name chain conversationCallback))
    (hmessage : load name chain = chainCost chain → Q (l.updateMessages name chain)) :
    Q (l.Update name chain) := by
  unfold Update
  by_cases h0 : chain = []
  · rw [if_pos h0]; exact hskip
  rw [if_neg h0]
  by_cases h1 : name = CONVEY_HOUR
  · rw [if_pos h1]; exact hmint _ (by unfold load; rw [if_pos h1])
  rw [if_neg h1]
  by_cases h2 : name = CONVEY_DAY
  · rw [if_pos h2]; exact hmint _ (by unfold load; rw [if_neg h1, if_pos h2])
  rw [if_neg h2]
  by_cases h3 : name = CONVEY_WEEK
  · rw [if_pos h3]; exact hmint _ (by unfold load; rw [if_neg h1, if_neg h2, if_pos h3])
  rw [if_neg h3]
  by_cases h4 : name = CONVEY_YEAR
  · rw [if_pos h4]
    exact hmint _ (by unfold load; rw [if_neg h1, if_neg h2, if_neg h3, if_pos h4])
  rw [if_neg h4]
  by_cases h5 : name = CONVEY_DECADE
  · rw [if_pos h5]
    exact hmint _ (by unfold load; rw [if_neg h1, if_neg h2, if_neg h3, if_neg h4, if_pos h5])
  rw [if_neg h5]
  by_cases h6 : name = CONVEY_CENTURY
  · rw [if_pos h6]
    exact hmint _ (by
      unfold load; rw [if_neg h1, if_neg h2, if_neg h3, if_neg h4, if_neg h5, if_pos h6])
  rw [if_neg h6]
  by_cases h7 : name = CONVEY_TRANSACTION
  · rw [if_pos h7]
    exact htransaction (by
      unfold load
      rw [if_neg h1, if_neg h2, if_neg h3, if_neg h4, if_neg h5, if_neg h6, if_pos h7])
  rw [if_neg h7]
  have hrest : load name chain = chainCost chain := by
    unfold load
    rw [if_neg h1, if_neg h2, if_neg h3, if_neg h4, if_neg h5, if_neg h6, if_neg h7]
  by_cases h8 : name = CONVEY_CONVERSATION
  · rw [if_pos h8]; exact hconversation hrest
  rw [if_neg h8]
  by_cases h9 : HasPrefix name CONVEY_PREFIX_MESSAGE = true
  · rw [if_pos h9]; exact hmessage hrest
  rw [if_neg h9]; exact hskip

theorem sum_rewards (reward : Nat) :
    ∀ (chain : bcgo.Chain), (chain.map fun _ => reward).sum = chain.length * reward := by
  intro chain
  induction chain with
  | nil => simp
  | cons hb rest ih =>
    simp only [List.map_cons, List.sum_cons, List.length_cons, ih]
    rw [Nat.succ_mul]
    omega

theorem sum_amounts :
    ∀ (chain : bcgo.Chain),
      (chain.map fun hb => ((transactionsOf hb.2.Entry).map fun t => t.Amount).sum).sum
        = ((transactionsOf (entriesOf chain)).map fun t => t.Amount).sum := by
  intro chain
  induction chain with
  | nil => rfl
  | cons hb rest ih =>
    obtain ⟨h, b⟩ := hb
    simp only [List.map_cons, List.sum_cons, entriesOf, transactionsOf_append, List.map_append,
      List.sum_append, ih]

/-- While every accumulator has room for what the chain can add, no
accumulator value is lower after `Update` than before, however the call
ends. -/
theorem Update_grows (l : Ledger) (name : String) (chain : bcgo.Chain)
    (h : l.Room (load name chain)) : l.Below (l.Update name chain).1 := by
  apply Update_load_cases (fun res => l.Below res.1)
  · exact Below_refl l
  · intro reward hload
    rw [hload] at h
    exact iterate_grows l name chain (mintCallback reward) (fun _ => reward)
      (fun l r b hr hw => minted_grows l b.Miner reward r hr hw) _ h
      (le_of_eq (sum_rewards reward chain))
  · intro hload
    rw [hload] at h
    have hcb : ∀ (l : Ledger) (r : Nat) (b : bcgo.Block), l.Room r →
        ((transactionsOf b.Entry).map fun t => t.Amount).sum ≤ r →
        l.Below (transactionCallback l b).1 ∧
        (transactionCallback l b).1.Room
          (r - ((transactionsOf b.Entry).map fun t => t.Amount).sum) :=
      fun l r b hr hw => transactionEntries_grows b.Entry l r hr hw
    exact iterate_grows l name chain transactionCallback _ hcb _ h
      (le_of_eq (sum_amounts chain))
  · intro hload
    rw [hload] at h
    have hcb : ∀ (l : Ledger) (r : Nat) (b : bcgo.Block), l.Room r →
        (b.Entry.map fun entry => Cost entry.Record).sum ≤ r →
        l.Below (conversationCallback l b).1 ∧
        (conversationCallback l b).1.Room
          (r - (b.Entry.map fun entry => Cost entry.Record).sum) :=
      fun l r b hr hw => conversationEntries_grows b.Entry l r hr hw
    have hsum : (chain.map fun hb => (hb.2.Entry.map fun entry => Cost entry.Record).sum).sum
        ≤ chainCost chain := by
      unfold chainCost
      exact le_refl _
    exact iterate_grows l name chain conversationCallback _ hcb _ h hsum
  · intro hload
    rw [hload] at h
    exact updateMessages_grows l name chain _ h (le_refl _)

end Ledger

end conveygo

namespace conveygo

/-- A block once in a processed set stays there: every step of `Update` keeps
it. -/
theorem mem_processed_stable (channel : String) (key : Hash) :
    Stable fun l => key ∈ l.processed channel := by
  refine ⟨?_, ?_, ?_, ?_, ?_, ?_⟩
  · intro l name k h
    exact Ledger.mem_processed_markProcessed l channel name k key h
  · intro l name h
    rw [Ledger.processed_openProcessed]
    exact h
  · intro l a x h; exact h
  · intro l a x h; exact h
  · intro l s r x h; exact h
  · intro l a b x h; exact h

end conveygo

/-! ## Walks along pointers without a cycle end -/

namespace conveygo

theorem follow_add (next : Hash → Option Hash) (i : Nat) (k : Hash) :
    ∀ d, follow next (i + d) k = (follow next i k).bind (follow next d) := by
  intro d
  induction d with
  | zero =>
    show follow next i k = (follow next i k).bind fun x => some x
    simp
  | succ d ih =>
    show (follow next (i + d) k).bind next = _
    rw [ih, Option.bind_assoc]
    rfl

/-- A walk whose first `m + 1` hashes are all among `keys` and that meets none
of them twice has `m + 1` of them at most. -/
theorem follow_bound (keys : List Hash) (next : Hash → Option Hash)
    (hacyclic : Acyclic keys next) (k : Hash) (m : Nat)
    (hpath : ∀ i ≤ m, ∃ k', follow next i k = some k' ∧ k' ∈ keys) : m < keys.length := by
  by_contra hnot
  have hle : keys.length ≤ m := Nat.le_of_not_lt hnot
  have hcard : keys.toFinset.card < (Finset.range (keys.length + 1)).card := by
    rw [Finset.card_range]
    exact Nat.lt_succ_of_le (List.toFinset_card_le keys)
  have hmaps : ∀ a ∈ Finset.range (keys.length + 1),
      (fun i => (follow next i k).getD []) a ∈ keys.toFinset := by
    intro i hi
    rw [Finset.mem_range] at hi
    obtain ⟨k', hk, hmem⟩ := hpath i (by omega)
    simp only [hk, Option.getD_some, List.mem_toFinset]
    exact hmem
  obtain ⟨i, hi, j, hj, hne, heq⟩ :=
    Finset.exists_ne_map_eq_of_card_lt_of_maps_to hcard hmaps
  rw [Finset.mem_range] at hi hj
  have hcycle : ∀ a b, a < b → b < keys.length + 1 →
      (follow next a k).getD [] = (follow next b k).getD [] → False := by
    intro a b hab hb hsame
    obtain ⟨ka, hka, hmema⟩ := hpath a (by omega)
    obtain ⟨kb, hkb, -⟩ := hpath b (by omega)
    rw [hka, hkb] at hsame
    simp only [Option.getD_some] at hsame
    have hsplit := follow_add next a k (b - a)
    rw [show a + (b - a) = b by omega, hkb, hka] at hsplit
    simp only [Option.some_bind] at hsplit
    have hstep : follow next ((b - a - 1) + 1) ka = some ka := by
      rw [show b - a - 1 + 1 = b - a by omega, ← hsplit, hsame]
    exact hacyclic ka hmema (b - a - 1) (List.mem_range.mpr (by omega)) hstep
  rcases Nat.lt_or_gt_of_ne hne with h | h
  · exact hcycle i j h hj heq
  · exact hcycle j i h hi heq.symm

namespace Ledger

theorem parent_of_reply (nodes : List (Hash × MessageNode)) (k : Hash) (n : MessageNode)
    (hg : mapGet nodes k = some n) (hr : n.Previous ≠ []) : parent nodes k = some n.Previous := by
  unfold parent
  rw [hg]
  simp only [hr, if_false]

/-- In a closed map without a cycle the walk up from a message of the map
ends at a root message, and it has met at most `fuel` messages when the
messages before it and `fuel` make up the size of the map. -/
theorem Ancestors_of_acyclic (nodes : List (Hash × MessageNode)) (hclosed : Closed nodes)
    (hacyclic : Acyclic (nodes.map Prod.fst) (parent nodes)) (start : Hash) :
    ∀ (fuel i : Nat) (prev : Hash),
      (∀ j ≤ i, ∃ k', follow (parent nodes) j start = some k' ∧ k' ∈ nodes.map Prod.fst) →
      follow (parent nodes) i start = some prev → nodes.length ≤ i + fuel →
      ∃ ancestors, Ancestors nodes prev ancestors ∧ ancestors.length ≤ fuel := by
  intro fuel
  induction fuel with
  | zero =>
    intro i prev hpath _ hlen
    have h := follow_bound (nodes.map Prod.fst) (parent nodes) hacyclic start i hpath
    rw [List.length_map] at h
    omega
  | succ fuel ih =>
    intro i prev hpath hprev hlen
    obtain ⟨k', hk, hmem⟩ := hpath i (le_refl _)
    rw [hprev] at hk
    simp only [Option.some.injEq] at hk
    subst hk
    obtain ⟨kn, hkn, hfst⟩ := List.mem_map.mp hmem
    obtain ⟨n, hg⟩ := mapGet_of_mem_key nodes prev kn.2 (by rw [← hfst]; exact hkn)
    by_cases hr : n.Previous = []
    · exact ⟨[n], ⟨hg, hr⟩, by simp⟩
    · have hnext : follow (parent nodes) (i + 1) start = some n.Previous := by
        show (follow (parent nodes) i start).bind (parent nodes) = _
        rw [hprev]
        exact parent_of_reply nodes prev n hg hr
      have hin : n.Previous ∈ nodes.map Prod.fst := by
        have hc := hclosed (prev, n) (mem_of_mapGet nodes prev n hg) hr
        obtain ⟨n', hn'⟩ := Option.isSome_iff_exists.mp hc
        exact List.mem_map.mpr ⟨(n.Previous, n'), mem_of_mapGet nodes _ n' hn', rfl⟩
      obtain ⟨rest, hrest, hlen'⟩ := ih (i + 1) n.Previous
        (by
          intro j hj
          rcases Nat.lt_or_ge j (i + 1) with hlt | hge
          · exact hpath j (by omega)
          · have e : j = i + 1 := by omega
            rw [e]
            exact ⟨n.Previous, hnext, hin⟩)
        hnext (by omega)
      cases rest with
      | nil => exact absurd hrest (by simp [Ancestors])
      | cons m more =>
        exact ⟨n :: m :: more, ⟨hg, hr, hrest⟩, by simp only [List.length_cons] at hlen' ⊢; omega⟩

theorem messageEntries_ok (blockKey : Hash) :
    ∀ (entries : List bcgo.BlockEntry) (maps : MessageMaps),
      (∀ entry ∈ entries, entry.Record.Payload.asMessage ≠ none) →
      (messageEntries blockKey entries maps).2 = none := by
  intro entries
  induction entries with
  | nil => intro maps _; rfl
  | cons entry rest ih =>
    intro maps hparse
    unfold messageEntries
    cases hm : entry.Record.Payload.asMessage with
    | none => exact absurd hm (hparse entry (List.mem_cons_self _ _))
    | some m => exact ih _ (fun e he => hparse e (List.mem_cons_of_mem _ he))

theorem messageWalk_ok :
    ∀ (chain : bcgo.Chain) (maps : MessageMaps),
      (∀ entry ∈ entriesOf chain, entry.Record.Payload.asMessage ≠ none) →
      (bcgo.Iterate messageCallback chain maps).2 = none := by
  intro chain
  induction chain with
  | nil => intro maps _; rfl
  | cons hb rest ih =>
    intro maps hparse
    obtain ⟨h, b⟩ := hb
    have h1 := messageEntries_ok h b.Entry maps
      (fun e he => hparse e (by simp only [entriesOf, List.mem_append]; exact Or.inl he))
    unfold bcgo.Iterate
    rcases hc : messageCallback maps h b with ⟨maps1, _ | err⟩
    · exact ih maps1
        (fun e he => hparse e (by simp only [entriesOf, List.mem_append]; exact Or.inr he))
    · simp only [messageCallback] at hc
      rw [hc] at h1
      simp at h1

theorem distribute_ok (name : String) (maps : MessageMaps) :
    ∀ (todo : List (Hash × MessageNode)),
      (∀ kn ∈ todo, kn.2.Previous ≠ [] →
        ∃ ancestors, Ancestors maps.nodes kn.2.Previous ancestors) →
      ∀ l, (distribute name maps todo l).2 = Outcome.ok := by
  intro todo
  induction todo with
  | nil => intro _ l; rfl
  | cons kn rest ih =>
    intro hanc l
    obtain ⟨key, node⟩ := kn
    have hrest := ih fun kn hk => hanc kn (List.mem_cons_of_mem _ hk)
    unfold distribute
    simp only
    split_ifs with c1 c2
    · exact hrest l
    · exact hrest _
    · obtain ⟨ancestors, ha⟩ := hanc (key, node) (List.mem_cons_self _ _) c2
      have hlen := Ancestors_length_le ancestors maps.nodes node.Previous ha
      have hok := (reply_walk maps.nodes node.Author ancestors (maps.nodes.length + 1) node.Cost
        node.Previous l ha (by omega)).1
      rcases hc : reply maps.nodes node.Author (maps.nodes.length + 1) node.Cost
        node.Previous l with ⟨l1, out⟩
      rw [hc] at hok
      simp only at hok
      subst hok
      exact hrest l1

theorem updateMessages_ok (name : String) (chain : bcgo.Chain)
    (hparse : ∀ entry ∈ entriesOf chain, entry.Record.Payload.asMessage ≠ none)
    (hanc : ∀ kn ∈ (messageMaps chain).nodes, kn.2.Previous ≠ [] →
      ∃ ancestors, Ancestors (messageMaps chain).nodes kn.2.Previous ancestors) :
    ∀ l : Ledger, (l.updateMessages name chain).2 = Outcome.ok := by
  intro l
  have hwalk := messageWalk_ok chain { blocks := [], nodes := [] } hparse
  unfold messageMaps at hanc
  unfold updateMessages
  rcases hw : bcgo.Iterate messageCallback chain { blocks := [], nodes := [] }
    with ⟨maps, _ | err⟩
  · rw [hw] at hanc
    have hd := distribute_ok name maps maps.nodes hanc (l.openProcessed name)
    simp only
    rcases hdd : distribute name maps maps.nodes (l.openProcessed name) with ⟨l1, out⟩
    rw [hdd] at hd
    simp only at hd
    subst hd
    rfl
  · rw [hw] at hwalk
    simp at hwalk

end Ledger

end conveygo

/-! ## The walks of `GetYield` end when the replies have no cycle -/

namespace conveygo

/-- Without a cycle among the replies the way up from a hash ends, at the
root message or at a hash that is no reply, and it has met at most `fuel`
replies when the replies before it and `fuel` make up the size of the map. -/
theorem Trail_of_acyclic (replies : List (Hash × ReplyNode)) (root : Hash)
    (hacyclic : Acyclic (replies.map Prod.fst) (BCStore.parent replies)) (start : Hash) :
    ∀ (fuel i : Nat) (prev : Hash),
      (∀ j < i, ∃ k', follow (BCStore.parent replies) j start = some k' ∧
        k' ∈ replies.map Prod.fst) →
      follow (BCStore.parent replies) i start = some prev → replies.length ≤ i + fuel →
      ∃ nodes last, Trail replies root prev nodes last ∧ nodes.length ≤ fuel := by
  intro fuel
  induction fuel with
  | zero =>
    intro i prev hpath hprev hlen
    by_cases hroot : prev = root
    · exact ⟨[], prev, ⟨rfl, Or.inl hroot⟩, le_refl _⟩
    · cases hg : mapGet replies prev with
      | none => exact ⟨[], prev, ⟨rfl, Or.inr hg⟩, le_refl _⟩
      | some n =>
        exfalso
        have hin : prev ∈ replies.map Prod.fst :=
          List.mem_map.mpr ⟨(prev, n), mem_of_mapGet replies prev n hg, rfl⟩
        have h := follow_bound (replies.map Prod.fst) (BCStore.parent replies) hacyclic start i
          (by
            intro j hj
            rcases Nat.lt_or_ge j i with hlt | hge
            · exact hpath j hlt
            · have e : j = i := by omega
              rw [e]
              exact ⟨prev, hprev, hin⟩)
        rw [List.length_map] at h
        omega
  | succ fuel ih =>
    intro i prev hpath hprev hlen
    by_cases hroot : prev = root
    · exact ⟨[], prev, ⟨rfl, Or.inl hroot⟩, Nat.zero_le _⟩
    · cases hg : mapGet replies prev with
      | none => exact ⟨[], prev, ⟨rfl, Or.inr hg⟩, Nat.zero_le _⟩
      | some n =>
        have hin : prev ∈ replies.map Prod.fst :=
          List.mem_map.mpr ⟨(prev, n), mem_of_mapGet replies prev n hg, rfl⟩
        have hnext : follow (BCStore.parent replies) (i + 1) start = some n.Previous := by
          show (follow (BCStore.parent replies) i start).bind (BCStore.parent replies) = _
          rw [hprev]
          simp only [Option.some_bind, BCStore.parent, hg, Option.map_some']
        obtain ⟨nodes, last, ht, hle⟩ := ih (i + 1) n.Previous
          (by
            intro j hj
            rcases Nat.lt_or_ge j i with hlt | hge
            · exact hpath j hlt
            · have e : j = i := by omega
              rw [e]
              exact ⟨prev, hprev, hin⟩)
          hnext (by omega)
        exact ⟨n :: nodes, last, ⟨hroot, hg, ht⟩, by simp only [List.length_cons]; omega⟩

/-- Without a cycle among replies of different hashes, the way up from a reply
meets fewer replies than the map holds: the reply itself is not among them. -/
theorem Trail_of_reply (replies : List (Hash × ReplyNode)) (root : Hash)
    (hnodup : (replies.map Prod.fst).Nodup)
    (hacyclic : Acyclic (replies.map Prod.fst) (BCStore.parent replies))
    (reply : Hash × ReplyNode) (hmem : reply ∈ replies) :
    ∃ nodes last, Trail replies root reply.2.Previous nodes last ∧
      nodes.length + 1 ≤ replies.length := by
  have hg : mapGet replies reply.1 = some reply.2 :=
    mapGet_of_mem_nodup replies reply.1 reply.2 hnodup hmem
  have hpos : 0 < replies.length := List.length_pos_of_mem hmem
  obtain ⟨nodes, last, ht, hle⟩ := Trail_of_acyclic replies root hacyclic reply.1
    (replies.length - 1) 1 reply.2.Previous
    (by
      intro j hj
      have e : j = 0 := by omega
      rw [e]
      exact ⟨reply.1, rfl, List.mem_map.mpr ⟨reply, hmem, rfl⟩⟩)
    (by
      show (some reply.1).bind (BCStore.parent replies) = _
      simp only [Option.some_bind, BCStore.parent, hg, Option.map_some'])
    (by omega)
  exact ⟨nodes, last, ht, by omega⟩

end conveygo

/-! ## The nodes of the first pass, and what the root author gets from a reply -/

namespace conveygo

theorem Cost_lt (record : bcgo.Record) : Cost record < 2 ^ 64 :=
  Nat.mod_lt _ (Nat.two_pow_pos 64)

theorem messageNode_Previous (entry : bcgo.BlockEntry) :
    (messageNode entry).Previous = (messageOf entry).Previous := by
  unfold messageNode
  by_cases h : 0 < (messageOf entry).Previous.length
  · simp only [if_pos h]
  · simp only [if_neg h]
    exact (List.length_eq_zero.mp (by omega)).symm

namespace Ledger

/-- The first pass over the entries of a block notes one node for each. -/
theorem messageEntries_nodes (blockKey : Hash) :
    ∀ (entries : List bcgo.BlockEntry) (maps : MessageMaps),
      (∀ entry ∈ entries, entry.Record.Payload.asMessage ≠ none) →
      (messageEntries blockKey entries maps).1.nodes
          = entries.foldl (fun m e => mapSet m e.RecordHash (messageNode e)) maps.nodes ∧
        (messageEntries blockKey entries maps).2 = none := by
  intro entries
  induction entries with
  | nil => intro maps _; exact ⟨rfl, rfl⟩
  | cons entry rest ih =>
    intro maps hparse
    have hrest : ∀ e ∈ rest, e.Record.Payload.asMessage ≠ none :=
      fun e he => hparse e (List.mem_cons_of_mem _ he)
    have hentry := hparse entry (List.mem_cons_self _ _)
    cases h : entry.Record.Payload.asMessage with
    | none => exact absurd h hentry
    | some m =>
      have hnode : messageNode entry
          = { Author := entry.Record.Creator, Cost := Cost entry.Record,
              Previous := if 0 < m.Previous.length then m.Previous else [] } := by
        unfold messageNode
        rw [messageOf_of_parse entry m h]
      simp only [messageEntries, h, List.foldl_cons]
      rw [hnode]
      exact ih _ hrest

/-- The first pass over a chain notes one node for each entry. -/
theorem messageWalk_nodes :
    ∀ (chain : bcgo.Chain) (maps : MessageMaps),
      (∀ entry ∈ entriesOf chain, entry.Record.Payload.asMessage ≠ none) →
      (bcgo.Iterate messageCallback chain maps).1.nodes
          = (entriesOf chain).foldl (fun m e => mapSet m e.RecordHash (messageNode e))
              maps.nodes ∧
        (bcgo.Iterate messageCallback chain maps).2 = none := by
  intro chain
  induction chain with
  | nil => intro maps _; exact ⟨rfl, rfl⟩
  | cons hb rest ih =>
    intro maps hparse
    obtain ⟨h, b⟩ := hb
    have hb : ∀ e ∈ b.Entry, e.Record.Payload.asMessage ≠ none :=
      fun e he => hparse e (by simp only [entriesOf, List.mem_append]; exact Or.inl he)
    have hrest : ∀ e ∈ entriesOf rest, e.Record.Payload.asMessage ≠ none :=
      fun e he => hparse e (by simp only [entriesOf, List.mem_append]; exact Or.inr he)
    obtain ⟨h1, h2⟩ := messageEntries_nodes h b.Entry maps hb
    unfold bcgo.Iterate
    rcases hc : messageCallback maps h b with ⟨maps1, _ | err⟩
    · have e1 : (messageEntries h b.Entry maps).1 = maps1 := by
        show (messageCallback maps h b).1 = maps1
        rw [hc]
      rw [e1] at h1
      obtain ⟨h3, h4⟩ := ih maps1 hrest
      refine ⟨?_, h4⟩
      show (bcgo.Iterate messageCallback rest maps1).1.nodes = _
      rw [h3, h1]
      simp only [entriesOf, List.foldl_append]
    · have e2 : (messageEntries h b.Entry maps).2 = some err := by
        show (messageCallback maps h b).2 = some err
        rw [hc]
      rw [h2] at e2
      exact absurd e2 (by simp)

end Ledger

/-- The nodes of a message chain whose records decode and have different
hashes: one for each entry, in the order of the chain. -/
theorem messageMaps_nodes (chain : bcgo.Chain)
    (hparse : ∀ entry ∈ entriesOf chain, entry.Record.Payload.asMessage ≠ none)
    (hdistinct : ((entriesOf chain).map fun e => e.RecordHash).Nodup) :
    (messageMaps chain).nodes
        = (entriesOf chain).map (fun e => (e.RecordHash, messageNode e)) ∧
      (bcgo.Iterate Ledger.messageCallback chain { blocks := [], nodes := [] }).2 = none := by
  obtain ⟨h1, h2⟩ := Ledger.messageWalk_nodes chain { blocks := [], nodes := [] } hparse
  refine ⟨?_, h2⟩
  unfold messageMaps
  rw [h1]
  have hfold := foldl_mapSet_nodup ((entriesOf chain).map fun e => (e.RecordHash, messageNode e))
    [] (by simpa [List.map_map, Function.comp_def] using hdistinct)
  rw [List.foldl_map] at hfold
  simpa using hfold

end conveygo

/-! ## What the author of the root message gets from the second pass -/

namespace conveygo

namespace Ledger

/-- The walk of a reply whose way up ends at the root message: it ends well,
the author of the root earns half of what is left after the replies on the
way, and burns nothing, when the authors of the replies are other aliases. -/
theorem reply_root_share (nodes : List (Hash × MessageNode))
    (replies : List (Hash × ReplyNode)) (root : Hash) (a author : String)
    (hauthor : author ≠ a)
    (hroot : ∃ rn, mapGet nodes root = some rn ∧ rn.Previous = [] ∧ rn.Author = a)
    (hreply : ∀ p r, mapGet replies p = some r → p ≠ root →
      ∃ n, mapGet nodes p = some n ∧ n.Previous = r.Previous ∧ n.Previous ≠ [] ∧
        n.Author ≠ a) :
    ∀ (trail : List ReplyNode) (fuel c : Nat) (prev : Hash) (l : Ledger),
      Trail replies root prev trail root → trail.length + 1 ≤ fuel →
      (reply nodes author fuel c prev l).2 = Outcome.ok ∧
      amountOf (reply nodes author fuel c prev l).1.Earned a
        = (amountOf l.Earned a + remaining c trail.length / 2) % 2 ^ 64 ∧
      amountOf (reply nodes author fuel c prev l).1.Burned a = amountOf l.Burned a := by
  intro trail
  induction trail with
  | nil =>
    intro fuel c prev l ht hfuel
    obtain ⟨fuel, rfl⟩ : ∃ f, fuel = f + 1 := ⟨fuel - 1, by simp at hfuel; omega⟩
    simp only [Trail] at ht
    obtain ⟨rn, hget, hprev, hauth⟩ := hroot
    rw [ht.1] at hget
    have hf := reward_fields l author rn.Author (c / 2)
    have hstep : reply nodes author (fuel + 1) c prev l
        = (((l.RecordSpent author (c / 2)).RecordEarned rn.Author (c / 2)).RecordBurned
            author (c - c / 2), Outcome.ok) := by
      simp only [reply, hget, if_pos hprev]
    rw [hstep]
    refine ⟨rfl, ?_, ?_⟩
    · show amountOf ((l.RecordSpent author (c / 2)).RecordEarned rn.Author (c / 2)).Earned a = _
      rw [hf.1 a, if_pos hauth, hauth]
      simp only [List.length_nil, remaining]
    · show amountOf (Record ((l.RecordSpent author (c / 2)).RecordEarned rn.Author
        (c / 2)).Burned author (c - c / 2)) a = _
      rw [amountOf_Record, if_neg hauthor, hf.2.2.1]
  | cons n rest ih =>
    intro fuel c prev l ht hfuel
    obtain ⟨fuel, rfl⟩ : ∃ f, fuel = f + 1 := ⟨fuel - 1, by simp at hfuel; omega⟩
    simp only [Trail] at ht
    obtain ⟨hne, hget, hrest⟩ := ht
    obtain ⟨nd, hnd, hp, hp0, hna⟩ := hreply prev n hget hne
    have hf := reward_fields l author nd.Author (c / 2)
    have hstep : reply nodes author (fuel + 1) c prev l
        = reply nodes author fuel (c - c / 2) nd.Previous
            ((l.RecordSpent author (c / 2)).RecordEarned nd.Author (c / 2)) := by
      simp only [reply, hnd, if_neg hp0]
    rw [hstep, hp]
    obtain ⟨h1, h2, h3⟩ := ih fuel (c - c / 2) n.Previous
      ((l.RecordSpent author (c / 2)).RecordEarned nd.Author (c / 2)) hrest
      (by simp only [List.length_cons] at hfuel; omega)
    refine ⟨h1, ?_, ?_⟩
    · rw [h2, hf.1 a, if_neg hna, List.length_cons, remaining_shift]
    · rw [h3, hf.2.2.1]

/-- The second pass on a ledger that has processed no block of the channel:
it ends well, and the author of the root message earns the sum of `f` and
burns the sum of `g` over the nodes, in `uint64` arithmetic, where `f` is the
share of the root for a reply and `g` the cost of a root message of that
author. -/
theorem distribute_root_author (name : String) (maps : MessageMaps)
    (replies : List (Hash × ReplyNode)) (root : Hash) (a : String)
    (hroot : ∃ rn, mapGet maps.nodes root = some rn ∧ rn.Previous = [] ∧ rn.Author = a)
    (hreply : ∀ p r, mapGet replies p = some r → p ≠ root →
      ∃ n, mapGet maps.nodes p = some n ∧ n.Previous = r.Previous ∧ n.Previous ≠ [] ∧
        n.Author ≠ a)
    (hsize : replies.length ≤ maps.nodes.length)
    (f g : Hash × MessageNode → Nat) :
    ∀ (todo : List (Hash × MessageNode)) (l : Ledger),
      l.processed name = [] → amountOf l.Earned a < 2 ^ 64 → amountOf l.Burned a < 2 ^ 64 →
      (∀ kn ∈ todo, kn.2.Previous = [] →
        f kn = 0 ∧ g kn = if kn.2.Author = a then kn.2.Cost else 0) →
      (∀ kn ∈ todo, kn.2.Previous ≠ [] → g kn = 0 ∧ kn.2.Author ≠ a ∧
        ∃ trail, Trail replies root kn.2.Previous trail root ∧
          f kn = remaining kn.2.Cost trail.length / 2) →
      (distribute name maps todo l).2 = Outcome.ok ∧
      amountOf (distribute name maps todo l).1.Earned a
        = (amountOf l.Earned a + (todo.map f).sum) % 2 ^ 64 ∧
      amountOf (distribute name maps todo l).1.Burned a
        = (amountOf l.Burned a + (todo.map g).sum) % 2 ^ 64 := by
  intro todo
  induction todo with
  | nil =>
    intro l _ hE hB _ _
    simp only [distribute, List.map_nil, List.sum_nil, Nat.add_zero]
    exact ⟨trivial, (Nat.mod_eq_of_lt hE).symm, (Nat.mod_eq_of_lt hB).symm⟩
  | cons kn rest ih =>
    intro l hproc hE hB hroots hreplies
    obtain ⟨key, node⟩ := kn
    have hroots1 : ∀ kn ∈ rest, kn.2.Previous = [] →
        f kn = 0 ∧ g kn = if kn.2.Author = a then kn.2.Cost else 0 :=
      fun kn hk => hroots kn (List.mem_cons_of_mem _ hk)
    have hreplies1 : ∀ kn ∈ rest, kn.2.Previous ≠ [] → g kn = 0 ∧ kn.2.Author ≠ a ∧
        ∃ trail, Trail replies root kn.2.Previous trail root ∧
          f kn = remaining kn.2.Cost trail.length / 2 :=
      fun kn hk => hreplies kn (List.mem_cons_of_mem _ hk)
    by_cases hp : node.Previous = []
    · obtain ⟨hf0, hg0⟩ := hroots (key, node) (List.mem_cons_self _ _) hp
      have hstep : distribute name maps ((key, node) :: rest) l
          = distribute name maps rest (l.RecordBurned node.Author node.Cost) := by
        simp only [distribute, hproc, List.not_mem_nil, if_false, if_pos hp]
      have hburn : amountOf (l.RecordBurned node.Author node.Cost).Burned a
          = if node.Author = a then (amountOf l.Burned node.Author + node.Cost) % 2 ^ 64
            else amountOf l.Burned a :=
        amountOf_Record l.Burned node.Author a node.Cost
      have hB1 : amountOf (l.RecordBurned node.Author node.Cost).Burned a < 2 ^ 64 := by
        rw [hburn]
        by_cases e : node.Author = a
        · rw [if_pos e]; exact Nat.mod_lt _ (Nat.two_pow_pos 64)
        · rw [if_neg e]; exact hB
      obtain ⟨h1, h2, h3⟩ := ih (l.RecordBurned node.Author node.Cost) hproc hE hB1 hroots1
        hreplies1
      rw [hstep]
      refine ⟨h1, ?_, ?_⟩
      · rw [h2]
        simp only [List.map_cons, List.sum_cons, hf0, Nat.zero_add]
        rfl
      · rw [h3, hburn]
        simp only [List.map_cons, List.sum_cons, hg0]
        by_cases e : node.Author = a
        · simp only [if_pos e]
          rw [e, Nat.mod_add_mod, Nat.add_assoc]
        · simp only [if_neg e, Nat.zero_add]
    · obtain ⟨hg0, hna, trail, ht, hfk⟩ := hreplies (key, node) (List.mem_cons_self _ _) hp
      have hlen := Trail_length_le root trail replies _ _ ht
      obtain ⟨r1, r2, r3⟩ := reply_root_share maps.nodes replies root a node.Author hna hroot
        hreply trail (maps.nodes.length + 1) node.Cost node.Previous l ht (by omega)
      have hstep : distribute name maps ((key, node) :: rest) l
          = distribute name maps rest
              (reply maps.nodes node.Author (maps.nodes.length + 1) node.Cost
                node.Previous l).1 := by
        simp only [distribute, hproc, List.not_mem_nil, if_false, if_neg hp]
        rcases hc : reply maps.nodes node.Author (maps.nodes.length + 1) node.Cost
          node.Previous l with ⟨l1, out⟩
        rw [hc] at r1
        simp only at r1
        subst r1
        rfl
      have hproc1 : (reply maps.nodes node.Author (maps.nodes.length + 1) node.Cost
          node.Previous l).1.processed name = [] := by
        rw [processed_congr l _ name (reply_Processed _ _ _ _ _ l)]
        exact hproc
      obtain ⟨h1, h2, h3⟩ := ih _ hproc1
        (by rw [r2]; exact Nat.mod_lt _ (Nat.two_pow_pos 64)) (by rw [r3]; exact hB) hroots1
        hreplies1
      rw [hstep]
      refine ⟨h1, ?_, ?_⟩
      · rw [h2, r2]
        simp only [List.map_cons, List.sum_cons, hfk]
        rw [Nat.mod_add_mod, Nat.add_assoc]
      · rw [h3, r3]
        simp only [List.map_cons, List.sum_cons, hg0, Nat.zero_add]

end Ledger

/-- The outer loop of `GetYield` adds up the share of the root for every
reply whose way up ends at the root message. -/
theorem BCStore.yieldLoop_sum (replies : List (Hash × ReplyNode)) (root : Hash)
    (share : Hash × ReplyNode → Nat) :
    ∀ (rest : List (Hash × ReplyNode)) (messageReward : Nat),
      (∀ reply ∈ rest, ∃ trail, Trail replies root reply.2.Previous trail root ∧
        share reply = remaining reply.2.Cost trail.length / 2) →
      messageReward < 2 ^ 64 →
      BCStore.yieldLoop replies root rest messageReward
        = some ((messageReward + (rest.map share).sum) % 2 ^ 64) := by
  intro rest
  induction rest with
  | nil =>
    intro r _ hr
    simp only [BCStore.yieldLoop, List.map_nil, List.sum_nil, Nat.add_zero,
      Nat.mod_eq_of_lt hr]
  | cons reply rest ih =>
    intro r hends _
    obtain ⟨trail, ht, hs⟩ := hends reply (List.mem_cons_self _ _)
    have hlen := Trail_length_le root trail replies _ _ ht
    have hshare := BCStore.rootShare_eq replies root trail (replies.length + 2) reply.2
      reply.2.Cost root ht (by omega)
    obtain ⟨key, node⟩ := reply
    simp only [BCStore.yieldLoop]
    simp only [if_true] at hshare
    rw [hshare]
    simp only [List.map_cons, List.sum_cons, hs]
    rw [ih _ (fun r hr => hends r (List.mem_cons_of_mem _ hr))
      (Nat.mod_lt _ (Nat.two_pow_pos 64)), Nat.mod_add_mod, Nat.add_assoc]

end conveygo

/-! ## `GetYield` and the ledger agree on the author of the root message -/

namespace conveygo

theorem mem_replyNodes (kr : Hash × ReplyNode) :
    ∀ (entries : List bcgo.BlockEntry), kr ∈ replyNodes entries ↔
      ∃ e ∈ entries, ∃ m, e.Record.Payload.asMessage = some m ∧ m.Previous ≠ [] ∧
        kr = (e.RecordHash, { Previous := m.Previous, Cost := Cost e.Record, Reward := 0 }) := by
  intro entries
  induction entries with
  | nil => simp [replyNodes]
  | cons entry rest ih =>
    unfold replyNodes
    cases h : entry.Record.Payload.asMessage with
    | none =>
      simp only [ih, List.mem_cons, exists_eq_or_imp, h]
      simp
    | some m =>
      by_cases hp : m.Previous = []
      · simp only [if_pos hp, ih, List.mem_cons, exists_eq_or_imp, h, Option.some.injEq]
        constructor
        · intro hx; exact Or.inr hx
        · rintro (⟨m1, e1, h1, _⟩ | hx)
          · rw [← e1] at h1; exact absurd hp h1
          · exact hx
      · simp only [if_neg hp, ih, List.mem_cons, exists_eq_or_imp, h, Option.some.injEq]
        constructor
        · rintro (hx | hx)
          · exact Or.inl ⟨m, rfl, hp, hx⟩
          · exact Or.inr hx
        · rintro (⟨m1, e1, _, hx⟩ | hx)
          · rw [← e1] at hx; exact Or.inl hx
          · exact Or.inr hx

theorem mem_rootMessages (e : bcgo.BlockEntry) :
    ∀ (entries : List bcgo.BlockEntry), e ∈ rootMessages entries ↔
      e ∈ entries ∧ ∃ m, e.Record.Payload.asMessage = some m ∧ m.Previous = [] := by
  intro entries
  induction entries with
  | nil => simp [rootMessages]
  | cons entry rest ih =>
    unfold rootMessages
    cases h : entry.Record.Payload.asMessage with
    | none =>
      simp only [ih, List.mem_cons]
      constructor
      · rintro ⟨h1, h2⟩; exact ⟨Or.inr h1, h2⟩
      · rintro ⟨h1 | h1, m, h2, h3⟩
        · rw [h1, h] at h2; exact absurd h2 (by simp)
        · exact ⟨h1, m, h2, h3⟩
    | some m =>
      by_cases hp : m.Previous = []
      · simp only [if_pos hp, ih, List.mem_cons]
        constructor
        · rintro (h1 | ⟨h1, h2⟩)
          · exact ⟨Or.inl h1, m, by rw [h1]; exact h, hp⟩
          · exact ⟨Or.inr h1, h2⟩
        · rintro ⟨h1 | h1, h2⟩
          · exact Or.inl h1
          · exact Or.inr ⟨h1, h2⟩
      · simp only [if_neg hp, ih, List.mem_cons]
        constructor
        · rintro ⟨h1, h2⟩; exact ⟨Or.inr h1, h2⟩
        · rintro ⟨h1 | h1, m1, h2, h3⟩
          · rw [h1, h] at h2
            simp only [Option.some.injEq] at h2
            rw [← h2] at h3; exact absurd h3 hp
          · exact ⟨h1, m1, h2, h3⟩

theorem replyNodes_keys_sublist :
    ∀ (entries : List bcgo.BlockEntry),
      ((replyNodes entries).map Prod.fst).Sublist (entries.map fun e => e.RecordHash) := by
  intro entries
  induction entries with
  | nil => exact List.Sublist.slnil
  | cons entry rest ih =>
    unfold replyNodes
    cases entry.Record.Payload.asMessage with
    | none => exact List.Sublist.cons _ ih
    | some m =>
      by_cases hp : m.Previous = []
      · simp only [if_pos hp]; exact List.Sublist.cons _ ih
      · simp only [if_neg hp, List.map_cons]; exact List.Sublist.cons₂ _ ih

theorem replyNodes_length_le (entries : List bcgo.BlockEntry) :
    (replyNodes entries).length ≤ entries.length := by
  have h := (replyNodes_keys_sublist entries).length_le
  simpa using h

/-- The shares of the root over the nodes of the ledger add up to the shares
over the replies `GetYield` notes. -/
theorem sum_over_replies (share : Hash × ReplyNode → Nat) :
    ∀ (entries : List bcgo.BlockEntry),
      (∀ entry ∈ entries, entry.Record.Payload.asMessage ≠ none) →
      ((entries.map fun e => (e.RecordHash, messageNode e)).map fun kn =>
          if kn.2.Previous = [] then 0
          else share (kn.1, { Previous := kn.2.Previous, Cost := kn.2.Cost, Reward := 0 })).sum
        = ((replyNodes entries).map share).sum := by
  intro entries
  induction entries with
  | nil => intro _; rfl
  | cons entry rest ih =>
    intro hparse
    have hrest := ih fun e he => hparse e (List.mem_cons_of_mem _ he)
    have hentry := hparse entry (List.mem_cons_self _ _)
    cases h : entry.Record.Payload.asMessage with
    | none => exact absurd h hentry
    | some m =>
      have hprev : (messageNode entry).Previous = m.Previous := by
        rw [messageNode_Previous, messageOf_of_parse entry m h]
      simp only [List.map_cons, List.sum_cons, replyNodes, h, hprev]
      by_cases hp : m.Previous = []
      · simp only [if_pos hp, Nat.zero_add]; exact hrest
      · simp only [if_neg hp, List.map_cons, List.sum_cons]
        rw [hrest]
        rfl

/-- The costs of the root messages of one author over the nodes of the ledger
add up to the costs over the root messages of the chain. -/
theorem sum_over_roots (a : String) :
    ∀ (entries : List bcgo.BlockEntry),
      (∀ entry ∈ entries, entry.Record.Payload.asMessage ≠ none) →
      ((entries.map fun e => (e.RecordHash, messageNode e)).map fun kn =>
          if kn.2.Previous = [] then (if kn.2.Author = a then kn.2.Cost else 0) else 0).sum
        = ((rootMessages entries).map fun e =>
            if e.Record.Creator = a then Cost e.Record else 0).sum := by
  intro entries
  induction entries with
  | nil => intro _; rfl
  | cons entry rest ih =>
    intro hparse
    have hrest := ih fun e he => hparse e (List.mem_cons_of_mem _ he)
    have hentry := hparse entry (List.mem_cons_self _ _)
    cases h : entry.Record.Payload.asMessage with
    | none => exact absurd h hentry
    | some m =>
      have hprev : (messageNode entry).Previous = m.Previous := by
        rw [messageNode_Previous, messageOf_of_parse entry m h]
      simp only [List.map_cons, List.sum_cons, rootMessages, h, hprev]
      by_cases hp : m.Previous = []
      · simp only [if_pos hp, List.map_cons, List.sum_cons]
        rw [hrest]
        rfl
      · simp only [if_neg hp, Nat.zero_add]; exact hrest

/-- The share `GetYield` adds for a reply whose way up ends at the root. -/
theorem BCStore.shareOf_eq (replies : List (Hash × ReplyNode)) (root : Hash)
    (reply : Hash × ReplyNode) (trail : List ReplyNode)
    (ht : Trail replies root reply.2.Previous trail root) :
    BCStore.shareOf replies root reply = remaining reply.2.Cost trail.length / 2 := by
  have hlen := Trail_length_le root trail replies _ _ ht
  have hshare := BCStore.rootShare_eq replies root trail (replies.length + 2) reply.2
    reply.2.Cost root ht (by omega)
  unfold BCStore.shareOf
  rw [hshare]
  simp only [if_true, Option.getD_some]

/-- What `GetYield` returns on a chain with one root message whose replies
all have a way up to it: the cost of the root and the sum, in `uint64`, of
the shares. -/
theorem BCStore.GetYield_sum (s : BCStore) (conversationHash : Hash) (chain : bcgo.Chain)
    (root : bcgo.BlockEntry)
    (hchannel : mapGet s.Channels (CONVEY_PREFIX_MESSAGE ++ EncodeToString conversationHash)
      = some chain)
    (hparse : ∀ entry ∈ entriesOf chain, entry.Record.Payload.asMessage ≠ none)
    (hdistinct : ((entriesOf chain).map fun e => e.RecordHash).Nodup)
    (hroot : rootMessages (entriesOf chain) = [root])
    (hends : ∀ reply ∈ replyNodes (entriesOf chain), ∃ trail,
      Trail (replyNodes (entriesOf chain)) root.RecordHash reply.2.Previous trail
        root.RecordHash) :
    s.GetYield conversationHash
      = ((Cost root.Record,
          ((replyNodes (entriesOf chain)).map
            (BCStore.shareOf (replyNodes (entriesOf chain)) root.RecordHash)).sum % 2 ^ 64),
         Outcome.ok) := by
  have hnodup : ((replyNodes (entriesOf chain)).map Prod.fst).Nodup :=
    (replyNodes_keys_sublist (entriesOf chain)).nodup hdistinct
  have hfold : (replyNodes (entriesOf chain)).foldl (fun m kn => mapSet m kn.1 kn.2) []
      = replyNodes (entriesOf chain) := by
    have := foldl_mapSet_nodup (replyNodes (entriesOf chain)) [] (by simpa using hnodup)
    simpa using this
  have hloop := BCStore.yieldLoop_sum (replyNodes (entriesOf chain)) root.RecordHash
    (BCStore.shareOf (replyNodes (entriesOf chain)) root.RecordHash)
    (replyNodes (entriesOf chain)) 0
    (fun reply hr => by
      obtain ⟨trail, ht⟩ := hends reply hr
      exact ⟨trail, ht, BCStore.shareOf_eq _ _ reply trail ht⟩)
    (Nat.two_pow_pos 64)
  simp only [BCStore.GetYield, BCStore.GetMessage_of_channel s conversationHash none _ _ chain
    hchannel, BCStore.Iterate_yield chain _ hparse, hfold, hroot, List.foldl_cons,
    List.foldl_nil]
  rw [hloop]
  simp only [Nat.zero_add]

end conveygo

/-! ## The ledger's account of the author of the root message -/

namespace conveygo

/-- On a chain with one root message whose author wrote nothing else, the
entries of replies are signed by other aliases. -/
theorem reply_author_ne (entries : List bcgo.BlockEntry) (root e : bcgo.BlockEntry)
    (m : Message) (hroot : rootMessages entries = [root])
    (hothers : ∀ e ∈ entries, e.Record.Creator = root.Record.Creator → e = root)
    (he : e ∈ entries) (hm : e.Record.Payload.asMessage = some m) (hp : m.Previous ≠ []) :
    e.Record.Creator ≠ root.Record.Creator := by
  intro hc
  have hr : root ∈ rootMessages entries := by rw [hroot]; exact List.mem_singleton_self _
  obtain ⟨_, m1, h1, h2⟩ := (mem_rootMessages root entries).mp hr
  rw [← hothers e he hc, hm] at h1
  simp only [Option.some.injEq] at h1
  rw [← h1] at h2
  exact hp h2

/-- What `Update` of a message chain with one root message leaves for the
author of the root on a fresh ledger, when every reply has a way up to the
root and the author wrote no other message: the cost of the root burned and
the sum, in `uint64`, of the shares earned. -/
theorem Ledger.Update_root_author (name : String) (chain : bcgo.Chain) (root : bcgo.BlockEntry)
    (hname : HasPrefix name CONVEY_PREFIX_MESSAGE = true)
    (hparse : ∀ entry ∈ entriesOf chain, entry.Record.Payload.asMessage ≠ none)
    (hdistinct : ((entriesOf chain).map fun e => e.RecordHash).Nodup)
    (hroot : rootMessages (entriesOf chain) = [root])
    (hends : ∀ reply ∈ replyNodes (entriesOf chain), ∃ trail,
      Trail (replyNodes (entriesOf chain)) root.RecordHash reply.2.Previous trail
        root.RecordHash)
    (hothers : ∀ e ∈ entriesOf chain, e.Record.Creator = root.Record.Creator → e = root) :
    (NewLedger.Update name chain).2 = Outcome.ok ∧
    amountOf (NewLedger.Update name chain).1.Burned root.Record.Creator = Cost root.Record ∧
    amountOf (NewLedger.Update name chain).1.Earned root.Record.Creator
      = ((replyNodes (entriesOf chain)).map
          (BCStore.shareOf (replyNodes (entriesOf chain)) root.RecordHash)).sum % 2 ^ 64 := by
  have hne : chain ≠ [] := by
    intro e
    rw [e] at hroot
    exact absurd hroot (by simp [entriesOf, rootMessages])
  obtain ⟨hnodes, hnone⟩ := messageMaps_nodes chain hparse hdistinct
  have hwalk : bcgo.Iterate Ledger.messageCallback chain { blocks := [], nodes := [] }
      = (messageMaps chain, none) := Prod.ext rfl hnone
  have hkeys : ((messageMaps chain).nodes.map Prod.fst).Nodup := by
    rw [hnodes]
    simpa [List.map_map, Function.comp_def] using hdistinct
  have hget : ∀ e ∈ entriesOf chain,
      mapGet (messageMaps chain).nodes e.RecordHash = some (messageNode e) := by
    intro e he
    apply mapGet_of_mem_nodup _ _ _ hkeys
    rw [hnodes]
    exact List.mem_map_of_mem (fun e => (e.RecordHash, messageNode e)) he
  have hrmem : root ∈ rootMessages (entriesOf chain) := by
    rw [hroot]; exact List.mem_singleton_self _
  obtain ⟨hrin, mr, hmr, hpr⟩ := (mem_rootMessages root (entriesOf chain)).mp hrmem
  have hrootnode : ∃ rn, mapGet (messageMaps chain).nodes root.RecordHash = some rn ∧
      rn.Previous = [] ∧ rn.Author = root.Record.Creator :=
    ⟨messageNode root, hget root hrin,
      by rw [messageNode_Previous, messageOf_of_parse root mr hmr]; exact hpr, rfl⟩
  have hreply : ∀ p r, mapGet (replyNodes (entriesOf chain)) p = some r → p ≠ root.RecordHash →
      ∃ n, mapGet (messageMaps chain).nodes p = some n ∧ n.Previous = r.Previous ∧
        n.Previous ≠ [] ∧ n.Author ≠ root.Record.Creator := by
    intro p r hpr _
    obtain ⟨e, he, m, hm, hp, hkr⟩ := (mem_replyNodes (p, r) (entriesOf chain)).mp
      (mem_of_mapGet _ p r hpr)
    simp only [Prod.mk.injEq] at hkr
    have hprev : (messageNode e).Previous = m.Previous := by
      rw [messageNode_Previous, messageOf_of_parse e m hm]
    refine ⟨messageNode e, by rw [hkr.1]; exact hget e he, by rw [hprev, hkr.2],
      by rw [hprev]; exact hp, reply_author_ne _ root e m hroot hothers he hm hp⟩
  have hsize : (replyNodes (entriesOf chain)).length ≤ (messageMaps chain).nodes.length := by
    rw [hnodes, List.length_map]
    exact replyNodes_length_le _
  have hfresh : (NewLedger.openProcessed name).processed name = [] := by
    rw [Ledger.processed_openProcessed]
    simp [Ledger.processed, NewLedger, mapGet]
  have hof := Ledger.openProcessed_fields NewLedger name
  have hE0 : amountOf (NewLedger.openProcessed name).Earned root.Record.Creator = 0 := by
    rw [hof.2.2.2.2.2.1]; rfl
  have hB0 : amountOf (NewLedger.openProcessed name).Burned root.Record.Creator = 0 := by
    rw [hof.2.2.1]; rfl
  obtain ⟨d1, d2, d3⟩ := Ledger.distribute_root_author name (messageMaps chain)
    (replyNodes (entriesOf chain)) root.RecordHash root.Record.Creator hrootnode hreply hsize
    (fun kn => if kn.2.Previous = [] then 0
      else BCStore.shareOf (replyNodes (entriesOf chain)) root.RecordHash
        (kn.1, { Previous := kn.2.Previous, Cost := kn.2.Cost, Reward := 0 }))
    (fun kn => if kn.2.Previous = [] then
        (if kn.2.Author = root.Record.Creator then kn.2.Cost else 0) else 0)
    (messageMaps chain).nodes (NewLedger.openProcessed name) hfresh
    (by rw [hE0]; exact Nat.two_pow_pos 64) (by rw [hB0]; exact Nat.two_pow_pos 64)
    (fun kn _ hp => by simp only [if_pos hp, and_self])
    (fun kn hk hp => by
      rw [hnodes] at hk
      obtain ⟨e, he, hkn⟩ := List.mem_map.mp hk
      obtain ⟨m, hm⟩ := Option.ne_none_iff_exists'.mp (hparse e he)
      have hprev : (messageNode e).Previous = m.Previous := by
        rw [messageNode_Previous, messageOf_of_parse e m hm]
      subst hkn
      simp only at hp ⊢
      rw [hprev] at hp
      have hmem := (mem_replyNodes
        (e.RecordHash, { Previous := m.Previous, Cost := Cost e.Record, Reward := 0 })
        (entriesOf chain)).mpr ⟨e, he, m, hm, hp, rfl⟩
      obtain ⟨trail, ht⟩ := hends _ hmem
      refine ⟨by rw [if_neg (by rw [hprev]; exact hp)],
        reply_author_ne _ root e m hroot hothers he hm hp, trail, by rw [hprev]; exact ht, ?_⟩
      rw [if_neg (by rw [hprev]; exact hp), hprev]
      exact BCStore.shareOf_eq _ _ _ trail ht)
  rw [Ledger.Update_message NewLedger name chain hne hname]
  unfold Ledger.updateMessages
  simp only [hwalk]
  rcases hc : Ledger.distribute name (messageMaps chain) (messageMaps chain).nodes
    (NewLedger.openProcessed name) with ⟨l1, out⟩
  rw [hc] at d1 d2 d3
  simp only at d1 d2 d3
  subst d1
  have hmf := Ledger.markBlocks_fields name (messageMaps chain).blocks l1
  refine ⟨rfl, ?_, ?_⟩
  · show amountOf (Ledger.markBlocks name (messageMaps chain).blocks l1).Burned _ = _
    rw [hmf.2.2.1, d3, hB0, Nat.zero_add, hnodes, sum_over_roots _ _ hparse, hroot]
    simp only [List.map_cons, List.map_nil, List.sum_cons, List.sum_nil, if_true, Nat.add_zero]
    exact Nat.mod_eq_of_lt (Cost_lt _)
  · show amountOf (Ledger.markBlocks name (messageMaps chain).blocks l1).Earned _ = _
    rw [hmf.2.2.2.2.2.1, d2, hE0, Nat.zero_add, hnodes, sum_over_replies _ _ hparse]

end conveygo

/-! ## Two ledgers that take the same steps -/

namespace conveygo

theorem joins_comm (m b d : List (String × Nat)) (h : joins m b d) : joins m d b := by
  intro x
  obtain ⟨h1, h2⟩ := h x
  exact ⟨by rw [h1]; exact Or.comm, by rw [h2, Nat.add_comm]⟩

theorem joins_nil (m : List (String × Nat)) : joins m m [] := by
  intro x
  simp [mapGet, amountOf]

theorem joins_Record (m b d : List (String × Nat)) (k : String) (v : Nat) (h : joins m b d) :
    joins (Record m k v) b (Record d k v) := by
  intro x
  obtain ⟨h1, h2⟩ := h x
  refine ⟨?_, ?_⟩
  · rw [isSome_Record, isSome_Record, h1]
    tauto
  · rw [amountOf_Record, amountOf_Record]
    by_cases e : k = x
    · subst e
      simp only [if_true]
      omega
    · simp only [if_neg e]
      exact h2

theorem aliases_setAdd (l b d : List String) (a : String)
    (h : ∀ x, x ∈ l ↔ x ∈ b ∨ x ∈ d) : ∀ x, x ∈ setAdd l a ↔ x ∈ b ∨ x ∈ setAdd d a := by
  intro x
  rw [mem_setAdd, mem_setAdd, h x]
  tauto

namespace Ledger

theorem Joins_comm (l b d : Ledger) (h : l.Joins b d) : l.Joins d b := by
  obtain ⟨hA, h1, h2, h3, h4, h5, h6⟩ := h
  exact ⟨fun x => by rw [hA x]; exact Or.comm, joins_comm _ _ _ h1, joins_comm _ _ _ h2,
    joins_comm _ _ _ h3, joins_comm _ _ _ h4, joins_comm _ _ _ h5, joins_comm _ _ _ h6⟩

/-- A ledger joins itself and a ledger that holds nothing. -/
theorem Joins_empty (l d : Ledger) (hA : d.Aliases = []) (h1 : d.Minted = [])
    (h2 : d.Burned = []) (h3 : d.Bought = []) (h4 : d.Sold = []) (h5 : d.Earned = [])
    (h6 : d.Spent = []) : l.Joins l d := by
  unfold Joins
  rw [hA, h1, h2, h3, h4, h5, h6]
  exact ⟨fun x => by simp, joins_nil _, joins_nil _, joins_nil _, joins_nil _, joins_nil _,
    joins_nil _⟩

/-- Joining looks at the aliases and the accumulators only. -/
theorem Joins_fields (l b d l' b' d' : Ledger) (h : l.Joins b d)
    (hl : l'.Aliases = l.Aliases ∧ l'.Minted = l.Minted ∧ l'.Burned = l.Burned ∧
      l'.Bought = l.Bought ∧ l'.Sold = l.Sold ∧ l'.Earned = l.Earned ∧ l'.Spent = l.Spent)
    (hb : b'.Aliases = b.Aliases ∧ b'.Minted = b.Minted ∧ b'.Burned = b.Burned ∧
      b'.Bought = b.Bought ∧ b'.Sold = b.Sold ∧ b'.Earned = b.Earned ∧ b'.Spent = b.Spent)
    (hd : d'.Aliases = d.Aliases ∧ d'.Minted = d.Minted ∧ d'.Burned = d.Burned ∧
      d'.Bought = d.Bought ∧ d'.Sold = d.Sold ∧ d'.Earned = d.Earned ∧ d'.Spent = d.Spent) :
    l'.Joins b' d' := by
  obtain ⟨l0, l1, l2, l3, l4, l5, l6⟩ := hl
  obtain ⟨b0, b1, b2, b3, b4, b5, b6⟩ := hb
  obtain ⟨d0, d1, d2, d3, d4, d5, d6⟩ := hd
  unfold Joins
  rw [l0, l1, l2, l3, l4, l5, l6, b0, b1, b2, b3, b4, b5, b6, d0, d1, d2, d3, d4, d5, d6]
  exact h

theorem Joins_mark (l b d : Ledger) (name other : String) (key key' : Hash)
    (h : l.Joins b d) : (l.markProcessed name key).Joins b (d.markProcessed other key') := h

theorem Joins_minted (l b d : Ledger) (a : String) (x : Nat) (h : l.Joins b d) :
    (l.RecordMinted a x).Joins b (d.RecordMinted a x) := by
  obtain ⟨hA, h1, h2, h3, h4, h5, h6⟩ := h
  exact ⟨aliases_setAdd _ _ _ a hA, joins_Record _ _ _ a x h1, h2, h3, h4, h5, h6⟩

theorem Joins_burned (l b d : Ledger) (a : String) (x : Nat) (h : l.Joins b d) :
    (l.RecordBurned a x).Joins b (d.RecordBurned a x) := by
  obtain ⟨hA, h1, h2, h3, h4, h5, h6⟩ := h
  exact ⟨aliases_setAdd _ _ _ a hA, h1, joins_Record _ _ _ a x h2, h3, h4, h5, h6⟩

theorem Joins_bought (l b d : Ledger) (a : String) (x : Nat) (h : l.Joins b d) :
    (l.RecordBought a x).Joins b (d.RecordBought a x) := by
  obtain ⟨hA, h1, h2, h3, h4, h5, h6⟩ := h
  exact ⟨aliases_setAdd _ _ _ a hA, h1, h2, joins_Record _ _ _ a x h3, h4, h5, h6⟩

theorem Joins_sold (l b d : Ledger) (a : String) (x : Nat) (h : l.Joins b d) :
    (l.RecordSold a x).Joins b (d.RecordSold a x) := by
  obtain ⟨hA, h1, h2, h3, h4, h5, h6⟩ := h
  exact ⟨aliases_setAdd _ _ _ a hA, h1, h2, h3, joins_Record _ _ _ a x h4, h5, h6⟩

theorem Joins_earned (l b d : Ledger) (a : String) (x : Nat) (h : l.Joins b d) :
    (l.RecordEarned a x).Joins b (d.RecordEarned a x) := by
  obtain ⟨hA, h1, h2, h3, h4, h5, h6⟩ := h
  exact ⟨aliases_setAdd _ _ _ a hA, h1, h2, h3, h4, joins_Record _ _ _ a x h5, h6⟩

theorem Joins_spent (l b d : Ledger) (a : String) (x : Nat) (h : l.Joins b d) :
    (l.RecordSpent a x).Joins b (d.RecordSpent a x) := by
  obtain ⟨hA, h1, h2, h3, h4, h5, h6⟩ := h
  exact ⟨aliases_setAdd _ _ _ a hA, h1, h2, h3, h4, h5, joins_Record _ _ _ a x h6⟩

/-- The entry loop of the transaction chain on two ledgers: it records the
same transfers in both and ends the same way. -/
theorem transactionEntries_joins (b : Ledger) :
    ∀ (entries : List bcgo.BlockEntry) (l d : Ledger), l.Joins b d →
      (transactionEntries entries l).1.Joins b (transactionEntries entries d).1 ∧
      (transactionEntries entries l).2 = (transactionEntries entries d).2 := by
  intro entries
  induction entries with
  | nil => intro l d h; exact ⟨h, rfl⟩
  | cons entry rest ih =>
    intro l d h
    unfold transactionEntries
    cases entry.Record.Payload.asTransaction with
    | none => exact ⟨h, rfl⟩
    | some t =>
      exact ih _ _ (Joins_bought _ _ _ _ _ (Joins_sold _ _ _ _ _ h))

/-- The entry loop of the conversation chain on two ledgers. -/
theorem conversationEntries_joins (b : Ledger) :
    ∀ (entries : List bcgo.BlockEntry) (l d : Ledger), l.Joins b d →
      (conversationEntries entries l).Joins b (conversationEntries entries d) := by
  intro entries
  induction entries with
  | nil => intro l d h; exact h
  | cons entry rest ih =>
    intro l d h
    unfold conversationEntries
    exact ih _ _ (Joins_burned _ _ _ _ _ h)

/-- The walk of a reply on two ledgers: the same rounds in both, and the same
end. -/
theorem reply_joins (nodes : List (Hash × MessageNode)) (author : String) (b : Ledger) :
    ∀ (fuel cost : Nat) (prev : Hash) (l d : Ledger), l.Joins b d →
      (reply nodes author fuel cost prev l).1.Joins b (reply nodes author fuel cost prev d).1 ∧
      (reply nodes author fuel cost prev l).2 = (reply nodes author fuel cost prev d).2 := by
  intro fuel
  induction fuel with
  | zero => intro cost prev l d h; exact ⟨h, rfl⟩
  | succ fuel ih =>
    intro cost prev l d h
    unfold reply
    cases mapGet nodes prev with
    | none => exact ⟨h, rfl⟩
    | some previous =>
      have h1 := Joins_earned _ _ _ previous.Author (cost / 2)
        (Joins_spent _ _ _ author (cost / 2) h)
      by_cases hp : previous.Previous = []
      · simp only [if_pos hp]
        exact ⟨Joins_burned _ _ _ _ _ h1, trivial⟩
      · simp only [if_neg hp]
        exact ih _ _ _ _ h1

end Ledger

end conveygo

/-! ## `iterate` on a chain that has grown -/

namespace bcgo

theorem Iterate_append {σ : Type} (callback : σ → Hash → Block → σ × Option Error) :
    ∀ (xs ys : Chain) (s : σ),
      ((Iterate callback xs s).2 = none →
        Iterate callback (xs ++ ys) s = Iterate callback ys (Iterate callback xs s).1) ∧
      ((Iterate callback xs s).2 ≠ none →
        Iterate callback (xs ++ ys) s = Iterate callback xs s) := by
  intro xs
  induction xs with
  | nil =>
    intro ys s
    exact ⟨fun _ => rfl, fun h => absurd rfl h⟩
  | cons hb rest ih =>
    intro ys s
    obtain ⟨h, b⟩ := hb
    simp only [List.cons_append, Iterate]
    rcases callback s h b with ⟨s1, _ | err⟩
    · exact ih ys s1
    · exact ⟨fun h => by simp at h, fun _ => rfl⟩

end bcgo

namespace conveygo

namespace Ledger

/-- The walk of `iterate` on two ledgers that have processed the same blocks
of the chain: the same steps in both, and the same end. -/
theorem Iterate_joins (name : String)
    (cb : Ledger → bcgo.Block → Ledger × Option bcgo.Error) (b : Ledger)
    (hproc : ∀ l blk, (cb l blk).1.Processed = l.Processed)
    (hcb : ∀ l d blk, l.Joins b d →
      (cb l blk).1.Joins b (cb d blk).1 ∧ (cb l blk).2 = (cb d blk).2) :
    ∀ (chain : bcgo.Chain) (l d : Ledger), l.Joins b d →
      (∀ hb ∈ chain, hb.1 ∈ l.processed name ↔ hb.1 ∈ d.processed name) →
      (bcgo.Iterate (iterateCallback name cb) chain l).1.Joins b
          (bcgo.Iterate (iterateCallback name cb) chain d).1 ∧
      (bcgo.Iterate (iterateCallback name cb) chain l).2
        = (bcgo.Iterate (iterateCallback name cb) chain d).2 := by
  intro chain
  induction chain with
  | nil => intro l d h _; exact ⟨h, rfl⟩
  | cons hb rest ih =>
    intro l d h hagree
    obtain ⟨k, blk⟩ := hb
    have hk := hagree (k, blk) (List.mem_cons_self _ _)
    simp only at hk
    by_cases hp : k ∈ l.processed name
    · have hp' := hk.mp hp
      simp only [bcgo.Iterate, iterateCallback, if_pos hp, if_pos hp']
      exact ⟨h, trivial⟩
    · have hp' : k ∉ d.processed name := fun e => hp (hk.mpr e)
      have hl : iterateCallback name cb l k blk = cb (l.markProcessed name k) blk := by
        simp only [iterateCallback, if_neg hp]
      have hd : iterateCallback name cb d k blk = cb (d.markProcessed name k) blk := by
        simp only [iterateCallback, if_neg hp']
      obtain ⟨j1, j2⟩ := hcb (l.markProcessed name k) (d.markProcessed name k) blk
        (Joins_mark l b d name name k k h)
      have pl := processed_congr _ _ name (hproc (l.markProcessed name k) blk)
      have pd := processed_congr _ _ name (hproc (d.markProcessed name k) blk)
      rw [processed_markProcessed] at pl pd
      unfold bcgo.Iterate
      rw [hl, hd]
      rcases hcl : cb (l.markProcessed name k) blk with ⟨l1, e1⟩
      rcases hcd : cb (d.markProcessed name k) blk with ⟨d1, e2⟩
      rw [hcl, hcd] at j1 j2
      rw [hcl] at pl
      rw [hcd] at pd
      simp only at j1 j2 pl pd
      subst j2
      cases e1 with
      | some err => exact ⟨j1, rfl⟩
      | none =>
        apply ih l1 d1 j1
        intro hb hm
        rw [pl, pd, mem_setAdd, mem_setAdd, hagree hb (List.mem_cons_of_mem _ hm)]

/-- A block `iterate` has marked is one that was marked before or a block of
the chain. -/
theorem Iterate_processed_subset (name : String)
    (cb : Ledger → bcgo.Block → Ledger × Option bcgo.Error)
    (hproc : ∀ l blk, (cb l blk).1.Processed = l.Processed) :
    ∀ (chain : bcgo.Chain) (s : Ledger) (x : Hash),
      x ∈ (bcgo.Iterate (iterateCallback name cb) chain s).1.processed name →
      x ∈ s.processed name ∨ x ∈ chain.map Prod.fst := by
  intro chain
  induction chain with
  | nil => intro s x h; exact Or.inl h
  | cons hb rest ih =>
    intro s x h
    obtain ⟨k, blk⟩ := hb
    by_cases hp : k ∈ s.processed name
    · simp only [bcgo.Iterate, iterateCallback, if_pos hp] at h
      exact Or.inl h
    · have hs : iterateCallback name cb s k blk = cb (s.markProcessed name k) blk := by
        simp only [iterateCallback, if_neg hp]
      have ps := processed_congr _ _ name (hproc (s.markProcessed name k) blk)
      rw [processed_markProcessed] at ps
      unfold bcgo.Iterate at h
      rw [hs] at h
      rcases hc : cb (s.markProcessed name k) blk with ⟨s1, e⟩
      rw [hc] at h ps
      simp only at ps
      have hstep : ∀ y, y ∈ s1.processed name → y ∈ s.processed name ∨ y = k := by
        intro y hy
        rw [ps, mem_setAdd] at hy
        exact hy
      cases e with
      | some err =>
        simp only at h
        rcases hstep x h with h1 | h1
        · exact Or.inl h1
        · exact Or.inr (by rw [h1]; exact List.mem_cons_self _ _)
      | none =>
        simp only at h
        rcases ih s1 x h with h1 | h1
        · rcases hstep x h1 with h2 | h2
          · exact Or.inl h2
          · exact Or.inr (by rw [h2]; exact List.mem_cons_self _ _)
        · exact Or.inr (List.mem_cons_of_mem _ h1)

/-- On blocks with different hashes, none of them processed, `iterate` does
not meet the stop signal. -/
theorem Iterate_no_stop (name : String)
    (cb : Ledger → bcgo.Block → Ledger × Option bcgo.Error)
    (hproc : ∀ l blk, (cb l blk).1.Processed = l.Processed)
    (hstop : ∀ l blk, (cb l blk).2 ≠ some bcgo.Error.StopIteration) :
    ∀ (chain : bcgo.Chain) (s : Ledger), (chain.map Prod.fst).Nodup →
      (∀ hb ∈ chain, hb.1 ∉ s.processed name) →
      (bcgo.Iterate (iterateCallback name cb) chain s).2 ≠ some bcgo.Error.StopIteration := by
  intro chain
  induction chain with
  | nil => intro s _ _; simp [bcgo.Iterate]
  | cons hb rest ih =>
    intro s hnodup hnew
    obtain ⟨k, blk⟩ := hb
    simp only [List.map_cons, List.nodup_cons] at hnodup
    have hp : k ∉ s.processed name := hnew (k, blk) (List.mem_cons_self _ _)
    have hs : iterateCallback name cb s k blk = cb (s.markProcessed name k) blk := by
      simp only [iterateCallback, if_neg hp]
    have ps := processed_congr _ _ name (hproc (s.markProcessed name k) blk)
    rw [processed_markProcessed] at ps
    have hst := hstop (s.markProcessed name k) blk
    unfold bcgo.Iterate
    rw [hs]
    rcases hc : cb (s.markProcessed name k) blk with ⟨s1, e⟩
    rw [hc] at ps hst
    simp only at ps hst
    cases e with
    | some err => exact hst
    | none =>
      apply ih s1 hnodup.2
      intro hb hm hin
      rw [ps, mem_setAdd] at hin
      rcases hin with h1 | h1
      · exact hnew hb (List.mem_cons_of_mem _ hm) h1
      · exact hnodup.1 (by rw [← h1]; exact List.mem_map_of_mem Prod.fst hm)

theorem iterate_ok (l : Ledger) (name : String) (chain : bcgo.Chain)
    (cb : Ledger → bcgo.Block → Ledger × Option bcgo.Error) :
    (l.iterate name chain cb).2 = Outcome.ok ↔
      (bcgo.Iterate (iterateCallback name cb) chain (l.openProcessed name)).2 = none ∨
      (bcgo.Iterate (iterateCallback name cb) chain (l.openProcessed name)).2
        = some bcgo.Error.StopIteration := by
  unfold iterate
  rcases bcgo.Iterate (iterateCallback name cb) chain (l.openProcessed name) with ⟨l1, _ | err⟩
  · simp
  · cases err <;> simp

/-- A ledger that ran `iterate` on a chain and then on the chain grown by newer
blocks, and a fresh ledger that runs it on the grown chain only: the second
ends well too, and both join what the older blocks and what the newer blocks
give a fresh ledger. -/
theorem iterate_twice (name : String)
    (cb : Ledger → bcgo.Block → Ledger × Option bcgo.Error)
    (hproc : ∀ l blk, (cb l blk).1.Processed = l.Processed)
    (hcb : ∀ b l d blk, l.Joins b d →
      (cb l blk).1.Joins b (cb d blk).1 ∧ (cb l blk).2 = (cb d blk).2)
    (hstop : ∀ l blk, (cb l blk).2 ≠ some bcgo.Error.StopIteration)
    (older newer : bcgo.Chain) (hne : older ≠ [])
    (hblocks : ((newer ++ older).map Prod.fst).Nodup)
    (hfirst : (NewLedger.iterate name older cb).2 = Outcome.ok)
    (hsecond : ((NewLedger.iterate name older cb).1.iterate name (newer ++ older) cb).2
      = Outcome.ok) :
    (NewLedger.iterate name (newer ++ older) cb).2 = Outcome.ok ∧
    ∃ x : Ledger,
      ((NewLedger.iterate name older cb).1.iterate name (newer ++ older) cb).1.Joins
        (NewLedger.iterate name older cb).1 x ∧
      (NewLedger.iterate name (newer ++ older) cb).1.Joins x
        (NewLedger.iterate name older cb).1 := by
  obtain ⟨hb0, rest0, holder⟩ := List.exists_cons_of_ne_nil hne
  obtain ⟨h0, b0⟩ := hb0
  rw [List.map_append, List.nodup_append] at hblocks
  obtain ⟨hnewer, _, hdisj⟩ := hblocks
  have hf := openProcessed_fields NewLedger name
  have hfp : (NewLedger.openProcessed name).processed name = [] := by
    rw [processed_openProcessed]; rfl
  have hhead : h0 ∈ (NewLedger.iterate name older cb).1.processed name := by
    rw [holder]; exact head_mem_iterate NewLedger name h0 b0 rest0 cb hproc
  have hsub : ∀ x, x ∈ (NewLedger.iterate name older cb).1.processed name →
      x ∈ older.map Prod.fst := by
    intro x hx
    rw [iterate_fst] at hx
    rcases Iterate_processed_subset name cb hproc older _ x hx with h1 | h1
    · rw [hfp] at h1; simp at h1
    · exact h1
  rw [iterate_ok] at hfirst hsecond ⊢
  rw [iterate_fst (NewLedger.iterate name older cb).1, iterate_fst NewLedger name (newer ++ older)]
  rw [openProcessed_of_opened _ name (opened_of_mem _ name h0 hhead)] at hsecond ⊢
  generalize hL : (NewLedger.iterate name older cb).1 = L1 at hhead hsub hsecond ⊢
  have hL1 : (bcgo.Iterate (iterateCallback name cb) older (NewLedger.openProcessed name)).1
      = L1 := by rw [← hL, iterate_fst]
  have hnewL : ∀ hb ∈ newer, hb.1 ∉ L1.processed name := fun hb hm hin =>
    hdisj (List.mem_map_of_mem Prod.fst hm) (hsub _ hin)
  obtain ⟨j1, o1⟩ := Iterate_joins name cb L1 hproc (hcb L1) newer L1
    (NewLedger.openProcessed name)
    (Joins_empty L1 _ hf.1 hf.2.1 hf.2.2.1 hf.2.2.2.1 hf.2.2.2.2.1 hf.2.2.2.2.2.1
      hf.2.2.2.2.2.2)
    (fun hb hm => by
      rw [hfp]
      exact ⟨fun h => absurd h (hnewL hb hm), fun h => absurd h (List.not_mem_nil _)⟩)
  have hnostop := Iterate_no_stop name cb hproc hstop newer L1 hnewer hnewL
  have happL := bcgo.Iterate_append (iterateCallback name cb) newer older L1
  have happO := bcgo.Iterate_append (iterateCallback name cb) newer older
    (NewLedger.openProcessed name)
  have hnone : (bcgo.Iterate (iterateCallback name cb) newer L1).2 = none := by
    by_contra hcon
    rw [happL.2 hcon] at hsecond
    rcases hsecond with h1 | h1
    · exact hcon h1
    · exact hnostop h1
  have hheadA : h0 ∈ (bcgo.Iterate (iterateCallback name cb) newer L1).1.processed name :=
    bcgo.Iterate_keeps (fun l' => h0 ∈ l'.processed name) _
      (fun s h' b' hs => iterateCallback_mem name cb hproc h0 s h' b' hs) newer L1 hhead
  have hT : bcgo.Iterate (iterateCallback name cb) (newer ++ older) L1
      = ((bcgo.Iterate (iterateCallback name cb) newer L1).1,
          some bcgo.Error.StopIteration) := by
    rw [happL.1 hnone, holder]
    simp only [bcgo.Iterate, iterateCallback, if_pos hheadA]
  have hsubA : ∀ hb ∈ older,
      hb.1 ∉ (bcgo.Iterate (iterateCallback name cb) newer
        (NewLedger.openProcessed name)).1.processed name := by
    intro hb hm hin
    rcases Iterate_processed_subset name cb hproc newer _ hb.1 hin with h1 | h1
    · rw [hfp] at h1; simp at h1
    · exact hdisj h1 (List.mem_map_of_mem Prod.fst hm)
  obtain ⟨j2, o2⟩ := Iterate_joins name cb
    (bcgo.Iterate (iterateCallback name cb) newer (NewLedger.openProcessed name)).1 hproc
    (hcb _) older _ (NewLedger.openProcessed name)
    (Joins_empty _ _ hf.1 hf.2.1 hf.2.2.1 hf.2.2.2.1 hf.2.2.2.2.1 hf.2.2.2.2.2.1
      hf.2.2.2.2.2.2)
    (fun hb hm => by
      rw [hfp]
      exact ⟨fun h => absurd h (hsubA hb hm), fun h => absurd h (List.not_mem_nil _)⟩)
  rw [happO.1 (by rw [← o1]; exact hnone), o2]
  rw [hL1] at j2
  rw [hT]
  exact ⟨hfirst, _, j1, j2⟩

end Ledger

end conveygo

/-! ## The maps of the first pass on a chain that has grown -/

namespace conveygo

theorem entriesOf_append (xs ys : bcgo.Chain) :
    entriesOf (xs ++ ys) = entriesOf xs ++ entriesOf ys := by
  induction xs with
  | nil => rfl
  | cons hb rest ih =>
    obtain ⟨h, b⟩ := hb
    show entriesOf ((h, b) :: (rest ++ ys)) = _
    simp only [entriesOf]
    rw [ih, List.append_assoc]

theorem entryBlocks_append (xs ys : bcgo.Chain) :
    entryBlocks (xs ++ ys) = entryBlocks xs ++ entryBlocks ys := by
  induction xs with
  | nil => rfl
  | cons hb rest ih =>
    obtain ⟨h, b⟩ := hb
    show entryBlocks ((h, b) :: (rest ++ ys)) = _
    simp only [entryBlocks]
    rw [ih, List.append_assoc]

theorem entryBlocks_keys (chain : bcgo.Chain) :
    (entryBlocks chain).map Prod.fst = (entriesOf chain).map fun e => e.RecordHash := by
  induction chain with
  | nil => rfl
  | cons hb rest ih =>
    obtain ⟨h, b⟩ := hb
    simp only [entryBlocks, entriesOf, List.map_append, ih, List.map_map, Function.comp_def]

theorem entryBlocks_values (chain : bcgo.Chain) (kb : Hash × Hash) (h : kb ∈ entryBlocks chain) :
    kb.2 ∈ chain.map Prod.fst := by
  induction chain with
  | nil => simp [entryBlocks] at h
  | cons hb rest ih =>
    obtain ⟨k, b⟩ := hb
    simp only [entryBlocks, List.mem_append, List.mem_map] at h
    rcases h with ⟨e, _, he⟩ | h
    · rw [← he]; exact List.mem_cons_self _ _
    · exact List.mem_cons_of_mem _ (ih h)

theorem entryBlocks_of_entry (chain : bcgo.Chain) (e : bcgo.BlockEntry)
    (h : e ∈ entriesOf chain) : ∃ k, (e.RecordHash, k) ∈ entryBlocks chain := by
  induction chain with
  | nil => simp [entriesOf] at h
  | cons hb rest ih =>
    obtain ⟨k, b⟩ := hb
    simp only [entriesOf, List.mem_append] at h
    rcases h with h | h
    · exact ⟨k, by
        simp only [entryBlocks, List.mem_append, List.mem_map]
        exact Or.inl ⟨e, h, rfl⟩⟩
    · obtain ⟨k', hk⟩ := ih h
      exact ⟨k', by simp only [entryBlocks, List.mem_append]; exact Or.inr hk⟩

namespace Ledger

/-- A first pass that ends without error has decoded every entry. -/
theorem messageEntries_parse (blockKey : Hash) :
    ∀ (entries : List bcgo.BlockEntry) (maps : MessageMaps),
      (messageEntries blockKey entries maps).2 = none →
      ∀ entry ∈ entries, entry.Record.Payload.asMessage ≠ none := by
  intro entries
  induction entries with
  | nil => intro maps _ e he; simp at he
  | cons entry rest ih =>
    intro maps hok e he
    unfold messageEntries at hok
    cases hm : entry.Record.Payload.asMessage with
    | none => rw [hm] at hok; simp at hok
    | some m =>
      rw [hm] at hok
      rcases List.mem_cons.mp he with h1 | h1
      · rw [h1, hm]; simp
      · exact ih _ hok e h1

theorem messageWalk_parse :
    ∀ (chain : bcgo.Chain) (maps : MessageMaps),
      (bcgo.Iterate messageCallback chain maps).2 = none →
      ∀ entry ∈ entriesOf chain, entry.Record.Payload.asMessage ≠ none := by
  intro chain
  induction chain with
  | nil => intro maps _ e he; simp [entriesOf] at he
  | cons hb rest ih =>
    intro maps hok e he
    obtain ⟨h, b⟩ := hb
    unfold bcgo.Iterate at hok
    have h1 := messageEntries_parse h b.Entry maps
    rcases hc : messageCallback maps h b with ⟨maps1, _ | err⟩
    · rw [hc] at hok
      simp only [messageCallback] at hc
      rw [hc] at h1
      simp only [entriesOf, List.mem_append] at he
      rcases he with h2 | h2
      · exact h1 rfl e h2
      · exact ih maps1 hok e h2
    · rw [hc] at hok
      simp at hok

/-- The first pass over the entries of a block notes the block of each. -/
theorem messageEntries_blocks (blockKey : Hash) :
    ∀ (entries : List bcgo.BlockEntry) (maps : MessageMaps),
      (∀ entry ∈ entries, entry.Record.Payload.asMessage ≠ none) →
      (messageEntries blockKey entries maps).1.blocks
        = entries.foldl (fun m e => mapSet m e.RecordHash blockKey) maps.blocks := by
  intro entries
  induction entries with
  | nil => intro maps _; rfl
  | cons entry rest ih =>
    intro maps hparse
    have hrest : ∀ e ∈ rest, e.Record.Payload.asMessage ≠ none :=
      fun e he => hparse e (List.mem_cons_of_mem _ he)
    have hentry := hparse entry (List.mem_cons_self _ _)
    cases h : entry.Record.Payload.asMessage with
    | none => exact absurd h hentry
    | some m =>
      simp only [messageEntries, h, List.foldl_cons]
      exact ih _ hrest

theorem messageWalk_blocks :
    ∀ (chain : bcgo.Chain) (maps : MessageMaps),
      (∀ entry ∈ entriesOf chain, entry.Record.Payload.asMessage ≠ none) →
      (bcgo.Iterate messageCallback chain maps).1.blocks
        = (entryBlocks chain).foldl (fun m kb => mapSet m kb.1 kb.2) maps.blocks := by
  intro chain
  induction chain with
  | nil => intro maps _; rfl
  | cons hb rest ih =>
    intro maps hparse
    obtain ⟨h, b⟩ := hb
    have hb : ∀ e ∈ b.Entry, e.Record.Payload.asMessage ≠ none :=
      fun e he => hparse e (by simp only [entriesOf, List.mem_append]; exact Or.inl he)
    have hrest : ∀ e ∈ entriesOf rest, e.Record.Payload.asMessage ≠ none :=
      fun e he => hparse e (by simp only [entriesOf, List.mem_append]; exact Or.inr he)
    have h1 := messageEntries_blocks h b.Entry maps hb
    have h2 := messageEntries_ok h b.Entry maps hb
    unfold bcgo.Iterate
    rcases hc : messageCallback maps h b with ⟨maps1, _ | err⟩
    · simp only [messageCallback] at hc
      rw [hc] at h1
      simp only at h1
      show (bcgo.Iterate messageCallback rest maps1).1.blocks = _
      rw [ih maps1 hrest, h1]
      simp only [entryBlocks, List.foldl_append, List.foldl_map]
    · simp only [messageCallback] at hc
      rw [hc] at h2
      simp at h2

/-- A block marked after the last loop of `Update` was marked before or is
the block of a record. -/
theorem markBlocks_processed_subset (name : String) :
    ∀ (blocks : List (Hash × Hash)) (l : Ledger) (x : Hash),
      x ∈ (markBlocks name blocks l).processed name →
      x ∈ l.processed name ∨ ∃ kb ∈ blocks, kb.2 = x := by
  intro blocks
  induction blocks with
  | nil => intro l x h; exact Or.inl h
  | cons p rest ih =>
    intro l x h
    obtain ⟨key, block⟩ := p
    unfold markBlocks at h
    rcases ih _ x h with h1 | ⟨kb, hk, he⟩
    · rw [processed_markProcessed, mem_setAdd] at h1
      rcases h1 with h2 | h2
      · exact Or.inl h2
      · exact Or.inr ⟨(key, block), List.mem_cons_self _ _, h2.symm⟩
    · exact Or.inr ⟨kb, List.mem_cons_of_mem _ hk, he⟩

/-- What an `Update` of a message chain that ends well has done: the first
pass ended without error, the second pass ended well, and the blocks were
marked after it. -/
theorem updateMessages_parts (l : Ledger) (name : String) (chain : bcgo.Chain)
    (hok : (l.updateMessages name chain).2 = Outcome.ok) :
    (bcgo.Iterate messageCallback chain { blocks := [], nodes := [] }).2 = none ∧
    (distribute name (messageMaps chain) (messageMaps chain).nodes
      (l.openProcessed name)).2 = Outcome.ok ∧
    (l.updateMessages name chain).1
      = markBlocks name (messageMaps chain).blocks
          (distribute name (messageMaps chain) (messageMaps chain).nodes
            (l.openProcessed name)).1 := by
  unfold updateMessages at hok ⊢
  unfold messageMaps
  rcases hc : bcgo.Iterate messageCallback chain { blocks := [], nodes := [] }
    with ⟨maps, _ | err⟩
  · rw [hc] at hok
    simp only at hok ⊢
    rcases hd : distribute name maps maps.nodes (l.openProcessed name) with ⟨l1, out⟩
    rw [hd] at hok
    cases out
    case ok => exact ⟨trivial, rfl, rfl⟩
    all_goals simp at hok
  · rw [hc] at hok
    simp at hok

/-- An `Update` of a message chain whose two passes end well. -/
theorem updateMessages_of_parts (l : Ledger) (name : String) (chain : bcgo.Chain)
    (hwalk : (bcgo.Iterate messageCallback chain { blocks := [], nodes := [] }).2 = none)
    (hd : (distribute name (messageMaps chain) (messageMaps chain).nodes
      (l.openProcessed name)).2 = Outcome.ok) :
    l.updateMessages name chain
      = (markBlocks name (messageMaps chain).blocks
          (distribute name (messageMaps chain) (messageMaps chain).nodes
            (l.openProcessed name)).1, Outcome.ok) := by
  unfold updateMessages
  unfold messageMaps at hd ⊢
  rcases hc : bcgo.Iterate messageCallback chain { blocks := [], nodes := [] }
    with ⟨maps, e⟩
  rw [hc] at hwalk hd
  simp only at hwalk hd ⊢
  subst hwalk
  rcases hx : distribute name maps maps.nodes (l.openProcessed name) with ⟨l1, out⟩
  rw [hx] at hd
  simp only at hd
  subst hd
  simp only [hx]

end Ledger

/-- The blocks of a message chain whose records decode and have different
hashes: one for each entry, in the order of the chain. -/
theorem messageMaps_blocks (chain : bcgo.Chain)
    (hparse : ∀ entry ∈ entriesOf chain, entry.Record.Payload.asMessage ≠ none)
    (hdistinct : ((entriesOf chain).map fun e => e.RecordHash).Nodup) :
    (messageMaps chain).blocks = entryBlocks chain := by
  unfold messageMaps
  rw [Ledger.messageWalk_blocks chain _ hparse]
  have hfold := foldl_mapSet_nodup (entryBlocks chain) []
    (by rw [List.nil_append, entryBlocks_keys]; exact hdistinct)
  simpa using hfold

end conveygo

/-! ## The second pass on two ledgers, and on a chain that has grown -/

namespace conveygo

namespace Ledger

/-- One round of the second pass. -/
theorem distribute_cons (name : String) (maps : MessageMaps) (key : Hash) (node : MessageNode)
    (rest : List (Hash × MessageNode)) (l : Ledger) :
    distribute name maps ((key, node) :: rest) l
      = if (mapGet maps.blocks key).getD [] ∈ l.processed name then distribute name maps rest l
        else if node.Previous = [] then
          distribute name maps rest (l.RecordBurned node.Author node.Cost)
        else if (reply maps.nodes node.Author (maps.nodes.length + 1) node.Cost
            node.Previous l).2 = Outcome.ok then
          distribute name maps rest
            (reply maps.nodes node.Author (maps.nodes.length + 1) node.Cost node.Previous l).1
        else reply maps.nodes node.Author (maps.nodes.length + 1) node.Cost node.Previous l := by
  simp only [distribute]
  cases mapGet maps.blocks key
  all_goals
    simp only [Option.getD_none, Option.getD_some]
    split_ifs with h1 h2 hr
    · rfl
    · rfl
    · rcases hc : reply maps.nodes node.Author (maps.nodes.length + 1) node.Cost node.Previous l
        with ⟨l1, out⟩
      rw [hc] at hr
      simp only at hr
      subst hr
      rfl
    · rcases hc : reply maps.nodes node.Author (maps.nodes.length + 1) node.Cost node.Previous l
        with ⟨l1, out⟩
      rw [hc] at hr
      simp only at hr
      cases out
      · exact absurd rfl hr
      all_goals rfl

/-- A walk that ends well ends the same way, with the same ledger, on a map
of nodes that holds every node of the first and with more rounds allowed. -/
theorem reply_agree (nodes nodes' : List (Hash × MessageNode)) (author : String)
    (hsub : ∀ k n, mapGet nodes k = some n → mapGet nodes' k = some n) :
    ∀ (fuel fuel' cost : Nat) (prev : Hash) (l : Ledger), fuel ≤ fuel' →
      (reply nodes author fuel cost prev l).2 = Outcome.ok →
      reply nodes' author fuel' cost prev l = reply nodes author fuel cost prev l := by
  intro fuel
  induction fuel with
  | zero => intro fuel' cost prev l _ hok; simp [reply] at hok
  | succ fuel ih =>
    intro fuel' cost prev l hle hok
    obtain ⟨fuel', rfl⟩ : ∃ f, fuel' = f + 1 := ⟨fuel' - 1, by omega⟩
    unfold reply at hok ⊢
    cases hg : mapGet nodes prev with
    | none => rw [hg] at hok; simp at hok
    | some previous =>
      rw [hg] at hok
      rw [hsub prev previous hg]
      by_cases hp : previous.Previous = []
      · simp only [if_pos hp]
      · simp only [if_neg hp] at hok ⊢
        exact ih fuel' _ _ _ (by omega) hok

/-- The second pass over the nodes of a chain, when it ends well on a ledger
that has processed no block, does the same on the maps of a longer chain. -/
theorem distribute_agree (name : String) (maps maps' : MessageMaps)
    (hsub : ∀ k n, mapGet maps.nodes k = some n → mapGet maps'.nodes k = some n)
    (hlen : maps.nodes.length ≤ maps'.nodes.length) :
    ∀ (todo : List (Hash × MessageNode)) (l : Ledger), l.processed name = [] →
      (distribute name maps todo l).2 = Outcome.ok →
      distribute name maps' todo l = distribute name maps todo l := by
  intro todo
  induction todo with
  | nil => intro l _ _; rfl
  | cons kn rest ih =>
    intro l hproc hok
    obtain ⟨key, node⟩ := kn
    rw [distribute_cons] at hok ⊢
    rw [distribute_cons]
    simp only [hproc, List.not_mem_nil, if_false] at hok ⊢
    by_cases hp : node.Previous = []
    · simp only [if_pos hp] at hok ⊢
      exact ih _ hproc hok
    · simp only [if_neg hp] at hok ⊢
      by_cases hr : (reply maps.nodes node.Author (maps.nodes.length + 1) node.Cost
          node.Previous l).2 = Outcome.ok
      · have hag := reply_agree maps.nodes maps'.nodes node.Author hsub
          (maps.nodes.length + 1) (maps'.nodes.length + 1) node.Cost node.Previous l
          (by omega) hr
        rw [hag]
        simp only [if_pos hr] at hok ⊢
        apply ih _ _ hok
        rw [processed_congr l _ name (reply_Processed _ _ _ _ _ l)]
        exact hproc
      · simp only [if_neg hr] at hok
        exact absurd hok hr

/-- The second pass over two lists of nodes in a row. -/
theorem distribute_append (name : String) (maps : MessageMaps) :
    ∀ (xs ys : List (Hash × MessageNode)) (l : Ledger),
      ((distribute name maps xs l).2 = Outcome.ok →
        distribute name maps (xs ++ ys) l
          = distribute name maps ys (distribute name maps xs l).1) ∧
      ((distribute name maps xs l).2 ≠ Outcome.ok →
        distribute name maps (xs ++ ys) l = distribute name maps xs l) := by
  intro xs
  induction xs with
  | nil =>
    intro ys l
    exact ⟨fun _ => rfl, fun h => absurd rfl h⟩
  | cons kn rest ih =>
    intro ys l
    obtain ⟨key, node⟩ := kn
    rw [List.cons_append, distribute_cons, distribute_cons]
    by_cases h1 : (mapGet maps.blocks key).getD [] ∈ l.processed name
    · simp only [if_pos h1]
      exact ih ys l
    · simp only [if_neg h1]
      by_cases h2 : node.Previous = []
      · simp only [if_pos h2]
        exact ih ys _
      · simp only [if_neg h2]
        by_cases hr : (reply maps.nodes node.Author (maps.nodes.length + 1) node.Cost
            node.Previous l).2 = Outcome.ok
        · simp only [if_pos hr]
          exact ih ys _
        · simp only [if_neg hr]
          exact ⟨fun h => absurd h hr, fun _ => trivial⟩

/-- The second pass on two ledgers that have processed the same blocks: the
same rounds in both, and the same end. -/
theorem distribute_joins (name : String) (maps : MessageMaps) (b : Ledger) :
    ∀ (todo : List (Hash × MessageNode)) (l d : Ledger), l.Joins b d →
      (∀ kn ∈ todo, (mapGet maps.blocks kn.1).getD [] ∈ l.processed name ↔
        (mapGet maps.blocks kn.1).getD [] ∈ d.processed name) →
      (distribute name maps todo l).1.Joins b (distribute name maps todo d).1 ∧
      (distribute name maps todo l).2 = (distribute name maps todo d).2 := by
  intro todo
  induction todo with
  | nil => intro l d h _; exact ⟨h, rfl⟩
  | cons kn rest ih =>
    intro l d h hagree
    obtain ⟨key, node⟩ := kn
    have hk := hagree (key, node) (List.mem_cons_self _ _)
    have hrest : ∀ (l' d' : Ledger), l'.Processed = l.Processed → d'.Processed = d.Processed →
        ∀ kn ∈ rest, (mapGet maps.blocks kn.1).getD [] ∈ l'.processed name ↔
          (mapGet maps.blocks kn.1).getD [] ∈ d'.processed name := by
      intro l' d' hl hd kn hm
      rw [processed_congr l l' name hl, processed_congr d d' name hd]
      exact hagree kn (List.mem_cons_of_mem _ hm)
    simp only at hk
    rw [distribute_cons, distribute_cons]
    by_cases h1 : (mapGet maps.blocks key).getD [] ∈ l.processed name
    · simp only [if_pos h1, if_pos (hk.mp h1)]
      exact ih l d h (hrest l d rfl rfl)
    · have h1' : (mapGet maps.blocks key).getD [] ∉ d.processed name := fun e => h1 (hk.mpr e)
      simp only [if_neg h1, if_neg h1']
      by_cases h2 : node.Previous = []
      · simp only [if_pos h2]
        exact ih _ _ (Joins_burned _ _ _ _ _ h) (hrest _ _ rfl rfl)
      · simp only [if_neg h2]
        obtain ⟨j1, j2⟩ := reply_joins maps.nodes node.Author b (maps.nodes.length + 1)
          node.Cost node.Previous l d h
        rw [← j2]
        by_cases hr : (reply maps.nodes node.Author (maps.nodes.length + 1) node.Cost
            node.Previous l).2 = Outcome.ok
        · simp only [if_pos hr]
          exact ih _ _ j1 (hrest _ _ (reply_Processed _ _ _ _ _ l) (reply_Processed _ _ _ _ _ d))
        · simp only [if_neg hr]
          exact ⟨j1, j2⟩

/-- A ledger that ran `Update` on a message chain and then on the chain grown
by newer blocks, and a fresh ledger that runs it on the grown chain only: the
second ends well too, and both join what the older blocks and what the newer
blocks give a fresh ledger. -/
theorem messages_twice (name : String) (older newer : bcgo.Chain)
    (hblocks : ((newer ++ older).map Prod.fst).Nodup)
    (hrecords : ((entriesOf (newer ++ older)).map fun e => e.RecordHash).Nodup)
    (hfirst : (NewLedger.updateMessages name older).2 = Outcome.ok)
    (hsecond : ((NewLedger.updateMessages name older).1.updateMessages name (newer ++ older)).2
      = Outcome.ok) :
    (NewLedger.updateMessages name (newer ++ older)).2 = Outcome.ok ∧
    ∃ x : Ledger,
      ((NewLedger.updateMessages name older).1.updateMessages name (newer ++ older)).1.Joins
        (NewLedger.updateMessages name older).1 x ∧
      (NewLedger.updateMessages name (newer ++ older)).1.Joins x
        (NewLedger.updateMessages name older).1 := by
  rw [List.map_append, List.nodup_append] at hblocks
  obtain ⟨_, _, hdisj⟩ := hblocks
  obtain ⟨hw1, hd1, hL1⟩ := updateMessages_parts NewLedger name older hfirst
  obtain ⟨hw2, hd2, hT⟩ := updateMessages_parts _ name (newer ++ older) hsecond
  have hparse2 := messageWalk_parse (newer ++ older) _ hw2
  have hparse1 : ∀ e ∈ entriesOf older, e.Record.Payload.asMessage ≠ none :=
    fun e he => hparse2 e (by rw [entriesOf_append]; exact List.mem_append_right _ he)
  have hrecords1 : ((entriesOf older).map fun e => e.RecordHash).Nodup := by
    rw [entriesOf_append, List.map_append] at hrecords
    exact hrecords.of_append_right
  obtain ⟨hN1, _⟩ := messageMaps_nodes older hparse1 hrecords1
  obtain ⟨hN2, _⟩ := messageMaps_nodes (newer ++ older) hparse2 hrecords
  have hB1 := messageMaps_blocks older hparse1 hrecords1
  have hB2 := messageMaps_blocks (newer ++ older) hparse2 hrecords
  have hkeys2 : ((messageMaps (newer ++ older)).nodes.map Prod.fst).Nodup := by
    rw [hN2]
    simpa [List.map_map, Function.comp_def] using hrecords
  have hbkeys2 : ((messageMaps (newer ++ older)).blocks.map Prod.fst).Nodup := by
    rw [hB2, entryBlocks_keys]; exact hrecords
  have hsplit : (messageMaps (newer ++ older)).nodes
      = ((entriesOf newer).map fun e => (e.RecordHash, messageNode e))
        ++ (messageMaps older).nodes := by
    rw [hN2, hN1, entriesOf_append, List.map_append]
  have hf := openProcessed_fields NewLedger name
  have hfp : (NewLedger.openProcessed name).processed name = [] := by
    rw [processed_openProcessed]; rfl
  -- the blocks the first `Update` has marked
  have hsub : ∀ x, x ∈ (NewLedger.updateMessages name older).1.processed name →
      x ∈ older.map Prod.fst := by
    intro x hx
    rw [hL1] at hx
    rcases markBlocks_processed_subset name _ _ x hx with h1 | ⟨kb, hk, he⟩
    · rw [processed_congr _ _ name (distribute_Processed _ _ _ _), hfp] at h1
      simp at h1
    · rw [hB1] at hk
      rw [← he]
      exact entryBlocks_values older kb hk
  have hmarked : ∀ kb ∈ entryBlocks older,
      kb.2 ∈ (NewLedger.updateMessages name older).1.processed name := by
    intro kb hk
    rw [hL1]
    exact markBlocks_marks name _ _ kb (by rw [hB1]; exact hk)
  generalize (NewLedger.updateMessages name older).1 = L1 at hsub hmarked hd2 hT hsecond hL1 ⊢
  have hblockOf : ∀ e ∈ entriesOf (newer ++ older), ∀ k, (e.RecordHash, k) ∈ entryBlocks
      (newer ++ older) → mapGet (messageMaps (newer ++ older)).blocks e.RecordHash = some k := by
    intro e _ k hk
    exact mapGet_of_mem_nodup _ _ _ hbkeys2 (by rw [hB2]; exact hk)
  have hnew : ∀ kn ∈ (entriesOf newer).map (fun e => (e.RecordHash, messageNode e)),
      (mapGet (messageMaps (newer ++ older)).blocks kn.1).getD []
        ∉ (L1.openProcessed name).processed name := by
    intro kn hm hin
    obtain ⟨e, he, hkn⟩ := List.mem_map.mp hm
    obtain ⟨k, hk⟩ := entryBlocks_of_entry newer e he
    have hg := hblockOf e (by rw [entriesOf_append]; exact List.mem_append_left _ he) k
      (by rw [entryBlocks_append]; exact List.mem_append_left _ hk)
    rw [← hkn] at hin
    simp only at hin
    rw [hg, Option.getD_some, processed_openProcessed] at hin
    exact hdisj (entryBlocks_values newer _ hk) (hsub k hin)
  have hold : ∀ kn ∈ (messageMaps older).nodes, ∃ k,
      mapGet (messageMaps (newer ++ older)).blocks kn.1 = some k ∧
        k ∈ (L1.openProcessed name).processed name := by
    intro kn hm
    rw [hN1] at hm
    obtain ⟨e, he, hkn⟩ := List.mem_map.mp hm
    obtain ⟨k, hk⟩ := entryBlocks_of_entry older e he
    have hg := hblockOf e (by rw [entriesOf_append]; exact List.mem_append_right _ he) k
      (by rw [entryBlocks_append]; exact List.mem_append_right _ hk)
    rw [← hkn]
    exact ⟨k, hg, by rw [processed_openProcessed]; exact hmarked _ hk⟩
  -- the newer nodes on both ledgers
  obtain ⟨j1, o1⟩ := distribute_joins name (messageMaps (newer ++ older))
    (L1.openProcessed name)
    ((entriesOf newer).map fun e => (e.RecordHash, messageNode e))
    (L1.openProcessed name) (NewLedger.openProcessed name)
    (Joins_empty _ _ hf.1 hf.2.1 hf.2.2.1 hf.2.2.2.1 hf.2.2.2.2.1 hf.2.2.2.2.2.1
      hf.2.2.2.2.2.2)
    (fun kn hm => by
      rw [hfp]
      exact ⟨fun h => absurd h (hnew kn hm), fun h => absurd h (List.not_mem_nil _)⟩)
  rw [hsplit] at hd2 hT
  have happL := distribute_append name (messageMaps (newer ++ older))
    ((entriesOf newer).map fun e => (e.RecordHash, messageNode e)) (messageMaps older).nodes
    (L1.openProcessed name)
  have happO := distribute_append name (messageMaps (newer ++ older))
    ((entriesOf newer).map fun e => (e.RecordHash, messageNode e)) (messageMaps older).nodes
    (NewLedger.openProcessed name)
  have hokL : (distribute name (messageMaps (newer ++ older))
      ((entriesOf newer).map fun e => (e.RecordHash, messageNode e))
      (L1.openProcessed name)).2 = Outcome.ok := by
    by_contra hcon
    rw [happL.2 hcon] at hd2
    exact hcon hd2
  have hskip := distribute_skip name (messageMaps (newer ++ older)) (messageMaps older).nodes
    (distribute name (messageMaps (newer ++ older))
      ((entriesOf newer).map fun e => (e.RecordHash, messageNode e))
      (L1.openProcessed name)).1
    (fun kn hm => by
      obtain ⟨k, hg, hin⟩ := hold kn hm
      exact ⟨k, hg, by
        rw [processed_congr _ _ name (distribute_Processed _ _ _ _)]; exact hin⟩)
  rw [happL.1 hokL, hskip] at hT
  -- the older nodes on the fresh ledger and on what the newer nodes gave it
  obtain ⟨j2, o2⟩ := distribute_joins name (messageMaps (newer ++ older))
    (distribute name (messageMaps (newer ++ older))
      ((entriesOf newer).map fun e => (e.RecordHash, messageNode e))
      (NewLedger.openProcessed name)).1
    (messageMaps older).nodes _ (NewLedger.openProcessed name)
    (Joins_empty _ _ hf.1 hf.2.1 hf.2.2.1 hf.2.2.2.1 hf.2.2.2.2.1 hf.2.2.2.2.2.1
      hf.2.2.2.2.2.2)
    (fun kn _ => by rw [processed_congr _ _ name (distribute_Processed _ _ _ _)])
  have hagree := distribute_agree name (messageMaps older) (messageMaps (newer ++ older))
    (fun k n hg => by
      apply mapGet_of_mem_nodup _ _ _ hkeys2
      rw [hsplit]
      exact List.mem_append_right _ (mem_of_mapGet _ k n hg))
    (by rw [hsplit, List.length_append]; omega)
    (messageMaps older).nodes (NewLedger.openProcessed name) hfp hd1
  rw [hagree] at j2 o2
  have hdO : (distribute name (messageMaps (newer ++ older))
      (messageMaps (newer ++ older)).nodes (NewLedger.openProcessed name)).2 = Outcome.ok := by
    rw [hsplit, happO.1 (by rw [← o1]; exact hokL), o2]
    exact hd1
  have hO := updateMessages_of_parts NewLedger name (newer ++ older) hw2 hdO
  rw [hO, hT]
  refine ⟨rfl, (distribute name (messageMaps (newer ++ older))
    ((entriesOf newer).map fun e => (e.RecordHash, messageNode e))
    (NewLedger.openProcessed name)).1, ?_, ?_⟩
  · exact Joins_fields _ _ _ _ _ _ j1 (markBlocks_fields name _ _)
      (by
        have h1 := openProcessed_fields L1 name
        exact ⟨h1.1.symm, h1.2.1.symm, h1.2.2.1.symm, h1.2.2.2.1.symm, h1.2.2.2.2.1.symm,
          h1.2.2.2.2.2.1.symm, h1.2.2.2.2.2.2.symm⟩)
      ⟨rfl, rfl, rfl, rfl, rfl, rfl, rfl⟩
  · rw [hL1]
    simp only
    rw [hsplit, happO.1 (by rw [← o1]; exact hokL)]
    exact Joins_fields _ _ _ _ _ _ j2 (markBlocks_fields name _ _)
      ⟨rfl, rfl, rfl, rfl, rfl, rfl, rfl⟩ (markBlocks_fields name _ _)

end Ledger

end conveygo

/-! ## `Update` on a chain that has grown -/

namespace conveygo

/-- Two accumulators that join the same two accumulators, one way round and
the other, and hold `uint64` values, are the same map. -/
theorem joins_same (t o b d : List (String × Nat)) (h1 : joins t b d) (h2 : joins o d b)
    (ht : ∀ a, amountOf t a < 2 ^ 64) (ho : ∀ a, amountOf o a < 2 ^ 64) :
    ∀ a, mapGet t a = mapGet o a := by
  intro a
  obtain ⟨k1, v1⟩ := h1 a
  obtain ⟨k2, v2⟩ := h2 a
  have hk : (mapGet t a).isSome = true ↔ (mapGet o a).isSome = true := by
    rw [k1, k2]; exact Or.comm
  have hv : amountOf t a = amountOf o a := by
    have e1 := Nat.mod_eq_of_lt (ht a)
    have e2 := Nat.mod_eq_of_lt (ho a)
    rw [Nat.add_comm] at v2
    omega
  unfold amountOf at hv
  cases h3 : mapGet t a with
  | none =>
    cases h4 : mapGet o a with
    | none => rfl
    | some y => rw [h3, h4] at hk; simp at hk
  | some x =>
    cases h4 : mapGet o a with
    | none => rw [h3, h4] at hk; simp at hk
    | some y =>
      rw [h3, h4] at hv
      simp only [Option.getD_some] at hv
      rw [hv]

theorem Uint64_NewLedger : Uint64 NewLedger := by
  refine ⟨?_, ?_, ?_, ?_, ?_, ?_⟩ <;> intro a <;> simp [NewLedger, amountOf, mapGet]

namespace Ledger

/-- Two ledgers that join the same two ledgers, one way round and the other,
have the same aliases and the same accumulators. -/
theorem Joins_same (t o b d : Ledger) (h1 : t.Joins b d) (h2 : o.Joins d b)
    (ht : Uint64 t) (ho : Uint64 o) :
    ∀ a, (a ∈ t.Aliases ↔ a ∈ o.Aliases) ∧
      mapGet t.Minted a = mapGet o.Minted a ∧ mapGet t.Burned a = mapGet o.Burned a ∧
      mapGet t.Bought a = mapGet o.Bought a ∧ mapGet t.Sold a = mapGet o.Sold a ∧
      mapGet t.Earned a = mapGet o.Earned a ∧ mapGet t.Spent a = mapGet o.Spent a := by
  intro a
  obtain ⟨a1, m1, b1, c1, s1, e1, p1⟩ := h1
  obtain ⟨a2, m2, b2, c2, s2, e2, p2⟩ := h2
  obtain ⟨tm, tb, tc, ts, te, tp⟩ := ht
  obtain ⟨om, ob, oc, os, oe, op⟩ := ho
  exact ⟨by rw [a1 a, a2 a]; exact Or.comm, joins_same _ _ _ _ m1 m2 tm om a,
    joins_same _ _ _ _ b1 b2 tb ob a, joins_same _ _ _ _ c1 c2 tc oc a,
    joins_same _ _ _ _ s1 s2 ts os a, joins_same _ _ _ _ e1 e2 te oe a,
    joins_same _ _ _ _ p1 p2 tp op a⟩

theorem transactionEntries_no_stop :
    ∀ (entries : List bcgo.BlockEntry) (l : Ledger),
      (transactionEntries entries l).2 ≠ some bcgo.Error.StopIteration := by
  intro entries
  induction entries with
  | nil => intro l; simp [transactionEntries]
  | cons entry rest ih =>
    intro l
    unfold transactionEntries
    cases entry.Record.Payload.asTransaction with
    | none => simp
    | some t => exact ih _

/-- The branch `Update` takes on a chain that is not empty depends on the
name of the channel only. -/
theorem Update_by_name (name : String) :
    (∀ (l : Ledger) (chain : bcgo.Chain), l.Update name chain = (l, Outcome.ok)) ∨
    (∃ reward, ∀ (l : Ledger) (chain : bcgo.Chain), chain ≠ [] →
      l.Update name chain = l.iterate name chain (mintCallback reward)) ∨
    (∀ (l : Ledger) (chain : bcgo.Chain), chain ≠ [] →
      l.Update name chain = l.iterate name chain transactionCallback) ∨
    (∀ (l : Ledger) (chain : bcgo.Chain), chain ≠ [] →
      l.Update name chain = l.iterate name chain conversationCallback) ∨
    (HasPrefix name CONVEY_PREFIX_MESSAGE = true ∧
      ∀ (l : Ledger) (chain : bcgo.Chain), chain ≠ [] →
        l.Update name chain = l.updateMessages name chain) := by
  by_cases h1 : name = CONVEY_HOUR
  · exact Or.inr (Or.inl ⟨_, fun l chain h0 => by unfold Update; rw [if_neg h0, if_pos h1]⟩)
  by_cases h2 : name = CONVEY_DAY
  · exact Or.inr (Or.inl ⟨_, fun l chain h0 => by
      unfold Update; rw [if_neg h0, if_neg h1, if_pos h2]⟩)
  by_cases h3 : name = CONVEY_WEEK
  · exact Or.inr (Or.inl ⟨_, fun l chain h0 => by
      unfold Update; rw [if_neg h0, if_neg h1, if_neg h2, if_pos h3]⟩)
  by_cases h4 : name = CONVEY_YEAR
  · exact Or.inr (Or.inl ⟨_, fun l chain h0 => by
      unfold Update; rw [if_neg h0, if_neg h1, if_neg h2, if_neg h3, if_pos h4]⟩)
  by_cases h5 : name = CONVEY_DECADE
  · exact Or.inr (Or.inl ⟨_, fun l chain h0 => by
      unfold Update; rw [if_neg h0, if_neg h1, if_neg h2, if_neg h3, if_neg h4, if_pos h5]⟩)
  by_cases h6 : name = CONVEY_CENTURY
  · exact Or.inr (Or.inl ⟨_, fun l chain h0 => by
      unfold Update
      rw [if_neg h0, if_neg h1, if_neg h2, if_neg h3, if_neg h4, if_neg h5, if_pos h6]⟩)
  by_cases h7 : name = CONVEY_TRANSACTION
  · right; right; left
    intro l chain h0
    unfold Update
    rw [if_neg h0, if_neg h1, if_neg h2, if_neg h3, if_neg h4, if_neg h5, if_neg h6, if_pos h7]
  by_cases h8 : name = CONVEY_CONVERSATION
  · right; right; right; left
    intro l chain h0
    unfold Update
    rw [if_neg h0, if_neg h1, if_neg h2, if_neg h3, if_neg h4, if_neg h5, if_neg h6, if_neg h7,
      if_pos h8]
  by_cases h9 : HasPrefix name CONVEY_PREFIX_MESSAGE = true
  · right; right; right; right
    refine ⟨h9, fun l chain h0 => ?_⟩
    unfold Update
    rw [if_neg h0, if_neg h1, if_neg h2, if_neg h3, if_neg h4, if_neg h5, if_neg h6, if_neg h7,
      if_neg h8, if_pos h9]
  · left
    intro l chain
    unfold Update
    by_cases h0 : chain = []
    · rw [if_pos h0]
    · rw [if_neg h0, if_neg h1, if_neg h2, if_neg h3, if_neg h4, if_neg h5, if_neg h6,
        if_neg h7, if_neg h8, if_neg h9]

/-- A ledger that ran `Update` on a chain and then on the chain grown by newer
blocks, and a fresh ledger that runs it on the grown chain only: the second
ends well too, and both join what the older blocks and what the newer blocks
give a fresh ledger. -/
theorem Update_twice (name : String) (older newer : bcgo.Chain)
    (hblocks : ((newer ++ older).map Prod.fst).Nodup)
    (hrecords : HasPrefix name CONVEY_PREFIX_MESSAGE = true →
      ((entriesOf (newer ++ older)).map fun e => e.RecordHash).Nodup)
    (hfirst : (NewLedger.Update name older).2 = Outcome.ok)
    (hsecond : ((NewLedger.Update name older).1.Update name (newer ++ older)).2 = Outcome.ok) :
    (NewLedger.Update name (newer ++ older)).2 = Outcome.ok ∧
    ∃ x : Ledger,
      ((NewLedger.Update name older).1.Update name (newer ++ older)).1.Joins
        (NewLedger.Update name older).1 x ∧
      (NewLedger.Update name (newer ++ older)).1.Joins x (NewLedger.Update name older).1 := by
  by_cases hne : older = []
  · subst hne
    rw [Update_nil] at hsecond ⊢
    simp only at hsecond ⊢
    exact ⟨hsecond, _, Joins_comm _ _ _ (Joins_empty _ NewLedger rfl rfl rfl rfl rfl rfl rfl),
      Joins_empty _ NewLedger rfl rfl rfl rfl rfl rfl rfl⟩
  have hne2 : newer ++ older ≠ [] := by
    intro e
    exact hne (List.append_eq_nil.mp e).2
  rcases Update_by_name name with h | ⟨reward, h⟩ | h | h | ⟨hpre, h⟩
  · rw [h, h, h]
    exact ⟨rfl, NewLedger, Joins_empty _ NewLedger rfl rfl rfl rfl rfl rfl rfl,
      Joins_empty _ NewLedger rfl rfl rfl rfl rfl rfl rfl⟩
  · rw [h _ _ hne] at hfirst hsecond ⊢
    rw [h _ _ hne2] at hsecond ⊢
    rw [h _ _ hne2]
    exact iterate_twice name (mintCallback reward) (fun _ _ => rfl)
      (fun b l d blk hj => ⟨Joins_minted l b d _ _ hj, rfl⟩)
      (fun l blk => by simp [mintCallback]) older newer hne hblocks hfirst hsecond
  · rw [h _ _ hne] at hfirst hsecond ⊢
    rw [h _ _ hne2] at hsecond ⊢
    rw [h _ _ hne2]
    exact iterate_twice name transactionCallback
      (fun l blk => transactionEntries_Processed blk.Entry l)
      (fun b l d blk hj => transactionEntries_joins b blk.Entry l d hj)
      (fun l blk => transactionEntries_no_stop blk.Entry l) older newer hne hblocks hfirst
      hsecond
  · rw [h _ _ hne] at hfirst hsecond ⊢
    rw [h _ _ hne2] at hsecond ⊢
    rw [h _ _ hne2]
    exact iterate_twice name conversationCallback
      (fun l blk => conversationEntries_Processed blk.Entry l)
      (fun b l d blk hj => ⟨conversationEntries_joins b blk.Entry l d hj, rfl⟩)
      (fun l blk => by simp [conversationCallback]) older newer hne hblocks hfirst hsecond
  · rw [h _ _ hne] at hfirst hsecond ⊢
    rw [h _ _ hne2] at hsecond ⊢
    rw [h _ _ hne2]
    exact messages_twice name older newer hblocks (hrecords hpre) hfirst hsecond

end Ledger

end conveygo

/-! ## The round of the second pass for one reply -/

namespace conveygo

namespace Ledger

/-- The second pass skips the nodes whose blocks are processed. -/
theorem distribute_skip_all (name : String) (maps : MessageMaps) :
    ∀ (todo : List (Hash × MessageNode)) (l : Ledger),
      (∀ kn ∈ todo, (mapGet maps.blocks kn.1).getD [] ∈ l.processed name) →
      distribute name maps todo l = (l, Outcome.ok) := by
  intro todo
  induction todo with
  | nil => intro l _; rfl
  | cons kn rest ih =>
    intro l h
    obtain ⟨key, node⟩ := kn
    rw [distribute_cons, if_pos (h (key, node) (List.mem_cons_self _ _))]
    exact ih l fun kn hk => h kn (List.mem_cons_of_mem _ hk)

/-- A second pass that ends well has ended well on the nodes it came to
first. -/
theorem distribute_prefix_ok (name : String) (maps : MessageMaps)
    (xs ys : List (Hash × MessageNode)) (l : Ledger)
    (hok : (distribute name maps (xs ++ ys) l).2 = Outcome.ok) :
    (distribute name maps xs l).2 = Outcome.ok := by
  by_contra hne
  rw [(distribute_append name maps xs ys l).2 hne] at hok
  exact hne hok

/-- The second pass leaves the processed sets as they are. -/
theorem distribute_processed (name : String) (maps : MessageMaps)
    (todo : List (Hash × MessageNode)) (l : Ledger) (other : String) :
    (distribute name maps todo l).1.processed other = l.processed other := by
  unfold processed
  rw [distribute_Processed]

/-- The second pass while there is room: no accumulator value goes down, and
the room left is the room there was less the cost of the nodes. -/
theorem distribute_room (name : String) (maps : MessageMaps) :
    ∀ (todo : List (Hash × MessageNode)) (l : Ledger) (r : Nat), l.Room r →
      (todo.map fun kn => kn.2.Cost).sum ≤ r →
      l.Below (distribute name maps todo l).1 ∧
      (distribute name maps todo l).1.Room (r - (todo.map fun kn => kn.2.Cost).sum) := by
  intro todo
  induction todo with
  | nil =>
    intro l r h _
    exact ⟨Below_refl l, Room_mono l r _ h (Nat.sub_le _ _)⟩
  | cons kn rest ih =>
    intro l r h hw
    obtain ⟨key, node⟩ := kn
    simp only [List.map_cons, List.sum_cons] at hw ⊢
    rw [distribute_cons]
    split_ifs with c1 c2 c3
    · obtain ⟨g1, g2⟩ := ih l r h (by omega)
      exact ⟨g1, Room_mono _ _ _ g2 (by omega)⟩
    · obtain ⟨g1, g2⟩ := burned_grows l node.Author node.Cost r h (by omega)
      obtain ⟨g3, g4⟩ := ih _ (r - node.Cost) g2 (by omega)
      exact ⟨Below_trans _ _ _ g1 g3, Room_mono _ _ _ g4 (by omega)⟩
    · obtain ⟨g1, g2⟩ := reply_grows maps.nodes node.Author (maps.nodes.length + 1) node.Cost
        node.Previous l r h (by omega)
      obtain ⟨g3, g4⟩ := ih _ (r - node.Cost) g2 (by omega)
      exact ⟨Below_trans _ _ _ g1 g3, Room_mono _ _ _ g4 (by omega)⟩
    · obtain ⟨g1, g2⟩ := reply_grows maps.nodes node.Author (maps.nodes.length + 1) node.Cost
        node.Previous l r h (by omega)
      exact ⟨g1, Room_mono _ _ _ g2 (by omega)⟩

/-- The fields of the ledger the second pass starts from. -/
theorem secondPass_nil (l : Ledger) (name : String) (chain : bcgo.Chain) :
    l.secondPass name chain [] = l.openProcessed name := rfl

/-- The second pass of `Update` while there is room for the cost of the nodes
it visits. -/
theorem secondPass_room (l : Ledger) (name : String) (chain : bcgo.Chain)
    (visited : List (Hash × MessageNode)) (r : Nat) (h : l.Room r)
    (hw : (visited.map fun kn => kn.2.Cost).sum ≤ r) :
    l.Below (l.secondPass name chain visited) ∧
    (l.secondPass name chain visited).Room (r - (visited.map fun kn => kn.2.Cost).sum) := by
  have hopen : (l.openProcessed name).Room r := by
    obtain ⟨-, o1, o2, o3, o4, o5, o6⟩ := openProcessed_fields l name
    unfold Room at h ⊢
    rw [o1, o2, o3, o4, o5, o6]
    exact h
  have hbelow : l.Below (l.openProcessed name) := by
    obtain ⟨-, o1, o2, o3, o4, o5, o6⟩ := openProcessed_fields l name
    unfold Below
    rw [o1, o2, o3, o4, o5, o6]
    exact Below_refl l
  obtain ⟨g1, g2⟩ := distribute_room name (messageMaps chain) visited (l.openProcessed name) r
    hopen hw
  exact ⟨Below_trans _ _ _ hbelow g1, g2⟩

/-- The nodes of a message chain cost no more than its records. -/
theorem messageMaps_cost (chain : bcgo.Chain) :
    ((messageMaps chain).nodes.map fun kn => kn.2.Cost).sum ≤ chainCost chain := by
  have h := messageWalk_cost chain { blocks := [], nodes := [] }
  simpa [messageMaps] using h

/-- The round of the second pass of `Update` for one reply.  When `Update` of
a message chain ends well, the ledger it leaves is the one the second pass has
reached after all nodes, with the blocks marked; the second pass has come to
the reply and has run its walk on the ledger it had reached by then, and has
gone on from the ledger the walk left. -/
theorem Update_round (l : Ledger) (name : String) (chain : bcgo.Chain)
    (pre post : List (Hash × MessageNode)) (key : Hash) (node : MessageNode)
    (ancestors : List MessageNode)
    (hname : HasPrefix name CONVEY_PREFIX_MESSAGE = true)
    (hok : (l.Update name chain).2 = Outcome.ok)
    (hnodes : (messageMaps chain).nodes = pre ++ (key, node) :: post)
    (hnew : (mapGet (messageMaps chain).blocks key).getD [] ∉ l.processed name)
    (hreply : node.Previous ≠ [])
    (hanc : Ancestors (messageMaps chain).nodes node.Previous ancestors) :
    (l.Update name chain).1
      = markBlocks name (messageMaps chain).blocks
          (l.secondPass name chain (pre ++ (key, node) :: post)) ∧
    l.secondPass name chain (pre ++ (key, node) :: post)
      = (distribute name (messageMaps chain) post
          (l.secondPass name chain (pre ++ [(key, node)]))).1 ∧
    l.secondPass name chain (pre ++ [(key, node)])
      = (reply (messageMaps chain).nodes node.Author ((messageMaps chain).nodes.length + 1)
          node.Cost node.Previous (l.secondPass name chain pre)).1 ∧
    (l.secondPass name chain pre).processed name = l.processed name := by
  have h0 : chain ≠ [] := by
    intro e
    rw [e] at hnodes
    have : (messageMaps []).nodes = [] := rfl
    rw [this] at hnodes
    exact absurd hnodes (by simp)
  rw [Update_message l name chain h0 hname] at hok ⊢
  obtain ⟨-, hd, hres⟩ := updateMessages_parts l name chain hok
  rw [hnodes] at hd hres
  have hlen := Ancestors_length_le ancestors _ _ hanc
  have hpre := distribute_prefix_ok name (messageMaps chain) pre ((key, node) :: post)
    (l.openProcessed name) hd
  have hproc : (distribute name (messageMaps chain) pre (l.openProcessed name)).1.processed name
      = l.processed name := by
    rw [distribute_processed, processed_openProcessed]
  have hwalk := (reply_walk (messageMaps chain).nodes node.Author ancestors
    ((messageMaps chain).nodes.length + 1) node.Cost node.Previous
    (distribute name (messageMaps chain) pre (l.openProcessed name)).1 hanc (by omega)).1
  have hstep : ∀ rest, distribute name (messageMaps chain) ((key, node) :: rest)
      (distribute name (messageMaps chain) pre (l.openProcessed name)).1
      = distribute name (messageMaps chain) rest
          (reply (messageMaps chain).nodes node.Author ((messageMaps chain).nodes.length + 1)
            node.Cost node.Previous
            (distribute name (messageMaps chain) pre (l.openProcessed name)).1).1 := by
    intro rest
    rw [distribute_cons, if_neg (by rw [hproc]; exact hnew), if_neg hreply, if_pos hwalk]
  have hone : distribute name (messageMaps chain) (pre ++ [(key, node)]) (l.openProcessed name)
      = ((reply (messageMaps chain).nodes node.Author ((messageMaps chain).nodes.length + 1)
            node.Cost node.Previous
            (distribute name (messageMaps chain) pre (l.openProcessed name)).1).1,
          Outcome.ok) := by
    rw [(distribute_append name (messageMaps chain) pre [(key, node)] (l.openProcessed name)).1
      hpre, hstep []]
    rfl
  have hall : distribute name (messageMaps chain) (pre ++ (key, node) :: post)
      (l.openProcessed name)
      = distribute name (messageMaps chain) post
          (reply (messageMaps chain).nodes node.Author ((messageMaps chain).nodes.length + 1)
            node.Cost node.Previous
            (distribute name (messageMaps chain) pre (l.openProcessed name)).1).1 := by
    rw [(distribute_append name (messageMaps chain) pre ((key, node) :: post)
      (l.openProcessed name)).1 hpre, hstep post]
  refine ⟨hres, ?_, ?_, hproc⟩
  · show (distribute name (messageMaps chain) (pre ++ (key, node) :: post)
      (l.openProcessed name)).1 = _
    rw [hall]
    show _ = (distribute name (messageMaps chain) post
      (distribute name (messageMaps chain) (pre ++ [(key, node)]) (l.openProcessed name)).1).1
    rw [hone]
  · show (distribute name (messageMaps chain) (pre ++ [(key, node)])
      (l.openProcessed name)).1 = _
    rw [hone]
    rfl

/-- When the blocks of all other nodes are processed, the round for the reply
is all the second pass does. -/
theorem Update_lone_round (l : Ledger) (name : String) (chain : bcgo.Chain)
    (pre post : List (Hash × MessageNode)) (key : Hash) (node : MessageNode)
    (hothers : ∀ kn ∈ pre ++ post,
      (mapGet (messageMaps chain).blocks kn.1).getD [] ∈ l.processed name) :
    l.secondPass name chain pre = l.openProcessed name ∧
    (distribute name (messageMaps chain) post
        (l.secondPass name chain (pre ++ [(key, node)]))).1
      = l.secondPass name chain (pre ++ [(key, node)]) := by
  have hpre : l.secondPass name chain pre = l.openProcessed name := by
    show (distribute name (messageMaps chain) pre (l.openProcessed name)).1 = _
    rw [distribute_skip_all name (messageMaps chain) pre (l.openProcessed name)
      fun kn hk => by
        rw [processed_openProcessed]
        exact hothers kn (List.mem_append_left _ hk)]
  refine ⟨hpre, ?_⟩
  rw [distribute_skip_all name (messageMaps chain) post _ fun kn hk => by
    show _ ∈ (distribute name (messageMaps chain) (pre ++ [(key, node)])
      (l.openProcessed name)).1.processed name
    rw [distribute_processed, processed_openProcessed]
    exact hothers kn (List.mem_append_right _ hk)]

/-- The loop of a reply after `k` rounds: it goes on with what remains of the
cost after `k` ancestors took their half. -/
theorem reply_rounds (nodes : List (Hash × MessageNode)) (author : String) :
    ∀ (k : Nat) (ancestors : List MessageNode) (fuel c : Nat) (prev : Hash) (l : Ledger),
      Ancestors nodes prev ancestors → k < ancestors.length → k ≤ fuel →
      ∃ (above : Hash) (reached : Ledger),
        reply nodes author fuel c prev l
          = reply nodes author (fuel - k) (remaining c k) above reached ∧
        mapGet nodes above = ancestors.get? k := by
  intro k
  induction k with
  | zero =>
    intro ancestors fuel c prev l hanc hk _
    refine ⟨prev, l, rfl, ?_⟩
    cases ancestors with
    | nil => exact absurd hk (by simp)
    | cons a rest =>
      cases rest with
      | nil => exact hanc.1
      | cons m rest1 => exact hanc.1
  | succ k ih =>
    intro ancestors fuel c prev l hanc hk hfuel
    cases ancestors with
    | nil => exact absurd hk (by simp)
    | cons a rest =>
      cases rest with
      | nil => simp at hk
      | cons m rest1 =>
        obtain ⟨hget, hnot, hrest⟩ := hanc
        obtain ⟨fuel1, rfl⟩ : ∃ f, fuel = f + 1 := ⟨fuel - 1, by omega⟩
        obtain ⟨above, reached, heq, habove⟩ := ih (m :: rest1) fuel1 (c - c / 2) a.Previous
          ((l.RecordSpent author (c / 2)).RecordEarned a.Author (c / 2)) hrest
          (by simpa using hk) (by omega)
        refine ⟨above, reached, ?_, ?_⟩
        · rw [remaining_shift, Nat.add_sub_add_right, ← heq]
          simp only [reply, hget, if_neg hnot]
        · rw [habove]
          rfl

end Ledger

end conveygo

/-! ## What the round for one reply records -/

namespace conveygo

namespace Ledger

/-- The round of the second pass of `Update` for a reply, in `uint64`
arithmetic: what it adds to Earned, Spent and Burned of every alias. -/
theorem Update_round_shares (l : Ledger) (name : String) (chain : bcgo.Chain)
    (pre post : List (Hash × MessageNode)) (key : Hash) (node : MessageNode)
    (ancestors : List MessageNode)
    (hname : HasPrefix name CONVEY_PREFIX_MESSAGE = true)
    (hok : (l.Update name chain).2 = Outcome.ok)
    (hnodes : (messageMaps chain).nodes = pre ++ (key, node) :: post)
    (hnew : (mapGet (messageMaps chain).blocks key).getD [] ∉ l.processed name)
    (hreply : node.Previous ≠ [])
    (hanc : Ancestors (messageMaps chain).nodes node.Previous ancestors) :
    (∀ x, amountOf (l.secondPass name chain (pre ++ [(key, node)])).Earned x
      = if x ∈ ancestors.map MessageNode.Author
        then (amountOf (l.secondPass name chain pre).Earned x
          + credit node.Cost ancestors x) % 2 ^ 64
        else amountOf (l.secondPass name chain pre).Earned x) ∧
    (∀ x, amountOf (l.secondPass name chain (pre ++ [(key, node)])).Spent x
      = if x = node.Author
        then (amountOf (l.secondPass name chain pre).Spent x
          + (shares node.Cost ancestors.length).sum) % 2 ^ 64
        else amountOf (l.secondPass name chain pre).Spent x) ∧
    (∀ x, amountOf (l.secondPass name chain (pre ++ [(key, node)])).Burned x
      = if x = node.Author
        then (amountOf (l.secondPass name chain pre).Burned x
          + remaining node.Cost ancestors.length) % 2 ^ 64
        else amountOf (l.secondPass name chain pre).Burned x) ∧
    (total (l.secondPass name chain pre).Earned + node.Cost < 2 ^ 64 →
      total (l.secondPass name chain (pre ++ [(key, node)])).Earned
        = total (l.secondPass name chain pre).Earned
          + (shares node.Cost ancestors.length).sum) := by
  obtain ⟨-, -, hafter, -⟩ := Update_round l name chain pre post key node ancestors hname hok
    hnodes hnew hreply hanc
  have hlen := Ancestors_length_le ancestors _ _ hanc
  obtain ⟨-, h2, h3, h4, -, -, -, -, h9⟩ :=
    reply_walk (messageMaps chain).nodes node.Author ancestors
      ((messageMaps chain).nodes.length + 1) node.Cost node.Previous
      (l.secondPass name chain pre) hanc (by omega)
  rw [hafter]
  exact ⟨h2, h3, h4, h9⟩

/-- When the blocks of all other nodes are processed, `Update` leaves in the
accumulators what the round for the reply has left, and the round has started
from what the ledger held. -/
theorem Update_lone_fields (l : Ledger) (name : String) (chain : bcgo.Chain)
    (pre post : List (Hash × MessageNode)) (key : Hash) (node : MessageNode)
    (ancestors : List MessageNode)
    (hname : HasPrefix name CONVEY_PREFIX_MESSAGE = true)
    (hok : (l.Update name chain).2 = Outcome.ok)
    (hnodes : (messageMaps chain).nodes = pre ++ (key, node) :: post)
    (hnew : (mapGet (messageMaps chain).blocks key).getD [] ∉ l.processed name)
    (hreply : node.Previous ≠ [])
    (hanc : Ancestors (messageMaps chain).nodes node.Previous ancestors)
    (hothers : ∀ kn ∈ pre ++ post,
      (mapGet (messageMaps chain).blocks kn.1).getD [] ∈ l.processed name) :
    ((l.Update name chain).1.Earned = (l.secondPass name chain (pre ++ [(key, node)])).Earned ∧
      (l.Update name chain).1.Spent = (l.secondPass name chain (pre ++ [(key, node)])).Spent ∧
      (l.Update name chain).1.Burned
        = (l.secondPass name chain (pre ++ [(key, node)])).Burned) ∧
    ((l.secondPass name chain pre).Earned = l.Earned ∧
      (l.secondPass name chain pre).Spent = l.Spent ∧
      (l.secondPass name chain pre).Burned = l.Burned) := by
  obtain ⟨hres, hall, -, -⟩ := Update_round l name chain pre post key node ancestors hname hok
    hnodes hnew hreply hanc
  obtain ⟨hpre, hpost⟩ := Update_lone_round l name chain pre post key node hothers
  obtain ⟨-, -, m2, -, -, m5, m6⟩ := markBlocks_fields name (messageMaps chain).blocks
    (l.secondPass name chain (pre ++ (key, node) :: post))
  obtain ⟨-, -, o2, -, -, o5, o6⟩ := openProcessed_fields l name
  refine ⟨⟨?_, ?_, ?_⟩, ?_, ?_, ?_⟩
  · rw [hres, m5, hall, hpost]
  · rw [hres, m6, hall, hpost]
  · rw [hres, m2, hall, hpost]
  · rw [hpre, o5]
  · rw [hpre, o6]
  · rw [hpre, o2]

/-- The round of the second pass of `Update` for a reply on a ledger with room
for the cost of the chain: the amounts it adds without wrapping, and what
`Update` as a whole adds at least. -/
theorem Update_round_exact (l : Ledger) (name : String) (chain : bcgo.Chain)
    (pre post : List (Hash × MessageNode)) (key : Hash) (node : MessageNode)
    (ancestors : List MessageNode)
    (hname : HasPrefix name CONVEY_PREFIX_MESSAGE = true)
    (hok : (l.Update name chain).2 = Outcome.ok)
    (hroom : l.Room (chainCost chain))
    (hnodes : (messageMaps chain).nodes = pre ++ (key, node) :: post)
    (hnew : (mapGet (messageMaps chain).blocks key).getD [] ∉ l.processed name)
    (hreply : node.Previous ≠ [])
    (hanc : Ancestors (messageMaps chain).nodes node.Previous ancestors) :
    (amountOf (l.secondPass name chain (pre ++ [(key, node)])).Spent node.Author
        = amountOf (l.secondPass name chain pre).Spent node.Author
          + (shares node.Cost ancestors.length).sum ∧
      total (l.secondPass name chain (pre ++ [(key, node)])).Earned
        = total (l.secondPass name chain pre).Earned
          + (shares node.Cost ancestors.length).sum ∧
      amountOf (l.secondPass name chain (pre ++ [(key, node)])).Burned node.Author
        = amountOf (l.secondPass name chain pre).Burned node.Author
          + remaining node.Cost ancestors.length) ∧
    amountOf l.Spent node.Author + (shares node.Cost ancestors.length).sum
      ≤ amountOf (l.Update name chain).1.Spent node.Author ∧
    amountOf l.Burned node.Author + remaining node.Cost ancestors.length
      ≤ amountOf (l.Update name chain).1.Burned node.Author := by
  obtain ⟨hres, hall, hafter, -⟩ := Update_round l name chain pre post key node ancestors hname
    hok hnodes hnew hreply hanc
  obtain ⟨-, s3, s4, s9⟩ := Update_round_shares l name chain pre post key node ancestors hname
    hok hnodes hnew hreply hanc
  have hcost := messageMaps_cost chain
  rw [hnodes] at hcost
  simp only [List.map_append, List.map_cons, List.sum_append, List.sum_cons] at hcost
  have hsum := shares_sum node.Cost ancestors.length
  -- the ledger before the round
  obtain ⟨b1, b2⟩ := secondPass_room l name chain pre (chainCost chain) hroom (by omega)
  have hspent := amountOf_le_total (l.secondPass name chain pre).Spent node.Author
  have hburned := amountOf_le_total (l.secondPass name chain pre).Burned node.Author
  have r2 : total (l.secondPass name chain pre).Burned
      + (chainCost chain - (pre.map fun kn => kn.2.Cost).sum) < 2 ^ 64 := b2.2.1
  have r5 : total (l.secondPass name chain pre).Earned
      + (chainCost chain - (pre.map fun kn => kn.2.Cost).sum) < 2 ^ 64 := b2.2.2.2.2.1
  have r6 : total (l.secondPass name chain pre).Spent
      + (chainCost chain - (pre.map fun kn => kn.2.Cost).sum) < 2 ^ 64 := b2.2.2.2.2.2
  have e1 : amountOf (l.secondPass name chain (pre ++ [(key, node)])).Spent node.Author
      = amountOf (l.secondPass name chain pre).Spent node.Author
        + (shares node.Cost ancestors.length).sum := by
    rw [s3 node.Author, if_pos rfl]
    exact Nat.mod_eq_of_lt (by omega)
  have e2 : amountOf (l.secondPass name chain (pre ++ [(key, node)])).Burned node.Author
      = amountOf (l.secondPass name chain pre).Burned node.Author
        + remaining node.Cost ancestors.length := by
    rw [s4 node.Author, if_pos rfl]
    exact Nat.mod_eq_of_lt (by omega)
  -- the ledger after the round, and the rest of the pass
  have hroomAfter : (l.secondPass name chain (pre ++ [(key, node)])).Room
      (chainCost chain - (pre.map fun kn => kn.2.Cost).sum - node.Cost) := by
    rw [hafter]
    exact (reply_grows (messageMaps chain).nodes node.Author
      ((messageMaps chain).nodes.length + 1) node.Cost node.Previous
      (l.secondPass name chain pre) _ b2 (by omega)).2
  have hrest := (distribute_room name (messageMaps chain) post
    (l.secondPass name chain (pre ++ [(key, node)])) _ hroomAfter (by omega)).1
  rw [← hall] at hrest
  obtain ⟨-, -, m2, -, -, -, m6⟩ := markBlocks_fields name (messageMaps chain).blocks
    (l.secondPass name chain (pre ++ (key, node) :: post))
  refine ⟨⟨e1, s9 (by omega), e2⟩, ?_, ?_⟩
  · rw [hres, m6]
    have g1 := b1.2.2.2.2.2 node.Author
    have g2 := hrest.2.2.2.2.2 node.Author
    omega
  · rw [hres, m2]
    have g1 := b1.2.1 node.Author
    have g2 := hrest.2.1 node.Author
    omega

end Ledger

end conveygo

/-! ## The claims -/

namespace conveygo

/-- The sample thread on a fresh ledger: costs 3 (root), 4, 6 and 8; Bob
hands 2 to Alice and burns 2, Charlie hands 3 to Bob and 1 to Alice and burns
2, Alice hands 4 to Charlie, 2 to Bob and 1 to herself and burns 1 on top of
the 3 of her root message. -/
theorem Sample_thread_update :
    (NewLedger.Update "Convey-Message-abc" Sample.thread).2 = Outcome.ok ∧
    (NewLedger.Update "Convey-Message-abc" Sample.thread).1.Earned
      = [("Charlie", 4), ("Bob", 5), ("Alice", 4)] ∧
    (NewLedger.Update "Convey-Message-abc" Sample.thread).1.Spent
      = [("Alice", 7), ("Charlie", 4), ("Bob", 2)] ∧
    (NewLedger.Update "Convey-Message-abc" Sample.thread).1.Burned
      = [("Alice", 4), ("Charlie", 2), ("Bob", 2)] := by
  decide

/-- C1: after any sequence of `Update` and `UpdateAll` calls on a fresh
ledger, the sum over all aliases of Earned equals the sum over all aliases of
Spent.  The accumulators are `uint64`, so the records handed to the ledger are
taken to cost less than `2 ^ 64` tokens in total (below that no accumulator
can wrap). -/
theorem C1_earned_eq_spent (calls : List Call)
    (hroom : (calls.map Call.cost).sum < 2 ^ 64) :
    total (NewLedger.run calls).Earned = total (NewLedger.run calls).Spent :=
  Ledger.run_exact calls NewLedger rfl (by simpa [NewLedger, total] using hroom)

/-- C1 witness: the sample thread, updated twice, and the sample sales. -/
theorem C1_earned_eq_spent_witness :
    ([Call.update "Convey-Message-abc" Sample.thread,
      Call.updateAll [(CONVEY_TRANSACTION, Sample.bigSales),
        ("Convey-Message-abc", Sample.thread)]].map Call.cost).sum < 2 ^ 64 ∧
    total (NewLedger.run [Call.update "Convey-Message-abc" Sample.thread,
      Call.updateAll [(CONVEY_TRANSACTION, Sample.bigSales),
        ("Convey-Message-abc", Sample.thread)]]).Earned
      = total (NewLedger.run [Call.update "Convey-Message-abc" Sample.thread,
      Call.updateAll [(CONVEY_TRANSACTION, Sample.bigSales),
        ("Convey-Message-abc", Sample.thread)]]).Spent :=
  ⟨by decide, C1_earned_eq_spent _ (by decide)⟩

/-- C2 counterexample: Alice and Bob each sell `2 ^ 63` tokens to Carol.
Carol's Bought wraps to zero, so the Bought sum is `0` while the Sold sum is
`2 ^ 64`. -/
theorem C2_bought_ne_sold :
    total (NewLedger.run [Call.update CONVEY_TRANSACTION Sample.bigSales]).Bought = 0 ∧
    total (NewLedger.run [Call.update CONVEY_TRANSACTION Sample.bigSales]).Sold = 2 ^ 64 ∧
    total (NewLedger.run [Call.update CONVEY_TRANSACTION Sample.bigSales]).Bought
      ≠ total (NewLedger.run [Call.update CONVEY_TRANSACTION Sample.bigSales]).Sold := by
  decide

/-- C2, amended: after any sequence of `Update` and `UpdateAll` calls on a
fresh ledger, the sum over all aliases of Bought and the sum over all aliases
of Sold agree modulo `2 ^ 64`; they are equal whenever both are below
`2 ^ 64`. -/
theorem C2_bought_eq_sold_mod (calls : List Call) :
    total (NewLedger.run calls).Bought % 2 ^ 64 = total (NewLedger.run calls).Sold % 2 ^ 64 ∧
    (total (NewLedger.run calls).Bought < 2 ^ 64 → total (NewLedger.run calls).Sold < 2 ^ 64 →
      total (NewLedger.run calls).Bought = total (NewLedger.run calls).Sold) := by
  have h : Conserved (NewLedger.run calls) :=
    Ledger.run_keeps Conserved Conserved_stable calls NewLedger ⟨rfl, rfl⟩
  refine ⟨h.2, fun hb hs => ?_⟩
  have h2 := h.2
  rwa [Nat.mod_eq_of_lt hb, Nat.mod_eq_of_lt hs] at h2

/-- C2 witness: the funding chain, where Node sells 31557600 tokens to Alice
and to Bob; both sums are 63115200. -/
theorem C2_bought_eq_sold_mod_witness :
    total (NewLedger.run [Call.update CONVEY_TRANSACTION Sample.funding]).Bought < 2 ^ 64 ∧
    total (NewLedger.run [Call.update CONVEY_TRANSACTION Sample.funding]).Sold < 2 ^ 64 ∧
    total (NewLedger.run [Call.update CONVEY_TRANSACTION Sample.funding]).Bought
      = total (NewLedger.run [Call.update CONVEY_TRANSACTION Sample.funding]).Sold :=
  ⟨by decide, by decide,
    (C2_bought_eq_sold_mod [Call.update CONVEY_TRANSACTION Sample.funding]).2
      (by decide) (by decide)⟩

/-- C3: a second `Update(name, head)` right after one that returned no error
returns no error and leaves the ledger as it is: every accumulator, the
Aliases set and the processed sets, on every channel. -/
theorem C3_update_twice (l : Ledger) (name : String) (chain : bcgo.Chain)
    (hok : (l.Update name chain).2 = Outcome.ok) :
    (l.Update name chain).1.Update name chain = ((l.Update name chain).1, Outcome.ok) :=
  Ledger.Update_again l name chain hok

/-- C3 witness: the sample thread on a fresh ledger. -/
theorem C3_update_twice_witness :
    (NewLedger.Update "Convey-Message-abc" Sample.thread).2 = Outcome.ok ∧
    (NewLedger.Update "Convey-Message-abc" Sample.thread).1.Update "Convey-Message-abc"
        Sample.thread
      = ((NewLedger.Update "Convey-Message-abc" Sample.thread).1, Outcome.ok) :=
  ⟨by decide, C3_update_twice _ _ _ (by decide)⟩

/-- C4: let `Update` of a message chain end without error on a ledger with
room for the cost of the chain, and let the chain hold a reply of cost `c`, in
a block not processed before, whose ancestors reach a root message.  `Update`
leaves the ledger its second pass has reached after all nodes, with the blocks
marked.  In its round for the reply the second pass adds to the reply
author's Spent what it adds in total to Earned, and that amount plus what it
adds to the reply author's Burned is `c`; `Update` adds at least these amounts
to the reply author's Spent and Burned, and when the reply is the only message
in a block not processed before it adds just these amounts. -/
theorem C4_reply_complete (l : Ledger) (name : String) (chain : bcgo.Chain)
    (pre post : List (Hash × MessageNode)) (key : Hash) (node : MessageNode)
    (ancestors : List MessageNode)
    (hname : HasPrefix name CONVEY_PREFIX_MESSAGE = true)
    (hok : (l.Update name chain).2 = Outcome.ok)
    (hroom : l.Room (chainCost chain))
    (hnodes : (messageMaps chain).nodes = pre ++ (key, node) :: post)
    (hnew : (mapGet (messageMaps chain).blocks key).getD [] ∉ l.processed name)
    (hreply : node.Previous ≠ [])
    (hanc : Ancestors (messageMaps chain).nodes node.Previous ancestors) :
    (l.Update name chain).1
      = Ledger.markBlocks name (messageMaps chain).blocks
          (l.secondPass name chain (pre ++ (key, node) :: post)) ∧
    l.secondPass name chain (pre ++ (key, node) :: post)
      = (Ledger.distribute name (messageMaps chain) post
          (l.secondPass name chain (pre ++ [(key, node)]))).1 ∧
    ∃ spent burned : Nat,
      spent + burned = node.Cost ∧
      amountOf (l.secondPass name chain (pre ++ [(key, node)])).Spent node.Author
        = amountOf (l.secondPass name chain pre).Spent node.Author + spent ∧
      total (l.secondPass name chain (pre ++ [(key, node)])).Earned
        = total (l.secondPass name chain pre).Earned + spent ∧
      amountOf (l.secondPass name chain (pre ++ [(key, node)])).Burned node.Author
        = amountOf (l.secondPass name chain pre).Burned node.Author + burned ∧
      amountOf l.Spent node.Author + spent ≤ amountOf (l.Update name chain).1.Spent node.Author ∧
      amountOf l.Burned node.Author + burned
        ≤ amountOf (l.Update name chain).1.Burned node.Author ∧
      ((∀ kn ∈ pre ++ post,
          (mapGet (messageMaps chain).blocks kn.1).getD [] ∈ l.processed name) →
        amountOf (l.Update name chain).1.Spent node.Author
          = amountOf l.Spent node.Author + spent ∧
        total (l.Update name chain).1.Earned = total l.Earned + spent ∧
        amountOf (l.Update name chain).1.Burned node.Author
          = amountOf l.Burned node.Author + burned) := by
  obtain ⟨hres, hall, -, -⟩ := Ledger.Update_round l name chain pre post key node ancestors
    hname hok hnodes hnew hreply hanc
  obtain ⟨⟨e1, e2, e3⟩, g1, g2⟩ := Ledger.Update_round_exact l name chain pre post key node
    ancestors hname hok hroom hnodes hnew hreply hanc
  refine ⟨hres, hall, (shares node.Cost ancestors.length).sum,
    remaining node.Cost ancestors.length, shares_sum _ _, e1, e2, e3, g1, g2, fun hothers => ?_⟩
  obtain ⟨⟨u1, u2, u3⟩, v1, v2, v3⟩ := Ledger.Update_lone_fields l name chain pre post key node
    ancestors hname hok hnodes hnew hreply hanc hothers
  rw [u1, u2, u3, ← v1, ← v2, ← v3]
  exact ⟨e1, e2, e3⟩

/-- C4 witness: the ledger has seen the sample thread up to Charlie's reply;
`Update` of the whole thread then finds Alice's reply `[23]` of cost 8 in the
new block.  Alice spends 7 tokens, which her three ancestors earn, and burns
1. -/
theorem C4_reply_complete_witness :
    (Sample.afterEarly.Update (CONVEY_PREFIX_MESSAGE ++ EncodeToString [31]) Sample.thread).2
      = Outcome.ok ∧
    amountOf (Sample.afterEarly.Update (CONVEY_PREFIX_MESSAGE ++ EncodeToString [31])
      Sample.thread).1.Spent "Alice" = amountOf Sample.afterEarly.Spent "Alice" + 7 ∧
    total (Sample.afterEarly.Update (CONVEY_PREFIX_MESSAGE ++ EncodeToString [31])
      Sample.thread).1.Earned = total Sample.afterEarly.Earned + 7 ∧
    amountOf (Sample.afterEarly.Update (CONVEY_PREFIX_MESSAGE ++ EncodeToString [31])
      Sample.thread).1.Burned "Alice" = amountOf Sample.afterEarly.Burned "Alice" + 1 := by
  obtain ⟨-, -, spent, burned, hsum, -, -, -, -, hb, hlone⟩ :=
    C4_reply_complete Sample.afterEarly (CONVEY_PREFIX_MESSAGE ++ EncodeToString [31])
      Sample.thread []
      [([22], { Author := "Charlie", Cost := 6, Previous := [21] }),
       ([21], { Author := "Bob", Cost := 4, Previous := [20] }),
       ([20], { Author := "Alice", Cost := 3, Previous := [] })]
      [23] { Author := "Alice", Cost := 8, Previous := [22] } Sample.threadAncestors
      (HasPrefix_append _ _) (by decide) (by decide) (by decide) (by decide) (by decide)
      (by decide)
  obtain ⟨h1, h2, h3⟩ := hlone (by decide)
  have hburned : amountOf (Sample.afterEarly.Update
      (CONVEY_PREFIX_MESSAGE ++ EncodeToString [31]) Sample.thread).1.Burned "Alice"
      = amountOf Sample.afterEarly.Burned "Alice" + 1 := by decide
  have e : burned = 1 := by
    have h4 : amountOf Sample.afterEarly.Burned "Alice" + burned
        = amountOf Sample.afterEarly.Burned "Alice" + 1 := h3.symm.trans hburned
    omega
  have e' : spent = 7 := by
    have h5 : spent + burned = 8 := hsum
    omega
  rw [e'] at h1 h2
  rw [e] at h3
  exact ⟨by decide, h1, h2, h3⟩

/-- C5: take a reply of cost `c`, in a block not processed before, with
ancestors `a_1` (its parent), ..., `a_d` (the root message) on a message chain
of which `Update` ends without error.  `Update` leaves the ledger its second
pass has reached after all nodes, with the blocks marked.  In its round for
the reply the second pass adds, in `uint64` arithmetic, to Earned of every
alias the sum of `r_k / 2` over the ancestors `a_k` that alias wrote (the
reply author included), the sum of all `r_k / 2` to the reply author's Spent
and `r_d - r_d / 2` to the reply author's Burned, where `r_1 = c` and
`r_(k+1) = r_k - r_k / 2`; nothing else is earned, spent or burned in it.
When the reply is the only message in a block not processed before, this is
what `Update` adds to the ledger.  With a single ancestor the three amounts
are `c / 2`, `c / 2` and `c - c / 2`. -/
theorem C5_reply_shares (l : Ledger) (name : String) (chain : bcgo.Chain)
    (pre post : List (Hash × MessageNode)) (key : Hash) (node : MessageNode)
    (ancestors : List MessageNode)
    (hname : HasPrefix name CONVEY_PREFIX_MESSAGE = true)
    (hok : (l.Update name chain).2 = Outcome.ok)
    (hnodes : (messageMaps chain).nodes = pre ++ (key, node) :: post)
    (hnew : (mapGet (messageMaps chain).blocks key).getD [] ∉ l.processed name)
    (hreply : node.Previous ≠ [])
    (hanc : Ancestors (messageMaps chain).nodes node.Previous ancestors) :
    (l.Update name chain).1
      = Ledger.markBlocks name (messageMaps chain).blocks
          (l.secondPass name chain (pre ++ (key, node) :: post)) ∧
    l.secondPass name chain (pre ++ (key, node) :: post)
      = (Ledger.distribute name (messageMaps chain) post
          (l.secondPass name chain (pre ++ [(key, node)]))).1 ∧
    (∀ x, amountOf (l.secondPass name chain (pre ++ [(key, node)])).Earned x
      = if x ∈ ancestors.map MessageNode.Author
        then (amountOf (l.secondPass name chain pre).Earned x
          + credit node.Cost ancestors x) % 2 ^ 64
        else amountOf (l.secondPass name chain pre).Earned x) ∧
    (∀ x, amountOf (l.secondPass name chain (pre ++ [(key, node)])).Spent x
      = if x = node.Author
        then (amountOf (l.secondPass name chain pre).Spent x
          + (shares node.Cost ancestors.length).sum) % 2 ^ 64
        else amountOf (l.secondPass name chain pre).Spent x) ∧
    (∀ x, amountOf (l.secondPass name chain (pre ++ [(key, node)])).Burned x
      = if x = node.Author
        then (amountOf (l.secondPass name chain pre).Burned x
          + (remaining node.Cost (ancestors.length - 1)
            - remaining node.Cost (ancestors.length - 1) / 2)) % 2 ^ 64
        else amountOf (l.secondPass name chain pre).Burned x) ∧
    ((∀ kn ∈ pre ++ post,
        (mapGet (messageMaps chain).blocks kn.1).getD [] ∈ l.processed name) →
      (∀ x, amountOf (l.Update name chain).1.Earned x
        = if x ∈ ancestors.map MessageNode.Author
          then (amountOf l.Earned x + credit node.Cost ancestors x) % 2 ^ 64
          else amountOf l.Earned x) ∧
      (∀ x, amountOf (l.Update name chain).1.Spent x
        = if x = node.Author
          then (amountOf l.Spent x + (shares node.Cost ancestors.length).sum) % 2 ^ 64
          else amountOf l.Spent x) ∧
      (∀ x, amountOf (l.Update name chain).1.Burned x
        = if x = node.Author
          then (amountOf l.Burned x + (remaining node.Cost (ancestors.length - 1)
            - remaining node.Cost (ancestors.length - 1) / 2)) % 2 ^ 64
          else amountOf l.Burned x)) ∧
    (∀ a, ancestors = [a] →
      credit node.Cost ancestors a.Author = node.Cost / 2 ∧
      (shares node.Cost ancestors.length).sum = node.Cost / 2 ∧
      remaining node.Cost (ancestors.length - 1) - remaining node.Cost (ancestors.length - 1) / 2
        = node.Cost - node.Cost / 2) := by
  obtain ⟨hres, hall, -, -⟩ := Ledger.Update_round l name chain pre post key node ancestors
    hname hok hnodes hnew hreply hanc
  obtain ⟨s2, s3, s4, -⟩ := Ledger.Update_round_shares l name chain pre post key node
    ancestors hname hok hnodes hnew hreply hanc
  have hpos : ancestors.length - 1 + 1 = ancestors.length := by
    cases ancestors with
    | nil => exact absurd hanc (by simp [Ancestors])
    | cons a rest => simp
  have hrem : remaining node.Cost ancestors.length
      = remaining node.Cost (ancestors.length - 1)
        - remaining node.Cost (ancestors.length - 1) / 2 := by
    rw [← hpos]
    rfl
  rw [hrem] at s4
  refine ⟨hres, hall, s2, s3, s4, fun hothers => ?_, fun a ha => ?_⟩
  · obtain ⟨⟨u1, u2, u3⟩, v1, v2, v3⟩ := Ledger.Update_lone_fields l name chain pre post key
      node ancestors hname hok hnodes hnew hreply hanc hothers
    rw [u1, u2, u3, ← v1, ← v2, ← v3]
    exact ⟨s2, s3, s4⟩
  · subst ha
    refine ⟨?_, shares_one_sum node.Cost, rfl⟩
    rw [credit_cons, credit_nil]
    simp

/-- C5 witness: the ledger has seen the sample thread up to Charlie's reply;
`Update` of the whole thread then finds Alice's reply `[23]` of cost 8 in the
new block.  Charlie earns 4, Bob 2 and Alice, who wrote the root message, 1;
Alice spends 7 and burns 1. -/
theorem C5_reply_shares_witness :
    credit 8 Sample.threadAncestors "Charlie" = 4 ∧
    credit 8 Sample.threadAncestors "Bob" = 2 ∧
    credit 8 Sample.threadAncestors "Alice" = 1 ∧
    amountOf (Sample.afterEarly.Update (CONVEY_PREFIX_MESSAGE ++ EncodeToString [31])
      Sample.thread).1.Earned "Charlie" = amountOf Sample.afterEarly.Earned "Charlie" + 4 ∧
    amountOf (Sample.afterEarly.Update (CONVEY_PREFIX_MESSAGE ++ EncodeToString [31])
      Sample.thread).1.Earned "Bob" = amountOf Sample.afterEarly.Earned "Bob" + 2 ∧
    amountOf (Sample.afterEarly.Update (CONVEY_PREFIX_MESSAGE ++ EncodeToString [31])
      Sample.thread).1.Earned "Alice" = amountOf Sample.afterEarly.Earned "Alice" + 1 ∧
    amountOf (Sample.afterEarly.Update (CONVEY_PREFIX_MESSAGE ++ EncodeToString [31])
      Sample.thread).1.Spent "Alice" = amountOf Sample.afterEarly.Spent "Alice" + 7 ∧
    amountOf (Sample.afterEarly.Update (CONVEY_PREFIX_MESSAGE ++ EncodeToString [31])
      Sample.thread).1.Burned "Alice" = amountOf Sample.afterEarly.Burned "Alice" + 1 := by
  obtain ⟨h1, h2, h3⟩ :=
    (C5_reply_shares Sample.afterEarly (CONVEY_PREFIX_MESSAGE ++ EncodeToString [31])
      Sample.thread []
      [([22], { Author := "Charlie", Cost := 6, Previous := [21] }),
       ([21], { Author := "Bob", Cost := 4, Previous := [20] }),
       ([20], { Author := "Alice", Cost := 3, Previous := [] })]
      [23] { Author := "Alice", Cost := 8, Previous := [22] } Sample.threadAncestors
      (HasPrefix_append _ _) (by decide) (by decide) (by decide) (by decide)
      (by decide)).2.2.2.2.2.1 (by decide)
  exact ⟨by decide, by decide, by decide, (h1 "Charlie").trans (by decide),
    (h1 "Bob").trans (by decide), (h1 "Alice").trans (by decide),
    (h2 "Alice").trans (by decide), (h3 "Alice").trans (by decide)⟩

/-- C6: a fresh ledger updates a conversation chain holding one conversation
record and then the message chain of that conversation, which holds one root
message (empty previous) by the same author and no reply.  Both calls return
no error, the author's Burned is the cost of the conversation record plus the
cost of the message record, and the author's Spent and Earned are zero. -/
theorem C6_root_message_burns (author name : String) (h1 h2 : Hash) (b1 b2 : bcgo.Block)
    (conv msg : bcgo.BlockEntry) (m : Message)
    (hb1 : b1.Entry = [conv]) (hb2 : b2.Entry = [msg])
    (hconv : conv.Record.Creator = author) (hauthor : msg.Record.Creator = author)
    (hname : HasPrefix name CONVEY_PREFIX_MESSAGE = true)
    (hmsg : msg.Record.Payload.asMessage = some m) (hroot : m.Previous = [])
    (hroom : Cost conv.Record + Cost msg.Record < 2 ^ 64) :
    (NewLedger.UpdateAll [(CONVEY_CONVERSATION, [(h1, b1)]), (name, [(h2, b2)])]).2
      = Outcome.ok ∧
    amountOf (NewLedger.UpdateAll [(CONVEY_CONVERSATION, [(h1, b1)]), (name, [(h2, b2)])]).1.Burned
      author = Cost conv.Record + Cost msg.Record ∧
    amountOf (NewLedger.UpdateAll [(CONVEY_CONVERSATION, [(h1, b1)]), (name, [(h2, b2)])]).1.Spent
      author = 0 ∧
    amountOf (NewLedger.UpdateAll [(CONVEY_CONVERSATION, [(h1, b1)]), (name, [(h2, b2)])]).1.Earned
      author = 0 := by
  have hne : name ≠ CONVEY_CONVERSATION := Ledger.ne_of_HasPrefix name _ hname (by decide)
  have hne' : ¬ CONVEY_CONVERSATION = name := fun e => hne e.symm
  have hlt : Cost conv.Record < 18446744073709551616 := by omega
  have hU1 : NewLedger.Update CONVEY_CONVERSATION [(h1, b1)]
      = ({ NewLedger with
            Processed := [(CONVEY_CONVERSATION, [h1])]
            Aliases := [author]
            Burned := [(author, Cost conv.Record)] }, Outcome.ok) := by
    rw [Ledger.Update_conversation _ _ (by simp)]
    simp [Ledger.iterate, Ledger.openProcessed, bcgo.Iterate, Ledger.iterateCallback, Ledger.processed, Ledger.markProcessed,
      Ledger.conversationCallback, Ledger.conversationEntries, hb1, hconv, Ledger.RecordBurned, Record, mapGet,
      mapSet, setAdd, NewLedger, Nat.mod_eq_of_lt hlt]
  have hU2 : ∀ l0 : Ledger, l0.Processed = [(CONVEY_CONVERSATION, [h1])] →
      l0.Update name [(h2, b2)]
        = ({ l0 with
              Processed := [(CONVEY_CONVERSATION, [h1]), (name, [h2])]
              Aliases := setAdd l0.Aliases author
              Burned := Record l0.Burned author (Cost msg.Record) }, Outcome.ok) := by
    intro l0 hl0
    rw [Ledger.Update_message _ _ _ (by simp) hname]
    simp [Ledger.updateMessages, bcgo.Iterate, Ledger.messageCallback, Ledger.messageEntries, hb2, hmsg, hroot,
      hauthor, Ledger.distribute, Ledger.markBlocks, Ledger.openProcessed, Ledger.processed, Ledger.markProcessed, mapGet, mapSet,
      setAdd, Ledger.RecordBurned, hl0, hne, hne']
  unfold Ledger.UpdateAll
  rw [hU1]
  simp only
  unfold Ledger.UpdateAll
  rw [hU2 _ rfl]
  simp only [Ledger.UpdateAll]
  refine ⟨trivial, ?_, rfl, rfl⟩
  show amountOf (Record [(author, Cost conv.Record)] author (Cost msg.Record)) author = _
  rw [amountOf_Record, if_pos rfl]
  have h0 : amountOf [(author, Cost conv.Record)] author = Cost conv.Record := by
    simp [amountOf, mapGet]
  rw [h0]
  exact Nat.mod_eq_of_lt hroom

/-- C6 witness: Alice opens a conversation with a record of 300 bytes and a
root message of 250 bytes. -/
theorem C6_root_message_burns_witness :
    Cost (Sample.opening "Alice" 300) + Cost (Sample.post "Alice" [] 250) < 2 ^ 64 ∧
    amountOf (NewLedger.UpdateAll
      [(CONVEY_CONVERSATION,
          [([1], { Timestamp := 1, Miner := "Node",
                   Entry := [{ RecordHash := [31], Record := Sample.opening "Alice" 300 }] })]),
       ("Convey-Message-abc",
          [([2], { Timestamp := 2, Miner := "Node",
                   Entry := [{ RecordHash := [20],
                               Record := Sample.post "Alice" [] 250 }] })])]).1.Burned "Alice"
      = Cost (Sample.opening "Alice" 300) + Cost (Sample.post "Alice" [] 250) :=
  ⟨by decide,
    (C6_root_message_burns "Alice" "Convey-Message-abc" [1] [2] _ _
      { RecordHash := [31], Record := Sample.opening "Alice" 300 }
      { RecordHash := [20], Record := Sample.post "Alice" [] 250 }
      { Previous := [], Content := [], MediaType := 0 }
      rfl rfl rfl rfl (by decide) rfl rfl (by decide)).2.1⟩

/-- C7: on each of the six periodic validation chains, with its reward
constant (3600, 86400, 604800, 31557600, 315576000, 3155760000), `Update` over
a chain of distinct blocks returns no error, adds to Minted of every alias, in
`uint64` arithmetic, the number of not-yet-processed blocks that alias mined
times the constant, and leaves Burned, Bought, Sold, Earned and Spent as they
are. -/
theorem C7_pvc_minted (l : Ledger) (name : String) (reward : Nat) (chain : bcgo.Chain)
    (hname : (name, reward) ∈
      [(CONVEY_HOUR, 3600), (CONVEY_DAY, 86400), (CONVEY_WEEK, 604800),
       (CONVEY_YEAR, 31557600), (CONVEY_DECADE, 315576000), (CONVEY_CENTURY, 3155760000)])
    (hdistinct : (chain.map Prod.fst).Nodup)
    (huint : ∀ m, amountOf l.Minted m < 2 ^ 64) :
    (l.Update name chain).2 = Outcome.ok ∧
    (∀ m, amountOf (l.Update name chain).1.Minted m
      = (amountOf l.Minted m + minedBy (l.unprocessed name chain) m * reward) % 2 ^ 64) ∧
    (l.Update name chain).1.Burned = l.Burned ∧
    (l.Update name chain).1.Bought = l.Bought ∧
    (l.Update name chain).1.Sold = l.Sold ∧
    (l.Update name chain).1.Earned = l.Earned ∧
    (l.Update name chain).1.Spent = l.Spent := by
  simp only [List.mem_cons, Prod.mk.injEq, List.mem_singleton, List.not_mem_nil, or_false]
    at hname
  rcases hname with ⟨rfl, rfl⟩ | ⟨rfl, rfl⟩ | ⟨rfl, rfl⟩ | ⟨rfl, rfl⟩ | ⟨rfl, rfl⟩ | ⟨rfl, rfl⟩
  · exact Ledger.mint_update l _ _ chain (Ledger.Update_hour l chain) hdistinct huint
  · exact Ledger.mint_update l _ _ chain (Ledger.Update_day l chain) hdistinct huint
  · exact Ledger.mint_update l _ _ chain (Ledger.Update_week l chain) hdistinct huint
  · exact Ledger.mint_update l _ _ chain (Ledger.Update_year l chain) hdistinct huint
  · exact Ledger.mint_update l _ _ chain (Ledger.Update_decade l chain) hdistinct huint
  · exact Ledger.mint_update l _ _ chain (Ledger.Update_century l chain) hdistinct huint

/-- C7 witness: the yearly chain of two blocks on a ledger that has processed
the older one; the head block, mined by Alice, is the one still to process. -/
theorem C7_pvc_minted_witness :
    Sample.afterOneYear.unprocessed CONVEY_YEAR Sample.years = Sample.years.take 1 ∧
    amountOf (Sample.afterOneYear.Update CONVEY_YEAR Sample.years).1.Minted "Alice"
      = (amountOf Sample.afterOneYear.Minted "Alice"
          + minedBy (Sample.afterOneYear.unprocessed CONVEY_YEAR Sample.years) "Alice"
            * 31557600) % 2 ^ 64 :=
  ⟨by decide,
    (C7_pvc_minted Sample.afterOneYear CONVEY_YEAR 31557600 Sample.years (by decide)
      (by decide) (amountOf_lt_of_forall _ (by decide))).2.1 "Alice"⟩

/-- C8: on the transaction chain, over a chain of distinct blocks whose
not-yet-processed blocks hold only payloads that parse as transactions,
`Update` returns no error, adds to Sold of every alias, in `uint64`
arithmetic, the sum of the amounts of the entries of those blocks it sent,
adds to Bought of every alias the sum of the amounts of those it received,
and leaves Minted, Burned, Earned and Spent as they are. -/
theorem C8_transaction_sold_bought (l : Ledger) (chain : bcgo.Chain)
    (hdistinct : (chain.map Prod.fst).Nodup)
    (hparse : ∀ entry ∈ entriesOf (l.unprocessed CONVEY_TRANSACTION chain),
      entry.Record.Payload.asTransaction.isSome = true)
    (hsold : ∀ a, amountOf l.Sold a < 2 ^ 64)
    (hbought : ∀ a, amountOf l.Bought a < 2 ^ 64) :
    (l.Update CONVEY_TRANSACTION chain).2 = Outcome.ok ∧
    (∀ s, amountOf (l.Update CONVEY_TRANSACTION chain).1.Sold s
      = (amountOf l.Sold s
          + soldBy (entriesOf (l.unprocessed CONVEY_TRANSACTION chain)) s) % 2 ^ 64) ∧
    (∀ r, amountOf (l.Update CONVEY_TRANSACTION chain).1.Bought r
      = (amountOf l.Bought r
          + boughtBy (entriesOf (l.unprocessed CONVEY_TRANSACTION chain)) r) % 2 ^ 64) ∧
    (l.Update CONVEY_TRANSACTION chain).1.Minted = l.Minted ∧
    (l.Update CONVEY_TRANSACTION chain).1.Burned = l.Burned ∧
    (l.Update CONVEY_TRANSACTION chain).1.Earned = l.Earned ∧
    (l.Update CONVEY_TRANSACTION chain).1.Spent = l.Spent :=
  Ledger.transaction_update l chain hdistinct hparse hsold hbought

/-- C8 witness: the funding chain on a ledger that has processed the transfer
to Alice; the transfer of 31557600 tokens from Node to Bob is still to
process. -/
theorem C8_transaction_sold_bought_witness :
    soldBy (entriesOf (Sample.afterOneTransfer.unprocessed CONVEY_TRANSACTION Sample.funding))
      "Node" = 31557600 ∧
    amountOf (Sample.afterOneTransfer.Update CONVEY_TRANSACTION Sample.funding).1.Sold "Node"
      = (amountOf Sample.afterOneTransfer.Sold "Node"
          + soldBy (entriesOf
              (Sample.afterOneTransfer.unprocessed CONVEY_TRANSACTION Sample.funding))
              "Node") % 2 ^ 64 :=
  ⟨by decide,
    (C8_transaction_sold_bought Sample.afterOneTransfer Sample.funding (by decide) (by decide)
      (amountOf_lt_of_forall _ (by decide)) (amountOf_lt_of_forall _ (by decide))).2.1 "Node"⟩

/-- C9: on the conversation chain, over a chain of distinct blocks, `Update`
returns no error, adds to Burned of every alias, in `uint64` arithmetic, the
sum of `Cost(record)` over the entries of the not-yet-processed blocks whose
record that alias created, and leaves Minted, Bought, Sold, Earned and Spent
as they are. -/
theorem C9_conversation_burned (l : Ledger) (chain : bcgo.Chain)
    (hdistinct : (chain.map Prod.fst).Nodup)
    (huint : ∀ a, amountOf l.Burned a < 2 ^ 64) :
    (l.Update CONVEY_CONVERSATION chain).2 = Outcome.ok ∧
    (∀ a, amountOf (l.Update CONVEY_CONVERSATION chain).1.Burned a
      = (amountOf l.Burned a
          + burnedBy (entriesOf (l.unprocessed CONVEY_CONVERSATION chain)) a) % 2 ^ 64) ∧
    (l.Update CONVEY_CONVERSATION chain).1.Minted = l.Minted ∧
    (l.Update CONVEY_CONVERSATION chain).1.Bought = l.Bought ∧
    (l.Update CONVEY_CONVERSATION chain).1.Sold = l.Sold ∧
    (l.Update CONVEY_CONVERSATION chain).1.Earned = l.Earned ∧
    (l.Update CONVEY_CONVERSATION chain).1.Spent = l.Spent :=
  Ledger.conversation_update l chain hdistinct huint

/-- C9 witness: the conversation chain on a ledger that has processed Alice's
conversation; Bob's record of 420 bytes, cost 5, is still to process. -/
theorem C9_conversation_burned_witness :
    burnedBy (entriesOf
      (Sample.afterOneConversation.unprocessed CONVEY_CONVERSATION Sample.conversations))
      "Bob" = 5 ∧
    amountOf (Sample.afterOneConversation.Update CONVEY_CONVERSATION
        Sample.conversations).1.Burned "Bob"
      = (amountOf Sample.afterOneConversation.Burned "Bob"
          + burnedBy (entriesOf (Sample.afterOneConversation.unprocessed CONVEY_CONVERSATION
              Sample.conversations)) "Bob") % 2 ^ 64 :=
  ⟨by decide,
    (C9_conversation_burned Sample.afterOneConversation Sample.conversations (by decide)
      (amountOf_lt_of_forall _ (by decide))).2.1 "Bob"⟩

/-- C10: `Cost(record)` is the ceiling of the encoded size of the record
divided by 100, the least natural `k` with `100 * k ≥ size` (0 for size 0, 1
for sizes 1 to 100, 2 for sizes 101 to 200, ...), for every size below
`2 ^ 53` bytes, the sizes `float64` holds exactly. -/
theorem C10_cost_ceiling (record : bcgo.Record) (hsize : record.Size < 2 ^ 53) :
    record.Size ≤ 100 * Cost record ∧
    (∀ k, record.Size ≤ 100 * k → Cost record ≤ k) ∧
    Cost record = (record.Size + 99) / 100 := by
  have h := Cost_eq record hsize
  refine ⟨?_, fun k hk => ?_, h⟩
  · rw [h]; omega
  · rw [h]; omega

/-- C10 witness: a record of 101 bytes costs 2 tokens; records of 0, 1, 100,
200 and 201 bytes cost 0, 1, 1, 2 and 3. -/
theorem C10_cost_ceiling_witness :
    (Sample.post "Alice" [] 101).Size < 2 ^ 53 ∧
    Cost (Sample.post "Alice" [] 101) = ((Sample.post "Alice" [] 101).Size + 99) / 100 ∧
    [Cost (Sample.post "Alice" [] 0), Cost (Sample.post "Alice" [] 1),
      Cost (Sample.post "Alice" [] 100), Cost (Sample.post "Alice" [] 101),
      Cost (Sample.post "Alice" [] 200), Cost (Sample.post "Alice" [] 201)]
      = [0, 1, 1, 2, 2, 3] :=
  ⟨by decide, (C10_cost_ceiling (Sample.post "Alice" [] 101) (by decide)).2.2, by decide⟩

/-- C11: when the signed sum minted + bought + earned - burned - sold - spent
of an alias fits in a signed 64-bit integer, `GetBalance` returns that sum; an
alias absent from a map counts as zero there. -/
theorem C11_balance (l : Ledger) (who : String)
    (hlow : -(2 ^ 63 : Int) ≤ (amountOf l.Minted who : Int) + amountOf l.Bought who
      + amountOf l.Earned who - amountOf l.Burned who - amountOf l.Sold who
      - amountOf l.Spent who)
    (hhigh : (amountOf l.Minted who : Int) + amountOf l.Bought who
      + amountOf l.Earned who - amountOf l.Burned who - amountOf l.Sold who
      - amountOf l.Spent who < 2 ^ 63) :
    l.GetBalance who = (amountOf l.Minted who : Int) + amountOf l.Bought who
      + amountOf l.Earned who - amountOf l.Burned who - amountOf l.Sold who
      - amountOf l.Spent who := by
  rw [Ledger.GetBalance_eq]
  exact int64_eq _ hlow hhigh

/-- C11 witness: Alice has burned 3 for her conversation and holds nothing
else, so her balance is -3. -/
theorem C11_balance_witness :
    Sample.afterOneConversation.GetBalance "Alice" = -3 :=
  C11_balance Sample.afterOneConversation "Alice" (by decide) (by decide)

/-- C12: on a chain whose payloads all parse as transactions, `Validate`
returns an error exactly when some entry has a record creator different from
its transaction sender; the error then is the text "Record Creator and
Transaction Sender don't match: creator vs sender" of the first such entry in
walk order, and there is no error when all match. -/
theorem C12_validate (chain : bcgo.Chain)
    (hparse : ∀ entry ∈ entriesOf chain, entry.Record.Payload.asTransaction ≠ none) :
    (TransactionValidator.Validate chain ≠ none
      ↔ ∃ entry ∈ entriesOf chain, ∃ t, entry.Record.Payload.asTransaction = some t ∧
          entry.Record.Creator ≠ t.Sender) ∧
    (∀ before entry after t, entriesOf chain = before ++ entry :: after →
      (∀ e ∈ before, ∀ t0, e.Record.Payload.asTransaction = some t0 →
        e.Record.Creator = t0.Sender) →
      entry.Record.Payload.asTransaction = some t → entry.Record.Creator ≠ t.Sender →
      TransactionValidator.Validate chain
        = some (bcgo.Error.Text ("Record Creator and Transaction Sender don't match: "
            ++ entry.Record.Creator ++ " vs " ++ t.Sender))) ∧
    ((∀ entry ∈ entriesOf chain, ∀ t, entry.Record.Payload.asTransaction = some t →
        entry.Record.Creator = t.Sender) →
      TransactionValidator.Validate chain = none) := by
  have hv := TransactionValidator.Validate_eq chain hparse
  refine ⟨?_, ?_, ?_⟩
  · rw [hv]
    constructor
    · intro hne
      by_contra hall
      apply hne
      have hnone : firstMismatch (entriesOf chain) = none := by
        rw [firstMismatch_eq_none]
        intro entry he t ht
        by_contra hcs
        exact hall ⟨entry, he, t, ht, hcs⟩
      rw [hnone]
      rfl
    · rintro ⟨entry, he, t, ht, hcs⟩ hnone
      have hfm : firstMismatch (entriesOf chain) = none := by
        cases hf : firstMismatch (entriesOf chain) with
        | none => rfl
        | some p => rw [hf] at hnone; simp at hnone
      exact hcs ((firstMismatch_eq_none _).mp hfm entry he t ht)
  · intro before entry after t hsplit hbefore ht hcs
    rw [hv, hsplit,
      firstMismatch_first before after entry t ((firstMismatch_eq_none _).mpr hbefore) ht hcs]
    rfl
  · intro hall
    rw [hv, (firstMismatch_eq_none _).mpr hall]
    rfl

/-- C12 witness: Mallory signs a transfer out of Alice's account in the head
block of a chain whose older block is sound. -/
theorem C12_validate_witness :
    TransactionValidator.Validate Sample.forged
      = some (bcgo.Error.Text
          "Record Creator and Transaction Sender don't match: Mallory vs Alice") :=
  (C12_validate Sample.forged (by decide)).2.1 [] _ _ _ rfl (by decide) rfl (by decide)

/-- C13: on a message chain with a single root message, `BCStore.GetYield`
returns the cost of the root message and a reward that is the sum, over the
replies, of one share each: a reply at depth `d`, whose way up has `d - 1`
replies and ends at the root message, gives `r_d / 2` with `r_1` its cost and
`r_(k+1) = r_k - r_k / 2`, which is `remaining cost (d - 1) / 2`; a reply whose
way up ends at a hash that is not on the chain gives 0.  The sum is taken in
`uint64` and is exact when the costs of the replies together stay below
`2 ^ 64`. -/
theorem C13_yield (s : BCStore) (conversationHash : Hash) (chain : bcgo.Chain)
    (root : bcgo.BlockEntry)
    (hchannel : mapGet s.Channels (CONVEY_PREFIX_MESSAGE ++ EncodeToString conversationHash)
      = some chain)
    (hparse : ∀ entry ∈ entriesOf chain, entry.Record.Payload.asMessage ≠ none)
    (hroot : rootMessages (entriesOf chain) = [root])
    (hnodup : ((replyNodes (entriesOf chain)).map Prod.fst).Nodup)
    (hends : ∀ reply ∈ replyNodes (entriesOf chain), ∃ nodes last,
      Trail (replyNodes (entriesOf chain)) root.RecordHash reply.2.Previous nodes last) :
    ∃ shares : List Nat,
      List.Forall₂ (fun (reply : Hash × ReplyNode) share =>
          (∀ nodes, Trail (replyNodes (entriesOf chain)) root.RecordHash reply.2.Previous
              nodes root.RecordHash →
            share = remaining reply.2.Cost nodes.length / 2) ∧
          (∀ nodes last, Trail (replyNodes (entriesOf chain)) root.RecordHash
              reply.2.Previous nodes last → last ≠ root.RecordHash → share = 0))
        (replyNodes (entriesOf chain)) shares ∧
      s.GetYield conversationHash
        = ((Cost root.Record, shares.sum % 2 ^ 64), Outcome.ok) ∧
      (((replyNodes (entriesOf chain)).map fun reply => reply.2.Cost).sum < 2 ^ 64 →
        s.GetYield conversationHash = ((Cost root.Record, shares.sum), Outcome.ok)) := by
  have hhash : (rootMessages (entriesOf chain)).foldl (fun _ e => e.RecordHash) []
      = root.RecordHash := by rw [hroot]; rfl
  have hcost : (rootMessages (entriesOf chain)).foldl (fun _ e => Cost e.Record) 0
      = Cost root.Record := by rw [hroot]; rfl
  obtain ⟨shares, hshares, hyield⟩ := BCStore.GetYield_eq s conversationHash chain hchannel
    hparse hnodup (by rw [hhash]; exact hends)
  rw [hhash] at hshares
  rw [hcost] at hyield
  have hle := share_le_cost _ _ _ _ hshares hends
  refine ⟨shares, ?_, hyield, ?_⟩
  · refine hshares.imp ?_
    intro reply share hP
    refine ⟨fun nodes ht => ?_, fun nodes last ht hne => ?_⟩
    · rw [hP nodes _ ht, if_pos rfl]
    · rw [hP nodes last ht, if_neg hne]
  · intro hsmall
    rw [hyield, Nat.mod_eq_of_lt (Nat.lt_of_le_of_lt (shares_sum_le _ _ hle) hsmall)]

/-- C13 witness: the sample thread under Alice's conversation.  The root
message costs 3; Bob's reply of cost 4 at depth 1 gives 2, Charlie's of cost 6
at depth 2 gives 1 and Alice's of cost 8 at depth 3 gives 1. -/
theorem C13_yield_witness :
    Sample.store.GetYield [31] = ((3, 4), Outcome.ok) := by
  obtain ⟨shares, hshares, _, hexact⟩ := C13_yield Sample.store [31] Sample.thread
    { RecordHash := [20], Record := Sample.post "Alice" [] 250 }
    (by decide) (by decide) (by decide) (by decide) Sample_thread_ends
  rw [hexact (by decide)]
  rw [Sample_thread_replies] at hshares
  cases hshares with
  | cons h1 hrest =>
    cases hrest with
    | cons h2 hrest =>
      cases hrest with
      | cons h3 hrest =>
        cases hrest
        rw [h1.1 [{ Previous := [21], Cost := 6, Reward := 0 },
                  { Previous := [20], Cost := 4, Reward := 0 }] (by decide),
          h2.1 [{ Previous := [20], Cost := 4, Reward := 0 }] (by decide),
          h3.1 [] (by decide)]
        decide

/-- C14, as stated, fails for the memory store: the conversation `[31]` of the
sample store holds one message, a root message of cost 3, and no reply, yet
`MemoryStore.GetYield` returns cost 0 and not 3. -/
theorem C14_memory_yield_ignores_cost :
    Sample.memory.GetMessage [31] none noteCalls []
      = ([([20], 0, "", 3, { Previous := [], Content := [], MediaType := 0 })], Outcome.ok) ∧
    Sample.memory.GetYield [31] = ((0, 0), Outcome.ok) ∧
    Sample.memory.GetYield [31] ≠ ((3, 0), Outcome.ok) := by
  decide

/-- C14, amended: for a conversation of a `BCStore` whose message chain holds
one root message and no reply, `GetYield` returns the cost of the root message
and reward 0, and for an empty message chain it returns (0, 0), both without
error; `MemoryStore.GetYield` returns (0, 0) without error for every store and
conversation, whatever the messages cost. -/
theorem C14_yield_without_replies (s : BCStore) (memory : MemoryStore)
    (conversationHash : Hash) :
    (∀ chain root,
      mapGet s.Channels (CONVEY_PREFIX_MESSAGE ++ EncodeToString conversationHash)
        = some chain →
      (∀ entry ∈ entriesOf chain, entry.Record.Payload.asMessage ≠ none) →
      rootMessages (entriesOf chain) = [root] →
      replyNodes (entriesOf chain) = [] →
      s.GetYield conversationHash = ((Cost root.Record, 0), Outcome.ok)) ∧
    (mapGet s.Channels (CONVEY_PREFIX_MESSAGE ++ EncodeToString conversationHash) = some [] →
      s.GetYield conversationHash = ((0, 0), Outcome.ok)) ∧
    memory.GetYield conversationHash = ((0, 0), Outcome.ok) := by
  refine ⟨?_, ?_, rfl⟩
  · intro chain root hchannel hparse hroot hreplies
    obtain ⟨shares, hshares, hyield⟩ := BCStore.GetYield_eq s conversationHash chain hchannel
      hparse (by rw [hreplies]; exact List.nodup_nil)
      (by rw [hreplies]; intro reply hmem; exact absurd hmem (List.not_mem_nil _))
    rw [hreplies] at hshares
    cases hshares
    rw [hyield, hroot]
    rfl
  · intro hchannel
    obtain ⟨shares, hshares, hyield⟩ := BCStore.GetYield_eq s conversationHash [] hchannel
      (by intro entry hmem; exact absurd hmem (List.not_mem_nil _)) List.nodup_nil
      (by intro reply hmem; exact absurd hmem (List.not_mem_nil _))
    cases hshares
    rw [hyield]
    rfl

/-- C14 witness: the store `quiet` holds the root message of cost 3 alone
under `[31]`, the store `store` an empty message chain under `[32]`, and the
memory store a root message of cost 3. -/
theorem C14_yield_without_replies_witness :
    Sample.quiet.GetYield [31] = ((3, 0), Outcome.ok) ∧
    Sample.store.GetYield [32] = ((0, 0), Outcome.ok) ∧
    Sample.memory.GetYield [31] = ((0, 0), Outcome.ok) :=
  ⟨(C14_yield_without_replies Sample.quiet Sample.memory [31]).1 (Sample.thread.drop 2)
      { RecordHash := [20], Record := Sample.post "Alice" [] 250 }
      (by decide) (by decide) (by decide) (by decide),
    (C14_yield_without_replies Sample.store Sample.memory [32]).2.1 (by decide),
    (C14_yield_without_replies Sample.store Sample.memory [31]).2.2⟩

/-- C15: the entries `GetDigestEntries` returns are in the order of their
yields, largest first, whenever the library sort leaves no entry before one of
larger yield. -/
theorem C15_digest_ordered
    (sortSlice : (DigestEntry → DigestEntry → Bool) → List DigestEntry → List DigestEntry)
    (messages : MessageStore) (fromTime toTime : Nat)
    (hsort : ∀ entries,
      (sortSlice yieldLess entries).Pairwise fun a b => yieldLess b a = false) :
    YieldOrdered (GetDigestEntries sortSlice messages fromTime toTime).1 := by
  obtain ⟨all, h | h⟩ := GetDigestEntries_take sortSlice messages fromTime toTime
  · rw [h]
    unfold YieldOrdered
    refine ((hsort all).sublist (List.take_sublist _ _)).imp ?_
    intro a b hab
    exact (yieldLess_eq_false a b).mp hab
  · rw [h]
    exact List.Pairwise.nil

/-- C15 witness: conversations with yields +5, -3 and +2 come back in the
order +5, +2, -3. -/
theorem C15_digest_ordered_witness :
    YieldOrdered (GetDigestEntries Sample.sortSlice Sample.digests 0 3).1 ∧
    (GetDigestEntries Sample.sortSlice Sample.digests 0 3).1.map DigestEntry.Yield
      = [5, 2, -3] :=
  ⟨C15_digest_ordered Sample.sortSlice Sample.digests 0 3
      (fun entries => (Sample_sortSlice_sorted entries).2),
    by decide⟩

/-- C16: when `GetDigestEntries` returns no error it returns `min n 4`
entries, `n` being the number of conversations `GetAllConversations` returned;
there is one entry for every conversation, the entries returned together with
the entries left out are those, each once, and no entry left out has a larger
yield than an entry returned. -/
theorem C16_digest_limit
    (sortSlice : (DigestEntry → DigestEntry → Bool) → List DigestEntry → List DigestEntry)
    (messages : MessageStore) (fromTime toTime : Nat)
    (hsort : ∀ entries, (sortSlice yieldLess entries).Perm entries ∧
      (sortSlice yieldLess entries).Pairwise fun a b => yieldLess b a = false)
    (hok : (GetDigestEntries sortSlice messages fromTime toTime).2 = none) :
    (GetDigestEntries sortSlice messages fromTime toTime).1.length
      = min (messages.GetAllConversations fromTime toTime).1.length DIGEST_LIMIT ∧
    ∃ all omitted,
      List.Forall₂ (EntryOf messages) (messages.GetAllConversations fromTime toTime).1 all ∧
      ((GetDigestEntries sortSlice messages fromTime toTime).1 ++ omitted).Perm all ∧
      ∀ x ∈ omitted, ∀ y ∈ (GetDigestEntries sortSlice messages fromTime toTime).1,
        x.Yield ≤ y.Yield := by
  obtain ⟨all, hall, hresult⟩ := GetDigestEntries_ok sortSlice messages fromTime toTime hok
  obtain ⟨hperm, hsorted⟩ := hsort all
  rw [hresult]
  refine ⟨?_, all, (sortSlice yieldLess all).drop DIGEST_LIMIT, hall, ?_, ?_⟩
  · rw [List.length_take, hperm.length_eq, hall.length_eq, Nat.min_comm]
  · rw [List.take_append_drop]
    exact hperm
  · intro x hx y hy
    have hsplit := hsorted
    rw [← List.take_append_drop DIGEST_LIMIT (sortSlice yieldLess all),
      List.pairwise_append] at hsplit
    exact (yieldLess_eq_false y x).mp (hsplit.2.2 y hy x hx)

/-- C16 witness: of five conversations four come back. -/
theorem C16_digest_limit_witness :
    (GetDigestEntries Sample.sortSlice Sample.digests 0 10).1.length
      = min (Sample.digests.GetAllConversations 0 10).1.length DIGEST_LIMIT ∧
    (Sample.digests.GetAllConversations 0 10).1.length = 5 ∧
    (GetDigestEntries Sample.sortSlice Sample.digests 0 10).1.map DigestEntry.Yield
      = [5, 2, 1, 0] :=
  ⟨(C16_digest_limit Sample.sortSlice Sample.digests 0 10 Sample_sortSlice_sorted
      (by decide)).1,
    by decide, by decide⟩

/-- C17: when `GetDigestEntries` returns no error, every entry it returns
belongs to a conversation `GetAllConversations` returned, has for cost the cost
of that listing plus the cost `GetYield` returned, for reward the reward
`GetYield` returned, both in `uint64`, and for yield the `int64` difference
reward minus cost, which is the signed difference when reward and cost are
below `2 ^ 63`. -/
theorem C17_digest_entry
    (sortSlice : (DigestEntry → DigestEntry → Bool) → List DigestEntry → List DigestEntry)
    (messages : MessageStore) (fromTime toTime : Nat)
    (hsort : ∀ entries, (sortSlice yieldLess entries).Perm entries)
    (hok : (GetDigestEntries sortSlice messages fromTime toTime).2 = none)
    (entry : DigestEntry)
    (hentry : entry ∈ (GetDigestEntries sortSlice messages fromTime toTime).1) :
    (∃ c ∈ (messages.GetAllConversations fromTime toTime).1, ∃ cost reward,
      messages.GetYield c.Hash = ((cost, reward), none) ∧
      entry.Cost = (c.Cost + cost) % 2 ^ 64 ∧ entry.Reward = reward % 2 ^ 64 ∧
      (c.Cost + cost < 2 ^ 64 → reward < 2 ^ 64 →
        entry.Cost = c.Cost + cost ∧ entry.Reward = reward)) ∧
    entry.Yield = int64 ((entry.Reward : Int) - entry.Cost) ∧
    (entry.Reward < 2 ^ 63 → entry.Cost < 2 ^ 63 →
      entry.Yield = (entry.Reward : Int) - entry.Cost) := by
  obtain ⟨all, hall, hresult⟩ := GetDigestEntries_ok sortSlice messages fromTime toTime hok
  rw [hresult] at hentry
  have hmem : entry ∈ all := (hsort all).subset (List.mem_of_mem_take hentry)
  obtain ⟨c, hc, hce⟩ := EntryOf_of_mem messages _ all hall entry hmem
  have hyield := EntryOf_yield messages c entry hce
  obtain ⟨cost, reward, hy, _, _, _, _, hcost, hreward, _⟩ := hce
  refine ⟨⟨c, hc, cost, reward, hy, hcost, hreward, ?_⟩, hyield, ?_⟩
  · intro h1 h2
    rw [hcost, hreward, Nat.mod_eq_of_lt h1, Nat.mod_eq_of_lt h2]
    exact ⟨rfl, rfl⟩
  · intro h1 h2
    rw [hyield]
    apply int64_eq
    · have : (0 : Int) ≤ entry.Reward := Int.ofNat_nonneg _
      have : (entry.Cost : Int) < 2 ^ 63 := by exact_mod_cast h2
      omega
    · have : (0 : Int) ≤ entry.Cost := Int.ofNat_nonneg _
      have : (entry.Reward : Int) < 2 ^ 63 := by exact_mod_cast h1
      omega

/-- C17 witness: the conversation `[2]` is listed at cost 5, `GetYield` gives
cost 2 and reward 4, and its entry has cost 7, reward 4 and yield -3. -/
theorem C17_digest_entry_witness :
    Sample.loss ∈ (GetDigestEntries Sample.sortSlice Sample.digests 0 3).1 ∧
    Sample.loss.Yield = (Sample.loss.Reward : Int) - Sample.loss.Cost :=
  ⟨by decide,
    (C17_digest_entry Sample.sortSlice Sample.digests 0 3
      (fun entries => (Sample_sortSlice_sorted entries).1) (by decide) Sample.loss
      (by decide)).2.2 (by decide) (by decide)⟩

/-- C18: for a hash under which no conversation is stored, `GetConversation`
returns no listing, and `GetConversation`, `AddMessage` and `GetMessage` each
return the error "No such conversation: " followed by the unpadded base64url
text of the hash; `GetMessage` leaves the state of its callback as it was, so
the callback is not called, and `AddMessage` leaves the store as it was.  In a
blockchain store, whose node holds the conversation channel, the hash is that
of no entry of the conversation chain and names no message channel; in a
memory store built by calls from the empty one it is no key of
`Conversations`. -/
theorem C18_no_such_conversation (s : BCStore) (calls : List MemoryStore.Call)
    (conversationHash : Hash) :
    (∀ chain, mapGet s.Channels CONVEY_CONVERSATION = some chain →
      (∀ entry ∈ entriesOf chain, entry.RecordHash ≠ conversationHash) →
      mapGet s.Channels (CONVEY_PREFIX_MESSAGE ++ EncodeToString conversationHash) = none →
      s.GetConversation conversationHash
        = (none, some (bcgo.Error.Text
            ("No such conversation: " ++ EncodeToString conversationHash))) ∧
      (∀ messageHash messageRecord mined,
        s.AddMessage conversationHash messageHash messageRecord mined
          = (s, some (bcgo.Error.Text
              ("No such conversation: " ++ EncodeToString conversationHash)))) ∧
      (∀ (σ : Type) messageHash (callback : MessageCallback σ) (st : σ),
        s.GetMessage conversationHash messageHash callback st
          = (st, some (bcgo.Error.Text
              ("No such conversation: " ++ EncodeToString conversationHash))))) ∧
    (mapGet (NewMemoryStore.run calls).Conversations conversationHash = none →
      (NewMemoryStore.run calls).GetConversation conversationHash
        = (none, some (bcgo.Error.Text
            ("No such conversation: " ++ EncodeToString conversationHash))) ∧
      (∀ messageHash messageRecord,
        (NewMemoryStore.run calls).AddMessage conversationHash messageHash messageRecord
          = (NewMemoryStore.run calls, some (bcgo.Error.Text
              ("No such conversation: " ++ EncodeToString conversationHash)))) ∧
      (∀ (σ : Type) messageHash (callback : MessageCallback σ) (st : σ),
        (NewMemoryStore.run calls).GetMessage conversationHash messageHash callback st
          = (st, Outcome.error (bcgo.Error.Text
              ("No such conversation: " ++ EncodeToString conversationHash))))) := by
  refine ⟨?_, ?_⟩
  · intro chain hchannel hmiss hmessages
    refine ⟨BCStore.GetConversation_miss s conversationHash chain hchannel hmiss, ?_, ?_⟩
    · intro messageHash messageRecord mined
      exact BCStore.AddMessage_no_channel s conversationHash messageHash messageRecord mined
        hmessages
    · intro σ messageHash callback st
      exact BCStore.GetMessage_no_channel s conversationHash messageHash callback st hmessages
  · intro hnone
    have hmappings := MemoryStore.memory_run_keeps calls NewMemoryStore (fun _ _ => rfl)
      conversationHash hnone
    refine ⟨?_, ?_, ?_⟩
    · simp only [MemoryStore.GetConversation, hnone]
      rfl
    · intro messageHash messageRecord
      exact MemoryStore.AddMessage_no_conversation _ conversationHash messageHash messageRecord
        hnone
    · intro σ messageHash callback st
      simp only [MemoryStore.GetMessage, hmappings]
      rfl

/-- C18 witness: the hash "DoesNotExist" in the sample stores. -/
theorem C18_no_such_conversation_witness :
    Sample.store.GetConversation Sample.missing
      = (none, some (bcgo.Error.Text "No such conversation: RG9lc05vdEV4aXN0")) ∧
    (NewMemoryStore.run Sample.calls).GetConversation Sample.missing
      = (none, some (bcgo.Error.Text "No such conversation: RG9lc05vdEV4aXN0")) ∧
    (NewMemoryStore.run Sample.calls).GetMessage Sample.missing none noteCalls []
      = ([], Outcome.error (bcgo.Error.Text "No such conversation: RG9lc05vdEV4aXN0")) :=
  ⟨((C18_no_such_conversation Sample.store Sample.calls Sample.missing).1 Sample.conversations
      (by decide) (by decide) (by decide)).1.trans (by decide),
    ((C18_no_such_conversation Sample.store Sample.calls Sample.missing).2
      (by decide)).1.trans (by decide),
    (((C18_no_such_conversation Sample.store Sample.calls Sample.missing).2
      (by decide)).2.2 _ none noteCalls []).trans (by decide)⟩

/-- C20, as stated, fails for the blockchain store.  Carol opens the
conversation `[33]` of the sample store with the root message `[20]` and Bob's
reply `[21]` is added, both calls returning no error; the head block the
library has mined for the reply holds the root message again.  `GetMessage`
with the nil hash then calls the callback three times, twice for the root
message, and `GetMessage` with the hash `[20]` calls it twice. -/
theorem C20_root_called_twice :
    Sample.opened.2 = none ∧ Sample.echoed.2 = none ∧
    mapGet Sample.echoed.1.Channels (CONVEY_PREFIX_MESSAGE ++ EncodeToString [33])
      = some Sample.echoMessages ∧
    Sample.echoed.1.GetMessage [33] none noteCalls []
      = ([([20], 12, "Carol", 3, { Previous := [], Content := [], MediaType := 0 }),
          ([21], 13, "Bob", 4, { Previous := [20], Content := [], MediaType := 0 }),
          ([20], 12, "Carol", 3, { Previous := [], Content := [], MediaType := 0 })],
         none) ∧
    Sample.echoed.1.GetMessage [33] (some [20]) noteCalls []
      = ([([20], 12, "Carol", 3, { Previous := [], Content := [], MediaType := 0 }),
          ([20], 12, "Carol", 3, { Previous := [], Content := [], MediaType := 0 })],
         none) :=
  ⟨by decide, by decide, by decide, by decide, by decide⟩

/-- C20, amended.  Take a store in which `NewConversation` has stored a
conversation with its root message and `AddMessage` was called for replies,
and a callback that returns nil.  In the blockchain store, when
`NewConversation` has returned no error, the message channel of the
conversation holds a chain: the one the library has mined for the root
message when there are no replies, and else the one it has mined for the last
reply, if it has written that reply to the cache and has mined.  When the
entries of that chain decode, `GetMessage` with the nil hash calls the
callback once for each entry of each block of the chain, from the head block
down, and `GetMessage` with a hash `h` once for each of these entries whose
record hash is `h` and for no other, every time with the message the record
decodes to: a message is called back as often as the blocks the library has
mined hold it.  In the memory store, where the messages decode and have
different hashes and the conversation is new, the two calls visit each message
added exactly once, oldest first. -/
theorem C20_get_message {σ : Type} (s after : BCStore) (memory later : MemoryStore)
    (conversationHash : Hash) (conversationRecord : bcgo.Record) (root : bcgo.BlockEntry)
    (replies : List (bcgo.BlockEntry × bcgo.Mined))
    (minedConversation minedRoot : bcgo.Mined)
    (callback : MessageCallback σ) (st : σ)
    (hcallback : ∀ st hash timestamp author cost message,
      (callback st hash timestamp author cost message).2 = none)
    (hparse : ∀ post ∈ root :: replies.map Prod.fst, post.Record.Payload.asMessage ≠ none)
    (hafter : after
      = (s.NewConversation conversationHash conversationRecord root.RecordHash root.Record
          minedConversation minedRoot).1.addMessages conversationHash replies)
    (hlater : later
      = (memory.NewConversation conversationHash conversationRecord root.RecordHash
          root.Record).1.addMessages conversationHash (replies.map Prod.fst)) :
    ((s.NewConversation conversationHash conversationRecord root.RecordHash root.Record
        minedConversation minedRoot).2 = none →
      ∃ chain,
        mapGet after.Channels (CONVEY_PREFIX_MESSAGE ++ EncodeToString conversationHash)
          = some chain ∧
        (replies = [] → minedRoot.mine = Except.ok chain) ∧
        (∀ earlier last, replies = earlier ++ [last] → last.2.put = none →
          ∀ mined, last.2.mine = Except.ok mined → chain = mined) ∧
        ((∀ entry ∈ entriesOf chain, entry.Record.Payload.asMessage ≠ none) →
          after.GetMessage conversationHash none callback st
            = (BCStore.callEach callback (entriesOf chain) st, none) ∧
          ∀ h, after.GetMessage conversationHash (some h) callback st
            = (BCStore.callEach callback
                ((entriesOf chain).filter fun post => decide (post.RecordHash = h)) st,
              none))) ∧
    (mapGet memory.Mappings conversationHash = none →
      ((root :: replies.map Prod.fst).map fun post => post.RecordHash).Nodup →
      later.GetMessage conversationHash none callback st
        = (MemoryStore.callEach callback (root :: replies.map Prod.fst) st, Outcome.ok) ∧
      ∀ h, later.GetMessage conversationHash (some h) callback st
        = (MemoryStore.callEach callback
            ((root :: replies.map Prod.fst).filter fun post =>
              decide (post.RecordHash = h)) st,
          Outcome.ok)) := by
  refine ⟨?_, ?_⟩
  · intro hok
    obtain ⟨conversations, messages, -, hroot, -, hmessages⟩ :=
      BCStore.NewConversation_ok s conversationHash conversationRecord root.RecordHash
        root.Record minedConversation minedRoot hok
    obtain ⟨chain, hchannel⟩ :=
      BCStore.addMessages_channel conversationHash _ replies _ ⟨messages, hmessages⟩
    rw [← hafter] at hchannel
    refine ⟨chain, hchannel, fun hnil => ?_, fun earlier last hsnoc hput mined hmine => ?_,
      fun hdecode => ⟨?_, fun h => ?_⟩⟩
    · rw [hafter, hnil] at hchannel
      have e : chain = messages := Option.some.inj (hchannel.symm.trans hmessages)
      rw [e]
      exact hroot
    · obtain ⟨before, hbefore⟩ :=
        BCStore.addMessages_channel conversationHash _ earlier _ ⟨messages, hmessages⟩
      have hlast := BCStore.AddMessage_mined _ conversationHash last.1.RecordHash last.1.Record
        last.2 before mined hbefore hput hmine
      rw [← BCStore.addMessages_snoc, ← hsnoc, ← hafter] at hlast
      exact Option.some.inj (hchannel.symm.trans hlast)
    · rw [BCStore.GetMessage_chain after conversationHash none callback hcallback st chain
        hchannel hdecode, filter_nil_hash]
    · rw [BCStore.GetMessage_chain after conversationHash (some h) callback hcallback st chain
        hchannel hdecode, filter_some_hash]
  · intro hnew hnodup
    have hstate := MemoryStore.addMessages_state conversationHash (replies.map Prod.fst) [root]
      (memory.NewConversation conversationHash conversationRecord root.RecordHash
        root.Record).1
      (by rw [MemoryStore.NewConversation_eq]; simp only [mapGet_mapSet_self]; simp)
      (by rw [MemoryStore.NewConversation_eq]
          simp only [mapGet_mapSet_self, hnew, Option.getD_none, List.nil_append,
            List.map_cons, List.map_nil])
      (by
        intro post hpost
        rw [MemoryStore.NewConversation_eq]
        simp only [List.mem_singleton] at hpost
        subst hpost
        exact mapGet_mapSet_self _ _ _)
      hnodup
    rw [← hlater] at hstate
    obtain ⟨hkeys, hrecords⟩ := hstate
    have hposts : ∀ post ∈ root :: replies.map Prod.fst,
        mapGet later.Messages post.RecordHash = some post.Record ∧
          post.Record.Payload.asMessage ≠ none :=
      fun post hpost => ⟨hrecords post hpost, hparse post hpost⟩
    refine ⟨?_, fun h => ?_⟩
    · simp only [MemoryStore.GetMessage, hkeys]
      rw [show [root] ++ replies.map Prod.fst = root :: replies.map Prod.fst from rfl,
        MemoryStore.messageLoop_fold later none callback hcallback _ st hposts, filter_nil_hash]
    · simp only [MemoryStore.GetMessage, hkeys]
      rw [show [root] ++ replies.map Prod.fst = root :: replies.map Prod.fst from rfl,
        MemoryStore.messageLoop_fold later (some h) callback hcallback _ st hposts,
        filter_some_hash]

/-- C20 witness: Carol's conversation `[33]` with the root message `[20]` and
the replies `[21]` and `[22]`, in both sample stores, with a callback that
notes its calls.  The library has mined each message in a block of its own. -/
theorem C20_get_message_witness :
    Sample.busy.GetMessage [33] none noteCalls []
      = ([([22], 14, "Charlie", 6, { Previous := [21], Content := [], MediaType := 0 }),
          ([21], 12, "Bob", 4, { Previous := [20], Content := [], MediaType := 0 }),
          ([20], 9, "Carol", 3, { Previous := [], Content := [], MediaType := 0 })],
         none) ∧
    Sample.busy.GetMessage [33] (some [21]) noteCalls []
      = ([([21], 12, "Bob", 4, { Previous := [20], Content := [], MediaType := 0 })], none) ∧
    Sample.lively.GetMessage [33] none noteCalls []
      = ([([20], 0, "", 3, { Previous := [], Content := [], MediaType := 0 }),
          ([21], 0, "", 4, { Previous := [20], Content := [], MediaType := 0 }),
          ([22], 0, "", 6, { Previous := [21], Content := [], MediaType := 0 })],
         Outcome.ok) ∧
    Sample.lively.GetMessage [33] (some [21]) noteCalls []
      = ([([21], 0, "", 4, { Previous := [20], Content := [], MediaType := 0 })],
         Outcome.ok) := by
  have h := C20_get_message Sample.store Sample.busy Sample.memory Sample.lively [33]
    (Sample.stamped (Sample.opening "Carol" 150) 9)
    { RecordHash := [20], Record := Sample.stamped (Sample.post "Carol" [] 250) 9 }
    Sample.replies (Sample.minedTo Sample.grownConversations)
    (Sample.minedTo [Sample.rootBlock]) noteCalls []
    (fun _ _ _ _ _ _ => rfl) (by decide) rfl rfl
  obtain ⟨chain, -, -, hlast, hget⟩ := h.1 (by decide)
  have hchain : chain = Sample.busyMessages :=
    hlast (Sample.replies.take 1)
      ({ RecordHash := [22], Record := Sample.stamped (Sample.post "Charlie" [21] 555) 14 },
        Sample.minedTo Sample.busyMessages) rfl rfl Sample.busyMessages rfl
  subst hchain
  exact ⟨(hget (by decide)).1.trans (by decide), ((hget (by decide)).2 [21]).trans (by decide),
    (h.2 (by decide) (by decide)).1.trans (by decide),
    ((h.2 (by decide) (by decide)).2 [21]).trans (by decide)⟩

/-- C30: `Update` with a channel name that is none of the six periodic
validation names, not the transaction and not the conversation channel and
does not start with "Convey-Message-", or with a nil head hash, returns no
error and leaves the ledger as it was: the six accumulators, the aliases and
the processed sets. -/
theorem C30_update_unknown_channel (l : Ledger) (name : String) (chain : bcgo.Chain)
    (h : chain = [] ∨
      (name ≠ CONVEY_HOUR ∧ name ≠ CONVEY_DAY ∧ name ≠ CONVEY_WEEK ∧ name ≠ CONVEY_YEAR ∧
        name ≠ CONVEY_DECADE ∧ name ≠ CONVEY_CENTURY ∧ name ≠ CONVEY_TRANSACTION ∧
        name ≠ CONVEY_CONVERSATION ∧ HasPrefix name CONVEY_PREFIX_MESSAGE = false)) :
    l.Update name chain = (l, Outcome.ok) := by
  rcases h with h | ⟨h1, h2, h3, h4, h5, h6, h7, h8, h9⟩
  · rw [h]
    exact Ledger.Update_nil l name
  · unfold Ledger.Update
    by_cases hnil : chain = []
    · rw [if_pos hnil]
    · rw [if_neg hnil, if_neg h1, if_neg h2, if_neg h3, if_neg h4, if_neg h5, if_neg h6,
        if_neg h7, if_neg h8, if_neg (by rw [h9]; decide)]

/-- C30 witness: the channel Convey-Registration with a chain of two blocks,
and the transaction channel with a nil head. -/
theorem C30_update_unknown_channel_witness :
    Sample.afterOneTransfer.Update "Convey-Registration" Sample.funding
      = (Sample.afterOneTransfer, Outcome.ok) ∧
    Sample.afterOneTransfer.Update CONVEY_TRANSACTION []
      = (Sample.afterOneTransfer, Outcome.ok) :=
  ⟨C30_update_unknown_channel Sample.afterOneTransfer "Convey-Registration" Sample.funding
      (Or.inr (by decide)),
    C30_update_unknown_channel Sample.afterOneTransfer CONVEY_TRANSACTION [] (Or.inl rfl)⟩

/-- C21, at an input where the memory store departs from it: Alice's root
message `[50]` is stamped 7.  The blockchain store calls the callback with the
record hash, 7, "Alice", the cost 3 and the message; the memory store, which
holds the same record, calls it with timestamp 0 and an empty author. -/
theorem C21_memory_callback_arguments :
    Sample.dated.GetMessage [41] none noteCalls []
      = ([([50], 7, "Alice", 3, { Previous := [], Content := [], MediaType := 0 })], none) ∧
    mapGet Sample.datedMemory.Messages [50]
      = some (Sample.stamped (Sample.post "Alice" [] 250) 7) ∧
    Sample.datedMemory.GetMessage [41] none noteCalls []
      = ([([50], 0, "", 3, { Previous := [], Content := [], MediaType := 0 })],
         Outcome.ok) :=
  ⟨by decide, by decide, by decide⟩

/-- C22, at an input where the blockchain store departs from it: with two
conversations on the chain `GetRecentConversations(0)` returns both, the
decrement of the limit 0 wrapping round before the limit is tested; the memory
store returns the empty list. -/
theorem C22_recent_zero_returns_all :
    Sample.dated.GetRecentConversations 0
      = ([{ Hash := [42], Timestamp := 5, Author := "Bob", Topic := "Test123", Cost := 5 },
          { Hash := [41], Timestamp := 2, Author := "Alice", Topic := "Test123", Cost := 3 }],
         none) ∧
    Sample.datedMemory.GetRecentConversations Sample.sortListings 0 = ([], none) := by
  decide

/-- C23: for a limit of at least 1, `GetRecentConversations(limit)` returns
`min limit n` listings.  In a blockchain store, `n` being the number of entries
of the conversation chain, they are the listings of the first `limit` entries
of the walk from the head, also when a block holds more.  In a memory store,
`n` being the number of entries of `Conversations`, they are in the order of
their timestamps, newest first, and no listing left out is newer than one
returned. -/
theorem C23_recent_conversations
    (sortSlice : (Listing → Listing → Bool) → List Listing → List Listing)
    (s : BCStore) (memory : MemoryStore) (chain : bcgo.Chain) (limit : Nat)
    (hone : 1 ≤ limit) (hlimit : limit < 2 ^ 64) :
    (mapGet s.Channels CONVEY_CONVERSATION = some chain →
      (∀ entry ∈ entriesOf chain, entry.Record.Payload.asConversation ≠ none) →
      s.GetRecentConversations limit = (((entriesOf chain).take limit).map listingOf, none) ∧
      (s.GetRecentConversations limit).1.length = min limit (entriesOf chain).length) ∧
    ((∀ kv ∈ memory.Conversations, kv.2.Payload.asConversation ≠ none) →
      (∀ listings, (sortSlice MemoryStore.newerListing listings).Perm listings ∧
        (sortSlice MemoryStore.newerListing listings).Pairwise fun a b => MemoryStore.newerListing b a = false) →
      (memory.GetRecentConversations sortSlice limit).2 = none ∧
      (memory.GetRecentConversations sortSlice limit).1.length
        = min limit memory.Conversations.length ∧
      NewestFirst (memory.GetRecentConversations sortSlice limit).1 ∧
      ∃ omitted,
        ((memory.GetRecentConversations sortSlice limit).1 ++ omitted).Perm
          (memory.Conversations.map memory.listing) ∧
        ∀ x ∈ omitted, ∀ y ∈ (memory.GetRecentConversations sortSlice limit).1,
          x.Timestamp ≤ y.Timestamp) := by
  have hbudget : budget limit = limit := by
    unfold budget
    rw [if_neg (by omega)]
  refine ⟨?_, ?_⟩
  · intro hchannel hparse
    have h := BCStore.GetRecentConversations_eq s chain limit hchannel hparse hlimit
    rw [hbudget] at h
    refine ⟨h, ?_⟩
    rw [h]
    simp only [List.length_map, List.length_take]
  · intro hparse hsort
    rw [MemoryStore.recent_eq_take sortSlice memory limit hparse]
    obtain ⟨hperm, hsorted⟩ := hsort (memory.Conversations.map memory.listing)
    refine ⟨rfl, ?_, ?_, (sortSlice MemoryStore.newerListing (memory.Conversations.map memory.listing)).drop
      limit, ?_, ?_⟩
    · simp only [List.length_take, hperm.length_eq, List.length_map]
    · unfold NewestFirst
      refine (hsorted.sublist (List.take_sublist _ _)).imp ?_
      intro a b hab
      exact (newerListing_eq_false a b).mp hab
    · simp only [List.take_append_drop]
      exact hperm
    · intro x hx y hy
      have hsplit := hsorted
      rw [← List.take_append_drop limit
        (sortSlice MemoryStore.newerListing (memory.Conversations.map memory.listing)),
        List.pairwise_append] at hsplit
      exact (newerListing_eq_false y x).mp (hsplit.2.2 y hy x hx)

/-- C23 witness: with limit 1, each sample store returns Bob's conversation
`[42]`, the one at the head of the chain and the newer of the two. -/
theorem C23_recent_conversations_witness :
    Sample.dated.GetRecentConversations 1
      = ([{ Hash := [42], Timestamp := 5, Author := "Bob", Topic := "Test123", Cost := 5 }],
         none) ∧
    (Sample.datedMemory.GetRecentConversations Sample.sortListings 1).1.length = 1 ∧
    NewestFirst (Sample.datedMemory.GetRecentConversations Sample.sortListings 1).1 := by
  have h := C23_recent_conversations Sample.sortListings Sample.dated Sample.datedMemory
    Sample.datedConversations 1 (by decide) (by decide)
  exact ⟨((h.1 (by decide) (by decide)).1).trans (by decide),
    ((h.2 (by decide) Sample_sortListings_sorted).2.1).trans (by decide),
    (h.2 (by decide) Sample_sortListings_sorted).2.2.1⟩

/-- C24, at an input where the code departs from it: the sample stores hold
the conversations stamped 2 and 5.  `GetAllConversations` of both stores takes
the lower bound alone, so for the period from 1 to 3 it can be given 1 only,
and it returns the conversation stamped 5, which is later than 3; for the
period from 4 to 3, whose end lies before its start, it is given 4 and returns
the conversation stamped 5 as well, not the empty list. -/
theorem C24_no_upper_bound :
    (Sample.dated.GetAllConversations 1).1.map Listing.Timestamp = [5, 2] ∧
    (Sample.datedMemory.GetAllConversations 1).1.map Listing.Timestamp = [2, 5] ∧
    (Sample.dated.GetAllConversations 4).1.map Listing.Timestamp = [5] ∧
    (Sample.datedMemory.GetAllConversations 4).1.map Listing.Timestamp = [5] ∧
    ¬ (5 ≤ 3) := by
  decide

/-- C25: in a memory store built by calls, whose conversation records decode,
`GetAllConversations(since)` returns no error and exactly one listing for each
stored conversation whose record is stamped `since` or later, and none for an
older one; on the empty store it returns the empty list. -/
theorem C25_memory_all_conversations (calls : List MemoryStore.Call) (since : Nat)
    (hparse : ∀ kv ∈ (NewMemoryStore.run calls).Conversations,
      kv.2.Payload.asConversation ≠ none) :
    ((NewMemoryStore.run calls).GetAllConversations since).2 = none ∧
    (((NewMemoryStore.run calls).GetAllConversations since).1.map Listing.Hash).Nodup ∧
    (∀ h, h ∈ ((NewMemoryStore.run calls).GetAllConversations since).1.map Listing.Hash
      ↔ ∃ record, mapGet (NewMemoryStore.run calls).Conversations h = some record ∧
          since ≤ record.Timestamp) ∧
    NewMemoryStore.GetAllConversations since = ([], none) := by
  obtain ⟨hnodup, hstamp⟩ := MemoryStore.run_conversations calls
  have hloop := MemoryStore.listingLoop_eq (NewMemoryStore.run calls) since
    (NewMemoryStore.run calls).Conversations [] hparse
  have hhashes : ((NewMemoryStore.run calls).GetAllConversations since).1.map Listing.Hash
      = ((NewMemoryStore.run calls).Conversations.filter fun kv =>
          decide ((mapGet (NewMemoryStore.run calls).Timestamps kv.1).getD 0 ≥ since)).map
          Prod.fst := by
    unfold MemoryStore.GetAllConversations
    rw [hloop]
    simp only [List.nil_append, List.map_map]
    rfl
  refine ⟨?_, ?_, ?_, rfl⟩
  · unfold MemoryStore.GetAllConversations
    rw [hloop]
  · rw [hhashes]
    exact hnodup.sublist ((List.filter_sublist _).map Prod.fst)
  · intro h
    rw [hhashes]
    simp only [List.mem_map, List.mem_filter, decide_eq_true_eq]
    constructor
    · rintro ⟨⟨k, record⟩, ⟨hmem, hnew⟩, hk⟩
      simp only at hk hnew
      subst hk
      have hget := mapGet_of_mem_nodup _ k record hnodup hmem
      refine ⟨record, hget, ?_⟩
      rw [hstamp k record hget] at hnew
      exact hnew
    · rintro ⟨record, hget, hnew⟩
      refine ⟨(h, record), ⟨mem_of_mapGet _ h record hget, ?_⟩, rfl⟩
      simp only
      rw [hstamp h record hget]
      exact hnew

/-- C25 witness: of the conversations stamped 2 and 5 of the sample store the
one stamped 5 is listed for `since` 4. -/
theorem C25_memory_all_conversations_witness :
    (Sample.datedMemory.GetAllConversations 4).2 = none ∧
    (Sample.datedMemory.GetAllConversations 4).1.map Listing.Hash = [[42]] :=
  ⟨(C25_memory_all_conversations
      [MemoryStore.Call.newConversation [41] { Sample.opening "Alice" 300 with Timestamp := 2 }
         [50] { Sample.post "Alice" [] 250 with Timestamp := 7 },
       MemoryStore.Call.newConversation [42] { Sample.opening "Bob" 420 with Timestamp := 5 }
         [51] { Sample.post "Bob" [] 120 with Timestamp := 5 }]
      4 (by decide)).1,
    by decide⟩

/-- C26: in a memory store, `AddKey` for an alias that has a key returns the
error "Key already exists: " followed by the alias and leaves the store, so
also the password and the key of the alias, as it was; `AddKey` for an alias
without a key returns no error and `HasKey` is true of the alias afterwards;
and `HasKey` is false of an alias for which the calls that built the store
added no key. -/
theorem C26_add_key (s : MemoryStore) (calls : List MemoryStore.Call) (who : String)
    (password : List Nat) (key : Nat) :
    (s.HasKey who = true →
      s.AddKey who password key
        = (s, some (bcgo.Error.Text ("Key already exists: " ++ who)))) ∧
    (s.HasKey who = false →
      (s.AddKey who password key).2 = none ∧
      (s.AddKey who password key).1.HasKey who = true) ∧
    ((∀ password key, MemoryStore.Call.addKey who password key ∉ calls) →
      (NewMemoryStore.run calls).HasKey who = false) := by
  refine ⟨?_, ?_, ?_⟩
  · intro h
    cases hp : mapGet s.Passwords who with
    | none =>
      rw [(MemoryStore.HasKey_eq_false s who).mpr hp] at h
      exact absurd h (by decide)
    | some old => exact MemoryStore.AddKey_of_password s who password old key hp
  · intro h
    have hp := (MemoryStore.HasKey_eq_false s who).mp h
    rw [MemoryStore.AddKey_of_new s who password key hp]
    refine ⟨rfl, ?_⟩
    simp only [MemoryStore.HasKey, mapGet_mapSet_self, Option.isSome_some]
  · intro hnot
    rw [MemoryStore.HasKey_eq_false, MemoryStore.run_other_keys who calls NewMemoryStore hnot]
    rfl

/-- C26 witness: Alice adds a key to the empty store; a second key under her
alias is refused; Bob, who added none, has none. -/
theorem C26_add_key_witness :
    (NewMemoryStore.AddKey "Alice" [1, 2, 3] 77).1.AddKey "Alice" [9] 88
      = ((NewMemoryStore.AddKey "Alice" [1, 2, 3] 77).1,
         some (bcgo.Error.Text "Key already exists: Alice")) ∧
    (NewMemoryStore.AddKey "Alice" [1, 2, 3] 77).1.HasKey "Alice" = true ∧
    (NewMemoryStore.run [MemoryStore.Call.addKey "Alice" [1, 2, 3] 77]).HasKey "Bob" = false :=
  ⟨((C26_add_key (NewMemoryStore.AddKey "Alice" [1, 2, 3] 77).1 [] "Alice" [9] 88).1
      (by decide)).trans (by decide),
    ((C26_add_key NewMemoryStore [] "Alice" [1, 2, 3] 77).2.1 (by decide)).2,
    (C26_add_key NewMemoryStore [MemoryStore.Call.addKey "Alice" [1, 2, 3] 77] "Bob" [] 0).2.2
      (fun _ _ h => by simp at h)⟩

/-- C27: in a memory store built by calls, one of which was a successful
`AddKey(alias, password, key)`, `GetKey(alias, guess)` returns that key and no
error exactly when `guess` equals `password`, and otherwise no key and the
error "Access denied"; for an alias without a key it returns no key and the
same error. -/
theorem C27_get_key (before after calls : List MemoryStore.Call) (s : MemoryStore)
    (who other : String) (password guess : List Nat) (key : Nat)
    (hnew : (NewMemoryStore.run before).HasKey who = false)
    (hs : s = ((NewMemoryStore.run before).AddKey who password key).1.run after) :
    (s.GetKey who guess = (some key, none) ↔ guess = password) ∧
    (guess ≠ password →
      s.GetKey who guess = (none, some (bcgo.Error.Text "Access denied"))) ∧
    ((NewMemoryStore.run calls).HasKey other = false →
      (NewMemoryStore.run calls).GetKey other guess
        = (none, some (bcgo.Error.Text "Access denied"))) := by
  have hp := (MemoryStore.HasKey_eq_false _ who).mp hnew
  have hstored := MemoryStore.run_keeps_key who password key after
    ((NewMemoryStore.run before).AddKey who password key).1
    (by rw [MemoryStore.AddKey_of_new _ who password key hp]
        exact ⟨mapGet_mapSet_self _ _ _, mapGet_mapSet_self _ _ _⟩)
  rw [← hs] at hstored
  have hget := MemoryStore.GetKey_of_password s who password guess hstored.1
  rw [hstored.2] at hget
  refine ⟨?_, ?_, ?_⟩
  · rw [hget]
    by_cases hg : password = guess
    · rw [if_pos hg]
      exact ⟨fun _ => hg.symm, fun _ => rfl⟩
    · rw [if_neg hg]
      constructor
      · intro h
        simp at h
      · intro h
        exact absurd h.symm hg
  · intro hne
    rw [hget, if_neg (fun e => hne e.symm)]
    rfl
  · intro hnone
    exact MemoryStore.GetKey_of_unknown _ other guess
      ((MemoryStore.HasKey_eq_false _ other).mp hnone)

/-- C27 witness: the sample store holds Alice's key 77 under the password
`[1, 2, 3]`; a wrong password and the unknown alias Bob get the same error. -/
theorem C27_get_key_witness :
    Sample.keyed.GetKey "Alice" [1, 2, 3] = (some 77, none) ∧
    Sample.keyed.GetKey "Alice" [9]
      = (none, some (bcgo.Error.Text "Access denied")) ∧
    (NewMemoryStore.run []).GetKey "Bob" [9]
      = (none, some (bcgo.Error.Text "Access denied")) :=
  ⟨(C27_get_key [] [MemoryStore.Call.addKey "Alice" [9] 88] [] Sample.keyed "Alice" "Bob"
      [1, 2, 3] [1, 2, 3] 77 (by decide) rfl).1.mpr rfl,
    (C27_get_key [] [MemoryStore.Call.addKey "Alice" [9] 88] [] Sample.keyed "Alice" "Bob"
      [1, 2, 3] [9] 77 (by decide) rfl).2.1 (by decide),
    (C27_get_key [] [MemoryStore.Call.addKey "Alice" [9] 88] [] Sample.keyed "Alice" "Bob"
      [1, 2, 3] [9] 77 (by decide) rfl).2.2 (by decide)⟩

/-- C29: on the model of a ledger with its trigger, `TriggerUpdate` on a
ledger fresh from `NewLedger`, which was never started, changes nothing: with
the sample channels of a node (a yearly validation chain mined by Alice and
Node, and a transaction chain on which Node pays Bob and Alice) the ledger
stays as `NewLedger` made it and its Aliases stay empty, while `UpdateAll` on
the same channels returns no error and puts Alice, Node and Bob in Aliases;
only after `Start` does `TriggerUpdate` process the channels. -/
theorem C29_trigger_update_unstarted :
    Triggered.NewLedger.TriggerUpdate Sample.channels = Triggered.NewLedger ∧
    (Triggered.NewLedger.TriggerUpdate Sample.channels).Ledger.Aliases = [] ∧
    (NewLedger.UpdateAll Sample.channels).2 = Outcome.ok ∧
    (NewLedger.UpdateAll Sample.channels).1.Aliases = ["Alice", "Node", "Bob"] ∧
    ((Triggered.NewLedger.Start Sample.channels).TriggerUpdate Sample.channels).Ledger.Aliases
      = ["Alice", "Node", "Bob"] :=
  ⟨by decide, by decide, by decide, by decide, by decide⟩

/-- C28: let `Update` on a chain of distinct blocks return no error on a
ledger `l`, and let any calls follow.  Then Aliases holds the miner of every
block the call processed on a periodic validation chain, the sender and the
receiver of every transaction it processed on the transaction chain, the
creator of every record it processed on the conversation chain and, on a
message chain, the author of every message in a block it processed and, for a
reply, the authors of its ancestors, who earn from it.  A ledger built by
calls from `NewLedger` has no alias in Aliases that appears on none of the
chains of the calls (as a miner, a record creator, or the sender or receiver
of a transaction), and an alias is in its Aliases exactly when it is a key of
at least one of the six accumulators. -/
theorem C28_aliases (l : Ledger) (name : String) (chain : bcgo.Chain) (after calls : List Call)
    (hdistinct : (chain.map Prod.fst).Nodup)
    (hok : (l.Update name chain).2 = Outcome.ok) :
    (name ∈ [CONVEY_HOUR, CONVEY_DAY, CONVEY_WEEK, CONVEY_YEAR, CONVEY_DECADE, CONVEY_CENTURY] →
      ∀ hb ∈ l.unprocessed name chain,
        hb.2.Miner ∈ ((l.Update name chain).1.run after).Aliases) ∧
    (name = CONVEY_TRANSACTION →
      ∀ t ∈ transactionsOf (entriesOf (l.unprocessed name chain)),
        t.Sender ∈ ((l.Update name chain).1.run after).Aliases ∧
        t.Receiver ∈ ((l.Update name chain).1.run after).Aliases) ∧
    (name = CONVEY_CONVERSATION →
      ∀ entry ∈ entriesOf (l.unprocessed name chain),
        entry.Record.Creator ∈ ((l.Update name chain).1.run after).Aliases) ∧
    (HasPrefix name CONVEY_PREFIX_MESSAGE = true →
      ∀ kn ∈ (messageMaps chain).nodes, ∀ block,
        mapGet (messageMaps chain).blocks kn.1 = some block → block ∉ l.processed name →
        kn.2.Author ∈ ((l.Update name chain).1.run after).Aliases ∧
        (kn.2.Previous ≠ [] → ∀ ancestors,
          Ancestors (messageMaps chain).nodes kn.2.Previous ancestors →
          ∀ n ∈ ancestors, n.Author ∈ ((l.Update name chain).1.run after).Aliases)) ∧
    (∀ a ∈ (NewLedger.run calls).Aliases, ∃ c ∈ calls, a ∈ c.aliases) ∧
    (∀ a, a ∈ (NewLedger.run calls).Aliases ↔ (NewLedger.run calls).Keyed a) := by
  have hlater : ∀ a, a ∈ (l.Update name chain).1.Aliases →
      a ∈ ((l.Update name chain).1.run after).Aliases :=
    fun a h => Ledger.run_keeps (fun l => a ∈ l.Aliases) (mem_Aliases_stable a) after _ h
  refine ⟨?_, ?_, ?_, ?_, Ledger.run_aliases_appear calls, Keyed_run calls⟩
  · intro hname hb hm
    simp only [List.mem_cons, List.mem_singleton, List.not_mem_nil, or_false] at hname
    rcases hname with rfl | rfl | rfl | rfl | rfl | rfl
    · exact hlater _ (Ledger.mint_named l _ _ chain (Ledger.Update_hour l chain) hdistinct hok
        hb hm)
    · exact hlater _ (Ledger.mint_named l _ _ chain (Ledger.Update_day l chain) hdistinct hok
        hb hm)
    · exact hlater _ (Ledger.mint_named l _ _ chain (Ledger.Update_week l chain) hdistinct hok
        hb hm)
    · exact hlater _ (Ledger.mint_named l _ _ chain (Ledger.Update_year l chain) hdistinct hok
        hb hm)
    · exact hlater _ (Ledger.mint_named l _ _ chain (Ledger.Update_decade l chain) hdistinct hok
        hb hm)
    · exact hlater _ (Ledger.mint_named l _ _ chain (Ledger.Update_century l chain) hdistinct
        hok hb hm)
  · intro hname t ht
    subst hname
    have h := Ledger.transaction_named l chain hdistinct hok t ht
    exact ⟨hlater _ h.1, hlater _ h.2⟩
  · intro hname entry he
    subst hname
    exact hlater _ (Ledger.conversation_named l chain hdistinct hok entry he)
  · intro hname kn hk block hb hnew
    by_cases h0 : chain = []
    · subst h0
      simp [messageMaps, bcgo.Iterate] at hk
    have hupd := Ledger.Update_message l name chain h0 hname
    have hok2 : (l.updateMessages name chain).2 = Outcome.ok := by
      rw [← hupd]
      exact hok
    have h := Ledger.updateMessages_named l name chain hok2 kn hk block hb hnew
    rw [← hupd] at h
    exact ⟨hlater _ h.1, fun hr ancestors hanc n hn => hlater _ (h.2 hr ancestors hanc n hn)⟩

/-- C28 witness: a fresh ledger updates the sample thread and then the sample
channels of a node.  Alice's reply `[23]` sits in the unprocessed block `[3]`,
so Charlie, who wrote its parent, is in Aliases; Mallory, who appears on none
of the chains, is not; Bob is in Aliases and a key of an accumulator. -/
theorem C28_aliases_witness :
    (Sample.thread.map Prod.fst).Nodup ∧
    (NewLedger.Update "Convey-Message-abc" Sample.thread).2 = Outcome.ok ∧
    "Charlie" ∈ ((NewLedger.Update "Convey-Message-abc" Sample.thread).1.run
      [Call.updateAll Sample.channels]).Aliases ∧
    "Mallory" ∉ (NewLedger.run [Call.update "Convey-Message-abc" Sample.thread,
      Call.updateAll Sample.channels]).Aliases ∧
    ("Bob" ∈ (NewLedger.run [Call.update "Convey-Message-abc" Sample.thread,
        Call.updateAll Sample.channels]).Aliases ↔
      (NewLedger.run [Call.update "Convey-Message-abc" Sample.thread,
        Call.updateAll Sample.channels]).Keyed "Bob") :=
  ⟨by decide, by decide,
    ((C28_aliases NewLedger "Convey-Message-abc" Sample.thread [Call.updateAll Sample.channels]
      [Call.update "Convey-Message-abc" Sample.thread, Call.updateAll Sample.channels]
      (by decide) (by decide)).2.2.2.1 (by decide)
      ([23], { Author := "Alice", Cost := 8, Previous := [22] }) (by decide) [3] (by decide)
      (by decide)).2 (by decide) Sample.threadAncestors (by decide)
      { Author := "Charlie", Cost := 6, Previous := [21] } (by decide),
    fun h => by
      obtain ⟨c, hc, ha⟩ := (C28_aliases NewLedger "Convey-Message-abc" Sample.thread
        [Call.updateAll Sample.channels]
        [Call.update "Convey-Message-abc" Sample.thread, Call.updateAll Sample.channels]
        (by decide) (by decide)).2.2.2.2.1 "Mallory" h
      simp only [List.mem_cons, List.mem_singleton, List.not_mem_nil, or_false] at hc
      rcases hc with rfl | rfl
      · exact absurd ha (by decide)
      · exact absurd ha (by decide),
    (C28_aliases NewLedger "Convey-Message-abc" Sample.thread [Call.updateAll Sample.channels]
      [Call.update "Convey-Message-abc" Sample.thread, Call.updateAll Sample.channels]
      (by decide) (by decide)).2.2.2.2.2 "Bob"⟩

/-- C32: let `Update` of a message chain end without error on a ledger with
room for the cost of the chain, and let the chain hold a reply of cost `c` of
at least 1, in a block not processed before, whose ancestors `a_1, ..., a_d`
reach a root message.  Then `Update` adds at least 1 to the reply author's
Burned: it adds at least `r_d - r_d / 2`, which its round for the reply adds,
and just that when the reply is the only message in a block not processed
before.  Along the walk the remaining amount never drops to 0: the loop of
the reply goes into its round `k + 1` with what remains of `c` after `k`
ancestors took their half, which is at least 1, and what it burns in the end
is at least 1. -/
theorem C32_reply_burns (l : Ledger) (name : String) (chain : bcgo.Chain)
    (pre post : List (Hash × MessageNode)) (key : Hash) (node : MessageNode)
    (ancestors : List MessageNode)
    (hname : HasPrefix name CONVEY_PREFIX_MESSAGE = true)
    (hok : (l.Update name chain).2 = Outcome.ok)
    (hroom : l.Room (chainCost chain))
    (hnodes : (messageMaps chain).nodes = pre ++ (key, node) :: post)
    (hnew : (mapGet (messageMaps chain).blocks key).getD [] ∉ l.processed name)
    (hreply : node.Previous ≠ [])
    (hanc : Ancestors (messageMaps chain).nodes node.Previous ancestors)
    (hc : 1 ≤ node.Cost) :
    amountOf l.Burned node.Author + 1 ≤ amountOf (l.Update name chain).1.Burned node.Author ∧
    amountOf l.Burned node.Author + remaining node.Cost ancestors.length
      ≤ amountOf (l.Update name chain).1.Burned node.Author ∧
    ((∀ kn ∈ pre ++ post,
        (mapGet (messageMaps chain).blocks kn.1).getD [] ∈ l.processed name) →
      amountOf (l.Update name chain).1.Burned node.Author
        = amountOf l.Burned node.Author + remaining node.Cost ancestors.length) ∧
    (l.Update name chain).1
      = Ledger.markBlocks name (messageMaps chain).blocks
          (l.secondPass name chain (pre ++ (key, node) :: post)) ∧
    l.secondPass name chain (pre ++ (key, node) :: post)
      = (Ledger.distribute name (messageMaps chain) post
          (l.secondPass name chain (pre ++ [(key, node)]))).1 ∧
    l.secondPass name chain (pre ++ [(key, node)])
      = (Ledger.reply (messageMaps chain).nodes node.Author
          ((messageMaps chain).nodes.length + 1) node.Cost node.Previous
          (l.secondPass name chain pre)).1 ∧
    amountOf (l.secondPass name chain (pre ++ [(key, node)])).Burned node.Author
      = amountOf (l.secondPass name chain pre).Burned node.Author
        + remaining node.Cost ancestors.length ∧
    (∀ k, k < ancestors.length → ∃ (above : Hash) (reached : Ledger),
      Ledger.reply (messageMaps chain).nodes node.Author
          ((messageMaps chain).nodes.length + 1) node.Cost node.Previous
          (l.secondPass name chain pre)
        = Ledger.reply (messageMaps chain).nodes node.Author
            ((messageMaps chain).nodes.length + 1 - k) (remaining node.Cost k) above reached ∧
      mapGet (messageMaps chain).nodes above = ancestors.get? k) ∧
    (∀ k, 1 ≤ remaining node.Cost k) := by
  obtain ⟨hres, hall, hafter, -⟩ := Ledger.Update_round l name chain pre post key node
    ancestors hname hok hnodes hnew hreply hanc
  obtain ⟨⟨-, -, e3⟩, -, g2⟩ := Ledger.Update_round_exact l name chain pre post key node
    ancestors hname hok hroom hnodes hnew hreply hanc
  have hpos := remaining_pos node.Cost hc
  have hlen := Ancestors_length_le ancestors _ _ hanc
  refine ⟨?_, g2, fun hothers => ?_, hres, hall, hafter, e3, fun k hk => ?_, hpos⟩
  · have := hpos ancestors.length
    omega
  · obtain ⟨⟨-, -, u3⟩, -, -, v3⟩ := Ledger.Update_lone_fields l name chain pre post key node
      ancestors hname hok hnodes hnew hreply hanc hothers
    rw [u3, ← v3]
    exact e3
  · exact Ledger.reply_rounds (messageMaps chain).nodes node.Author k ancestors
      ((messageMaps chain).nodes.length + 1) node.Cost node.Previous
      (l.secondPass name chain pre) hanc hk (by omega)

/-- C32 witness: the ledger has seen the sample thread up to Charlie's reply;
`Update` of the whole thread then finds Alice's reply `[23]` of cost 8, which
has three ancestors, and adds `remaining 8 3 = 1` token to what Alice has
burned. -/
theorem C32_reply_burns_witness :
    amountOf Sample.afterEarly.Burned "Alice" = 3 ∧
    amountOf (Sample.afterEarly.Update (CONVEY_PREFIX_MESSAGE ++ EncodeToString [31])
      Sample.thread).1.Burned "Alice" = 4 ∧
    amountOf Sample.afterEarly.Burned "Alice" + 1
      ≤ amountOf (Sample.afterEarly.Update (CONVEY_PREFIX_MESSAGE ++ EncodeToString [31])
        Sample.thread).1.Burned "Alice" ∧
    1 ≤ remaining 8 3 := by
  have h := C32_reply_burns Sample.afterEarly (CONVEY_PREFIX_MESSAGE ++ EncodeToString [31])
    Sample.thread []
    [([22], { Author := "Charlie", Cost := 6, Previous := [21] }),
     ([21], { Author := "Bob", Cost := 4, Previous := [20] }),
     ([20], { Author := "Alice", Cost := 3, Previous := [] })]
    [23] { Author := "Alice", Cost := 8, Previous := [22] } Sample.threadAncestors
    (HasPrefix_append _ _) (by decide) (by decide) (by decide) (by decide) (by decide)
    (by decide) (by decide)
  exact ⟨by decide, (h.2.2.1 (by decide)).trans (by decide), h.1, h.2.2.2.2.2.2.2.2 3⟩

/-- C33, at an input where the code departs from it: on the sample chain
Bob's reply names a parent that is not on the chain and Charlie's reply
answers Bob's.  `Update` on a fresh ledger does not return: the lookup of the
missing parent yields nil and reading its `Previous` stops the program.
Charlie's first half, 3 tokens spent by Charlie and earned by Bob, stays
recorded, nothing is burned, and no block is marked as processed.  The same
happens when the chain holds only the block with the two replies. -/
theorem C33_missing_parent_panics :
    (NewLedger.Update "Convey-Message-abc" Sample.orphans).2 = Outcome.panic ∧
    (NewLedger.Update "Convey-Message-abc" Sample.orphans).1.Spent = [("Charlie", 3)] ∧
    (NewLedger.Update "Convey-Message-abc" Sample.orphans).1.Earned = [("Bob", 3)] ∧
    (NewLedger.Update "Convey-Message-abc" Sample.orphans).1.Burned = [] ∧
    (NewLedger.Update "Convey-Message-abc" Sample.orphans).1.processed "Convey-Message-abc"
      = [] ∧
    mapGet (messageMaps Sample.orphans).nodes [99] = none ∧
    (NewLedger.Update "Convey-Message-abc" (Sample.orphans.take 1)).2 = Outcome.panic :=
  ⟨by decide, by decide, by decide, by decide, by decide, by decide, by decide⟩

/-- C34, at an input where the code departs from it: the only block of the
sample transaction chain holds a transfer of 5 from Node to Alice, a record
that does not decode as a transaction, and a transfer of 7 from Node to Bob.
`Update` returns the decoding error with the block already in the processed
set, although the transfer to Bob was never recorded; a second `Update`
returns no error and records nothing, so the transfer stays left out. -/
theorem C34_marked_before_recorded :
    (NewLedger.Update CONVEY_TRANSACTION Sample.garbled).2
      = Outcome.error bcgo.Error.Unmarshal ∧
    [1] ∈ (NewLedger.Update CONVEY_TRANSACTION Sample.garbled).1.processed CONVEY_TRANSACTION ∧
    (NewLedger.Update CONVEY_TRANSACTION Sample.garbled).1.Sold = [("Node", 5)] ∧
    (NewLedger.Update CONVEY_TRANSACTION Sample.garbled).1.Bought = [("Alice", 5)] ∧
    soldBy (entriesOf Sample.garbled) "Node" = 12 ∧
    boughtBy (entriesOf Sample.garbled) "Bob" = 7 ∧
    (NewLedger.Update CONVEY_TRANSACTION Sample.garbled).1.Update CONVEY_TRANSACTION
        Sample.garbled
      = ((NewLedger.Update CONVEY_TRANSACTION Sample.garbled).1, Outcome.ok) :=
  ⟨by decide, by decide, by decide, by decide, by decide, by decide, by decide⟩

/-- C36: on a conversation chain whose entries decode,
`BCStore.GetAllConversations(since)` returns no error and the listings, in the
order of the walk from the head, of the entries stamped `since` or later in
the blocks before the first block stamped before `since`: every listing
returned is stamped `since` or later, and no entry of that block or of one
behind it is returned.  When the block stamps do not increase from the head
backward and every record is stamped no later than its block, these are
exactly the entries of the chain stamped `since` or later. -/
theorem C36_all_conversations_walk (s : BCStore) (chain : bcgo.Chain) (since : Nat)
    (hchannel : mapGet s.Channels CONVEY_CONVERSATION = some chain)
    (hparse : ∀ entry ∈ entriesOf chain, entry.Record.Payload.asConversation ≠ none) :
    s.GetAllConversations since
      = (((entriesOf (chain.takeWhile fun hb => decide (since ≤ hb.2.Timestamp))).filter
          fun entry => decide (since ≤ entry.Record.Timestamp)).map listingOf, none) ∧
    (∀ listing ∈ (s.GetAllConversations since).1, since ≤ listing.Timestamp) ∧
    (chain.Pairwise (fun a b => b.2.Timestamp ≤ a.2.Timestamp) →
      (∀ hb ∈ chain, ∀ entry ∈ hb.2.Entry, entry.Record.Timestamp ≤ hb.2.Timestamp) →
      s.GetAllConversations since
        = (((entriesOf chain).filter fun entry =>
            decide (since ≤ entry.Record.Timestamp)).map listingOf, none)) := by
  have h := BCStore.GetAllConversations_eq s chain since hchannel hparse
  refine ⟨h, BCStore.GetAllConversations_since s since, fun hsorted hstamp => ?_⟩
  rw [h, filter_since_takeWhile since chain hsorted hstamp]

/-- C36 witness: asked for the conversations since 4, the sample store, whose
chain is in order, returns the one stamped 5 and not the one stamped 2; the
store whose oldest block is out of order returns the same one and misses
Carol's conversation, stamped 8, behind the block stamped 3. -/
theorem C36_all_conversations_walk_witness :
    Sample.dated.GetAllConversations 4 = ([Sample.listingOf42], none) ∧
    (Sample.late.GetAllConversations 4).1.map Listing.Hash = [[42]] ∧
    ((entriesOf Sample.lateConversations).filter fun entry =>
      decide (4 ≤ entry.Record.Timestamp)).map (fun entry => entry.RecordHash) = [[42], [40]] :=
  ⟨((C36_all_conversations_walk Sample.dated Sample.datedConversations 4 rfl
      (by decide)).2.2 (by decide) (by decide)).trans (by decide),
    (congrArg (fun r => r.1.map Listing.Hash)
      (C36_all_conversations_walk Sample.late Sample.lateConversations 4 rfl
        (by decide)).1).trans (by decide),
    by decide⟩

/-- C31: whatever the ledger, the channel and the chain, and however the call
ends, `Update` takes nothing out of Aliases and nothing out of the processed
set of any channel; and while every accumulator has room for what the chain
can add (its sum over all aliases plus `Ledger.load name chain` stays below
`2 ^ 64`), every accumulator value of every alias is afterwards at least what
it was before. -/
theorem C31_update_grows (l : Ledger) (name : String) (chain : bcgo.Chain) :
    (l.Room (Ledger.load name chain) → l.Below (l.Update name chain).1) ∧
    (∀ a ∈ l.Aliases, a ∈ (l.Update name chain).1.Aliases) ∧
    (∀ channel key, key ∈ l.processed channel →
      key ∈ (l.Update name chain).1.processed channel) :=
  ⟨Ledger.Update_grows l name chain,
    fun a h => Ledger.Update_keeps (fun l => a ∈ l.Aliases) (mem_Aliases_stable a) l name chain h,
    fun channel key h => Ledger.Update_keeps (fun l => key ∈ l.processed channel)
      (mem_processed_stable channel key) l name chain h⟩

/-- C31 witness: the ledger that has processed the older block of the yearly
chain has room for two more rewards; after `Update` of the whole chain Node
has no less minted than before, is still in Aliases, and the older block `[1]`
is still in the processed set. -/
theorem C31_update_grows_witness :
    Sample.afterOneYear.Room (Ledger.load CONVEY_YEAR Sample.years) ∧
    amountOf Sample.afterOneYear.Minted "Node"
      ≤ amountOf (Sample.afterOneYear.Update CONVEY_YEAR Sample.years).1.Minted "Node" ∧
    "Node" ∈ (Sample.afterOneYear.Update CONVEY_YEAR Sample.years).1.Aliases ∧
    [1] ∈ (Sample.afterOneYear.Update CONVEY_YEAR Sample.years).1.processed CONVEY_YEAR :=
  ⟨by decide,
    ((C31_update_grows Sample.afterOneYear CONVEY_YEAR Sample.years).1 (by decide)).1 "Node",
    (C31_update_grows Sample.afterOneYear CONVEY_YEAR Sample.years).2.1 "Node" (by decide),
    (C31_update_grows Sample.afterOneYear CONVEY_YEAR Sample.years).2.2 CONVEY_YEAR [1]
      (by decide)⟩

/-- C39: take a message chain whose entries decode and whose node map is
closed (every previous-hash names a message of the map) and has no cycle of
previous-pointers.  Then for every reply the walk up its ancestors ends at a
root message after at most as many steps as the map has messages, the loop
`Update` runs for it ends without error on every ledger, and `Update` of the
chain returns no error on every ledger. -/
theorem C39_walks_end (name : String) (chain : bcgo.Chain)
    (hname : HasPrefix name CONVEY_PREFIX_MESSAGE = true)
    (hparse : ∀ entry ∈ entriesOf chain, entry.Record.Payload.asMessage ≠ none)
    (hclosed : Ledger.Closed (messageMaps chain).nodes)
    (hacyclic : Acyclic ((messageMaps chain).nodes.map Prod.fst)
      (Ledger.parent (messageMaps chain).nodes)) :
    (∀ kn ∈ (messageMaps chain).nodes, kn.2.Previous ≠ [] →
      ∃ ancestors, Ancestors (messageMaps chain).nodes kn.2.Previous ancestors ∧
        ancestors.length ≤ (messageMaps chain).nodes.length ∧
        ∀ l : Ledger, (Ledger.reply (messageMaps chain).nodes kn.2.Author
          ((messageMaps chain).nodes.length + 1) kn.2.Cost kn.2.Previous l).2 = Outcome.ok) ∧
    (∀ l : Ledger, (l.Update name chain).2 = Outcome.ok) := by
  have hanc : ∀ kn ∈ (messageMaps chain).nodes, kn.2.Previous ≠ [] →
      ∃ ancestors, Ancestors (messageMaps chain).nodes kn.2.Previous ancestors ∧
        ancestors.length ≤ (messageMaps chain).nodes.length := by
    intro kn hkn hr
    have hc := hclosed kn hkn hr
    obtain ⟨n', hn'⟩ := Option.isSome_iff_exists.mp hc
    have hin : kn.2.Previous ∈ (messageMaps chain).nodes.map Prod.fst :=
      List.mem_map.mpr ⟨(kn.2.Previous, n'), mem_of_mapGet _ _ n' hn', rfl⟩
    exact Ledger.Ancestors_of_acyclic (messageMaps chain).nodes hclosed hacyclic kn.2.Previous
      (messageMaps chain).nodes.length 0 kn.2.Previous
      (by
        intro j hj
        have e : j = 0 := by omega
        rw [e]
        exact ⟨kn.2.Previous, rfl, hin⟩)
      rfl (by omega)
  refine ⟨fun kn hkn hr => ?_, fun l => ?_⟩
  · obtain ⟨ancestors, ha, hlen⟩ := hanc kn hkn hr
    exact ⟨ancestors, ha, hlen, fun l =>
      (Ledger.reply_walk (messageMaps chain).nodes kn.2.Author ancestors
        ((messageMaps chain).nodes.length + 1) kn.2.Cost kn.2.Previous l ha (by omega)).1⟩
  · by_cases h0 : chain = []
    · rw [h0, Ledger.Update_nil]
    · rw [Ledger.Update_message l name chain h0 hname]
      exact Ledger.updateMessages_ok name chain hparse
        (fun kn hkn hr => by
          obtain ⟨ancestors, ha, -⟩ := hanc kn hkn hr
          exact ⟨ancestors, ha⟩) l

/-- C39 witness: the node map of the sample thread is closed and has no
cycle; `Update` of the thread returns no error on a fresh ledger. -/
theorem C39_walks_end_witness :
    Ledger.Closed (messageMaps Sample.thread).nodes ∧
    Acyclic ((messageMaps Sample.thread).nodes.map Prod.fst)
      (Ledger.parent (messageMaps Sample.thread).nodes) ∧
    (NewLedger.Update "Convey-Message-abc" Sample.thread).2 = Outcome.ok :=
  ⟨by decide, by decide,
    (C39_walks_end "Convey-Message-abc" Sample.thread (by decide) (by decide) (by decide)
      (by decide)).2 NewLedger⟩

/-- C40: on a message chain whose entries decode, whose replies have
different hashes and whose previous-pointers among the replies have no cycle,
`BCStore.GetYield` returns, also when the parent of a reply is missing; for
every reply the way up ends, at the root message or at a hash that is no
reply, and the replies on it together with the reply itself are at most as
many as the replies of the chain. -/
theorem C40_yield_returns (s : BCStore) (conversationHash : Hash) (chain : bcgo.Chain)
    (hchannel : mapGet s.Channels (CONVEY_PREFIX_MESSAGE ++ EncodeToString conversationHash)
      = some chain)
    (hparse : ∀ entry ∈ entriesOf chain, entry.Record.Payload.asMessage ≠ none)
    (hnodup : ((replyNodes (entriesOf chain)).map Prod.fst).Nodup)
    (hacyclic : Acyclic ((replyNodes (entriesOf chain)).map Prod.fst)
      (BCStore.parent (replyNodes (entriesOf chain)))) :
    (s.GetYield conversationHash).2 = Outcome.ok ∧
    ∀ reply ∈ replyNodes (entriesOf chain), ∃ nodes last,
      Trail (replyNodes (entriesOf chain))
        ((rootMessages (entriesOf chain)).foldl (fun _ e => e.RecordHash) [])
        reply.2.Previous nodes last ∧
      nodes.length + 1 ≤ (replyNodes (entriesOf chain)).length := by
  have hends := fun reply hmem => Trail_of_reply (replyNodes (entriesOf chain))
    ((rootMessages (entriesOf chain)).foldl (fun _ e => e.RecordHash) []) hnodup hacyclic
    reply hmem
  obtain ⟨shares, -, hyield⟩ := BCStore.GetYield_eq s conversationHash chain hchannel hparse
    hnodup (fun reply hmem => by
      obtain ⟨nodes, last, ht, -⟩ := hends reply hmem
      exact ⟨nodes, last, ht⟩)
  exact ⟨by rw [hyield], hends⟩

/-- C40 witness: `GetYield` returns on the sample thread and on the sample
chain on which the parent of a reply is missing. -/
theorem C40_yield_returns_witness :
    Acyclic ((replyNodes (entriesOf Sample.orphans)).map Prod.fst)
      (BCStore.parent (replyNodes (entriesOf Sample.orphans))) ∧
    mapGet (replyNodes (entriesOf Sample.orphans)) [99] = none ∧
    (Sample.adrift.GetYield [31]).2 = Outcome.ok ∧
    (Sample.store.GetYield [31]).2 = Outcome.ok :=
  ⟨by decide, by decide,
    (C40_yield_returns Sample.adrift [31] Sample.orphans (by decide) (by decide) (by decide)
      (by decide)).1,
    (C40_yield_returns Sample.store [31] Sample.thread (by decide) (by decide) (by decide)
      (by decide)).1⟩

/-- Every reply of the sample chain `early` has a way up to the root message
`[20]`. -/
theorem Sample_early_ends :
    ∀ reply ∈ replyNodes (entriesOf Sample.early), ∃ trail,
      Trail (replyNodes (entriesOf Sample.early)) [20] reply.2.Previous trail [20] := by
  intro reply hmem
  have hr : replyNodes (entriesOf Sample.early)
      = [([22], { Previous := [21], Cost := 6, Reward := 0 }),
         ([21], { Previous := [20], Cost := 4, Reward := 0 })] := by decide
  rw [hr] at hmem ⊢
  simp only [List.mem_cons, List.mem_singleton, List.not_mem_nil, or_false] at hmem
  rcases hmem with rfl | rfl
  · exact ⟨[{ Previous := [20], Cost := 4, Reward := 0 }], by decide⟩
  · exact ⟨[], by decide⟩

/-- C37: on a message chain whose records decode and have different hashes,
with exactly one root message, every reply having a way up to that root, and
the author of the root having written no other message on the chain, `Update`
of the chain on a fresh ledger ends without error and `BCStore.GetYield`
returns without error the pair of what that ledger has in `Burned` and in
`Earned` for the author of the root. -/
theorem C37_yield_agrees_with_ledger (s : BCStore) (conversationHash : Hash) (name : String)
    (chain : bcgo.Chain) (root : bcgo.BlockEntry)
    (hchannel : mapGet s.Channels (CONVEY_PREFIX_MESSAGE ++ EncodeToString conversationHash)
      = some chain)
    (hname : HasPrefix name CONVEY_PREFIX_MESSAGE = true)
    (hparse : ∀ entry ∈ entriesOf chain, entry.Record.Payload.asMessage ≠ none)
    (hdistinct : ((entriesOf chain).map fun e => e.RecordHash).Nodup)
    (hroot : rootMessages (entriesOf chain) = [root])
    (hends : ∀ reply ∈ replyNodes (entriesOf chain), ∃ trail,
      Trail (replyNodes (entriesOf chain)) root.RecordHash reply.2.Previous trail
        root.RecordHash)
    (hothers : ∀ e ∈ entriesOf chain, e.Record.Creator = root.Record.Creator → e = root) :
    (NewLedger.Update name chain).2 = Outcome.ok ∧
    s.GetYield conversationHash
      = ((amountOf (NewLedger.Update name chain).1.Burned root.Record.Creator,
          amountOf (NewLedger.Update name chain).1.Earned root.Record.Creator),
         Outcome.ok) := by
  obtain ⟨h1, h2, h3⟩ := Ledger.Update_root_author name chain root hname hparse hdistinct hroot
    hends hothers
  refine ⟨h1, ?_⟩
  rw [h2, h3]
  exact BCStore.GetYield_sum s conversationHash chain root hchannel hparse hdistinct hroot hends

/-- C37 witness: the sample chain `early` under Alice's conversation.  The
root message costs 3; Bob's reply of cost 4 gives Alice 2 and Charlie's of
cost 6, a reply to Bob, gives her 1. -/
theorem C37_yield_agrees_with_ledger_witness :
    Sample.young.GetYield [31] = ((3, 3), Outcome.ok) ∧
    amountOf (NewLedger.Update (CONVEY_PREFIX_MESSAGE ++ EncodeToString [31])
      Sample.early).1.Burned "Alice" = 3 ∧
    amountOf (NewLedger.Update (CONVEY_PREFIX_MESSAGE ++ EncodeToString [31])
      Sample.early).1.Earned "Alice" = 3 := by
  have h := C37_yield_agrees_with_ledger Sample.young [31]
    (CONVEY_PREFIX_MESSAGE ++ EncodeToString [31]) Sample.early
    { RecordHash := [20], Record := Sample.post "Alice" [] 250 }
    (by decide) (HasPrefix_append _ _) (by decide) (by decide) (by decide) Sample_early_ends
    (by decide)
  have hy : Sample.young.GetYield [31] = ((3, 3), Outcome.ok) := by decide
  rw [hy] at h
  simp only [Prod.mk.injEq, and_true] at h
  exact ⟨rfl, h.2.1.symm, h.2.2.symm⟩

/-- C35: take a chain whose blocks have different hashes (and, on a message
chain, whose records have different hashes), the chain `older` at a head and
the chain `newer ++ older` at a later head.  When a fresh ledger runs `Update`
on the older chain and then on the grown chain, both without error, then
`Update` of the grown chain on a fresh ledger ends without error too, and the
two ledgers agree: the same aliases are in `Aliases`, and every accumulator
has the same keys with the same values.  This holds for every channel name,
the message chains with replies in newer blocks to messages in older blocks
included. -/
theorem C35_update_in_two_steps (name : String) (older newer : bcgo.Chain)
    (hblocks : ((newer ++ older).map Prod.fst).Nodup)
    (hrecords : HasPrefix name CONVEY_PREFIX_MESSAGE = true →
      ((entriesOf (newer ++ older)).map fun e => e.RecordHash).Nodup)
    (hfirst : (NewLedger.Update name older).2 = Outcome.ok)
    (hsecond : ((NewLedger.Update name older).1.Update name (newer ++ older)).2 = Outcome.ok) :
    (NewLedger.Update name (newer ++ older)).2 = Outcome.ok ∧
    ∀ a,
      (a ∈ ((NewLedger.Update name older).1.Update name (newer ++ older)).1.Aliases ↔
        a ∈ (NewLedger.Update name (newer ++ older)).1.Aliases) ∧
      mapGet ((NewLedger.Update name older).1.Update name (newer ++ older)).1.Minted a
        = mapGet (NewLedger.Update name (newer ++ older)).1.Minted a ∧
      mapGet ((NewLedger.Update name older).1.Update name (newer ++ older)).1.Burned a
        = mapGet (NewLedger.Update name (newer ++ older)).1.Burned a ∧
      mapGet ((NewLedger.Update name older).1.Update name (newer ++ older)).1.Bought a
        = mapGet (NewLedger.Update name (newer ++ older)).1.Bought a ∧
      mapGet ((NewLedger.Update name older).1.Update name (newer ++ older)).1.Sold a
        = mapGet (NewLedger.Update name (newer ++ older)).1.Sold a ∧
      mapGet ((NewLedger.Update name older).1.Update name (newer ++ older)).1.Earned a
        = mapGet (NewLedger.Update name (newer ++ older)).1.Earned a ∧
      mapGet ((NewLedger.Update name older).1.Update name (newer ++ older)).1.Spent a
        = mapGet (NewLedger.Update name (newer ++ older)).1.Spent a := by
  obtain ⟨hok, x, j1, j2⟩ := Ledger.Update_twice name older newer hblocks hrecords hfirst hsecond
  have u1 : Uint64 (NewLedger.Update name older).1 :=
    Ledger.Update_keeps Uint64 Uint64_stable _ _ _ Uint64_NewLedger
  exact ⟨hok, Ledger.Joins_same _ _ _ _ j1 j2
    (Ledger.Update_keeps Uint64 Uint64_stable _ _ _ u1)
    (Ledger.Update_keeps Uint64 Uint64_stable _ _ _ Uint64_NewLedger)⟩

/-- C35 witness: the sample thread.  A ledger that has seen the two older
blocks (Alice's root message, Bob's reply and Charlie's reply to Bob) and then
the whole thread, with Alice's reply to Charlie in the newest block, holds
what a fresh ledger holds after the whole thread: Bob has earned 5, Charlie
has earned 4, and Alice has burned 4. -/
theorem C35_update_in_two_steps_witness :
    mapGet ((NewLedger.Update (CONVEY_PREFIX_MESSAGE ++ EncodeToString [31]) Sample.early).1.Update
      (CONVEY_PREFIX_MESSAGE ++ EncodeToString [31])
      (Sample.thread.take 1 ++ Sample.early)).1.Earned "Bob" = some 5 ∧
    mapGet ((NewLedger.Update (CONVEY_PREFIX_MESSAGE ++ EncodeToString [31]) Sample.early).1.Update
      (CONVEY_PREFIX_MESSAGE ++ EncodeToString [31])
      (Sample.thread.take 1 ++ Sample.early)).1.Earned "Charlie" = some 4 ∧
    mapGet ((NewLedger.Update (CONVEY_PREFIX_MESSAGE ++ EncodeToString [31]) Sample.early).1.Update
      (CONVEY_PREFIX_MESSAGE ++ EncodeToString [31])
      (Sample.thread.take 1 ++ Sample.early)).1.Burned "Alice" = some 4 := by
  have h := (C35_update_in_two_steps (CONVEY_PREFIX_MESSAGE ++ EncodeToString [31])
    Sample.early (Sample.thread.take 1) (by decide) (fun _ => by decide) (by decide)
    (by decide)).2
  have hBob : mapGet (NewLedger.Update (CONVEY_PREFIX_MESSAGE ++ EncodeToString [31])
      (Sample.thread.take 1 ++ Sample.early)).1.Earned "Bob" = some 5 := by decide
  have hCharlie : mapGet (NewLedger.Update (CONVEY_PREFIX_MESSAGE ++ EncodeToString [31])
      (Sample.thread.take 1 ++ Sample.early)).1.Earned "Charlie" = some 4 := by decide
  have hAlice : mapGet (NewLedger.Update (CONVEY_PREFIX_MESSAGE ++ EncodeToString [31])
      (Sample.thread.take 1 ++ Sample.early)).1.Burned "Alice" = some 4 := by decide
  exact ⟨(h "Bob").2.2.2.2.2.1.trans hBob, (h "Charlie").2.2.2.2.2.1.trans hCharlie,
    (h "Alice").2.2.1.trans hAlice⟩

end conveygo
